import Mathlib

/-!
# IsoSpec: the generators, the tabulator and the formula parser

A shallow embedding of `IsoSpec++/isoSpec++.cpp` and `IsoSpec++/tabulator.cpp`, with the
properties of the threshold, ordered and layered enumeration, of the trimming step of the
tabulator and of the formula parser. Floating-point values are taken in an ordered
commutative ring `α` (exact arithmetic); negative infinity is the bottom of `WithBot α`.
-/

set_option autoImplicit false
set_option linter.unusedSectionVars false
set_option linter.unusedVariables false

namespace IsoSpec

/-! ## Marginals and the molecule descriptor -/

/-- Modelled from the spec: one entry of a marginal's ordered list (the classes of
marginalTrek++.h are not among the sources): the log-probability, mass and probability of
one configuration of a single element, and its isotope-count segment. -/
structure MarginalConf (α : Type) where
  lprob : α
  mass : α
  prob : α
  conf : List Nat
deriving DecidableEq, Repr

/-- Modelled from the spec: the Marginal class (marginalTrek++.h is not among the sources):
the distribution of one element, given as the list of all its configurations "in order of
decreasing probability", with the element's mode log-probability. -/
structure Marginal (α : Type) where
  isotopeNo : Nat
  atomCnt : Nat
  confs : List (MarginalConf α)
  mode_lprob : α
deriving DecidableEq, Repr

/-- Modelled from the spec: Marginal::getModeLProb. -/
def Marginal.getModeLProb {α : Type} (m : Marginal α) : α := m.mode_lprob

/-- Modelled from the spec: the contract of a marginal: its configurations are listed in
non-increasing log-probability order and the first of them is the mode. -/
def Marginal.WF {α : Type} [LinearOrder α] (m : Marginal α) : Prop :=
  m.confs.Pairwise (fun a b => b.lprob ≤ a.lprob) ∧
    (m.confs.head?).map MarginalConf.lprob = some m.mode_lprob

/-- Modelled from the spec: a marginal's table is never empty, as it holds the mode. -/
def Marginal.probe {α : Type} (m : Marginal α) (i : Nat) : Bool := decide (i < m.confs.length)

/-- The fields of class Iso (isoSpec++.cpp, constructors at lines 51-113). -/
structure Iso (α : Type) where
  disowned : Bool
  dimNumber : Nat
  isotopeNumbers : List Nat
  atomCounts : List Nat
  confSize : Nat
  allDim : Nat
  marginals : List (Marginal α)
  modeLProb : α

/-- The descriptor holds one well-formed marginal per element. -/
def Iso.MarginalsWF {α : Type} [LinearOrder α] (iso : Iso α) : Prop :=
  iso.marginals.length = iso.dimNumber ∧ ∀ m ∈ iso.marginals, m.WF

/-- Modelled from the spec: PrecalculatedMarginal (marginalTrek++.h is not among the
sources): the configurations of one element at or above a cutoff, "kept in
probability-decreasing order". -/
structure PrecalculatedMarginal (α : Type) where
  confs : List (MarginalConf α)
  mode_lprob : α
deriving DecidableEq, Repr

instance {α : Type} [Zero α] : Inhabited (PrecalculatedMarginal α) := ⟨⟨[], 0⟩⟩

/-- Modelled from the spec: the PrecalculatedMarginal constructor: "precompute exactly the
configurations above a derived cutoff", in the marginal's order. -/
def PrecalculatedMarginal.ofMarginal {α : Type} [LinearOrder α] (m : Marginal α) (lCutOff : α) :
    PrecalculatedMarginal α :=
  { confs := m.confs.filter (fun c => decide (lCutOff ≤ c.lprob)), mode_lprob := m.mode_lprob }

def PrecalculatedMarginal.getModeLProb {α : Type} (m : PrecalculatedMarginal α) : α :=
  m.mode_lprob

def PrecalculatedMarginal.get_no_confs {α : Type} (m : PrecalculatedMarginal α) : Nat :=
  m.confs.length

/-- Modelled from the spec: "probe index i": is `i` a valid index of the list. -/
def PrecalculatedMarginal.inRange {α : Type} (m : PrecalculatedMarginal α) (i : Int) : Bool :=
  decide (0 ≤ i) && decide (i.toNat < m.confs.length)

/-- Modelled from the spec: the log-probability of entry `i`; past the list it is negative
infinity (`⊥`). -/
def PrecalculatedMarginal.get_lProb {α : Type} (m : PrecalculatedMarginal α) (i : Int) :
    WithBot α :=
  if 0 ≤ i then
    match m.confs.get? i.toNat with
    | some c => (c.lprob : WithBot α)
    | none => ⊥
  else ⊥

def PrecalculatedMarginal.get_mass {α : Type} [Zero α] (m : PrecalculatedMarginal α) (i : Int) :
    α :=
  match m.confs.get? i.toNat with
  | some c => c.mass
  | none => 0

def PrecalculatedMarginal.get_prob {α : Type} [Zero α] (m : PrecalculatedMarginal α) (i : Int) :
    α :=
  match m.confs.get? i.toNat with
  | some c => c.prob
  | none => 0

def PrecalculatedMarginal.get_conf {α : Type} (m : PrecalculatedMarginal α) (i : Int) :
    List Nat :=
  match m.confs.get? i.toNat with
  | some c => c.conf
  | none => []

/-! ## IsoThresholdGenerator -/

/-- The state of an IsoThresholdGenerator (isoSpec++.cpp:368-483). Pointers into
marginal 0's log-probability table are offsets from `lProbs_ptr_start`; `lcfmsv` is `none`
where the sources leave it unassigned. -/
@[ext]
structure IsoThresholdGenerator (α : Type) where
  dimNumber : Nat
  allDim : Nat
  modeLProb : α
  Lcutoff : α
  empty : Bool
  marginalResultsUnsorted : List (PrecalculatedMarginal α)
  marginalResults : List (PrecalculatedMarginal α)
  marginalOrder : Option (List Nat)
  maxConfsLPSum : List α
  counter : List Int
  partialLProbs : List (WithBot α)
  partialMasses : List α
  partialProbs : List α
  lProbs_ptr : Int
  lcfmsv : Option (WithTop α)

namespace IsoThresholdGenerator

variable {α : Type} [LinearOrderedCommRing α]

/-- IsoThresholdGenerator::terminate_search (isoSpec++.cpp:447-456). -/
def terminate_search (g : IsoThresholdGenerator α) : IsoThresholdGenerator α :=
  { g with
    counter := (List.range g.dimNumber).map
      (fun ii => ((g.marginalResults.getD ii default).get_no_confs : Int) - 1)
    partialLProbs := List.replicate (g.dimNumber + 1) ⊥
    lProbs_ptr := ((g.marginalResults.getD 0 default).get_no_confs : Int) - 1 }

/-- Modelled from the spec: one step of recalc (isoSpec++.h is not among the sources):
`partialX[k]` is `partialX[k+1]` combined with marginal `k`'s entry at `counter[k]`. -/
def recalcStep (g : IsoThresholdGenerator α) (k : Nat) : IsoThresholdGenerator α :=
  let m := g.marginalResults.getD k default
  let c := g.counter.getD k 0
  { g with
    partialLProbs := g.partialLProbs.set k (g.partialLProbs.getD (k + 1) ⊥ + m.get_lProb c)
    partialMasses := g.partialMasses.set k (g.partialMasses.getD (k + 1) 0 + m.get_mass c)
    partialProbs := g.partialProbs.set k (g.partialProbs.getD (k + 1) 0 * m.get_prob c) }

/-- Modelled from the spec: recalc(idx) (isoSpec++.h is not among the sources): recompute
the partial sums of the entries `idx, idx-1, ..., 0`, each from the entry above it. -/
def recalc (g : IsoThresholdGenerator α) : Nat → IsoThresholdGenerator α
  | 0 => recalcStep g 0
  | k + 1 => recalc (recalcStep g (k + 1)) k

/-- The maxConfsLPSum table of the constructor (isoSpec++.cpp:420-424):
`maxConfsLPSum[k]` is the sum of the mode log-probabilities of marginals `0..k`, for
`k < dimNumber - 1`. -/
def mkMaxConfsLPSum (ms : List (PrecalculatedMarginal α)) : List α :=
  (List.range (ms.length - 1)).map
    (fun k => ((List.range (k + 1)).map (fun i => (ms.getD i default).getModeLProb)).sum)

/-- The inverse-permutation loop `marginalOrder[tmpMarginalOrder[ii]] = ii`
(isoSpec++.cpp:405-407). -/
def mkMarginalOrder (tmpMarginalOrder : List Nat) (dimNumber : Nat) : List Nat :=
  (List.range dimNumber).foldl
    (fun mo ii => mo.set (tmpMarginalOrder.getD ii 0) ii) (List.replicate dimNumber 0)

/-- The initialiser of `Lcutoff` (isoSpec++.cpp:370); `log` and `lowest` stand for `log`
and `numeric_limits<double>::lowest()`. -/
def mkLcutoff (log : α → α) (lowest : α) (modeLProb _threshold : α) (_absolute : Bool) : α :=
  if _threshold ≤ 0 then lowest
  else if _absolute then log _threshold else log _threshold + modeLProb

/-- The marginals the constructor precalculates (isoSpec++.cpp:378-389): marginal `ii` is
cut at `Lcutoff - modeLProb + marginals[ii]->getModeLProb()`. -/
def mkUnsorted (iso : Iso α) (Lcutoff : α) : List (PrecalculatedMarginal α) :=
  (List.range iso.dimNumber).map (fun ii =>
    PrecalculatedMarginal.ofMarginal (iso.marginals.getD ii ⟨0, 0, [], 0⟩)
      (Lcutoff - iso.modeLProb + (iso.marginals.getD ii ⟨0, 0, [], 0⟩).getModeLProb))

/-- The state the constructor has built at isoSpec++.cpp:429, before the first descent.
`sortOrder` is the result of `std::sort` on the identity index array with the comparator of
operators.h (not among the sources). Entries the constructor leaves uninitialised are 0
(negative infinity for a log-probability). -/
def constructBase (log : α → α) (lowest : α)
    (sortOrder : List (PrecalculatedMarginal α) → List Nat)
    (iso : Iso α) (_threshold : α) (_absolute : Bool) (reorder_marginals : Bool) :
    IsoThresholdGenerator α :=
  let dimNumber := iso.dimNumber
  let Lcutoff : α := mkLcutoff log lowest iso.modeLProb _threshold _absolute
  let marginalResultsUnsorted := mkUnsorted iso Lcutoff
  let empty : Bool := marginalResultsUnsorted.any (fun m => !m.inRange 0)
  let tmpMarginalOrder := sortOrder marginalResultsUnsorted
  let reorder : Bool := reorder_marginals && decide (1 < dimNumber)
  let marginalResults : List (PrecalculatedMarginal α) :=
    if reorder then
      (List.range dimNumber).map
        (fun ii => marginalResultsUnsorted.getD (tmpMarginalOrder.getD ii 0) default)
    else marginalResultsUnsorted
  let marginalOrder : Option (List Nat) :=
    if reorder then some (mkMarginalOrder tmpMarginalOrder dimNumber) else none
  { dimNumber := dimNumber
    allDim := iso.allDim
    modeLProb := iso.modeLProb
    Lcutoff := Lcutoff
    empty := empty
    marginalResultsUnsorted := marginalResultsUnsorted
    marginalResults := marginalResults
    marginalOrder := marginalOrder
    maxConfsLPSum := mkMaxConfsLPSum marginalResults
    counter := List.replicate dimNumber 0
    partialLProbs := List.replicate dimNumber ⊥ ++ [((0 : α) : WithBot α)]
    partialMasses := List.replicate dimNumber 0 ++ [0]
    partialProbs := List.replicate dimNumber 0 ++ [1]
    lProbs_ptr := 0
    lcfmsv := none }

/-- The statements `counter[0]--; lProbs_ptr--;` (isoSpec++.cpp:434-435). -/
def decrFirst (g : IsoThresholdGenerator α) : IsoThresholdGenerator α :=
  { g with counter := g.counter.set 0 (g.counter.getD 0 0 - 1), lProbs_ptr := g.lProbs_ptr - 1 }

/-- The constructor IsoThresholdGenerator::IsoThresholdGenerator (isoSpec++.cpp:368-445).
A molecule without elements makes `new double[dimNumber-1]` throw, which is `none`. -/
def construct (log : α → α) (lowest : α) (sortOrder : List (PrecalculatedMarginal α) → List Nat)
    (iso : Iso α) (_threshold : α) (_absolute : Bool) (reorder_marginals : Bool) :
    Option (IsoThresholdGenerator α) :=
  if iso.dimNumber = 0 then none
  else
    let g0 := constructBase log lowest sortOrder iso _threshold _absolute reorder_marginals
    if !g0.empty then
      some (decrFirst (recalc g0 (g0.dimNumber - 1)))
    else
      some { terminate_search g0 with lcfmsv := some ⊤ }

/-- IsoThresholdGenerator::reset (isoSpec++.cpp:468-483). -/
def reset (g : IsoThresholdGenerator α) : IsoThresholdGenerator α :=
  if g.empty then terminate_search g
  else
    let g1 : IsoThresholdGenerator α :=
      { g with partialLProbs := g.partialLProbs.set g.dimNumber ((0 : α) : WithBot α)
               counter := List.replicate g.dimNumber 0 }
    let g2 := recalc g1 (g.dimNumber - 1)
    { g2 with counter := g2.counter.set 0 (g2.counter.getD 0 0 - 1)
              lProbs_ptr := -1 }

/-- Modelled from the spec: the counters after a carry out of element `idx`: "reset that
element's index to 0 and carry the increment to the next more-significant element". -/
def carryStep (g : IsoThresholdGenerator α) (idx : Nat) : IsoThresholdGenerator α :=
  { g with counter := (g.counter.set idx 0).set (idx + 1) (g.counter.getD (idx + 1) 0 + 1) }

/-- Modelled from the spec: the carry of advance (isoSpec++.h is not among the sources):
"reset that element's index to 0 and carry the increment to the next more-significant
element, recomputing prefix sums across the whole carried span; if the carry propagates
past the most significant element, the search is exhausted". The increment of element
`idx+1` fails when it is "out of entries or would fall below cutoff given remaining
elements' best case" (`maxConfsLPSum`). The first argument counts the elements left above
`idx`. -/
def carry (g : IsoThresholdGenerator α) : Nat → Nat → Bool × IsoThresholdGenerator α
  | 0, _ => (false, terminate_search g)
  | left + 1, idx =>
    let c := g.counter.getD (idx + 1) 0 + 1
    let m := g.marginalResults.getD (idx + 1) default
    let lp := g.partialLProbs.getD (idx + 2) ⊥ + m.get_lProb c
    if m.inRange c ∧ (g.Lcutoff : WithBot α) ≤ lp + ((g.maxConfsLPSum.getD idx 0 : α) : WithBot α)
    then (true, recalc (carryStep g idx) (idx + 1))
    else carry (carryStep g idx) left (idx + 1)

/-- Modelled from the spec: the cursor after the increment of "the least-significant
element's index": the scan pointer and `counter[0]` move on by one. -/
def incrFirst (g : IsoThresholdGenerator α) : IsoThresholdGenerator α :=
  { g with lProbs_ptr := g.lProbs_ptr + 1, counter := g.counter.set 0 (g.lProbs_ptr + 1) }

/-- Modelled from the spec: IsoThresholdGenerator::advanceToNextConfiguration (isoSpec++.h
is not among the sources): "attempt to increment the least-significant element's index. If
the resulting partial sum stays ≥ cutoff and the element still has an entry at that index,
accept it and recompute only the changed" entries; otherwise carry. Element 0, the one the
scan pointer `lProbs_ptr` runs over, is the least significant. -/
def advanceToNextConfiguration (g : IsoThresholdGenerator α) :
    Bool × IsoThresholdGenerator α :=
  let ptr := g.lProbs_ptr + 1
  let m := g.marginalResults.getD 0 default
  let lp := g.partialLProbs.getD 1 ⊥ + m.get_lProb ptr
  if m.inRange ptr ∧ (g.Lcutoff : WithBot α) ≤ lp then
    (true, recalcStep (incrFirst g) 0)
  else
    carry { g with lProbs_ptr := 0 } (g.dimNumber - 1) 0

/-- Modelled from the spec: the accessor lprob(): "partialLProbs[0] equals the joint
log-probability of the full current configuration". -/
def lprob (g : IsoThresholdGenerator α) : WithBot α := g.partialLProbs.getD 0 ⊥

/-- Modelled from the spec: the accessor mass(). -/
def mass (g : IsoThresholdGenerator α) : α := g.partialMasses.getD 0 0

/-- Modelled from the spec: the accessor prob(). -/
def prob (g : IsoThresholdGenerator α) : α := g.partialProbs.getD 0 0

/-- Modelled from the spec: get_conf_signature (isoSpec++.h is not among the sources):
the per-element configuration segments "in the caller's original element order", element
`ii` being read from the marginal at position `marginalOrder[ii]`. -/
def get_conf_signature (g : IsoThresholdGenerator α) : List (List Nat) :=
  (List.range g.dimNumber).map (fun ii =>
    let k := match g.marginalOrder with
      | some mo => mo.getD ii 0
      | none => ii
    (g.marginalResults.getD k default).get_conf (g.counter.getD k 0))

/-- The log-probability of the entry of marginal `k` the counter points at. -/
def lpAt (g : IsoThresholdGenerator α) (k : Nat) : WithBot α :=
  (g.marginalResults.getD k default).get_lProb (g.counter.getD k 0)

/-- The joint log-probability of the configuration the counters point at. -/
def jointLProb (g : IsoThresholdGenerator α) : WithBot α :=
  ((List.range g.dimNumber).map (lpAt g)).sum

/-- The combined log-probability of the elements `k, ..., dimNumber-1` at the counters. -/
def suffixLP (g : IsoThresholdGenerator α) (k : Nat) : WithBot α :=
  ∑ i in Finset.Ico k g.dimNumber, lpAt g i

/-- The part of the state that is fixed at construction: there is an element, every
position has its marginal, and unless the generator is empty every marginal has a first
entry, at least as probable as the mode. -/
structure Static (g : IsoThresholdGenerator α) : Prop where
  dim_pos : 0 < g.dimNumber
  len_m : g.marginalResults.length = g.dimNumber
  maxc : g.maxConfsLPSum = mkMaxConfsLPSum g.marginalResults
  heads : g.empty = false → ∀ m ∈ g.marginalResults,
    ∃ c rest, m.confs = c :: rest ∧ m.mode_lprob ≤ c.lprob

/-- The static fields: everything but the counters, the partial sums and the scan
pointer. -/
def SameStatic (g g1 : IsoThresholdGenerator α) : Prop :=
  g1.dimNumber = g.dimNumber ∧ g1.allDim = g.allDim ∧ g1.modeLProb = g.modeLProb ∧
  g1.Lcutoff = g.Lcutoff ∧ g1.empty = g.empty ∧
  g1.marginalResultsUnsorted = g.marginalResultsUnsorted ∧
  g1.marginalResults = g.marginalResults ∧ g1.marginalOrder = g.marginalOrder ∧
  g1.maxConfsLPSum = g.maxConfsLPSum ∧ g1.lcfmsv = g.lcfmsv

/-- The terminated cursor: every partial log-probability is negative infinity. -/
def Dead (g : IsoThresholdGenerator α) : Prop :=
  ∀ k, g.partialLProbs.getD k ⊥ = ⊥

/-- The live cursor: the partial log-probabilities above entry 0 are the sums of the
entries the counters point at. -/
structure Live (g : IsoThresholdGenerator α) : Prop where
  nonempty : g.empty = false
  len_c : g.counter.length = g.dimNumber
  len_p : g.partialLProbs.length = g.dimNumber + 1
  sums : ∀ k, 1 ≤ k → k ≤ g.dimNumber → g.partialLProbs.getD k ⊥ = suffixLP g k

/-- The loop of IsoThresholdGenerator::count_confs (isoSpec++.cpp:458-466) with a bound
on the number of iterations: `none` when the bound is reached before advance fails. -/
def count_confs_loop : Nat → IsoThresholdGenerator α → Nat → Option (Nat × IsoThresholdGenerator α)
  | 0, _, _ => none
  | fuel + 1, g, ret =>
    match advanceToNextConfiguration g with
    | (true, g1) => count_confs_loop fuel g1 (ret + 1)
    | (false, g1) => some (ret, reset g1)

/-- IsoThresholdGenerator::count_confs (isoSpec++.cpp:458-466). -/
def count_confs (fuel : Nat) (g : IsoThresholdGenerator α) :
    Option (Nat × IsoThresholdGenerator α) :=
  count_confs_loop fuel g 0

/-- What a caller observes of an accepted configuration: the counters and the reported
log-probability, mass, probability and configuration. -/
structure Emitted (α : Type) where
  counter : List Int
  lprob : WithBot α
  mass : α
  prob : α
  conf : List (List Nat)

/-- The enumeration loop `while(advanceToNextConfiguration()) ...` of the tests and the
tabulator, collecting what is observed; `none` when the bound is reached first. -/
def enumerate : Nat → IsoThresholdGenerator α → Option (List (Emitted α))
  | 0, _ => none
  | fuel + 1, g =>
    match advanceToNextConfiguration g with
    | (true, g1) =>
      (enumerate fuel g1).map
        (fun l => ⟨g1.counter, lprob g1, mass g1, prob g1, get_conf_signature g1⟩ :: l)
    | (false, _) => some []

/-- The value of a list of counters read as a mixed-radix number, element 0 least
significant, the digit of an element of table size `n` running over `0..n`. -/
def rankC : List Int → List Int → Int
  | c :: cs, n :: ns => c + (n + 1) * rankC cs ns
  | _, _ => 0

/-- The table sizes of the marginals. -/
def sizes (g : IsoThresholdGenerator α) : List Int :=
  g.marginalResults.map (fun m => (m.get_no_confs : Int))

/-- The position of the cursor in the enumeration order. -/
def rank (g : IsoThresholdGenerator α) : Int := rankC g.counter (sizes g)

/-- The counters of a live cursor: `counter[0]` follows the scan pointer, which is at least
one before the table, and every counter is an index of its marginal's table. -/
structure Bounded (g : IsoThresholdGenerator α) : Prop where
  sync : g.counter.getD 0 0 = g.lProbs_ptr
  lo0 : -1 ≤ g.counter.getD 0 0
  lo : ∀ i, 1 ≤ i → i < g.dimNumber → 0 ≤ g.counter.getD i 0
  hi : ∀ i, i < g.dimNumber → g.counter.getD i 0 < (sizes g).getD i 0

/-- The partial tables have `dimNumber + 1` entries, the last of which is the identity of
the fold. -/
structure Frame (g : IsoThresholdGenerator α) : Prop where
  len_l : g.partialLProbs.length = g.dimNumber + 1
  len_m : g.partialMasses.length = g.dimNumber + 1
  len_p : g.partialProbs.length = g.dimNumber + 1
  last_m : g.partialMasses.getD g.dimNumber 0 = 0
  last_p : g.partialProbs.getD g.dimNumber 0 = 1

/-- A reachable state: the fixed part is well formed, the partial tables are framed, and
the cursor is terminated or live with counters inside the tables. -/
structure Good (g : IsoThresholdGenerator α) : Prop where
  static : Static g
  frame : Frame g
  cursor : Dead g ∨ (Live g ∧ Bounded g)

/-- The cursor invariant: the fixed part is well formed and the cursor is live or
terminated. -/
def Inv (g : IsoThresholdGenerator α) : Prop := Static g ∧ (Dead g ∨ Live g)

/-- The state after `n` calls of advanceToNextConfiguration, whatever they return. -/
def advanceN (n : Nat) (g : IsoThresholdGenerator α) : IsoThresholdGenerator α :=
  (fun s => (advanceToNextConfiguration s).2)^[n] g

/-- The bound on the number of iterations used for a generator: one more than the size of
the product of the marginals' tables, each extended by one. -/
def fuelBound (g : IsoThresholdGenerator α) : Nat :=
  (g.marginalResults.map (fun m => m.get_no_confs + 1)).prod + 1

end IsoThresholdGenerator

namespace IsoThresholdGenerator

variable {α : Type} [LinearOrderedCommRing α]

/-- Two tables of the same length agree from index `k` on. -/
def AgreeFrom {β : Type} (k : Nat) (l l1 : List β) : Prop :=
  l.length = l1.length ∧ ∀ i, k ≤ i → l[i]? = l1[i]?

/-- The state the enumeration loop ends in: the one after the first failing call of
advance (or after `fuel` calls). -/
def finalState : Nat → IsoThresholdGenerator α → IsoThresholdGenerator α
  | 0, g => g
  | fuel + 1, g =>
    match advanceToNextConfiguration g with
    | (true, g1) => finalState fuel g1
    | (false, g1) => g1

end IsoThresholdGenerator

/-! ## A small molecule over the integers, used to run the definitions -/

/-- A marginal with three entries, at the log-probability levels -2, -17 and -46. -/
def sampleMarginalA : Marginal Int :=
  ⟨2, 2, [⟨-2, 2, 81, [2, 0]⟩, ⟨-17, 3, 18, [1, 1]⟩, ⟨-46, 4, 1, [0, 2]⟩], -2⟩

/-- A marginal with two entries, at the log-probability levels -2 and -16. -/
def sampleMarginalB : Marginal Int :=
  ⟨2, 1, [⟨-2, 10, 8, [1, 0]⟩, ⟨-16, 11, 2, [0, 1]⟩], -2⟩

/-- The descriptor of the molecule of the two sample marginals. -/
def sampleIso : Iso Int := ⟨false, 2, [2, 2], [2, 1], 8, 4, [sampleMarginalA, sampleMarginalB], -4⟩

/-- The sorting of the marginals that leaves them in place. -/
def idOrder {α : Type} (l : List (PrecalculatedMarginal α)) : List Nat := List.range l.length

/-! ## The multinomial marginal and the construction of a molecule from arrays -/

/-- Modelled from the spec: the number of arrangements of a configuration segment, the
coefficient of "per-element multinomial distributions". -/
def multinomialCoeff (counts : List Nat) : Nat :=
  counts.sum.factorial / (counts.map Nat.factorial).prod

/-- Modelled from the spec: the entry of a multinomial marginal for the isotope counts
`counts`: its probability is the coefficient times the product of the isotope probabilities
raised to the counts, its log-probability the logarithm of that, its mass the sum of the
isotope masses weighted by the counts. -/
def Marginal.entry {α : Type} [CommRing α] (log : α → α) (masses probs : List α)
    (counts : List Nat) : MarginalConf α :=
  { lprob := log ((multinomialCoeff counts : α) * (List.zipWith (fun p c => p ^ c) probs counts).prod)
    mass := (List.zipWith (fun m c => (c : α) * m) masses counts).sum
    prob := (multinomialCoeff counts : α) * (List.zipWith (fun p c => p ^ c) probs counts).prod
    conf := counts }

/-- Modelled from the spec: the configuration segments of an element: the vectors of `k`
isotope counts that sum to the atom count `n`. -/
def compositions : Nat → Nat → List (List Nat)
  | 0, 0 => [[]]
  | 0, _ + 1 => []
  | k + 1, n => (List.range (n + 1)).reverse.flatMap (fun c => (compositions k (n - c)).map (c :: ·))

/-- Modelled from the spec: the Marginal constructor (marginalTrek++.cpp is not among the
sources): the multinomial distribution of an element, its configurations listed "in order
of decreasing probability", the first being the mode. -/
def Marginal.ofElement {α : Type} [LinearOrderedCommRing α] (log : α → α) (masses probs : List α)
    (isotopeNo atomCnt : Nat) : Marginal α :=
  { isotopeNo := isotopeNo
    atomCnt := atomCnt
    confs := ((compositions isotopeNo atomCnt).map (Marginal.entry log masses probs)).insertionSort
      (fun a b => b.lprob ≤ a.lprob)
    mode_lprob :=
      match ((compositions isotopeNo atomCnt).map (Marginal.entry log masses probs)).insertionSort
          (fun a b => b.lprob ≤ a.lprob) with
      | c :: _ => c.lprob
      | [] => 0 }

/-- Iso::setupMarginals (isoSpec++.cpp:116-151) on a descriptor whose marginals are still
null; `mkMarginal` stands for the Marginal constructor. The path of a failed allocation is
left out. -/
def Iso.setupMarginals {α : Type} [Add α]
    (mkMarginal : List α → List α → Nat → Nat → Marginal α) (iso : Iso α)
    (_isotopeMasses _isotopeProbabilities : List (List α)) : Iso α :=
  (List.range iso.dimNumber).foldl (fun s ii =>
    { s with
      allDim := s.allDim + s.isotopeNumbers.getD ii 0
      marginals := s.marginals ++ [mkMarginal (_isotopeMasses.getD ii []) (_isotopeProbabilities.getD ii [])
        (s.isotopeNumbers.getD ii 0) (s.atomCounts.getD ii 0)]
      modeLProb := s.modeLProb + (mkMarginal (_isotopeMasses.getD ii [])
        (_isotopeProbabilities.getD ii []) (s.isotopeNumbers.getD ii 0)
        (s.atomCounts.getD ii 0)).getModeLProb }) iso

/-- The size of an `int`. -/
def sizeofInt : Nat := 4

/-- The constructor Iso::Iso from per-element arrays (isoSpec++.cpp:63-88). -/
def Iso.ofArrays {α : Type} [Add α] [Zero α]
    (mkMarginal : List α → List α → Nat → Nat → Marginal α) (_dimNumber : Nat)
    (_isotopeNumbers _atomCounts : List Nat)
    (_isotopeMasses _isotopeProbabilities : List (List α)) : Iso α :=
  Iso.setupMarginals mkMarginal
    { disowned := false
      dimNumber := _dimNumber
      isotopeNumbers := _isotopeNumbers.take _dimNumber
      atomCounts := _atomCounts.take _dimNumber
      confSize := _dimNumber * sizeofInt
      allDim := 0
      marginals := []
      modeLProb := 0 } _isotopeMasses _isotopeProbabilities

/-- The molecule of the concrete scenario of the spec: element A with 2 atoms, isotope
probabilities 0.9 and 0.1, masses 1 and 2; element B with 1 atom, isotope probabilities 0.8
and 0.2, masses 10 and 11. -/
def scenarioIso {α : Type} [LinearOrderedField α] (log : α → α) : Iso α :=
  Iso.ofArrays (Marginal.ofElement log) 2 [2, 2] [2, 1] [[1, 2], [10, 11]]
    [[9 / 10, 1 / 10], [8 / 10, 2 / 10]]

/-- A descriptor of two elements given by the tables of their marginals: three entries
for the first element, two for the second. -/
def twoElementIso {α : Type} [Add α] (a1 a2 a3 b1 b2 ma1 ma2 ma3 mb1 mb2 pa1 pa2 pa3 pb1 pb2 : α) :
    Iso α :=
  ⟨false, 2, [2, 2], [2, 1], 8, 4,
    [⟨2, 2, [⟨a1, ma1, pa1, [2, 0]⟩, ⟨a2, ma2, pa2, [1, 1]⟩, ⟨a3, ma3, pa3, [0, 2]⟩], a1⟩,
     ⟨2, 1, [⟨b1, mb1, pb1, [1, 0]⟩, ⟨b2, mb2, pb2, [0, 1]⟩], b1⟩], a1 + b1⟩

/-- The state the threshold constructor builds for a molecule of two elements, before the
first descent, when the first two entries of the first element and both entries of the second
survive the cut; `swapped` tells whether the sorting has exchanged the marginals. -/
def twoElementBase {α : Type} [LinearOrderedCommRing α]
    (L a1 a2 b1 b2 ma1 ma2 mb1 mb2 pa1 pa2 pb1 pb2 : α) (mo : Option (List Nat))
    (swapped : Bool) : IsoThresholdGenerator α :=
  { dimNumber := 2, allDim := 4, modeLProb := a1 + b1, Lcutoff := L, empty := false,
    marginalResultsUnsorted :=
      [⟨[⟨a1, ma1, pa1, [2, 0]⟩, ⟨a2, ma2, pa2, [1, 1]⟩], a1⟩,
       ⟨[⟨b1, mb1, pb1, [1, 0]⟩, ⟨b2, mb2, pb2, [0, 1]⟩], b1⟩],
    marginalResults :=
      if swapped then
        [⟨[⟨b1, mb1, pb1, [1, 0]⟩, ⟨b2, mb2, pb2, [0, 1]⟩], b1⟩,
         ⟨[⟨a1, ma1, pa1, [2, 0]⟩, ⟨a2, ma2, pa2, [1, 1]⟩], a1⟩]
      else
        [⟨[⟨a1, ma1, pa1, [2, 0]⟩, ⟨a2, ma2, pa2, [1, 1]⟩], a1⟩,
         ⟨[⟨b1, mb1, pb1, [1, 0]⟩, ⟨b2, mb2, pb2, [0, 1]⟩], b1⟩],
    marginalOrder := mo, maxConfsLPSum := [if swapped then b1 else a1], counter := [0, 0],
    partialLProbs := [⊥, ⊥, ((0 : α) : WithBot α)],
    partialMasses := [0, 0, 0], partialProbs := [0, 0, 1], lProbs_ptr := 0, lcfmsv := none }

/-! ## IsoOrderedGenerator -/

/-- A node of the priority queue of the ordered generator: the block `allocator.newConf()`
hands out, a log-probability followed by `dimNumber` indices; `addr` tells the blocks
apart. -/
structure OrdNode (α : Type) where
  addr : Nat
  lprob : α
  conf : List Nat
deriving DecidableEq, Repr

/-- Modelled from the spec: MarginalTrek::probeConfigurationIdx (marginalTrek++.h is not
among the sources): "does the i-th most probable configuration for this element exist". -/
def Marginal.probeConfigurationIdx {α : Type} (m : Marginal α) (idx : Nat) : Bool :=
  decide (idx < m.confs.length)

/-- Modelled from the spec: combinedSum (misc.h is not among the sources): the sum over the
elements of the value of the element's table at the index the configuration holds. -/
def combinedSum {α : Type} [AddCommMonoid α] (conf : List Nat) (valuesContainer : List (List α))
    (dimNumber : Nat) : α :=
  ((List.range dimNumber).map
    (fun i => (valuesContainer.getD i []).getD (conf.getD i 0) 0)).sum

/-- The state of an IsoOrderedGenerator (isoSpec++.cpp:635-737). `pq` holds the nodes of
the priority queue, `allocated` counts the blocks handed out by the allocator, and
`currentLProb`, `currentMass`, `currentProb` are the cells the partial pointers alias. -/
structure IsoOrderedGenerator (α : Type) where
  dimNumber : Nat
  allDim : Nat
  marginalResults : List (Marginal α)
  pq : List (OrdNode α)
  topConf : OrdNode α
  ccount : Int
  allocated : Nat
  currentLProb : α
  currentMass : α
  currentProb : α

/-- What the priority queue has to do: `pqPop` stands for `pq.top()` followed by
`pq.pop()` on a queue ordered by the stored log-probability (the comparator of operators.h
is not among the sources): on an empty queue there is nothing, otherwise a node of greatest
log-probability leaves the queue. Which one of several greatest nodes leaves is not
fixed. -/
structure PQSpec {α : Type} [LinearOrder α]
    (pqPop : List (OrdNode α) → Option (OrdNode α × List (OrdNode α))) : Prop where
  nil : pqPop [] = none
  cons : ∀ q, q ≠ [] → ∃ x rest, pqPop q = some (x, rest) ∧ q.Perm (x :: rest) ∧
    ∀ y ∈ q, y.lprob ≤ x.lprob

/-- A priority queue: the first of the nodes of greatest log-probability leaves. -/
def pqPopMax {α : Type} [LinearOrder α] : List (OrdNode α) → Option (OrdNode α × List (OrdNode α))
  | [] => none
  | x :: q =>
    match pqPopMax q with
    | none => some (x, [])
    | some (y, rest) => if y.lprob ≤ x.lprob then some (x, q) else some (y, x :: rest)

namespace IsoOrderedGenerator

variable {α : Type} [LinearOrderedCommRing α]

/-- The tables `logProbs[i]` the constructor takes from the marginals
(isoSpec++.cpp:651-656). -/
def logProbs (g : IsoOrderedGenerator α) : List (List α) :=
  g.marginalResults.map (fun m => m.confs.map MarginalConf.lprob)

/-- The tables `masses[i]` the constructor takes from the marginals. -/
def masses (g : IsoOrderedGenerator α) : List (List α) :=
  g.marginalResults.map (fun m => m.confs.map MarginalConf.mass)

/-- The constructor IsoOrderedGenerator::IsoOrderedGenerator (isoSpec++.cpp:635-674): the
queue holds the node of the all-zero index vector. The cells the constructor leaves
uninitialised are 0, and `ccount` is -1. -/
def construct (iso : Iso α) : IsoOrderedGenerator α :=
  let marginalResults := (List.range iso.dimNumber).map (fun i => iso.marginals.getD i ⟨0, 0, [], 0⟩)
  let topConf : OrdNode α :=
    { addr := 0
      lprob := combinedSum (List.replicate iso.dimNumber 0)
        (marginalResults.map (fun m => m.confs.map MarginalConf.lprob)) iso.dimNumber
      conf := List.replicate iso.dimNumber 0 }
  { dimNumber := iso.dimNumber
    allDim := iso.allDim
    marginalResults := marginalResults
    pq := [topConf]
    topConf := topConf
    ccount := -1
    allocated := 1
    currentLProb := 0
    currentMass := 0
    currentProb := 0 }

/-- The index vector with entry `j` incremented (`topConfIsoCounts[j]++`). -/
def incr (conf : List Nat) (j : Nat) : List Nat := conf.set j (conf.getD j 0 + 1)

/-- The state of the loop over the elements: the queue, `ccount` and the number of blocks
handed out. -/
structure ScanState (α : Type) where
  pq : List (OrdNode α)
  ccount : Int
  allocated : Nat

/-- One pass of the body of the loop over the elements (isoSpec++.cpp:707-729) for
element `j`: when the next index of element `j` exists, the successor is pushed, in the
node of `topConf` the first time and in a fresh block afterwards. -/
def scanBody (g : IsoOrderedGenerator α) (topConf : OrdNode α) (j : Nat) (s : ScanState α) :
    ScanState α :=
  if (g.marginalResults.getD j ⟨0, 0, [], 0⟩).probeConfigurationIdx (topConf.conf.getD j 0 + 1) then
    if s.ccount = -1 then
      { pq := ⟨topConf.addr, combinedSum (incr topConf.conf j) (logProbs g) g.dimNumber,
               incr topConf.conf j⟩ :: s.pq
        ccount := j
        allocated := s.allocated }
    else
      { pq := ⟨s.allocated, combinedSum (incr topConf.conf j) (logProbs g) g.dimNumber,
               incr topConf.conf j⟩ :: s.pq
        ccount := s.ccount
        allocated := s.allocated + 1 }
  else s

/-- The loop over the elements (isoSpec++.cpp:705-732), from element `j` with `left`
elements to go: it ends after the first element whose index in `topConf` is not zero. -/
def scan (g : IsoOrderedGenerator α) (topConf : OrdNode α) :
    Nat → Nat → ScanState α → ScanState α
  | 0, _, s => s
  | left + 1, j, s =>
    if topConf.conf.getD j 0 > 0 then scanBody g topConf j s
    else scan g topConf left (j + 1) (scanBody g topConf j s)

/-- IsoOrderedGenerator::advanceToNextConfiguration (isoSpec++.cpp:689-737). `exp` stands
for `exp`. After the loop `topConf` is the node of the first successor pushed, which lives
in the same block (isoSpec++.cpp:733-734). -/
def advanceToNextConfiguration
    (pqPop : List (OrdNode α) → Option (OrdNode α × List (OrdNode α))) (exp : α → α)
    (g : IsoOrderedGenerator α) : Bool × IsoOrderedGenerator α :=
  match pqPop g.pq with
  | none => (false, g)
  | some (topConf, pq1) =>
    let s := scan g topConf g.dimNumber 0 ⟨pq1, -1, g.allocated⟩
    (true,
      { g with
        pq := s.pq
        topConf :=
          if 0 ≤ s.ccount then
            ⟨topConf.addr, combinedSum (incr topConf.conf s.ccount.toNat) (logProbs g) g.dimNumber,
              incr topConf.conf s.ccount.toNat⟩
          else topConf
        ccount := s.ccount
        allocated := s.allocated
        currentLProb := topConf.lprob
        currentMass := combinedSum topConf.conf (masses g) g.dimNumber
        currentProb := exp topConf.lprob })

/-- The index vector of the configuration the last call emitted: the indices of `topConf`
with the increment of isoSpec++.cpp:734 taken back. -/
def emittedConf (g : IsoOrderedGenerator α) : List Nat :=
  if 0 ≤ g.ccount then
    g.topConf.conf.set g.ccount.toNat (g.topConf.conf.getD g.ccount.toNat 0 - 1)
  else g.topConf.conf

/-- The state after `n` calls of advanceToNextConfiguration. -/
def advanceN (pqPop : List (OrdNode α) → Option (OrdNode α × List (OrdNode α))) (exp : α → α)
    (n : Nat) (g : IsoOrderedGenerator α) : IsoOrderedGenerator α :=
  (fun s => (advanceToNextConfiguration pqPop exp s).2)^[n] g

/-- The index vectors emitted by the first `n` calls of advanceToNextConfiguration, in
order: a call that returns false emits nothing. -/
def emitted (pqPop : List (OrdNode α) → Option (OrdNode α × List (OrdNode α))) (exp : α → α) :
    Nat → IsoOrderedGenerator α → List (List Nat)
  | 0, _ => []
  | n + 1, g =>
    match advanceToNextConfiguration pqPop exp g with
    | (true, g1) => emittedConf g1 :: emitted pqPop exp n g1
    | (false, g1) => emitted pqPop exp n g1

/-- The index vectors of the product space: for each element an index of its table. -/
def box : List Nat → List (List Nat)
  | [] => [[]]
  | n :: ns => (List.range n).flatMap (fun i => (box ns).map (i :: ·))

/-- The table sizes of the marginals. -/
def confCounts (g : IsoOrderedGenerator α) : List Nat :=
  g.marginalResults.map (fun m => m.confs.length)

/-- The all-zero index vector, the one the constructor pushes. -/
def isRoot (c : List Nat) : Prop := ∀ x ∈ c, x = 0

/-- The predecessor of an index vector: its first entry that is not zero is decremented. -/
def parent : List Nat → List Nat
  | [] => []
  | 0 :: t => 0 :: parent t
  | (n + 1) :: t => n :: t

/-- An index vector of the product space of tables of the sizes `ns`. -/
def InBox (ns : List Nat) (c : List Nat) : Prop :=
  c.length = ns.length ∧ ∀ j, j < ns.length → c.getD j 0 < ns.getD j 0

/-- The invariant of the search, for the index vectors `E` emitted so far: the nodes of
the queue carry the log-probability of their index vector; no index vector occurs twice
among the emitted and queued ones; all of them lie in the product space; each but the
all-zero one has its predecessor among the emitted ones; every successor of an emitted
vector is emitted or queued; and the all-zero vector is emitted or queued. -/
structure SearchInv (g : IsoOrderedGenerator α) (E : List (List Nat)) : Prop where
  len_m : g.marginalResults.length = g.dimNumber
  keys : ∀ x ∈ g.pq, x.lprob = combinedSum x.conf (logProbs g) g.dimNumber
  nodup : (E ++ g.pq.map OrdNode.conf).Nodup
  inbox : ∀ c ∈ E ++ g.pq.map OrdNode.conf, InBox (confCounts g) c
  pred : ∀ c ∈ E ++ g.pq.map OrdNode.conf, ¬ isRoot c → parent c ∈ E
  succ : ∀ p ∈ E, ∀ c, InBox (confCounts g) c → ¬ isRoot c → parent c = p →
    c ∈ E ++ g.pq.map OrdNode.conf
  root : List.replicate g.dimNumber 0 ∈ E ++ g.pq.map OrdNode.conf

end IsoOrderedGenerator

/-! ## LayeredTabulator -/

/-- What the layered generator reports of a configuration: mass(), lprob(), prob() and the
signature get_conf_signature writes. -/
structure Row (α : Type) where
  mass : α
  lprob : α
  prob : α
  conf : List Int
deriving DecidableEq, Repr

/-- ISOSPEC_INIT_TABLE_SIZE (fixedEnvelopes.h:24). -/
def ISOSPEC_INIT_TABLE_SIZE : Nat := 1024

/-- The state of a LayeredTabulator (tabulator.cpp:76-222). An array is `none` when its
pointer is null and otherwise the list of the rows written so far; `current_size` is the
capacity of the buffers. -/
structure LayeredTabulator (α : Type) where
  _masses : Option (List α)
  _lprobs : Option (List α)
  _probs : Option (List α)
  _confs : Option (List (List Int))
  _confs_no : Nat
  allDim : Nat
  target_total_prob : WithTop α
  current_size : Nat
  optimize : Bool

/-- The exchange of the entries `i` and `j` of an array (`std::swap`, or the three
`memcpy` of a configuration). -/
def swapL {β : Type} (l : List β) (i j : Nat) : List β :=
  match l[i]?, l[j]? with
  | some a, some b => (l.set i b).set j a
  | _, _ => l

namespace LayeredTabulator

variable {α : Type} [LinearOrderedCommRing α]

/-- LayeredTabulator::swap (tabulator.cpp:61-74) on rows that are stored and with the
probabilities allocated, as the trimming loop calls it; `Machine.swap` has the accesses
that fail. -/
def swap (t : LayeredTabulator α) (idx1 idx2 : Nat) : LayeredTabulator α :=
  { t with
    _probs := t._probs.map (fun l => swapL l idx1 idx2)
    _lprobs := t._lprobs.map (fun l => swapL l idx1 idx2)
    _masses := t._masses.map (fun l => swapL l idx1 idx2)
    _confs := t._confs.map (fun l => swapL l idx1 idx2) }

/-- LayeredTabulator::addConf (tabulator.cpp:202-222): the buffers are doubled when full
and the row of the generator is written behind the rows stored so far. -/
def addConf (t : LayeredTabulator α) (r : Row α) : LayeredTabulator α :=
  { t with
    current_size := if t._confs_no = t.current_size then t.current_size * 2 else t.current_size
    _masses := t._masses.map (fun l => l ++ [r.mass])
    _lprobs := t._lprobs.map (fun l => l ++ [r.lprob])
    _probs := t._probs.map (fun l => l ++ [r.prob])
    _confs := t._confs.map (fun l => l ++ [r.conf])
    _confs_no := t._confs_no + 1 }

/-- The entry `_probs[i]`. -/
def probAt (t : LayeredTabulator α) (i : Nat) : α := (t._probs.getD []).getD i 0

/-- The state of the loops that store the layers (tabulator.cpp:108-126); `returned`
tells that the constructor has returned from inside the inner loop. -/
structure CollectState (α : Type) where
  tab : LayeredTabulator α
  last_switch : Nat
  prob_at_last_switch : α
  prob_so_far : α
  returned : Bool

/-- The inner loop `while(generator.advanceToNextConfigurationWithinLayer())`
(tabulator.cpp:115-121) over the rows the generator emits in the current layer, in exact
arithmetic; `Machine.addRows` has the addition of the machine. -/
def addRows : LayeredTabulator α → α → List (Row α) → LayeredTabulator α × α × Bool
  | t, p, [] => (t, p, false)
  | t, p, r :: rs =>
    if !t.optimize && decide (t.target_total_prob ≤ ((p + r.prob : α) : WithTop α)) then
      (addConf t r, p + r.prob, true)
    else addRows (addConf t r) (p + r.prob) rs

/-- The loop `do ... while(generator.nextLayer(-3.0))` (tabulator.cpp:112-126). The layered
generator, whose advance is declared in isoSpec++.h (not among the sources), is given by
what it emits: the rows of its layers, the first being the layer the generator is
constructed in; nextLayer returns false after the last. -/
def collectLayers : LayeredTabulator α → Nat → α → α → List (List (Row α)) → CollectState α
  | t, ls, pls, p, [] => ⟨t, ls, pls, p, false⟩
  | t, ls, pls, p, layer :: rest =>
    match addRows t p layer with
    | (t1, p1, true) => ⟨t1, ls, pls, p1, true⟩
    | (t1, p1, false) =>
      if t1.target_total_prob ≤ ((p1 : α) : WithTop α) then ⟨t1, ls, pls, p1, false⟩
      else collectLayers t1 t1._confs_no p1 p1 rest

/-- The state of the partition loop (tabulator.cpp:157-166). -/
structure PartState (α : Type) where
  tab : LayeredTabulator α
  new_csum : α
  loweridx : Nat

/-- The partition loop `for(ii=start; ii<end-1; ii++)` (tabulator.cpp:160-166), from
index `ii` with `left` indices to go. -/
def partitionLoop (pprob : α) : Nat → Nat → PartState α → PartState α
  | 0, _, s => s
  | left + 1, ii, s =>
    if pprob < probAt s.tab ii then
      partitionLoop pprob left (ii + 1)
        ⟨swap s.tab ii s.loweridx, s.new_csum + probAt (swap s.tab ii s.loweridx) s.loweridx,
          s.loweridx + 1⟩
    else partitionLoop pprob left (ii + 1) s

/-- The state of the trimming loop (tabulator.cpp:141-178). -/
structure TrimState (α : Type) where
  tab : LayeredTabulator α
  start : Nat
  end_ : Nat
  sum_to_start : α

/-- The pivot of an iteration (tabulator.cpp:148-153): the midpoint when built for R,
otherwise drawn by `rand()`, whose value in iteration `k` is `rand k`. -/
def pivotIndex (buildingR : Bool) (rand : Nat → Nat) (k start end_ : Nat) : Nat :=
  if buildingR then (end_ - start) / 2 + start else rand k % (end_ - start) + start

/-- One iteration of the trimming loop (tabulator.cpp:147-177). -/
def trimStep (buildingR : Bool) (rand : Nat → Nat) (k : Nat) (s : TrimState α) : TrimState α :=
  let pivot := pivotIndex buildingR rand k s.start s.end_
  let pprob := probAt s.tab pivot
  let t1 := swap s.tab pivot (s.end_ - 1)
  let ps := partitionLoop pprob (s.end_ - 1 - s.start) s.start ⟨t1, s.sum_to_start, s.start⟩
  let t3 := swap ps.tab (s.end_ - 1) ps.loweridx
  if ((ps.new_csum : α) : WithTop α) < t3.target_total_prob then
    { tab := t3, start := ps.loweridx + 1, end_ := s.end_,
      sum_to_start := ps.new_csum + probAt t3 ps.loweridx }
  else
    { tab := t3, start := s.start, end_ := ps.loweridx, sum_to_start := s.sum_to_start }

/-- The trimming loop `while(start < end)` (tabulator.cpp:145-178), bounded by `fuel`
iterations; `k` counts the iterations done. -/
def quicktrim (buildingR : Bool) (rand : Nat → Nat) : Nat → Nat → TrimState α → TrimState α
  | 0, _, s => s
  | fuel + 1, k, s =>
    if s.start < s.end_ then quicktrim buildingR rand fuel (k + 1) (trimStep buildingR rand k s)
    else s

/-- The end of the constructor (tabulator.cpp:183-197): the probabilities are freed when
the caller did not ask for them, `_confs_no` becomes `end` and the buffers are shrunk to
fit when at most half of them is used. -/
def finish (user_wants_probs : Bool) (s : TrimState α) : LayeredTabulator α :=
  let probs := if user_wants_probs then s.tab._probs else none
  if s.end_ ≤ s.tab.current_size / 2 then
    { s.tab with
      _probs := probs.map (fun l => l.take s.end_)
      _lprobs := s.tab._lprobs.map (fun l => l.take s.end_)
      _masses := s.tab._masses.map (fun l => l.take s.end_)
      _confs := s.tab._confs.map (fun l => l.take s.end_)
      _confs_no := s.end_ }
  else { s.tab with _probs := probs, _confs_no := s.end_ }

/-- The tabulator after the layers are stored (tabulator.cpp:76-126). -/
def collect (layers : List (List (Row α))) (allDim : Nat) (get_masses get_probs get_lprobs
    get_confs : Bool) (_target_total_prob : α) (_optimize : Bool) : CollectState α :=
  collectLayers
    { _masses := if get_masses then some [] else none
      _lprobs := if get_lprobs then some [] else none
      _probs := if _optimize || get_probs then some [] else none
      _confs := if get_confs then some [] else none
      _confs_no := 0
      allDim := allDim
      target_total_prob := if 1 ≤ _target_total_prob then ⊤ else (_target_total_prob : WithTop α)
      current_size := ISOSPEC_INIT_TABLE_SIZE
      optimize := _optimize } 0 0 0 layers

/-- The state in which the trimming loop ends (tabulator.cpp:141-178), run for as many
iterations as the last layer has rows. -/
def trimmed (buildingR : Bool) (rand : Nat → Nat) (c : CollectState α) : TrimState α :=
  quicktrim buildingR rand (c.tab._confs_no - c.last_switch) 0
    ⟨c.tab, c.last_switch, c.tab._confs_no, c.prob_at_last_switch⟩

/-- The constructor LayeredTabulator::LayeredTabulator (tabulator.cpp:76-198) in exact
arithmetic. `layers` are the rows the layered generator emits, `allDim` is its
getAllDim(), and `buildingR` and `rand` give the pivots. It is `Machine.construct`, the
constructor with the additions of the machine and the accesses that fail, at the exact
addition, where no access fails. -/
def construct (buildingR : Bool) (rand : Nat → Nat) (layers : List (List (Row α))) (allDim : Nat)
    (get_masses get_probs get_lprobs get_confs : Bool) (_target_total_prob : α)
    (_optimize : Bool) : LayeredTabulator α :=
  if _target_total_prob ≤ 0 then
    { _masses := none, _lprobs := none, _probs := none, _confs := none, _confs_no := 0
      allDim := 0
      target_total_prob := if 1 ≤ _target_total_prob then ⊤ else (_target_total_prob : WithTop α)
      current_size := ISOSPEC_INIT_TABLE_SIZE
      optimize := _optimize }
  else
    let c := collect layers allDim get_masses get_probs get_lprobs get_confs _target_total_prob
      _optimize
    if c.returned then c.tab
    else if !_optimize || decide (((c.prob_so_far : α) : WithTop α) ≤ c.tab.target_total_prob) then
      c.tab
    else finish get_probs (trimmed buildingR rand c)

end LayeredTabulator

/-- The array `p1` holds the entries of `p` rearranged inside the index range
`[lo, hi)`. -/
def PermOn {β : Type} [Zero β] (lo hi : Nat) (p p1 : List β) : Prop :=
  p1.length = p.length ∧ ∃ σ : Equiv.Perm Nat,
    (∀ k, k < lo ∨ hi ≤ k → σ k = k) ∧ ∀ k, p1.getD k 0 = p.getD (σ k) 0

/-- The sum of the first `a` entries of an array. -/
def prefixSum {β : Type} [AddCommMonoid β] (p : List β) (a : Nat) : β :=
  ∑ k in Finset.range a, p.getD k 0

namespace LayeredTabulator

variable {α : Type} [LinearOrderedCommRing α]

/-- The array `_probs`, empty when the pointer is null. -/
def probsL (t : LayeredTabulator α) : List α := t._probs.getD []

/-- The tabulator `t1` differs from `t` only by the order of its rows. -/
structure SameShape (t t1 : LayeredTabulator α) : Prop where
  target : t1.target_total_prob = t.target_total_prob
  size : t1.current_size = t.current_size
  no : t1._confs_no = t._confs_no
  some : t1._probs.isSome = t._probs.isSome

/-- The invariant of the trimming loop (tabulator.cpp:145-178) over the array `p0` of the
probabilities stored by the layer loop, `ls` being `last_switch`, `n` the number of rows
stored and `tg` the target. -/
structure TrimInv (p0 : List α) (ls n : Nat) (tg : α) (s : TrimState α) : Prop where
  perm : PermOn ls n p0 (probsL s.tab)
  len : p0.length = n
  le_start : ls ≤ s.start
  start_le : s.start ≤ s.end_
  end_le : s.end_ ≤ n
  sum : s.sum_to_start = prefixSum (probsL s.tab) s.start
  reach : tg ≤ prefixSum (probsL s.tab) s.end_
  low : ∀ i j, ls ≤ i → i < s.start → s.start ≤ j → j < n →
    (probsL s.tab).getD j 0 ≤ (probsL s.tab).getD i 0
  high : ∀ i j, s.start ≤ i → i < s.end_ → s.end_ ≤ j → j < n →
    (probsL s.tab).getD j 0 ≤ (probsL s.tab).getD i 0
  least : s.start = ls ∨ (ls < s.start ∧ prefixSum (probsL s.tab) (s.start - 1) < tg ∧
    ∀ i, ls ≤ i → i < s.start →
      (probsL s.tab).getD (s.start - 1) 0 ≤ (probsL s.tab).getD i 0)
  target : s.tab.target_total_prob = ((tg : α) : WithTop α)

/-- The tabulator holds the rows `rows` of an optimizing run with the finite target `tg`. -/
structure Stored (tg : α) (t : LayeredTabulator α) (rows : List (Row α)) : Prop where
  probs : t._probs = some (rows.map Row.prob)
  no : t._confs_no = rows.length
  opt : t.optimize = true
  target : t.target_total_prob = ((tg : α) : WithTop α)

end LayeredTabulator

/-- Two layers of rows over the rationals: one row of probability 1/2, then rows of
probability 1/8 and 1/4. -/
def sampleLayers : List (List (Row ℚ)) :=
  [[⟨1, -1, 1 / 2, [0]⟩], [⟨2, -3, 1 / 8, [1]⟩, ⟨3, -2, 1 / 4, [2]⟩]]

/-! ## parse_formula -/

/-- The function `isalpha` of the C library in the "C" locale: the letters A-Z and a-z. -/
def isalpha (c : Char) : Bool :=
  (decide (65 ≤ c.toNat) && decide (c.toNat ≤ 90)) ||
    (decide (97 ≤ c.toNat) && decide (c.toNat ≤ 122))

/-- The function `isdigit` of the C library: the digits 0-9. -/
def isdigit (c : Char) : Bool := decide (48 ≤ c.toNat) && decide (c.toNat ≤ 57)

/-- The function `isspace` of the C library in the "C" locale: space, `\t`, `\n`, `\v`,
`\f` and `\r`. -/
def isspace (c : Char) : Bool := decide (c.toNat = 32) || (decide (9 ≤ c.toNat) && decide (c.toNat ≤ 13))

/-- The number a run of decimal digits denotes, accumulated from the left. -/
def digitsValue (ds : List Char) : Nat :=
  ds.foldl (fun acc c => 10 * acc + (c.toNat - 48)) 0

/-- The function `atoi` of the C library on the characters of a string: white space is
skipped, a sign is read, and the digits that follow give the value. For a value that
does not fit an `int` the C standard leaves the result undefined; `outOfRange` stands
for what the library returns there. -/
def atoi (outOfRange : Int → Int) (s : List Char) : Int :=
  let v : Int :=
    match s.dropWhile isspace with
    | [] => 0
    | c :: r =>
      if c.toNat = 45 then -(digitsValue (r.takeWhile isdigit) : Int)
      else if c.toNat = 43 then (digitsValue (r.takeWhile isdigit) : Int)
      else (digitsValue ((c :: r).takeWhile isdigit) : Int)
  if -(2 : Int) ^ 31 ≤ v ∧ v < (2 : Int) ^ 31 then v else outOfRange v

/-- The function `strncmp` of the C library on the characters of two strings (the end of
a list is the terminator): zero when the first `n` characters agree, otherwise the
difference of the first two that differ. -/
def strncmp : List Char → List Char → Nat → Int
  | _, _, 0 => 0
  | [], [], _ + 1 => 0
  | [], b :: _, _ + 1 => -(b.toNat : Int)
  | a :: _, [], _ + 1 => (a.toNat : Int)
  | a :: as, b :: bs, n + 1 => if a = b then strncmp as bs n else (a.toNat : Int) - (b.toNat : Int)

/-- An entry of the element tables `elem_table_symbol` and `elem_table_atomicNo`
(element_tables.h is not among the sources: the tables are a parameter, the list of
their `ISOSPEC_NUMBER_OF_ISOTOPIC_ENTRIES` entries). The tables `elem_table_mass` and
`elem_table_probability` are only addressed, by the index of an entry. -/
structure ElemEntry where
  symbol : List Char
  atomicNo : Int
deriving DecidableEq, Repr

/-- The exception `invalid_argument` that parse_formula throws, by its message. -/
inductive invalid_argument where
  /-- "Invalid formula: can't be empty" (isoSpec++.cpp:253). -/
  | cant_be_empty
  /-- "Invalid formula: every element must be followed by a number ..."
  (isoSpec++.cpp:256). -/
  | must_be_followed_by_number
  /-- "Invalid formula: contains invalid (non-digit, non-alpha) character"
  (isoSpec++.cpp:260). -/
  | invalid_character
  /-- "Invalid formula" (isoSpec++.cpp:291). -/
  | invalid_formula
deriving DecidableEq, Repr

/-- What parse_formula returns and writes through its arguments. A pointer into
`elem_table_mass` or `elem_table_probability` is the index of the entry it points at. -/
structure Parsed where
  dimNumber : Nat
  isotope_masses : List Nat
  isotope_probabilities : List Nat
  isotopeNumbers : List Int
  atomCounts : List Int
  confSize : Nat
deriving DecidableEq, Repr

/-- The loop `while(position < slen)` of parse_formula (isoSpec++.cpp:266-277) on the
characters from `position` on, bounded by `fuel` iterations: an element is the pointer
`&formula[position]` (the characters from there on) with the length of its run of
letters, a number is `atoi` of the characters from `elem_end` on. -/
def scanFormula (outOfRange : Int → Int) :
    Nat → List Char → Option (List ((List Char × Nat) × Int))
  | _, [] => some []
  | 0, _ :: _ => none
  | fuel + 1, c :: s =>
    (scanFormula outOfRange fuel (((c :: s).dropWhile isalpha).dropWhile isdigit)).map
      (fun r => ((c :: s, ((c :: s).takeWhile isalpha).length),
        atoi outOfRange ((c :: s).dropWhile isalpha)) :: r)

/-- The loop `for(int j=0; j<ISOSPEC_NUMBER_OF_ISOTOPIC_ENTRIES; j++)` of the search
(isoSpec++.cpp:284-291) over the entries from index `j` on: the first index with
`strlen(elem_table_symbol[j]) == elements[i].second` and `strncmp` zero. -/
def findSymbolFrom (e : List Char × Nat) : List ElemEntry → Nat → Option Nat
  | [], _ => none
  | ent :: rest, j =>
    if ent.symbol.length = e.2 ∧ strncmp e.1 ent.symbol e.2 = 0 then some j
    else findSymbolFrom e rest (j + 1)

/-- The search of the tables for an element (isoSpec++.cpp:281-292); `none` stands for
`idx < 0`. -/
def findSymbol (table : List ElemEntry) (e : List Char × Nat) : Option Nat :=
  findSymbolFrom e table 0

/-- The loop over the elements (isoSpec++.cpp:281-294), which throws at the first element
that is not found. -/
def lookupAll (table : List ElemEntry) : List (List Char × Nat) → Option (List Nat)
  | [] => some []
  | e :: es =>
    match findSymbol table e with
    | none => none
    | some idx => (lookupAll table es).map (fun r => idx :: r)

/-- The count of isotopes of the element at `at_idx` (isoSpec++.cpp:300-308): the entries
from `at_idx` on that share its atomic number. -/
def isotopeCount (table : List ElemEntry) (at_idx : Nat) : Int :=
  match table[at_idx]? with
  | none => 0
  | some ent => (((table.drop at_idx).takeWhile (fun e => decide (e.atomicNo = ent.atomicNo))).length : Int)

/-- The function parse_formula (isoSpec++.cpp:242-326) on the characters of `formula`
before its terminator. The vectors `isotope_masses` and `isotope_probabilities` are
appended to, and `array_copy` copies the `dimNumber` entries of a vector. The
`unsigned int` values `dimNumber` and `*confSize` are natural numbers: they do not wrap
for a formula of fewer than 2^30 elements. The result is `none` when the scanning loop
has not ended after `slen` iterations. -/
def parse_formula (table : List ElemEntry) (outOfRange : Int → Int) (formula : List Char)
    (isotope_masses isotope_probabilities : List Nat) :
    Option (Except invalid_argument Parsed) :=
  if formula.length = 0 then some (Except.error invalid_argument.cant_be_empty)
  else if !isdigit (formula.getD (formula.length - 1) (Char.ofNat 0)) then
    some (Except.error invalid_argument.must_be_followed_by_number)
  else if formula.any (fun c => !isdigit c && !isalpha c) then
    some (Except.error invalid_argument.invalid_character)
  else
    match scanFormula outOfRange formula.length formula with
    | none => none
    | some toks =>
      match lookupAll table (toks.map (fun t => t.1)) with
      | none => some (Except.error invalid_argument.invalid_formula)
      | some element_indexes =>
        some (Except.ok
          { dimNumber := toks.length
            isotope_masses := isotope_masses ++ element_indexes
            isotope_probabilities := isotope_probabilities ++ element_indexes
            isotopeNumbers := element_indexes.map (isotopeCount table)
            atomCounts := toks.map (fun t => t.2)
            confSize := toks.length * sizeofInt })

/-- The formula written for a list of symbols with their digit strings: the
concatenation `s_1 d_1 ... s_k d_k`. -/
def formatFormula (pairs : List (List Char × List Char)) : List Char :=
  (pairs.map (fun p => p.1 ++ p.2)).flatten

/-- A token: a non-empty run of letters that is a symbol of the element table, followed
by a non-empty run of decimal digits. -/
def IsToken (table : List ElemEntry) (p : List Char × List Char) : Prop :=
  p.1 ≠ [] ∧ (∀ c ∈ p.1, isalpha c = true) ∧ p.1 ∈ table.map ElemEntry.symbol ∧
    p.2 ≠ [] ∧ ∀ c ∈ p.2, isdigit c = true

/-- The formula is a non-empty concatenation of tokens. -/
def ValidFormula (table : List ElemEntry) (formula : List Char) : Prop :=
  ∃ pairs : List (List Char × List Char), pairs ≠ [] ∧ (∀ p ∈ pairs, IsToken table p) ∧
    formula = formatFormula pairs

/-- What the scanning loop stores for the formula written for `pairs`: for every pair
the characters from its symbol on with the length of the symbol, and `atoi` of the
characters from its digits on. -/
def tokensOf (outOfRange : Int → Int) :
    List (List Char × List Char) → List ((List Char × Nat) × Int)
  | [] => []
  | p :: ps =>
    ((formatFormula (p :: ps), p.1.length), atoi outOfRange (p.2 ++ formatFormula ps)) ::
      tokensOf outOfRange ps

/-- The pairs split a string the way the scanning loop does: runs of letters, of which
only the first may be empty, each followed by a non-empty run of digits. -/
def WellSplit : List (List Char × List Char) → Prop
  | [] => True
  | p :: ps => (∀ c ∈ p.1, isalpha c = true) ∧ p.2 ≠ [] ∧ (∀ c ∈ p.2, isdigit c = true) ∧
      (∀ q ∈ ps.head?, q.1 ≠ []) ∧ WellSplit ps

/-- The index of the first entry of the table whose symbol is `s` (the number of entries
when there is none). -/
def symbolIndex (table : List ElemEntry) (s : List Char) : Nat :=
  (table.map ElemEntry.symbol).indexOf s

/-- The entry `idx` is the first entry of the table whose symbol is `s`. -/
def IsFirstIndex (table : List ElemEntry) (s : List Char) (idx : Nat) : Prop :=
  (table[idx]?).map ElemEntry.symbol = some s ∧
    ∀ j, j < idx → (table[j]?).map ElemEntry.symbol ≠ some s

/-- Exactly `cnt` consecutive entries of the table, from the entry `idx` on, share the
atomic number of the entry `idx`. -/
def IsRunLength (table : List ElemEntry) (idx cnt : Nat) : Prop :=
  (∀ j, j < cnt → (table[idx + j]?).map ElemEntry.atomicNo =
      (table[idx]?).map ElemEntry.atomicNo) ∧
    (table[idx + cnt]?).map ElemEntry.atomicNo ≠ (table[idx]?).map ElemEntry.atomicNo

/-- The decimal digits of a natural number, the most significant first. -/
def dec (n : Nat) : List Char :=
  if n = 0 then [Char.ofNat 48] else (Nat.digits 10 n).reverse.map (fun d => Char.ofNat (48 + d))

/-- A small element table: hydrogen with two isotopes, carbon with two, oxygen with
three. -/
def sampleTable : List ElemEntry :=
  [⟨['H'], 1⟩, ⟨['H'], 1⟩, ⟨['C'], 6⟩, ⟨['C'], 6⟩, ⟨['O'], 8⟩, ⟨['O'], 8⟩, ⟨['O'], 8⟩,
    ⟨['C', 'l'], 17⟩, ⟨['C', 'l'], 17⟩]

/-! ## The ordered generator: what a caller reads -/

namespace IsoOrderedGenerator

variable {α : Type} [LinearOrderedCommRing α]

/-- Modelled from the spec: IsoOrderedGenerator::get_conf_signature (isoSpec++.h is not
among the sources): "the per-element configuration vector", the segment of every element
at the index the emitted configuration holds for it. -/
def get_conf_signature (g : IsoOrderedGenerator α) : List (List Nat) :=
  (List.range g.dimNumber).map (fun ii =>
    ((g.marginalResults.getD ii ⟨0, 0, [], 0⟩).confs.getD ((emittedConf g).getD ii 0)
      ⟨0, 0, 0, []⟩).conf)

end IsoOrderedGenerator

/-- A state of the ordered generator of the molecule of two elements of `twoElementIso`,
given by its queue, `topConf`, `ccount`, the number of blocks handed out and the three
cells. -/
def twoElementOrdered {α : Type} [Add α]
    (a1 a2 a3 b1 b2 ma1 ma2 ma3 mb1 mb2 pa1 pa2 pa3 pb1 pb2 : α) (pq : List (OrdNode α))
    (topConf : OrdNode α) (ccount : Int) (allocated : Nat) (l m p : α) :
    IsoOrderedGenerator α :=
  { dimNumber := 2, allDim := 4,
    marginalResults := (twoElementIso a1 a2 a3 b1 b2 ma1 ma2 ma3 mb1 mb2 pa1 pa2 pa3 pb1 pb2).marginals,
    pq := pq, topConf := topConf, ccount := ccount, allocated := allocated,
    currentLProb := l, currentMass := m, currentProb := p }

/-! ## TotalProbFixedEnvelope -/

/-- The state of a TotalProbFixedEnvelope (fixedEnvelopes.h:28-215): the fields of
FixedEnvelope with `optimize` and `target_total_prob`. An array is `none` when its
pointer is null, `total_prob` is `none` when it is NAN, and `allDim` is what the
constructor of FixedEnvelope leaves it, which it does not initialise. -/
structure TotalProbFixedEnvelope (α : Type) where
  _masses : Option (List α)
  _probs : Option (List α)
  _confs : Option (List (List Int))
  _confs_no : Nat
  allDim : Int
  sorted_by_mass : Bool
  sorted_by_prob : Bool
  total_prob : Option α
  current_size : Nat
  optimize : Bool
  target_total_prob : WithTop α

namespace TotalProbFixedEnvelope

variable {α : Type} [LinearOrderedCommRing α]

/-- The envelope when the body of the constructor is entered and `current_size` is set
(fixedEnvelopes.h:184-189): FixedEnvelope() and the two member initialisers. -/
def initial (uninitialised_allDim : Int) (_target_total_prob : α) (_optimize : Bool) :
    TotalProbFixedEnvelope α :=
  { _masses := none, _probs := none, _confs := none, _confs_no := 0
    allDim := uninitialised_allDim
    sorted_by_mass := false, sorted_by_prob := false, total_prob := none
    current_size := ISOSPEC_INIT_TABLE_SIZE
    optimize := _optimize
    target_total_prob := if 1 ≤ _target_total_prob then ⊤ else (_target_total_prob : WithTop α) }

/-- The constructor TotalProbFixedEnvelope::TotalProbFixedEnvelope
(fixedEnvelopes.h:184-194). `call_init` stands for the function template of that name,
which is declared at fixedEnvelopes.h:160 and defined outside the sources: it is what
constructs the generator and fills the envelope. -/
def construct (call_init : TotalProbFixedEnvelope α → Iso α → Bool → TotalProbFixedEnvelope α)
    (uninitialised_allDim : Int) (iso : Iso α) (_target_total_prob : α) (_optimize : Bool)
    (tgetConfs : Bool) : TotalProbFixedEnvelope α :=
  if _target_total_prob ≤ 0 then initial uninitialised_allDim _target_total_prob _optimize
  else call_init (initial uninitialised_allDim _target_total_prob _optimize) iso tgetConfs

end TotalProbFixedEnvelope

/-! ## ThresholdTabulator -/

/-- An array obtained from `malloc` together with the pointer the tabulator keeps into
it: the cells of the allocation (`none` for a cell not yet written) and the offset of the
pointer from the base of the allocation. -/
structure Buf (β : Type) where
  cells : List (Option β)
  off : Int
deriving DecidableEq, Repr

namespace Buf

/-- The allocation `malloc(n * sizeof(T))` with the pointer at its base. -/
def alloc {β : Type} (n : Nat) : Buf β := ⟨List.replicate n none, 0⟩

/-- The write of the values `xs` at the pointer, followed by `ptr += step`; `none` when a
value would be written outside the allocation. -/
def store {β : Type} (b : Buf β) (xs : List β) (step : Nat) : Option (Buf β) :=
  if 0 ≤ b.off ∧ b.off.toNat + xs.length ≤ b.cells.length then
    some ⟨b.cells.take b.off.toNat ++ xs.map some ++ b.cells.drop (b.off.toNat + xs.length),
      b.off + step⟩
  else none

/-- The statement `ptr -= n`. -/
def rewind {β : Type} (b : Buf β) (n : Nat) : Buf β := ⟨b.cells, b.off - n⟩

/-- The write through a pointer that is tested against null first. -/
def storeIf {β : Type} (o : Option (Buf β)) (xs : List β) (step : Nat) :
    Option (Option (Buf β)) :=
  match o with
  | none => some none
  | some b => (b.store xs step).map some

end Buf

/-- The state of a ThresholdTabulator (tabulator.cpp:24-55): the four arrays, null (`none`)
or allocated, `_confs_no` and `allDim`. -/
structure ThresholdTabulator (α : Type) where
  _masses : Option (Buf α)
  _lprobs : Option (Buf (WithBot α))
  _probs : Option (Buf α)
  _confs : Option (Buf Nat)
  _confs_no : Nat
  allDim : Nat

namespace ThresholdTabulator

variable {α : Type} [LinearOrderedCommRing α]

/-- The body of the fill loop (tabulator.cpp:41-48) for the configuration the generator
is at. -/
def storeRow (t : ThresholdTabulator α) (g : IsoThresholdGenerator α) :
    Option (ThresholdTabulator α) :=
  match Buf.storeIf t._masses [IsoThresholdGenerator.mass g] 1,
      Buf.storeIf t._lprobs [IsoThresholdGenerator.lprob g] 1,
      Buf.storeIf t._probs [IsoThresholdGenerator.prob g] 1,
      Buf.storeIf t._confs (IsoThresholdGenerator.get_conf_signature g).flatten t.allDim with
  | some m, some l, some p, some c =>
    some { t with _masses := m, _lprobs := l, _probs := p, _confs := c }
  | _, _, _, _ => none

/-- The fill loop `while(generator.advanceToNextConfiguration())` (tabulator.cpp:39-48),
bounded by `fuel` iterations; `none` when the bound is reached or a row does not fit its
array. -/
def fill : Nat → IsoThresholdGenerator α → ThresholdTabulator α → Option (ThresholdTabulator α)
  | 0, _, _ => none
  | fuel + 1, g, t =>
    match IsoThresholdGenerator.advanceToNextConfiguration g with
    | (true, g1) =>
      match storeRow t g1 with
      | some t1 => fill fuel g1 t1
      | none => none
    | (false, _) => some t

/-- The pointers moved back by the rows counted (tabulator.cpp:50-53). -/
def rewindAll (t : ThresholdTabulator α) : ThresholdTabulator α :=
  { t with
    _masses := t._masses.map (fun b => b.rewind t._confs_no)
    _lprobs := t._lprobs.map (fun b => b.rewind t._confs_no)
    _probs := t._probs.map (fun b => b.rewind t._confs_no)
    _confs := t._confs.map (fun b => b.rewind (t._confs_no * t.allDim)) }

/-- The tabulator when the arrays are allocated (tabulator.cpp:31-37); `malloc` is taken
to return an allocation, also of size 0. -/
def allocated (n allDim : Nat) (get_masses get_probs get_lprobs get_confs : Bool) :
    ThresholdTabulator α :=
  { _masses := if get_masses then some (Buf.alloc n) else none
    _lprobs := if get_lprobs then some (Buf.alloc n) else none
    _probs := if get_probs then some (Buf.alloc n) else none
    _confs := if get_confs then some (Buf.alloc (n * allDim)) else none
    _confs_no := n
    allDim := allDim }

/-- The constructor ThresholdTabulator::ThresholdTabulator (tabulator.cpp:24-55). The
generator is constructed with the default of `reorder_marginals`, which isoSpec++.h (not
among the sources) declares: it is the parameter `reorder_marginals`. The loops of
count_confs and of the fill are bounded by the bound of the generator; `none` when the
generator is not constructed, a loop does not end or a row does not fit. -/
def construct (log : α → α) (lowest : α)
    (sortOrder : List (PrecalculatedMarginal α) → List Nat) (reorder_marginals : Bool)
    (iso : Iso α) (threshold : α) (absolute get_masses get_probs get_lprobs get_confs : Bool) :
    Option (ThresholdTabulator α) :=
  match IsoThresholdGenerator.construct log lowest sortOrder iso threshold absolute
      reorder_marginals with
  | none => none
  | some generator =>
    match IsoThresholdGenerator.count_confs (IsoThresholdGenerator.fuelBound generator)
        generator with
    | none => none
    | some (n, generator1) =>
      (fill (IsoThresholdGenerator.fuelBound generator1) generator1
        (allocated n generator1.allDim get_masses get_probs get_lprobs get_confs)).map rewindAll

end ThresholdTabulator

namespace ThresholdTabulator

variable {α : Type} [LinearOrderedCommRing α]

/-- The tabulator of `n` rows in which the rows `rows` are written, the pointers standing
behind them. -/
def filled (n allDim : Nat) (get_masses get_probs get_lprobs get_confs : Bool)
    (rows : List (IsoThresholdGenerator.Emitted α)) : ThresholdTabulator α :=
  { _masses := if get_masses then
      some ⟨(rows.map (fun e => e.mass)).map some ++ List.replicate (n - rows.length) none,
        ((rows.map (fun e => e.mass)).length : Int)⟩ else none
    _lprobs := if get_lprobs then
      some ⟨(rows.map (fun e => e.lprob)).map some ++ List.replicate (n - rows.length) none,
        ((rows.map (fun e => e.lprob)).length : Int)⟩ else none
    _probs := if get_probs then
      some ⟨(rows.map (fun e => e.prob)).map some ++ List.replicate (n - rows.length) none,
        ((rows.map (fun e => e.prob)).length : Int)⟩ else none
    _confs := if get_confs then
      some ⟨(rows.flatMap (fun e => e.conf.flatten)).map some ++
          List.replicate (n * allDim - rows.length * allDim) none,
        ((rows.flatMap (fun e => e.conf.flatten)).length : Int)⟩ else none
    _confs_no := n
    allDim := allDim }

end ThresholdTabulator

/-! ## IsoLayeredGenerator: the step to the next layer -/

/-- Modelled from the spec: Marginal::getSmallestLProb (marginalTrek++.h is not among the
sources): the log-probability of "the least-probable possible configuration" of the
element, the last of its configurations in decreasing order (0 when there is none). -/
def Marginal.getSmallestLProb {α : Type} [Zero α] (m : Marginal α) : α :=
  match m.confs.getLast? with
  | some c => c.lprob
  | none => 0

/-- Modelled from the spec: LayeredMarginal (marginalTrek++.h is not among the sources):
the configurations of one element "cached" so far, in the order they were added, out of
all its configurations `all`; `lCutOff` is the threshold the cache reaches down to (top
while nothing is cached). -/
structure LayeredMarginal (α : Type) where
  all : List (MarginalConf α)
  confs : List (MarginalConf α)
  lCutOff : WithTop α
  mode_lprob : α
deriving DecidableEq, Repr

instance {α : Type} [Zero α] : Inhabited (LayeredMarginal α) := ⟨⟨[], [], ⊤, 0⟩⟩

namespace LayeredMarginal

variable {α : Type} [LinearOrderedCommRing α]

/-- Modelled from the spec: LayeredMarginal::extend: the "cached configuration list is
extended (never truncated) down to the new threshold": the configurations between the
new threshold and the old one are added behind the cached ones. -/
def extend (m : LayeredMarginal α) (new_threshold : α) : LayeredMarginal α :=
  if ((new_threshold : α) : WithTop α) < m.lCutOff then
    { m with
      confs := m.confs ++ m.all.filter (fun c =>
        decide (new_threshold ≤ c.lprob) && !decide (m.lCutOff ≤ ((c.lprob : α) : WithTop α)))
      lCutOff := ((new_threshold : α) : WithTop α) }
  else m

def getModeLProb (m : LayeredMarginal α) : α := m.mode_lprob

def get_no_confs (m : LayeredMarginal α) : Nat := m.confs.length

/-- Modelled from the spec: the log-probability of the cached entry `i`, negative
infinity past the cache. -/
def get_lProb (m : LayeredMarginal α) (i : Int) : WithBot α :=
  if 0 ≤ i then
    match m.confs.get? i.toNat with
    | some c => (c.lprob : WithBot α)
    | none => ⊥
  else ⊥

def get_mass (m : LayeredMarginal α) (i : Int) : α :=
  match m.confs.get? i.toNat with
  | some c => c.mass
  | none => 0

def get_prob (m : LayeredMarginal α) (i : Int) : α :=
  match m.confs.get? i.toNat with
  | some c => c.prob
  | none => 0

end LayeredMarginal

/-- The state of an IsoLayeredGenerator as far as nextLayer reads and writes it
(isoSpec++.cpp:490-628). `marginals` are the marginals of the Iso it is built on; the
pointers `lProbs_ptr` and `resetPositions[ii]` are offsets from `lProbs_ptr_start`. -/
structure IsoLayeredGenerator (α : Type) where
  dimNumber : Nat
  modeLProb : α
  marginals : List (Marginal α)
  marginalResults : List (LayeredMarginal α)
  counter : List Int
  partialLProbs : List (WithBot α)
  partialMasses : List α
  partialProbs : List α
  currentLThreshold : α
  lastLThreshold : α
  lProbs_ptr : Int
  resetPositions : List Int

namespace IsoLayeredGenerator

variable {α : Type} [LinearOrderedCommRing α]

/-- Iso::getUnlikeliestPeakLProb (isoSpec++.cpp:189-195). -/
def getUnlikeliestPeakLProb (g : IsoLayeredGenerator α) : α :=
  (List.range g.dimNumber).foldl
    (fun lprob ii => lprob + (g.marginals.getD ii ⟨0, 0, [], 0⟩).getSmallestLProb) 0

/-- Modelled from the spec: one step of recalc (isoSpec++.h is not among the sources), as
for the threshold generator: `partialX[k]` is `partialX[k+1]` combined with the entry of
marginal `k` at `counter[k]`. -/
def recalcStep (g : IsoLayeredGenerator α) (k : Nat) : IsoLayeredGenerator α :=
  { g with
    partialLProbs := g.partialLProbs.set k (g.partialLProbs.getD (k + 1) ⊥ +
      (g.marginalResults.getD k default).get_lProb (g.counter.getD k 0))
    partialMasses := g.partialMasses.set k (g.partialMasses.getD (k + 1) 0 +
      (g.marginalResults.getD k default).get_mass (g.counter.getD k 0))
    partialProbs := g.partialProbs.set k (g.partialProbs.getD (k + 1) 0 *
      (g.marginalResults.getD k default).get_prob (g.counter.getD k 0)) }

/-- Modelled from the spec: recalc(idx) (isoSpec++.h is not among the sources): the
partial sums of the entries `idx, ..., 0` are recomputed, each from the entry above it. -/
def recalc (g : IsoLayeredGenerator α) : Nat → IsoLayeredGenerator α
  | 0 => recalcStep g 0
  | k + 1 => recalc (recalcStep g (k + 1)) k

/-- The state of nextLayer before its call of recalc (isoSpec++.cpp:598-612). -/
def lowerLayer (g : IsoLayeredGenerator α) (offset : α) : IsoLayeredGenerator α :=
  { g with
    lastLThreshold := g.currentLThreshold
    currentLThreshold := g.currentLThreshold + offset
    marginalResults := (List.range g.dimNumber).map (fun ii =>
      (g.marginalResults.getD ii default).extend
        (g.currentLThreshold + offset - g.modeLProb +
          (g.marginalResults.getD ii default).getModeLProb)) ++
      g.marginalResults.drop g.dimNumber
    counter := List.replicate g.dimNumber 0 ++ g.counter.drop g.dimNumber
    lProbs_ptr := ((g.marginalResults.getD 0 default).get_no_confs : Int) - 1
    resetPositions := List.replicate g.dimNumber
      (((g.marginalResults.getD 0 default).get_no_confs : Int) - 1) ++
      g.resetPositions.drop g.dimNumber }

/-- IsoLayeredGenerator::nextLayer (isoSpec++.cpp:591-617). -/
def nextLayer (g : IsoLayeredGenerator α) (offset : α) : Bool × IsoLayeredGenerator α :=
  if g.lastLThreshold < getUnlikeliestPeakLProb g then (false, g)
  else (true, recalc (lowerLayer g offset) (g.dimNumber - 1))

end IsoLayeredGenerator

/-- The layered generator of a molecule of one element with a single configuration, of
log-probability 0, as its constructor has it when it calls nextLayer
(isoSpec++.cpp:586-588): nothing is cached yet, `lastLThreshold` is 10 and
`currentLThreshold` is below the mode. -/
def singleConfLayered : IsoLayeredGenerator Int :=
  { dimNumber := 1
    modeLProb := 0
    marginals := [⟨1, 1, [⟨0, 5, 1, [1]⟩], 0⟩]
    marginalResults := [⟨[⟨0, 5, 1, [1]⟩], [], ⊤, 0⟩]
    counter := [-1]
    partialLProbs := [⊥, ((0 : Int) : WithBot Int)]
    partialMasses := [0, 0]
    partialProbs := [0, 1]
    currentLThreshold := -1
    lastLThreshold := 10
    lProbs_ptr := -1
    resetPositions := [0] }

/-! ## A molecule of elements with a single isotope -/

/-- The descriptor of a molecule of elements with one isotope each, of probability 1: the
element `i` has `atomCounts[i]` atoms of the mass `isotopeMass[i]`. -/
def singleIsotopeIso {α : Type} [LinearOrderedCommRing α] (log : α → α) (atomCounts : List Nat)
    (isotopeMass : List α) : Iso α :=
  Iso.ofArrays (Marginal.ofElement log) atomCounts.length (List.replicate atomCounts.length 1)
    atomCounts (isotopeMass.map (fun m => [m])) (List.replicate atomCounts.length [1])

namespace IsoThresholdGenerator

variable {α : Type} [LinearOrderedCommRing α]

/-- The states a caller can bring the generator `g` to: by calls of
advanceToNextConfiguration, terminate_search and reset, in any order. -/
inductive Reachable (g : IsoThresholdGenerator α) : IsoThresholdGenerator α → Prop
  | start : Reachable g g
  | advance (s : IsoThresholdGenerator α) :
      Reachable g s → Reachable g (advanceToNextConfiguration s).2
  | terminate (s : IsoThresholdGenerator α) : Reachable g s → Reachable g (terminate_search s)
  | reset (s : IsoThresholdGenerator α) : Reachable g s → Reachable g (reset s)

end IsoThresholdGenerator

/-! ## The descriptor: growth, move and destruction -/

/-- The default constructor Iso::Iso() (isoSpec++.cpp:51-60): no element. -/
def Iso.empty {α : Type} [Zero α] : Iso α :=
  { disowned := false
    dimNumber := 0
    isotopeNumbers := []
    atomCounts := []
    confSize := 0
    allDim := 0
    marginals := []
    modeLProb := 0 }

/-- Modelled from the spec: realloc_append (misc.h is not among the sources): the array of
`old_array_size` entries is reallocated with one entry more, the new value last. -/
def realloc_append {β : Type} (array : List β) (new_value : β) (old_array_size : Nat) : List β :=
  array.take old_array_size ++ [new_value]

/-- Iso::addElement (isoSpec++.cpp:229-240); `mkMarginal` stands for the Marginal
constructor. The counters `dimNumber`, `confSize` and `allDim` are natural numbers. -/
def Iso.addElement {α : Type} [Add α]
    (mkMarginal : List α → List α → Nat → Nat → Marginal α) (iso : Iso α)
    (atomCount noIsotopes : Nat) (isotopeMasses isotopeProbabilities : List α) : Iso α :=
  let m := mkMarginal isotopeMasses isotopeProbabilities noIsotopes atomCount
  { iso with
    modeLProb := iso.modeLProb + m.getModeLProb
    isotopeNumbers := realloc_append iso.isotopeNumbers noIsotopes iso.dimNumber
    atomCounts := realloc_append iso.atomCounts atomCount iso.dimNumber
    marginals := realloc_append iso.marginals m iso.dimNumber
    dimNumber := iso.dimNumber + 1
    confSize := iso.confSize + sizeofInt
    allDim := iso.allDim + noIsotopes }

/-- One call of addElement: the atom count, the number of isotopes and the isotope
tables of the new element. -/
structure ElementArgs (α : Type) where
  atomCount : Nat
  noIsotopes : Nat
  isotopeMasses : List α
  isotopeProbabilities : List α

/-- A sequence of calls of addElement, in order. -/
def Iso.addElements {α : Type} [Add α]
    (mkMarginal : List α → List α → Nat → Nat → Marginal α) (iso : Iso α)
    (calls : List (ElementArgs α)) : Iso α :=
  calls.foldl (fun s e =>
    s.addElement mkMarginal e.atomCount e.noIsotopes e.isotopeMasses e.isotopeProbabilities) iso

/-- The derived quantities of a descriptor agree with its arrays: every array holds one
entry per element, `allDim` is the sum of the isotope numbers, `confSize` is
`dimNumber * sizeof(int)` and `modeLProb` is the sum of the mode log-probabilities of the
marginals. -/
structure Iso.Consistent {α : Type} [AddCommMonoid α] (iso : Iso α) : Prop where
  len_isotopeNumbers : iso.isotopeNumbers.length = iso.dimNumber
  len_atomCounts : iso.atomCounts.length = iso.dimNumber
  len_marginals : iso.marginals.length = iso.dimNumber
  allDim_eq : iso.allDim = iso.isotopeNumbers.sum
  confSize_eq : iso.confSize = iso.dimNumber * sizeofInt
  modeLProb_eq : iso.modeLProb = (iso.marginals.map Marginal.getModeLProb).sum

/-- The move constructor Iso::Iso(Iso&&) (isoSpec++.cpp:90-101): the new descriptor, and
`other` as the constructor leaves it. An array stands for the pointer to it. -/
def Iso.move {α : Type} (other : Iso α) : Iso α × Iso α :=
  ({ disowned := other.disowned
     dimNumber := other.dimNumber
     isotopeNumbers := other.isotopeNumbers
     atomCounts := other.atomCounts
     confSize := other.confSize
     allDim := other.allDim
     marginals := other.marginals
     modeLProb := other.modeLProb },
   { other with disowned := true })

/-- What a destructor releases: a table of `dimNumber` marginals with its marginals
(`dealloc_table`), or an array of integers (`delete[]`). -/
inductive Released (α : Type) where
  | table (marginals : List (Marginal α)) (dimNumber : Nat)
  | array (a : List Nat)
deriving DecidableEq

/-- The destructor Iso::~Iso (isoSpec++.cpp:153-162), as the list of what it releases, in
order; `marginals_null` tells whether the pointer `marginals` is null. -/
def Iso.destructor {α : Type} (iso : Iso α) (marginals_null : Bool) : List (Released α) :=
  if !iso.disowned then
    (if !marginals_null then [Released.table iso.marginals iso.dimNumber] else []) ++
      [Released.array iso.isotopeNumbers, Released.array iso.atomCounts]
  else []

/-! ## The layered generator: constructor, termination and runs of nextLayer -/

/-- The loop that fills `maxConfsLPSum` (isoSpec++.cpp:420-424 and 574-578) from the mode
log-probabilities `modes` of `marginalResults`: entry 0 is the mode of marginal 0 and entry
`ii` is entry `ii-1` plus the mode of marginal `ii`, for `ii < dimNumber - 1`. The array has
`dimNumber - 1` entries, 0 where the loop writes nothing. -/
def fillMaxConfsLPSum {α : Type} [Zero α] [Add α] (modes : List α) (dimNumber : Nat) : List α :=
  (List.range (dimNumber - 2)).foldl
    (fun t i => t.set (i + 1) (t.getD i 0 + modes.getD (i + 1) 0))
    (if 1 < dimNumber then (List.replicate (dimNumber - 1) 0).set 0 (modes.getD 0 0)
      else List.replicate (dimNumber - 1) 0)

/-- Modelled from the spec: the LayeredMarginal constructor (marginalTrek++.cpp is not
among the sources): all configurations of the element are known to it and none is cached
before the first extension. -/
def LayeredMarginal.ofMarginal {α : Type} (m : Marginal α) : LayeredMarginal α :=
  { all := m.confs, confs := [], lCutOff := ⊤, mode_lprob := m.mode_lprob }

/-- The fields of an IsoLayeredGenerator that only its constructor writes
(isoSpec++.cpp:497-578). -/
structure LayeredOrder (α : Type) where
  marginalResultsUnsorted : List (LayeredMarginal α)
  tmpMarginalOrder : List Nat
  marginalOrder : Option (List Nat)
  maxConfsLPSum : List α

namespace IsoLayeredGenerator

/-- IsoLayeredGenerator::terminate_search (isoSpec++.cpp:619-628). -/
def terminate_search {α : Type} [LinearOrderedCommRing α] (g : IsoLayeredGenerator α) :
    IsoLayeredGenerator α :=
  { g with
    counter := (List.range g.dimNumber).map
      (fun ii => ((g.marginalResults.getD ii default).get_no_confs : Int) - 1)
    partialLProbs := List.replicate (g.dimNumber + 1) ⊥
    lProbs_ptr := ((g.marginalResults.getD 0 default).get_no_confs : Int) - 1 }

variable {α : Type} [LinearOrderedField α]

/-- The marginals in the order the constructor puts them (isoSpec++.cpp:506-570).
`tmpMarginalOrder` is the index array after `std::sort` by the priorities of
isoSpec++.cpp:508-544 (InverseChiSquareCDF2 and TableOrder are not among the sources). -/
def mkOrder (tmpMarginalOrder : List Nat) (iso : Iso α) (reorder_marginals : Bool) :
    List (LayeredMarginal α) × LayeredOrder α :=
  let marginalResultsUnsorted := (List.range iso.dimNumber).map
    (fun ii => LayeredMarginal.ofMarginal (iso.marginals.getD ii ⟨0, 0, [], 0⟩))
  let reorder : Bool := reorder_marginals && decide (1 < iso.dimNumber)
  let marginalResults : List (LayeredMarginal α) :=
    if reorder then
      (List.range iso.dimNumber).map
        (fun ii => marginalResultsUnsorted.getD (tmpMarginalOrder.getD ii 0) default)
    else marginalResultsUnsorted
  (marginalResults,
    { marginalResultsUnsorted := marginalResultsUnsorted
      tmpMarginalOrder := tmpMarginalOrder
      marginalOrder :=
        if reorder then
          some (IsoThresholdGenerator.mkMarginalOrder tmpMarginalOrder iso.dimNumber)
        else none
      maxConfsLPSum :=
        fillMaxConfsLPSum (marginalResults.map LayeredMarginal.getModeLProb) iso.dimNumber })

/-- The state the constructor has built at isoSpec++.cpp:584, before it steps back and
calls nextLayer. `nextafter_down` stands for `nextafter(x, -infinity)` and `min_double` for
`numeric_limits<double>::min()`; entries the constructor leaves uninitialised are 0
(negative infinity for a log-probability). -/
def constructBase (nextafter_down : α → α) (min_double : α) (tmpMarginalOrder : List Nat)
    (iso : Iso α) (reorder_marginals : Bool) : IsoLayeredGenerator α :=
  { dimNumber := iso.dimNumber
    modeLProb := iso.modeLProb
    marginals := iso.marginals
    marginalResults := (mkOrder tmpMarginalOrder iso reorder_marginals).1
    counter := List.replicate iso.dimNumber 0
    partialLProbs := List.replicate iso.dimNumber ⊥ ++ [((0 : α) : WithBot α)]
    partialMasses := List.replicate iso.dimNumber 0 ++ [0]
    partialProbs := List.replicate iso.dimNumber 0 ++ [1]
    currentLThreshold := nextafter_down iso.modeLProb
    lastLThreshold := min_double
    lProbs_ptr := 0
    resetPositions := List.replicate iso.dimNumber 0 }

/-- The statements `counter[0]--; lProbs_ptr--; lastLThreshold = 10.0;`
(isoSpec++.cpp:585-587). -/
def stepBack (g : IsoLayeredGenerator α) : IsoLayeredGenerator α :=
  { g with
    counter := g.counter.set 0 (g.counter.getD 0 0 - 1)
    lProbs_ptr := g.lProbs_ptr - 1
    lastLThreshold := 10 }

/-- The constructor IsoLayeredGenerator::IsoLayeredGenerator (isoSpec++.cpp:490-589). A
molecule without elements makes `new double[dimNumber-1]` throw, which is `none`. -/
def construct (nextafter_down : α → α) (min_double : α) (tmpMarginalOrder : List Nat)
    (iso : Iso α) (reorder_marginals : Bool) :
    Option (IsoLayeredGenerator α × LayeredOrder α) :=
  if iso.dimNumber = 0 then none
  else
    some ((nextLayer
        (stepBack (constructBase nextafter_down min_double tmpMarginalOrder iso
          reorder_marginals)) (-(1 / 100000))).2,
      (mkOrder tmpMarginalOrder iso reorder_marginals).2)

/-- A run of calls of nextLayer with the offsets given, in order: what the calls return
and the state after the last. Before call `k` the caller does `between k` to the
generator, which stands for its calls of advanceToNextConfigurationWithinLayer
(isoSpec++.h is not among the sources). -/
def nextLayers (between : Nat → IsoLayeredGenerator α → IsoLayeredGenerator α) :
    Nat → IsoLayeredGenerator α → List α → List Bool × IsoLayeredGenerator α
  | _, g, [] => ([], g)
  | k, g, offset :: rest =>
    ((nextLayer (between k g) offset).1 ::
        (nextLayers between (k + 1) (nextLayer (between k g) offset).2 rest).1,
      (nextLayers between (k + 1) (nextLayer (between k g) offset).2 rest).2)

/-- What a caller may do to the generator between two calls of nextLayer without
touching the layers: the thresholds, the elements and their marginals stay. -/
def KeepsLayers (f : IsoLayeredGenerator α → IsoLayeredGenerator α) : Prop :=
  ∀ g, (f g).lastLThreshold = g.lastLThreshold ∧ (f g).currentLThreshold = g.currentLThreshold ∧
    (f g).dimNumber = g.dimNumber ∧ (f g).marginals = g.marginals ∧
    (f g).modeLProb = g.modeLProb

end IsoLayeredGenerator

/-! ## The ordered generator: the successors of a popped configuration -/

namespace IsoOrderedGenerator

variable {α : Type} [LinearOrderedCommRing α]

/-- The position `z` of the first index of `c` that is not zero, among the elements
`0..dimNumber-1`; `dimNumber - 1` when all of them are zero. -/
def firstNonzero (c : List Nat) (dimNumber : Nat) : Nat :=
  min ((List.range dimNumber).findIdx (fun j => decide (c.getD j 0 ≠ 0))) (dimNumber - 1)

/-- The probe of the index `c_j + 1` of element `j` succeeds
(`marginalResults[j]->probeConfigurationIdx(topConfIsoCounts[j] + 1)`). -/
def probes (g : IsoOrderedGenerator α) (top : OrdNode α) (j : Nat) : Bool :=
  (g.marginalResults.getD j ⟨0, 0, [], 0⟩).probeConfigurationIdx (top.conf.getD j 0 + 1)

/-- The elements `j <= z` whose probe of the index `c_j + 1` succeeds, in increasing
order; none when there is no element. -/
def spawnable (g : IsoOrderedGenerator α) (top : OrdNode α) : List Nat :=
  if g.dimNumber = 0 then []
  else (List.range (firstNonzero top.conf g.dimNumber + 1)).filter (probes g top)

/-- The node of the successor `c + e_j` of the configuration of `top`, in the block at
`addr`. -/
def successorNode (g : IsoOrderedGenerator α) (top : OrdNode α) (addr j : Nat) : OrdNode α :=
  ⟨addr, combinedSum (incr top.conf j) (logProbs g) g.dimNumber, incr top.conf j⟩

/-- The nodes of the successors `c + e_j` in fresh blocks, the first at `addr` and each
further one in the next block. -/
def freshNodes (g : IsoOrderedGenerator α) (top : OrdNode α) : Nat → List Nat → List (OrdNode α)
  | _, [] => []
  | addr, j :: js => successorNode g top addr j :: freshNodes g top (addr + 1) js

/-- The successors of the popped configuration in the order they are pushed: the first
in the node of `top`, each further one in a fresh block of the allocator, which has handed
out `g.allocated` blocks so far. -/
def successors (g : IsoOrderedGenerator α) (top : OrdNode α) : List (OrdNode α) :=
  match spawnable g top with
  | [] => []
  | j :: js => successorNode g top top.addr j :: freshNodes g top g.allocated js

end IsoOrderedGenerator

/-! ## The rows of the layered tabulator -/

/-- The rows `rows1` are the rows `rows` in another order, the rows before position `lo`
in their places. -/
def Rearranged {β : Type} (lo : Nat) (rows rows1 : List β) : Prop :=
  rows1.Perm rows ∧ ∀ k, k < lo → rows1[k]? = rows[k]?

namespace LayeredTabulator

variable {α : Type} [LinearOrderedCommRing α]

/-- The arrays of the tabulator hold the rows `rows`: each array that was asked for holds
the column of its values, row by row, and the other arrays are null. -/
def HoldsRows (gm gl gp gc : Bool) (t : LayeredTabulator α) (rows : List (Row α)) : Prop :=
  t._masses = (if gm then some (rows.map Row.mass) else none) ∧
  t._lprobs = (if gl then some (rows.map Row.lprob) else none) ∧
  t._probs = (if gp then some (rows.map Row.prob) else none) ∧
  t._confs = (if gc then some (rows.map Row.conf) else none)

/-- The state in which the trimming loop is entered (tabulator.cpp:141-143). -/
def trimInit (c : CollectState α) : TrimState α :=
  ⟨c.tab, c.last_switch, c.tab._confs_no, c.prob_at_last_switch⟩

/-- The state of the trimming loop after `m` iterations, the pivot of iteration `k` being
drawn as `rand k`. -/
def trimIter (buildingR : Bool) (rand : Nat → Nat) : Nat → TrimState α → TrimState α
  | 0, s => s
  | m + 1, s => trimStep buildingR rand m (trimIter buildingR rand m s)

/-- The array indices the partition loop (tabulator.cpp:160-166) reads or writes, in
order: `ii` for the test, and `ii` and `loweridx` for the exchange and the sum. -/
def partitionTouched (pprob : α) : Nat → Nat → PartState α → List Nat
  | 0, _, _ => []
  | left + 1, ii, s =>
    if pprob < probAt s.tab ii then
      ii :: ii :: s.loweridx :: s.loweridx ::
        partitionTouched pprob left (ii + 1)
          ⟨swap s.tab ii s.loweridx, s.new_csum + probAt (swap s.tab ii s.loweridx) s.loweridx,
            s.loweridx + 1⟩
    else ii :: partitionTouched pprob left (ii + 1) s

/-- The array indices one iteration of the trimming loop (tabulator.cpp:147-177) reads or
writes: the pivot, the two exchanges around the partition loop, the indices of the
partition loop and `loweridx` for the new sum. -/
def trimStepTouched (buildingR : Bool) (rand : Nat → Nat) (k : Nat) (s : TrimState α) :
    List Nat :=
  let pivot := pivotIndex buildingR rand k s.start s.end_
  let pprob := probAt s.tab pivot
  let t1 := swap s.tab pivot (s.end_ - 1)
  let ps := partitionLoop pprob (s.end_ - 1 - s.start) s.start ⟨t1, s.sum_to_start, s.start⟩
  [pivot, pivot, s.end_ - 1] ++
    partitionTouched pprob (s.end_ - 1 - s.start) s.start ⟨t1, s.sum_to_start, s.start⟩ ++
    [s.end_ - 1, ps.loweridx, ps.loweridx]

end LayeredTabulator

/-! ## The buffers of the envelopes and their write pointers -/

/-- `realloc(p, n * sizeof(entry))`: a block of `n` entries that keeps the entries of the
block `p` as far as it reaches. A null pointer is `none`, and so is an entry that was
never written. -/
def reallocBlock {β : Type} (p : Option (List (Option β))) (n : Nat) : List (Option β) :=
  (p.getD []).take n ++ List.replicate (n - (p.getD []).length) none

/-- The write `*t = v` through the pointer that is `t` entries behind the start of the
block `p`; `none` when `p` is null or the entry lies outside the block. -/
def writeAt {β : Type} (p : Option (List (Option β))) (t : Nat) (v : β) :
    Option (List (Option β)) :=
  match p with
  | none => none
  | some cells => if t < cells.length then some (cells.set t (some v)) else none

/-- The exchange of the entries `i` and `j` of the block `p`; `none` when `p` is null or
an entry lies outside the block. -/
def swapAt {β : Type} (p : Option (List (Option β))) (i j : Nat) : Option (List (Option β)) :=
  match p with
  | none => none
  | some cells => if i < cells.length ∧ j < cells.length then some (swapL cells i j) else none

/-- The buffers of a FixedEnvelope (fixedEnvelopes.h:30-38, 102-104) with the write
pointers `tmasses`, `tprobs` and `tconfs`, each given by the number of entries it is
behind the start of its array; a configuration of `allDim` integers counts as one
entry. -/
structure FixedEnvelope (α : Type) where
  _masses : Option (List (Option α))
  _probs : Option (List (Option α))
  _confs : Option (List (Option (List Int)))
  _confs_no : Nat
  current_size : Nat
  tmasses : Nat
  tprobs : Nat
  tconfs : Nat
deriving DecidableEq

namespace FixedEnvelope

variable {α : Type}

/-- The constructor FixedEnvelope::FixedEnvelope() (fixedEnvelopes.h:42-50): the arrays
are null and `current_size` is 0; the write pointers are not initialised and hold what
they happen to hold. -/
def empty (tmasses tprobs tconfs : Nat) : FixedEnvelope α :=
  { _masses := none, _probs := none, _confs := none, _confs_no := 0, current_size := 0
    tmasses := tmasses, tprobs := tprobs, tconfs := tconfs }

/-- Modelled from the spec: FixedEnvelope::reallocate_memory, declared at
fixedEnvelopes.h:147 without a body: "growable buffers (malloc/realloc doubling)". The
arrays of masses and probabilities, and with `tgetConfs` the array of configurations, are
reallocated to `new_size` entries and their write pointers are set behind the rows stored,
as LayeredTabulator::addConf does it at tabulator.cpp:210-213. -/
def reallocate_memory (tgetConfs : Bool) (e : FixedEnvelope α) (new_size : Nat) :
    FixedEnvelope α :=
  { e with
    _masses := some (reallocBlock e._masses new_size)
    tmasses := e._confs_no
    _probs := some (reallocBlock e._probs new_size)
    tprobs := e._confs_no
    _confs := if tgetConfs then some (reallocBlock e._confs new_size) else e._confs
    tconfs := if tgetConfs then e._confs_no else e.tconfs }

/-- The template FixedEnvelope::store_conf<T, tgetConfs>(T& generator)
(fixedEnvelopes.h:110-115), the generator given by the row it reports; `none` when a
write goes outside its block. -/
def store_conf_generator (tgetConfs : Bool) (e : FixedEnvelope α) (r : Row α) :
    Option (FixedEnvelope α) :=
  match writeAt e._masses e.tmasses r.mass, writeAt e._probs e.tprobs r.prob with
  | some m, some p =>
    if tgetConfs then
      match writeAt e._confs e.tconfs r.conf with
      | some c =>
        some { e with
          _masses := some m, tmasses := e.tmasses + 1
          _probs := some p, tprobs := e.tprobs + 1
          _confs := some c, tconfs := e.tconfs + 1 }
      | none => none
    else
      some { e with
        _masses := some m, tmasses := e.tmasses + 1
        _probs := some p, tprobs := e.tprobs + 1 }
  | _, _ => none

/-- FixedEnvelope::swap<tgetConfs> (fixedEnvelopes.h:133-145): the probabilities and the
masses are exchanged without a test of the pointers, the configurations with `tgetConfs`;
`none` when an entry read or written is outside its block. -/
def swap (tgetConfs : Bool) (e : FixedEnvelope α) (idx1 idx2 : Nat) : Option (FixedEnvelope α) :=
  match swapAt e._probs idx1 idx2, swapAt e._masses idx1 idx2 with
  | some p, some m =>
    if tgetConfs then
      match swapAt e._confs idx1 idx2 with
      | some c => some { e with _probs := some p, _masses := some m, _confs := some c }
      | none => none
    else some { e with _probs := some p, _masses := some m }
  | _, _ => none

end FixedEnvelope

namespace TotalProbFixedEnvelope

variable {α : Type}

/-- TotalProbFixedEnvelope::addConf<tgetConfs> (fixedEnvelopes.h:205-215) on the buffers
the class inherits from FixedEnvelope. -/
def addConf (tgetConfs : Bool) (e : FixedEnvelope α) (r : Row α) : Option (FixedEnvelope α) :=
  let e1 := if e._confs_no = e.current_size then
      FixedEnvelope.reallocate_memory tgetConfs { e with current_size := e.current_size * 2 }
        (e.current_size * 2)
    else e
  (FixedEnvelope.store_conf_generator tgetConfs e1 r).map
    (fun e2 => { e2 with _confs_no := e2._confs_no + 1 })

end TotalProbFixedEnvelope

/-- The buffers of a LayeredTabulator with the write pointers `tmasses`, `tlprobs`,
`tprobs` and `tconfs` (tabulator.cpp:98-106, 202-222), each given by the number of entries
it is behind the start of its array. -/
structure LayeredTabulatorBuffers (α : Type) where
  _masses : Option (List (Option α))
  _lprobs : Option (List (Option α))
  _probs : Option (List (Option α))
  _confs : Option (List (Option (List Int)))
  _confs_no : Nat
  current_size : Nat
  tmasses : Nat
  tlprobs : Nat
  tprobs : Nat
  tconfs : Nat
deriving DecidableEq

namespace LayeredTabulatorBuffers

variable {α : Type}

/-- The statement `if(p != nullptr) { *t = v; t++; }` of LayeredTabulator::addConf
(tabulator.cpp:216-219): the array and the pointer after it, `none` when the write goes
outside the block. -/
def writeNonNull {β : Type} (p : Option (List (Option β))) (t : Nat) (v : β) :
    Option (Option (List (Option β)) × Nat) :=
  match p with
  | none => some (none, t)
  | some cells => if t < cells.length then some (some (cells.set t (some v)), t + 1) else none

/-- LayeredTabulator::addConf (tabulator.cpp:202-222) on the buffers, the generator given
by the row it reports; `none` when a write goes outside its block. -/
def addConf (b : LayeredTabulatorBuffers α) (r : Row α) : Option (LayeredTabulatorBuffers α) :=
  let b1 : LayeredTabulatorBuffers α := if b._confs_no = b.current_size then
      { b with
        current_size := b.current_size * 2
        _masses := b._masses.map (fun _ => reallocBlock b._masses (b.current_size * 2))
        tmasses := if b._masses.isSome then b._confs_no else b.tmasses
        _lprobs := b._lprobs.map (fun _ => reallocBlock b._lprobs (b.current_size * 2))
        tlprobs := if b._lprobs.isSome then b._confs_no else b.tlprobs
        _probs := b._probs.map (fun _ => reallocBlock b._probs (b.current_size * 2))
        tprobs := if b._probs.isSome then b._confs_no else b.tprobs
        _confs := b._confs.map (fun _ => reallocBlock b._confs (b.current_size * 2))
        tconfs := if b._confs.isSome then b._confs_no else b.tconfs }
    else b
  match writeNonNull b1._masses b1.tmasses r.mass, writeNonNull b1._lprobs b1.tlprobs r.lprob,
      writeNonNull b1._probs b1.tprobs r.prob, writeNonNull b1._confs b1.tconfs r.conf with
  | some (m, tm), some (l, tl), some (p, tp), some (c, tc) =>
    some { b1 with
      _masses := m, tmasses := tm, _lprobs := l, tlprobs := tl
      _probs := p, tprobs := tp, _confs := c, tconfs := tc
      _confs_no := b1._confs_no + 1 }
  | _, _, _, _ => none

end LayeredTabulatorBuffers

namespace FixedEnvelope

variable {α : Type}

end FixedEnvelope

namespace LayeredTabulatorBuffers

variable {α : Type}

end LayeredTabulatorBuffers

/-! ## LayeredTabulator on the machine: the additions of doubles and the accesses that fail -/

/-- The integer nearest to `x`, the even one of the two when `x` lies in the middle. -/
def roundHalfEven (x : ℚ) : ℤ :=
  if x - ⌊x⌋ < 1 / 2 then ⌊x⌋
  else if 1 / 2 < x - ⌊x⌋ then ⌊x⌋ + 1
  else if ⌊x⌋ % 2 = 0 then ⌊x⌋ else ⌊x⌋ + 1

/-- The double nearest to the rational `q` (IEEE 754 binary64: a significand of 53 bits,
round to nearest, ties to even). The range of the exponent is not bounded: the model has
no overflow and no subnormal numbers. -/
def toDouble (q : ℚ) : ℚ :=
  if q = 0 then 0
  else if 0 < q then (roundHalfEven (q / 2 ^ (Int.log 2 q - 52)) : ℚ) * 2 ^ (Int.log 2 q - 52)
  else -((roundHalfEven (-q / 2 ^ (Int.log 2 (-q) - 52)) : ℚ) * 2 ^ (Int.log 2 (-q) - 52))

/-- The sum of two doubles as the machine computes it: the double nearest to the sum. -/
def doubleAdd (a b : ℚ) : ℚ := toDouble (a + b)

/-- The exchange of the entries `i` and `j` of an array that is accessed without a null
test: `none` when the array is null or an entry lies behind the rows written. -/
def swapEntries {β : Type} (p : Option (List β)) (i j : Nat) : Option (List β) :=
  match p with
  | none => none
  | some l => if i < l.length ∧ j < l.length then some (swapL l i j) else none

/-- The exchange of the entries `i` and `j` of an array behind the test
`if(p != nullptr)`: a null array is left null, and the result is `none` when an entry
lies behind the rows written. -/
def swapNonNull {β : Type} (p : Option (List β)) (i j : Nat) : Option (Option (List β)) :=
  match p with
  | none => some none
  | some l => if i < l.length ∧ j < l.length then some (some (swapL l i j)) else none

namespace LayeredTabulator

namespace Machine

variable {α : Type} [LinearOrderedCommRing α]

/-- The read of `_probs[i]`: `none` when `_probs` is null or the entry lies behind the
rows written. -/
def readProb (t : LayeredTabulator α) (i : Nat) : Option α :=
  match t._probs with
  | none => none
  | some p => p[i]?

/-- LayeredTabulator::swap (tabulator.cpp:61-74): `_probs` is exchanged without a null
test (line 63), the other arrays behind one (lines 64-66); `none` when an access
fails. -/
def swap (t : LayeredTabulator α) (idx1 idx2 : Nat) : Option (LayeredTabulator α) :=
  match swapEntries t._probs idx1 idx2, swapNonNull t._lprobs idx1 idx2,
      swapNonNull t._masses idx1 idx2, swapNonNull t._confs idx1 idx2 with
  | some p, some l, some m, some c =>
    some { t with _probs := some p, _lprobs := l, _masses := m, _confs := c }
  | _, _, _, _ => none

/-- The inner loop `while(generator.advanceToNextConfigurationWithinLayer())`
(tabulator.cpp:115-121) over the rows the generator emits in the current layer;
`prob_so_far += generator.prob()` is the addition `fadd` of the machine. -/
def addRows (fadd : α → α → α) :
    LayeredTabulator α → α → List (Row α) → LayeredTabulator α × α × Bool
  | t, p, [] => (t, p, false)
  | t, p, r :: rs =>
    if !t.optimize && decide (t.target_total_prob ≤ ((fadd p r.prob : α) : WithTop α)) then
      (addConf t r, fadd p r.prob, true)
    else addRows fadd (addConf t r) (fadd p r.prob) rs

/-- The loop `do ... while(generator.nextLayer(-3.0))` (tabulator.cpp:112-126) over the
layers the generator emits. -/
def collectLayers (fadd : α → α → α) :
    LayeredTabulator α → Nat → α → α → List (List (Row α)) → CollectState α
  | t, ls, pls, p, [] => ⟨t, ls, pls, p, false⟩
  | t, ls, pls, p, layer :: rest =>
    match addRows fadd t p layer with
    | (t1, p1, true) => ⟨t1, ls, pls, p1, true⟩
    | (t1, p1, false) =>
      if t1.target_total_prob ≤ ((p1 : α) : WithTop α) then ⟨t1, ls, pls, p1, false⟩
      else collectLayers fadd t1 t1._confs_no p1 p1 rest

/-- The partition loop `for(ii=start; ii<end-1; ii++)` (tabulator.cpp:160-166), from
index `ii` with `left` indices to go; `new_csum += _probs[loweridx]` is the addition
`fadd`. -/
def partitionLoop (fadd : α → α → α) (pprob : α) :
    Nat → Nat → PartState α → Option (PartState α)
  | 0, _, s => some s
  | left + 1, ii, s =>
    match readProb s.tab ii with
    | none => none
    | some x =>
      if pprob < x then
        match swap s.tab ii s.loweridx with
        | none => none
        | some t1 =>
          match readProb t1 s.loweridx with
          | none => none
          | some y => partitionLoop fadd pprob left (ii + 1) ⟨t1, fadd s.new_csum y, s.loweridx + 1⟩
      else partitionLoop fadd pprob left (ii + 1) s

/-- One iteration of the trimming loop (tabulator.cpp:147-177). -/
def trimStep (fadd : α → α → α) (buildingR : Bool) (rand : Nat → Nat) (k : Nat)
    (s : TrimState α) : Option (TrimState α) :=
  match readProb s.tab (pivotIndex buildingR rand k s.start s.end_) with
  | none => none
  | some pprob =>
    match swap s.tab (pivotIndex buildingR rand k s.start s.end_) (s.end_ - 1) with
    | none => none
    | some t1 =>
      match partitionLoop fadd pprob (s.end_ - 1 - s.start) s.start
          ⟨t1, s.sum_to_start, s.start⟩ with
      | none => none
      | some ps =>
        match swap ps.tab (s.end_ - 1) ps.loweridx with
        | none => none
        | some t3 =>
          if ((ps.new_csum : α) : WithTop α) < t3.target_total_prob then
            match readProb t3 ps.loweridx with
            | none => none
            | some y =>
              some { tab := t3, start := ps.loweridx + 1, end_ := s.end_,
                     sum_to_start := fadd ps.new_csum y }
          else
            some { tab := t3, start := s.start, end_ := ps.loweridx,
                   sum_to_start := s.sum_to_start }

/-- The trimming loop `while(start < end)` (tabulator.cpp:145-178), bounded by `fuel`
iterations; `k` counts the iterations done. -/
def quicktrim (fadd : α → α → α) (buildingR : Bool) (rand : Nat → Nat) :
    Nat → Nat → TrimState α → Option (TrimState α)
  | 0, _, s => some s
  | fuel + 1, k, s =>
    if s.start < s.end_ then
      match trimStep fadd buildingR rand k s with
      | none => none
      | some s1 => quicktrim fadd buildingR rand fuel (k + 1) s1
    else some s

/-- The tabulator after the layers are stored (tabulator.cpp:76-126). -/
def collect (fadd : α → α → α) (layers : List (List (Row α))) (allDim : Nat)
    (get_masses get_probs get_lprobs get_confs : Bool) (_target_total_prob : α)
    (_optimize : Bool) : CollectState α :=
  collectLayers fadd
    { _masses := if get_masses then some [] else none
      _lprobs := if get_lprobs then some [] else none
      _probs := if _optimize || get_probs then some [] else none
      _confs := if get_confs then some [] else none
      _confs_no := 0
      allDim := allDim
      target_total_prob := if 1 ≤ _target_total_prob then ⊤ else (_target_total_prob : WithTop α)
      current_size := ISOSPEC_INIT_TABLE_SIZE
      optimize := _optimize } 0 0 0 layers

/-- The state in which the trimming loop ends (tabulator.cpp:141-178), run for as many
iterations as the last layer has rows. -/
def trimmed (fadd : α → α → α) (buildingR : Bool) (rand : Nat → Nat) (c : CollectState α) :
    Option (TrimState α) :=
  quicktrim fadd buildingR rand (c.tab._confs_no - c.last_switch) 0 (trimInit c)

/-- The constructor LayeredTabulator::LayeredTabulator (tabulator.cpp:76-198) with the
additions of the machine, `fadd`, and `none` when an access fails. `layers` are the rows
the layered generator emits, `allDim` is its getAllDim(), and `buildingR` and `rand` give
the pivots. -/
def construct (fadd : α → α → α) (buildingR : Bool) (rand : Nat → Nat)
    (layers : List (List (Row α))) (allDim : Nat)
    (get_masses get_probs get_lprobs get_confs : Bool) (_target_total_prob : α)
    (_optimize : Bool) : Option (LayeredTabulator α) :=
  if _target_total_prob ≤ 0 then
    some
      { _masses := none, _lprobs := none, _probs := none, _confs := none, _confs_no := 0
        allDim := 0
        target_total_prob :=
          if 1 ≤ _target_total_prob then ⊤ else (_target_total_prob : WithTop α)
        current_size := ISOSPEC_INIT_TABLE_SIZE
        optimize := _optimize }
  else
    let c := collect fadd layers allDim get_masses get_probs get_lprobs get_confs
      _target_total_prob _optimize
    if c.returned then some c.tab
    else if !_optimize || decide (((c.prob_so_far : α) : WithTop α) ≤ c.tab.target_total_prob) then
      some c.tab
    else (trimmed fadd buildingR rand c).map (finish get_probs)

/-- The accumulated probability `prob_so_far` after the rows `rows` are stored, as the
machine computes it: every row's probability added with `fadd`, from 0. -/
def accumulated (fadd : α → α → α) (rows : List (Row α)) : α :=
  rows.foldl (fun p r => fadd p r.prob) 0

end Machine

end LayeredTabulator

/-! ## List helpers -/

theorem getD_set_eq {β : Type} (l : List β) (i : Nat) (x d : β) (h : i < l.length) :
    (l.set i x).getD i d = x := by
  simp [List.getD_eq_getElem?_getD, h]

theorem getD_set_ne {β : Type} (l : List β) (i j : Nat) (x d : β) (h : i ≠ j) :
    (l.set i x).getD j d = l.getD j d := by
  simp [List.getD_eq_getElem?_getD, List.getElem?_set_ne h]

theorem sum_map_range_eq {M : Type} [AddCommMonoid M] (f : ℕ → M) (n : ℕ) :
    ((List.range n).map f).sum = ∑ i in Finset.range n, f i := by
  simp [Finset.sum, Finset.range, Multiset.range]

/-! ## Properties of the threshold generator -/

namespace IsoThresholdGenerator

variable {α : Type} [LinearOrderedCommRing α]

theorem jointLProb_eq_suffixLP (g : IsoThresholdGenerator α) : jointLProb g = suffixLP g 0 := by
  unfold jointLProb suffixLP
  rw [sum_map_range_eq, Finset.range_eq_Ico]

theorem suffixLP_succ (g : IsoThresholdGenerator α) (k : Nat) (h : k < g.dimNumber) :
    suffixLP g k = lpAt g k + suffixLP g (k + 1) :=
  Finset.sum_eq_sum_Ico_succ_bot h _

theorem suffixLP_congr (g g1 : IsoThresholdGenerator α) (k : Nat)
    (hd : g1.dimNumber = g.dimNumber) (hm : g1.marginalResults = g.marginalResults)
    (hc : ∀ i, k ≤ i → g1.counter.getD i 0 = g.counter.getD i 0) :
    suffixLP g1 k = suffixLP g k := by
  unfold suffixLP
  rw [hd]
  apply Finset.sum_congr rfl
  intro i hi
  simp only [Finset.mem_Ico] at hi
  simp only [lpAt, hm, hc i hi.1]

theorem SameStatic.refl (g : IsoThresholdGenerator α) : SameStatic g g :=
  ⟨rfl, rfl, rfl, rfl, rfl, rfl, rfl, rfl, rfl, rfl⟩

theorem SameStatic.trans {g g1 g2 : IsoThresholdGenerator α} (h1 : SameStatic g g1)
    (h2 : SameStatic g1 g2) : SameStatic g g2 := by
  obtain ⟨a1, a2, a3, a4, a5, a6, a7, a8, a9, a10⟩ := h1
  obtain ⟨b1, b2, b3, b4, b5, b6, b7, b8, b9, b10⟩ := h2
  exact ⟨b1.trans a1, b2.trans a2, b3.trans a3, b4.trans a4, b5.trans a5, b6.trans a6,
    b7.trans a7, b8.trans a8, b9.trans a9, b10.trans a10⟩

theorem Static.of_same {g g1 : IsoThresholdGenerator α} (h : SameStatic g g1) (hs : Static g) :
    Static g1 := by
  obtain ⟨a1, a2, a3, a4, a5, a6, a7, a8, a9, a10⟩ := h
  exact ⟨a1 ▸ hs.dim_pos, by rw [a7, a1]; exact hs.len_m, by rw [a9, a7]; exact hs.maxc,
    by rw [a5, a7]; exact hs.heads⟩

theorem recalcStep_same (g : IsoThresholdGenerator α) (k : Nat) : SameStatic g (recalcStep g k) :=
  ⟨rfl, rfl, rfl, rfl, rfl, rfl, rfl, rfl, rfl, rfl⟩

theorem recalcStep_counter (g : IsoThresholdGenerator α) (k : Nat) :
    (recalcStep g k).counter = g.counter := rfl

theorem recalcStep_ptr (g : IsoThresholdGenerator α) (k : Nat) :
    (recalcStep g k).lProbs_ptr = g.lProbs_ptr := rfl

theorem recalcStep_len (g : IsoThresholdGenerator α) (k : Nat) :
    (recalcStep g k).partialLProbs.length = g.partialLProbs.length := by
  simp [recalcStep]

theorem recalc_same (g : IsoThresholdGenerator α) (k : Nat) : SameStatic g (recalc g k) := by
  induction k generalizing g with
  | zero => exact recalcStep_same g 0
  | succ k ih => exact (recalcStep_same g (k + 1)).trans (ih _)

theorem recalc_counter (g : IsoThresholdGenerator α) (k : Nat) :
    (recalc g k).counter = g.counter := by
  induction k generalizing g with
  | zero => rfl
  | succ k ih => exact (ih _).trans rfl

theorem recalc_ptr (g : IsoThresholdGenerator α) (k : Nat) :
    (recalc g k).lProbs_ptr = g.lProbs_ptr := by
  induction k generalizing g with
  | zero => rfl
  | succ k ih => exact (ih _).trans rfl

theorem recalc_len (g : IsoThresholdGenerator α) (k : Nat) :
    (recalc g k).partialLProbs.length = g.partialLProbs.length := by
  induction k generalizing g with
  | zero => exact recalcStep_len g 0
  | succ k ih => exact (ih _).trans (recalcStep_len g _)

theorem lpAt_congr (g g1 : IsoThresholdGenerator α) (i : Nat)
    (hm : g1.marginalResults = g.marginalResults) (hc : g1.counter = g.counter) :
    lpAt g1 i = lpAt g i := by
  simp only [lpAt, hm, hc]

/-- After recalc(k0) the entries above `k0` are untouched and every entry `k ≤ k0` is the
entry above it plus the log-probability of marginal `k`'s current entry. -/
theorem recalc_partialLProbs (g : IsoThresholdGenerator α) (k0 : Nat)
    (hlen : k0 < g.partialLProbs.length) :
    (∀ k, k0 < k → (recalc g k0).partialLProbs.getD k ⊥ = g.partialLProbs.getD k ⊥) ∧
    (∀ k, k ≤ k0 → (recalc g k0).partialLProbs.getD k ⊥ =
      (recalc g k0).partialLProbs.getD (k + 1) ⊥ + lpAt g k) := by
  induction k0 generalizing g with
  | zero =>
    constructor
    · intro k hk
      show (g.partialLProbs.set 0 _).getD k ⊥ = _
      rw [getD_set_ne _ _ _ _ _ (by omega)]
    · intro k hk
      obtain rfl : k = 0 := by omega
      show (g.partialLProbs.set 0 _).getD 0 ⊥ = (g.partialLProbs.set 0 _).getD 1 ⊥ + _
      rw [getD_set_eq _ _ _ _ hlen, getD_set_ne _ _ _ _ _ (by omega)]
      rfl
  | succ k0 ih =>
    have hlen1 : k0 < (recalcStep g (k0 + 1)).partialLProbs.length := by
      rw [recalcStep_len]; omega
    obtain ⟨h1, h2⟩ := ih (recalcStep g (k0 + 1)) hlen1
    have hstep : ∀ k, k0 + 1 < k →
        (recalcStep g (k0 + 1)).partialLProbs.getD k ⊥ = g.partialLProbs.getD k ⊥ := by
      intro k hk
      show (g.partialLProbs.set (k0 + 1) _).getD k ⊥ = _
      rw [getD_set_ne _ _ _ _ _ (by omega)]
    have hstep1 : (recalcStep g (k0 + 1)).partialLProbs.getD (k0 + 1) ⊥ =
        g.partialLProbs.getD (k0 + 2) ⊥ + lpAt g (k0 + 1) := by
      show (g.partialLProbs.set (k0 + 1) _).getD (k0 + 1) ⊥ = _
      rw [getD_set_eq _ _ _ _ hlen]
      rfl
    constructor
    · intro k hk
      show (recalc (recalcStep g (k0 + 1)) k0).partialLProbs.getD k ⊥ = _
      rw [h1 k (by omega), hstep k hk]
    · intro k hk
      show (recalc (recalcStep g (k0 + 1)) k0).partialLProbs.getD k ⊥ =
        (recalc (recalcStep g (k0 + 1)) k0).partialLProbs.getD (k + 1) ⊥ + _
      by_cases hk0 : k ≤ k0
      · rw [h2 k hk0]
        rfl
      · obtain rfl : k = k0 + 1 := by omega
        rw [h1 (k0 + 1) (by omega), h1 (k0 + 2) (by omega), hstep1, hstep (k0 + 2) (by omega)]

theorem recalc_sum (g : IsoThresholdGenerator α) (k0 : Nat) (hlen : k0 < g.partialLProbs.length)
    (j : Nat) : ∀ k, k + j = k0 + 1 → (recalc g k0).partialLProbs.getD k ⊥ =
      g.partialLProbs.getD (k0 + 1) ⊥ + ∑ i in Finset.Ico k (k0 + 1), lpAt g i := by
  obtain ⟨h1, h2⟩ := recalc_partialLProbs g k0 hlen
  induction j with
  | zero =>
    intro k hk
    obtain rfl : k = k0 + 1 := by omega
    rw [h1 _ (by omega)]
    simp
  | succ j ih =>
    intro k hk
    rw [h2 k (by omega), ih (k + 1) (by omega), Finset.sum_eq_sum_Ico_succ_bot (by omega : k < k0 + 1)]
    rw [add_assoc, add_comm (lpAt g k)]

/-- After recalc(k0) on a state whose entries above `k0` are the sums of the current
entries, every partial log-probability is the sum of the current entries. -/
theorem recalc_live (g : IsoThresholdGenerator α) (k0 : Nat)
    (hlp : g.partialLProbs.length = g.dimNumber + 1) (hk0 : k0 < g.dimNumber)
    (hs : ∀ k, k0 + 1 ≤ k → k ≤ g.dimNumber → g.partialLProbs.getD k ⊥ = suffixLP g k) :
    ∀ k, k ≤ g.dimNumber →
      (recalc g k0).partialLProbs.getD k ⊥ = suffixLP (recalc g k0) k := by
  intro k hk
  have hsame := recalc_same g k0
  rw [suffixLP_congr g (recalc g k0) k hsame.1 hsame.2.2.2.2.2.2.1
    (fun i _ => by rw [recalc_counter])]
  by_cases hk1 : k0 + 1 ≤ k
  · rw [(recalc_partialLProbs g k0 (by omega)).1 k (by omega)]
    exact hs k hk1 hk
  · rw [recalc_sum g k0 (by omega) (k0 + 1 - k) k (by omega), hs (k0 + 1) le_rfl (by omega)]
    unfold suffixLP
    rw [add_comm]
    exact Finset.sum_Ico_consecutive _ (by omega) (by omega)

theorem terminate_search_same (g : IsoThresholdGenerator α) : SameStatic g (terminate_search g) :=
  ⟨rfl, rfl, rfl, rfl, rfl, rfl, rfl, rfl, rfl, rfl⟩

theorem terminate_search_dead (g : IsoThresholdGenerator α) : Dead (terminate_search g) := by
  intro k
  show (List.replicate (g.dimNumber + 1) (⊥ : WithBot α)).getD k ⊥ = ⊥
  rw [List.getD_eq_getElem?_getD]
  cases h : (List.replicate (g.dimNumber + 1) (⊥ : WithBot α))[k]? with
  | none => rfl
  | some x =>
    have := List.getElem?_mem h
    rw [List.mem_replicate] at this
    simp [this.2]

theorem get_lProb_zero_of_cons (m : PrecalculatedMarginal α) (c : MarginalConf α)
    (rest : List (MarginalConf α)) (h : m.confs = c :: rest) :
    m.get_lProb 0 = (c.lprob : WithBot α) := by
  simp [PrecalculatedMarginal.get_lProb, h]

theorem maxConfsLPSum_getD (g : IsoThresholdGenerator α) (hst : Static g) (idx : Nat)
    (h : idx + 1 < g.dimNumber) :
    g.maxConfsLPSum.getD idx 0 =
      ∑ i in Finset.range (idx + 1), (g.marginalResults.getD i default).getModeLProb := by
  rw [hst.maxc, mkMaxConfsLPSum, List.getD_eq_getElem?_getD, List.getElem?_map,
    List.getElem?_range (by rw [hst.len_m]; omega)]
  simp [sum_map_range_eq]

theorem coe_sum_le_of_heads (g : IsoThresholdGenerator α) (hst : Static g)
    (hne : g.empty = false) (n : Nat) (hn : n ≤ g.dimNumber)
    (hz : ∀ j, j < n → g.counter.getD j 0 = 0) :
    ((∑ i in Finset.range n, (g.marginalResults.getD i default).getModeLProb : α) : WithBot α)
      ≤ ∑ i in Finset.range n, lpAt g i := by
  induction n with
  | zero => simp
  | succ n ih =>
    rw [Finset.sum_range_succ, Finset.sum_range_succ, WithBot.coe_add]
    apply add_le_add (ih (by omega) (fun j hj => hz j (by omega)))
    have hmem : g.marginalResults.getD n default ∈ g.marginalResults := by
      rw [List.getD_eq_getElem?_getD, List.getElem?_eq_getElem (by rw [hst.len_m]; omega)]
      exact List.getElem_mem _
    obtain ⟨c, rest, hc, hle⟩ := hst.heads hne _ hmem
    rw [lpAt, hz n (by omega), get_lProb_zero_of_cons _ c rest hc]
    exact WithBot.coe_le_coe.mpr hle

theorem carry_succ (g : IsoThresholdGenerator α) (left idx : Nat) :
    carry g (left + 1) idx =
      if (g.marginalResults.getD (idx + 1) default).inRange (g.counter.getD (idx + 1) 0 + 1) ∧
          (g.Lcutoff : WithBot α) ≤ g.partialLProbs.getD (idx + 2) ⊥ +
            (g.marginalResults.getD (idx + 1) default).get_lProb (g.counter.getD (idx + 1) 0 + 1) +
            ((g.maxConfsLPSum.getD idx 0 : α) : WithBot α)
      then (true, recalc (carryStep g idx) (idx + 1))
      else carry (carryStep g idx) left (idx + 1) :=
  rfl

/-- The carry on a live cursor whose counters below `idx` are zero: an accepted
configuration has a joint log-probability at or above the cutoff, and a failed carry leaves
the terminated cursor. -/
theorem carry_spec (left : Nat) : ∀ (idx : Nat) (g : IsoThresholdGenerator α), Static g →
    g.empty = false → g.counter.length = g.dimNumber →
    g.partialLProbs.length = g.dimNumber + 1 → idx + left + 1 = g.dimNumber →
    (∀ k, idx + 2 ≤ k → k ≤ g.dimNumber → g.partialLProbs.getD k ⊥ = suffixLP g k) →
    (∀ j, j < idx → g.counter.getD j 0 = 0) →
    SameStatic g (carry g left idx).2 ∧
    ((carry g left idx).1 = true → Live (carry g left idx).2 ∧
      ∃ lp : α, lprob (carry g left idx).2 = (lp : WithBot α) ∧
        jointLProb (carry g left idx).2 = (lp : WithBot α) ∧ g.Lcutoff ≤ lp) ∧
    ((carry g left idx).1 = false → Dead (carry g left idx).2) := by
  induction left with
  | zero =>
    intro idx g hst hne hlc hlp hidx hs hz
    refine ⟨terminate_search_same g, ?_, fun _ => terminate_search_dead g⟩
    intro h
    exact absurd h (by simp [carry])
  | succ left ih =>
    intro idx g hst hne hlc hlp hidx hs hz
    rw [carry_succ]
    generalize hg1 : carryStep g idx = g1
    have hsame1 : SameStatic g g1 := by
      subst hg1; exact ⟨rfl, rfl, rfl, rfl, rfl, rfl, rfl, rfl, rfl, rfl⟩
    have hc1 : g1.counter =
        (g.counter.set idx 0).set (idx + 1) (g.counter.getD (idx + 1) 0 + 1) := by
      subst hg1; rfl
    have hp1 : g1.partialLProbs = g.partialLProbs := by subst hg1; rfl
    have hst1 : Static g1 := hst.of_same hsame1
    have hd1 : g1.dimNumber = g.dimNumber := hsame1.1
    have hm1 : g1.marginalResults = g.marginalResults := hsame1.2.2.2.2.2.2.1
    have hne1 : g1.empty = false := by rw [hsame1.2.2.2.2.1]; exact hne
    have hlc1 : g1.counter.length = g1.dimNumber := by
      rw [hc1, hd1]; simpa using hlc
    have hcg : ∀ j, idx + 2 ≤ j → g1.counter.getD j 0 = g.counter.getD j 0 := by
      intro j hj
      rw [hc1, getD_set_ne _ _ _ _ _ (by omega), getD_set_ne _ _ _ _ _ (by omega)]
    have hcl : ∀ j, j ≤ idx → g1.counter.getD j 0 = 0 := by
      intro j hj
      rw [hc1, getD_set_ne _ _ _ _ _ (by omega)]
      by_cases hji : j = idx
      · subst hji
        rw [getD_set_eq _ _ _ _ (by omega)]
      · rw [getD_set_ne _ _ _ _ _ (by omega)]
        exact hz j (by omega)
    have hcs : g1.counter.getD (idx + 1) 0 = g.counter.getD (idx + 1) 0 + 1 := by
      rw [hc1, getD_set_eq _ _ _ _ (by rw [List.length_set]; omega)]
    have hs1 : ∀ k, idx + 2 ≤ k → k ≤ g1.dimNumber →
        g1.partialLProbs.getD k ⊥ = suffixLP g1 k := by
      intro k hk hkd
      rw [hp1, hs k hk (hd1 ▸ hkd)]
      exact (suffixLP_congr g g1 k hd1 hm1 (fun i hi => hcg i (by omega))).symm
    split
    · rename_i hcond
      have hr := recalc_same g1 (idx + 1)
      have hlive := recalc_live g1 (idx + 1) (by rw [hp1, hd1]; exact hlp) (by omega) hs1
      refine ⟨hsame1.trans hr, fun _ => ⟨⟨?_, ?_, ?_, ?_⟩, ?_⟩, fun h => absurd h (by simp)⟩
      · show (recalc g1 (idx + 1)).empty = false
        rw [hr.2.2.2.2.1]; exact hne1
      · show (recalc g1 (idx + 1)).counter.length = (recalc g1 (idx + 1)).dimNumber
        rw [recalc_counter, hr.1]; exact hlc1
      · show (recalc g1 (idx + 1)).partialLProbs.length = (recalc g1 (idx + 1)).dimNumber + 1
        rw [recalc_len, hr.1, hp1, hd1]; exact hlp
      · intro k _ hk
        exact hlive k (hr.1 ▸ hk)
      · show ∃ lp : α, lprob (recalc g1 (idx + 1)) = (lp : WithBot α) ∧
          jointLProb (recalc g1 (idx + 1)) = (lp : WithBot α) ∧ g.Lcutoff ≤ lp
        have hsuf : suffixLP (recalc g1 (idx + 1)) 0 = suffixLP g1 0 :=
          suffixLP_congr g1 _ 0 hr.1 hr.2.2.2.2.2.2.1 (fun i _ => by rw [recalc_counter])
        have hsplit : suffixLP g1 0 = (∑ i in Finset.range (idx + 1), lpAt g1 i) +
            (lpAt g1 (idx + 1) + suffixLP g1 (idx + 2)) := by
          rw [← suffixLP_succ g1 (idx + 1) (by omega), Finset.range_eq_Ico]
          exact (Finset.sum_Ico_consecutive _ (by omega) (by omega)).symm
        have hhead := coe_sum_le_of_heads g1 hst1 hne1 (idx + 1) (by omega)
          (fun j hj => hcl j (by omega))
        have hmax := maxConfsLPSum_getD g hst idx (by omega)
        have hge : (g.Lcutoff : WithBot α) ≤ suffixLP (recalc g1 (idx + 1)) 0 := by
          rw [hsuf, hsplit, ← hs1 (idx + 2) le_rfl (by omega), hp1, lpAt, hcs, hm1]
          refine le_trans hcond.2 ?_
          rw [add_comm _ ((g.maxConfsLPSum.getD idx 0 : α) : WithBot α),
            add_comm (g.partialLProbs.getD (idx + 2) ⊥)]
          apply add_le_add _ le_rfl
          rw [hmax, ← hm1]
          exact hhead
        obtain ⟨lp, hlp', hle⟩ := WithBot.coe_le_iff.mp hge
        refine ⟨lp, ?_, ?_, hle⟩
        · rw [← hlp']
          exact hlive 0 (by omega)
        · rw [jointLProb_eq_suffixLP, hlp']
    · have := ih (idx + 1) g1 hst1 hne1 hlc1 (by rw [hp1, hd1]; exact hlp) (by omega)
        (fun k hk hkd => hs1 k (by omega) hkd) (fun j hj => hcl j (by omega))
      refine ⟨hsame1.trans this.1, ?_, this.2.2⟩
      intro h
      obtain ⟨hl, lp, h1, h2, h3⟩ := this.2.1 h
      exact ⟨hl, lp, h1, h2, by rw [← hsame1.2.2.2.1]; exact h3⟩

/-- The carry on a terminated cursor fails and leaves it terminated. -/
theorem carry_dead (left : Nat) : ∀ (idx : Nat) (g : IsoThresholdGenerator α), Dead g →
    SameStatic g (carry g left idx).2 ∧ (carry g left idx).1 = false ∧
      Dead (carry g left idx).2 := by
  induction left with
  | zero =>
    intro idx g _
    exact ⟨terminate_search_same g, rfl, terminate_search_dead g⟩
  | succ left ih =>
    intro idx g hd
    rw [carry_succ]
    have hno : ¬ ((g.marginalResults.getD (idx + 1) default).inRange
          (g.counter.getD (idx + 1) 0 + 1) ∧
          (g.Lcutoff : WithBot α) ≤ g.partialLProbs.getD (idx + 2) ⊥ +
            (g.marginalResults.getD (idx + 1) default).get_lProb (g.counter.getD (idx + 1) 0 + 1) +
            ((g.maxConfsLPSum.getD idx 0 : α) : WithBot α)) := by
      rw [hd (idx + 2)]
      simp
    rw [if_neg hno]
    have := ih (idx + 1) (carryStep g idx) hd
    exact ⟨SameStatic.trans ⟨rfl, rfl, rfl, rfl, rfl, rfl, rfl, rfl, rfl, rfl⟩ this.1, this.2⟩

theorem advance_eq (g : IsoThresholdGenerator α) :
    advanceToNextConfiguration g =
      if (g.marginalResults.getD 0 default).inRange (g.lProbs_ptr + 1) ∧
          (g.Lcutoff : WithBot α) ≤ g.partialLProbs.getD 1 ⊥ +
            (g.marginalResults.getD 0 default).get_lProb (g.lProbs_ptr + 1)
      then (true, recalcStep (incrFirst g) 0)
      else carry { g with lProbs_ptr := 0 } (g.dimNumber - 1) 0 :=
  rfl

/-- One call of advance keeps the invariant and the fixed part, and an accepted
configuration has a joint log-probability, the one reported, at or above the cutoff. -/
theorem advance_spec (g : IsoThresholdGenerator α) (hinv : Inv g) :
    SameStatic g (advanceToNextConfiguration g).2 ∧ Inv (advanceToNextConfiguration g).2 ∧
    ((advanceToNextConfiguration g).1 = true →
      Live (advanceToNextConfiguration g).2 ∧
      ∃ lp : α, lprob (advanceToNextConfiguration g).2 = (lp : WithBot α) ∧
        jointLProb (advanceToNextConfiguration g).2 = (lp : WithBot α) ∧ g.Lcutoff ≤ lp) := by
  obtain ⟨hst, hdl⟩ := hinv
  rw [advance_eq]
  rcases hdl with hd | hl
  · have hno : ¬ ((g.marginalResults.getD 0 default).inRange (g.lProbs_ptr + 1) ∧
          (g.Lcutoff : WithBot α) ≤ g.partialLProbs.getD 1 ⊥ +
            (g.marginalResults.getD 0 default).get_lProb (g.lProbs_ptr + 1)) := by
      rw [hd 1]; simp
    rw [if_neg hno]
    have := carry_dead (g.dimNumber - 1) 0 { g with lProbs_ptr := 0 } hd
    have hs0 : SameStatic g { g with lProbs_ptr := 0 } :=
      ⟨rfl, rfl, rfl, rfl, rfl, rfl, rfl, rfl, rfl, rfl⟩
    refine ⟨hs0.trans this.1, ⟨hst.of_same (hs0.trans this.1), Or.inl this.2.2⟩, ?_⟩
    intro h
    rw [this.2.1] at h
    exact absurd h (by simp)
  · split
    · rename_i hcond
      generalize hg1 : incrFirst g = g1
      have hsame1 : SameStatic g g1 := by
        subst hg1; exact ⟨rfl, rfl, rfl, rfl, rfl, rfl, rfl, rfl, rfl, rfl⟩
      have hc1 : g1.counter = g.counter.set 0 (g.lProbs_ptr + 1) := by subst hg1; rfl
      have hp1 : g1.partialLProbs = g.partialLProbs := by subst hg1; rfl
      have hsame := hsame1.trans (recalcStep_same g1 0)
      have hdpos := hst.dim_pos
      have hsuf : ∀ k, 1 ≤ k → suffixLP (recalcStep g1 0) k = suffixLP g k := by
        intro k hk
        apply suffixLP_congr g _ k hsame.1 hsame.2.2.2.2.2.2.1
        intro i hi
        rw [recalcStep_counter, hc1, getD_set_ne _ _ _ _ _ (by omega)]
      have hpl : ∀ k, 1 ≤ k →
          (recalcStep g1 0).partialLProbs.getD k ⊥ = g.partialLProbs.getD k ⊥ := by
        intro k hk
        show (g1.partialLProbs.set 0 _).getD k ⊥ = _
        rw [getD_set_ne _ _ _ _ _ (by omega), hp1]
      have hlive : Live (recalcStep g1 0) := by
        refine ⟨?_, ?_, ?_, ?_⟩
        · rw [hsame.2.2.2.2.1]; exact hl.nonempty
        · rw [recalcStep_counter, hc1, hsame.1, List.length_set]; exact hl.len_c
        · rw [recalcStep_len, hp1, hsame.1]; exact hl.len_p
        · intro k hk hkd
          rw [hpl k hk, hsuf k hk]
          exact hl.sums k hk (hsame.1 ▸ hkd)
      have h0 : (recalcStep g1 0).partialLProbs.getD 0 ⊥ =
          g.partialLProbs.getD 1 ⊥ +
            (g.marginalResults.getD 0 default).get_lProb (g.lProbs_ptr + 1) := by
        show (g1.partialLProbs.set 0 _).getD 0 ⊥ = _
        rw [getD_set_eq _ _ _ _ (by rw [hp1, hl.len_p]; omega), hp1, hc1,
          getD_set_eq _ _ _ _ (by rw [hl.len_c]; omega), hsame1.2.2.2.2.2.2.1]
      have hj : jointLProb (recalcStep g1 0) = (recalcStep g1 0).partialLProbs.getD 0 ⊥ := by
        rw [jointLProb_eq_suffixLP, suffixLP_succ _ 0 (by rw [hsame.1]; exact hdpos),
          hsuf 1 le_rfl, ← hl.sums 1 le_rfl hdpos, h0, add_comm, lpAt, recalcStep_counter, hc1,
          getD_set_eq _ _ _ _ (by rw [hl.len_c]; omega), hsame.2.2.2.2.2.2.1]
      refine ⟨hsame, ⟨hst.of_same hsame, Or.inr hlive⟩, fun _ => ⟨hlive, ?_⟩⟩
      obtain ⟨lp, hlp, hle⟩ := WithBot.coe_le_iff.mp hcond.2
      exact ⟨lp, by rw [lprob, h0, hlp], by rw [hj, h0, hlp], hle⟩
    · have hs0 : SameStatic g { g with lProbs_ptr := 0 } :=
        ⟨rfl, rfl, rfl, rfl, rfl, rfl, rfl, rfl, rfl, rfl⟩
      have := carry_spec (g.dimNumber - 1) 0 { g with lProbs_ptr := 0 } (hst.of_same hs0)
        hl.nonempty hl.len_c hl.len_p (by have := hst.dim_pos; show 0 + (g.dimNumber - 1) + 1 = g.dimNumber; omega)
        (fun k hk hkd => hl.sums k (by omega) hkd) (fun j hj => absurd hj (by omega))
      refine ⟨hs0.trans this.1, ⟨hst.of_same (hs0.trans this.1), ?_⟩, this.2.1⟩
      cases hb : (carry { g with lProbs_ptr := 0 } (g.dimNumber - 1) 0).1 with
      | true => exact Or.inr (this.2.1 hb).1
      | false => exact Or.inl (this.2.2 hb)

theorem advanceN_succ (n : Nat) (g : IsoThresholdGenerator α) :
    advanceN (n + 1) g = (advanceToNextConfiguration (advanceN n g)).2 := by
  unfold advanceN
  rw [Function.iterate_succ_apply']

theorem advanceN_spec (n : Nat) (g : IsoThresholdGenerator α) (hinv : Inv g) :
    SameStatic g (advanceN n g) ∧ Inv (advanceN n g) := by
  induction n with
  | zero => exact ⟨SameStatic.refl g, hinv⟩
  | succ n ih =>
    rw [advanceN_succ]
    have := advance_spec _ ih.2
    exact ⟨ih.1.trans this.1, this.2.1⟩

theorem ofMarginal_head (m : Marginal α) (hwf : m.WF) (cut : α)
    (hne : (PrecalculatedMarginal.ofMarginal m cut).confs ≠ []) :
    ∃ c rest, (PrecalculatedMarginal.ofMarginal m cut).confs = c :: rest ∧
      (PrecalculatedMarginal.ofMarginal m cut).mode_lprob ≤ c.lprob := by
  obtain ⟨hsorted, hhead⟩ := hwf
  cases hc : m.confs with
  | nil => rw [hc] at hhead; simp at hhead
  | cons c0 rest0 =>
    rw [hc] at hhead hsorted
    simp only [List.head?_cons, Option.map_some', Option.some.injEq] at hhead
    have hall : ∀ x ∈ rest0, x.lprob ≤ c0.lprob := (List.pairwise_cons.mp hsorted).1
    by_cases hcut : cut ≤ c0.lprob
    · refine ⟨c0, rest0.filter (fun c => decide (cut ≤ c.lprob)), ?_, ?_⟩
      · simp [PrecalculatedMarginal.ofMarginal, hc, hcut]
      · show m.mode_lprob ≤ c0.lprob
        rw [hhead]
    · exfalso
      apply hne
      simp only [PrecalculatedMarginal.ofMarginal, hc]
      rw [List.filter_eq_nil_iff]
      intro x hx
      rcases List.mem_cons.mp hx with rfl | hx
      · simpa using hcut
      · have := hall x hx
        simp only [decide_eq_true_eq, not_le]
        exact lt_of_le_of_lt this (not_le.mp hcut)

theorem mem_mkUnsorted (iso : Iso α) (hiso : iso.MarginalsWF) (cut : α)
    (m : PrecalculatedMarginal α) (hm : m ∈ mkUnsorted iso cut) :
    ∃ m0 : Marginal α, m0.WF ∧ ∃ c, m = PrecalculatedMarginal.ofMarginal m0 c := by
  simp only [mkUnsorted, List.mem_map, List.mem_range] at hm
  obtain ⟨ii, hii, rfl⟩ := hm
  refine ⟨iso.marginals.getD ii ⟨0, 0, [], 0⟩, hiso.2 _ ?_, _, rfl⟩
  rw [List.getD_eq_getElem?_getD, List.getElem?_eq_getElem (by rw [hiso.1]; exact hii)]
  exact List.getElem_mem _

theorem constructBase_static (log : α → α) (lowest : α)
    (sortOrder : List (PrecalculatedMarginal α) → List Nat)
    (hsort : ∀ l, (sortOrder l).Perm (List.range l.length))
    (iso : Iso α) (hiso : iso.MarginalsWF) (hdim : iso.dimNumber ≠ 0)
    (thr : α) (ab reorder : Bool) :
    Static (constructBase log lowest sortOrder iso thr ab reorder) := by
  have hlenU : ∀ c, (mkUnsorted iso c).length = iso.dimNumber := by
    intro c; simp [mkUnsorted]
  have hsub : ∀ m ∈ (constructBase log lowest sortOrder iso thr ab reorder).marginalResults,
      m ∈ (constructBase log lowest sortOrder iso thr ab reorder).marginalResultsUnsorted := by
    intro m hm
    simp only [constructBase] at hm ⊢
    split at hm
    · simp only [List.mem_map, List.mem_range] at hm
      obtain ⟨ii, hii, rfl⟩ := hm
      have hp := hsort (mkUnsorted iso (mkLcutoff log lowest iso.modeLProb thr ab))
      have hl := hp.length_eq
      rw [List.length_range, hlenU] at hl
      have hmem : (sortOrder (mkUnsorted iso (mkLcutoff log lowest iso.modeLProb thr ab))).getD ii 0
          ∈ sortOrder (mkUnsorted iso (mkLcutoff log lowest iso.modeLProb thr ab)) := by
        rw [List.getD_eq_getElem?_getD, List.getElem?_eq_getElem (by omega)]
        exact List.getElem_mem _
      have hlt := List.mem_range.mp (hp.mem_iff.mp hmem)
      rw [List.getD_eq_getElem?_getD, List.getElem?_eq_getElem hlt]
      exact List.getElem_mem _
    · exact hm
  refine ⟨Nat.pos_of_ne_zero hdim, ?_, rfl, ?_⟩
  · simp only [constructBase]
    split
    · simp
    · exact hlenU _
  · intro hne m hm
    have hmu := hsub m hm
    have hin : m.inRange 0 = true := by
      have : (constructBase log lowest sortOrder iso thr ab reorder).marginalResultsUnsorted.any
          (fun m => !m.inRange 0) = false := hne
      rw [List.any_eq_false] at this
      simpa using this m hmu
    obtain ⟨m0, hwf, c, rfl⟩ := mem_mkUnsorted iso hiso _ m hmu
    apply ofMarginal_head m0 hwf c
    intro hnil
    simp [PrecalculatedMarginal.inRange, hnil] at hin

theorem getD_replicate_append (n : Nat) (x y d : WithBot α) :
    (List.replicate n x ++ [y]).getD n d = y := by
  rw [List.getD_eq_getElem?_getD, List.getElem?_append_right (by simp)]
  simp

/-- The constructor leaves a state that satisfies the cursor invariant, with the cutoff of
its initialiser. -/
theorem construct_spec (log : α → α) (lowest : α)
    (sortOrder : List (PrecalculatedMarginal α) → List Nat)
    (hsort : ∀ l, (sortOrder l).Perm (List.range l.length))
    (iso : Iso α) (hiso : iso.MarginalsWF) (thr : α) (ab reorder : Bool)
    (g : IsoThresholdGenerator α)
    (hg : construct log lowest sortOrder iso thr ab reorder = some g) :
    Inv g ∧ SameStatic (constructBase log lowest sortOrder iso thr ab reorder)
      { g with lcfmsv := none } ∧ (g.empty = false → Live g) := by
  unfold construct at hg
  by_cases hdim : iso.dimNumber = 0
  · rw [if_pos hdim] at hg; exact absurd hg (by simp)
  rw [if_neg hdim] at hg
  have hst := constructBase_static log lowest sortOrder hsort iso hiso hdim thr ab reorder
  generalize hg0 : constructBase log lowest sortOrder iso thr ab reorder = g0 at hg hst
  have hlc0 : g0.counter = List.replicate g0.dimNumber 0 := by subst hg0; rfl
  have hlp0 : g0.partialLProbs = List.replicate g0.dimNumber ⊥ ++ [((0 : α) : WithBot α)] := by
    subst hg0; rfl
  simp only at hg
  split at hg
  · rename_i hne
    simp only [Bool.not_eq_true', ] at hne
    have hg' : g = decrFirst (recalc g0 (g0.dimNumber - 1)) := (Option.some.inj hg).symm
    have hr := recalc_same g0 (g0.dimNumber - 1)
    have hsame : SameStatic g0 g := by
      rw [hg']; exact hr.trans ⟨rfl, rfl, rfl, rfl, rfl, rfl, rfl, rfl, rfl, rfl⟩
    have hdpos := hst.dim_pos
    have hlive := recalc_live g0 (g0.dimNumber - 1) (by rw [hlp0]; simp) (by omega)
      (by
        intro k hk hkd
        obtain rfl : k = g0.dimNumber := by omega
        rw [hlp0, getD_replicate_append]
        simp [suffixLP])
    have hlive : Live g := by
      refine ⟨?_, ?_, ?_, ?_⟩
      · rw [hsame.2.2.2.2.1]; simpa using hne
      · rw [hg']
        show (List.set _ 0 _).length = (recalc g0 (g0.dimNumber - 1)).dimNumber
        rw [List.length_set, recalc_counter, hr.1, hlc0]; simp
      · rw [hg']
        show (recalc g0 (g0.dimNumber - 1)).partialLProbs.length =
          (recalc g0 (g0.dimNumber - 1)).dimNumber + 1
        rw [recalc_len, hr.1, hlp0]; simp
      · intro k hk hkd
        rw [hsame.1] at hkd
        have : suffixLP g k = suffixLP (recalc g0 (g0.dimNumber - 1)) k := by
          apply suffixLP_congr _ _ k
          · rw [hsame.1, hr.1]
          · rw [hsame.2.2.2.2.2.2.1, hr.2.2.2.2.2.2.1]
          · intro i hi
            rw [hg']
            show (List.set _ 0 _).getD i 0 = _
            rw [getD_set_ne _ _ _ _ _ (by omega)]
        rw [this, ← hlive k hkd, hg']
        rfl
    refine ⟨⟨hst.of_same hsame, Or.inr hlive⟩, ?_, fun _ => hlive⟩
    · obtain ⟨a1, a2, a3, a4, a5, a6, a7, a8, a9, a10⟩ := hsame
      exact ⟨a1, a2, a3, a4, a5, a6, a7, a8, a9, by subst hg0; rfl⟩
  · rename_i hne
    have hg' : g = { terminate_search g0 with lcfmsv := some ⊤ } := (Option.some.inj hg).symm
    have hsame : SameStatic g0 { g with lcfmsv := none } := by
      rw [hg']; exact ⟨rfl, rfl, rfl, rfl, rfl, rfl, rfl, rfl, rfl, by subst hg0; rfl⟩
    have hemp : g.empty = true := by
      rw [hg']
      show g0.empty = true
      simpa using hne
    refine ⟨⟨⟨?_, ?_, ?_, ?_⟩, Or.inl ?_⟩, hsame, fun h => absurd h (by rw [hemp]; simp)⟩
    · rw [hg']; exact hst.dim_pos
    · rw [hg']; exact hst.len_m
    · rw [hg']; exact hst.maxc
    · rw [hg']; exact hst.heads
    · rw [hg']; exact terminate_search_dead g0

/-! ### The order of enumeration -/

theorem rankC_nonneg : ∀ (cs ns : List Int), (∀ i, 0 ≤ cs.getD i 0) → (∀ i, 0 ≤ ns.getD i 0) →
    0 ≤ rankC cs ns
  | [], _, _, _ => by simp [rankC]
  | _ :: _, [], _, _ => by simp [rankC]
  | c :: cs, n :: ns, hc, hn => by
    have h0 : 0 ≤ c := by simpa using hc 0
    have hn0 : 0 ≤ n := by simpa using hn 0
    have := rankC_nonneg cs ns (fun i => by simpa using hc (i + 1))
      (fun i => by simpa using hn (i + 1))
    simp only [rankC]
    positivity

theorem rankC_le : ∀ (cs ns : List Int), (∀ i, cs.getD i 0 ≤ ns.getD i 0) →
    (∀ i, 0 ≤ ns.getD i 0) → rankC cs ns ≤ (ns.map (· + 1)).prod - 1
  | [], ns, _, hn => by
    have : (0 : Int) < (ns.map (· + 1)).prod := by
      apply List.prod_pos
      intro a ha
      obtain ⟨b, hb, rfl⟩ := List.mem_map.mp ha
      obtain ⟨i, hi, rfl⟩ := List.mem_iff_getElem.mp hb
      have := hn i
      rw [List.getD_eq_getElem?_getD, List.getElem?_eq_getElem hi] at this
      simp at this; omega
    cases ns <;> simp only [rankC] <;> omega
  | _ :: _, [], _, _ => by simp [rankC]
  | c :: cs, n :: ns, hc, hn => by
    have h0 : c ≤ n := by simpa using hc 0
    have hn0 : 0 ≤ n := by simpa using hn 0
    have := rankC_le cs ns (fun i => by simpa using hc (i + 1))
      (fun i => by simpa using hn (i + 1))
    simp only [rankC, List.map_cons, List.prod_cons]
    nlinarith

theorem rankC_carry : ∀ (idx : Nat) (cs ns : List Int), idx + 1 < cs.length →
    cs.length = ns.length → (∀ j, j < idx → cs.getD j 0 = 0) →
    cs.getD idx 0 ≤ ns.getD idx 0 → (∀ i, 0 ≤ ns.getD i 0) →
    rankC cs ns < rankC ((cs.set idx 0).set (idx + 1) (cs.getD (idx + 1) 0 + 1)) ns
  | 0, c0 :: c1 :: cs, n0 :: n1 :: ns, _, _, _, hle, _ => by
    have h0 : c0 ≤ n0 := by simpa using hle
    simp only [List.set_cons_zero, List.set_cons_succ, List.getD_cons_succ, List.getD_cons_zero,
      rankC]
    nlinarith
  | 0, [], _, h, _, _, _, _ => by simp at h
  | 0, [_], _, h, _, _, _, _ => by simp at h
  | 0, _ :: _ :: _, [], _, h, _, _, _ => by simp at h
  | 0, _ :: _ :: _, [_], _, h, _, _, _ => by simp at h
  | idx + 1, [], _, h, _, _, _, _ => by simp at h
  | idx + 1, _ :: _, [], _, h, _, _, _ => by simp at h
  | idx + 1, c :: cs, n :: ns, hlen, hl, hz, hle, hn => by
    have hn0 : 0 ≤ n := by simpa using hn 0
    have := rankC_carry idx cs ns (by simpa using hlen) (by simpa using hl)
      (fun j hj => by simpa using hz (j + 1) (by omega)) (by simpa using hle)
      (fun i => by simpa using hn (i + 1))
    simp only [List.set_cons_succ, List.getD_cons_succ, rankC]
    nlinarith

theorem sizes_nonneg (g : IsoThresholdGenerator α) (i : Nat) : 0 ≤ (sizes g).getD i 0 := by
  rw [List.getD_eq_getElem?_getD]
  cases h : (sizes g)[i]? with
  | none => simp
  | some x =>
    obtain ⟨m, _, rfl⟩ := List.mem_map.mp (List.getElem?_mem h)
    simp

theorem sizes_getD (g : IsoThresholdGenerator α) (i : Nat) (hi : i < g.marginalResults.length) :
    (sizes g).getD i 0 = ((g.marginalResults.getD i default).get_no_confs : Int) := by
  simp [sizes, List.getD_eq_getElem?_getD, List.getElem?_eq_getElem hi]

theorem sizes_congr {g g1 : IsoThresholdGenerator α} (h : SameStatic g g1) :
    sizes g1 = sizes g := by
  unfold sizes; rw [h.2.2.2.2.2.2.1]

theorem inRange_iff (m : PrecalculatedMarginal α) (i : Int) :
    m.inRange i = true ↔ 0 ≤ i ∧ i < (m.get_no_confs : Int) := by
  simp only [PrecalculatedMarginal.inRange, PrecalculatedMarginal.get_no_confs,
    Bool.and_eq_true, decide_eq_true_eq]
  constructor
  · rintro ⟨h1, h2⟩; exact ⟨h1, by omega⟩
  · rintro ⟨h1, h2⟩; exact ⟨h1, by omega⟩

theorem sizes_pos (g : IsoThresholdGenerator α) (hst : Static g) (hne : g.empty = false)
    (i : Nat) (hi : i < g.dimNumber) : 0 < (sizes g).getD i 0 := by
  rw [sizes_getD g i (by rw [hst.len_m]; exact hi)]
  have hmem : g.marginalResults.getD i default ∈ g.marginalResults := by
    rw [List.getD_eq_getElem?_getD, List.getElem?_eq_getElem (by rw [hst.len_m]; omega)]
    exact List.getElem_mem _
  obtain ⟨c, rest, hc, _⟩ := hst.heads hne _ hmem
  rw [PrecalculatedMarginal.get_no_confs, hc, List.length_cons]
  exact Int.natCast_pos.mpr (Nat.succ_pos _)

theorem carryStep_same (g : IsoThresholdGenerator α) (idx : Nat) :
    SameStatic g (carryStep g idx) :=
  ⟨rfl, rfl, rfl, rfl, rfl, rfl, rfl, rfl, rfl, rfl⟩

theorem rank_recalc (g : IsoThresholdGenerator α) (k : Nat) : rank (recalc g k) = rank g := by
  unfold rank
  rw [recalc_counter, sizes_congr (recalc_same g k)]

/-- An accepting carry leaves counters inside the tables and moves the cursor forward in
the enumeration order. -/
theorem carry_bounded (left : Nat) : ∀ (idx : Nat) (g : IsoThresholdGenerator α), Static g →
    g.empty = false → g.counter.length = g.dimNumber → idx + left + 1 = g.dimNumber →
    g.lProbs_ptr = 0 → (∀ j, j < idx → g.counter.getD j 0 = 0) →
    g.counter.getD idx 0 ≤ (sizes g).getD idx 0 →
    (∀ i, idx < i → i < g.dimNumber →
      0 ≤ g.counter.getD i 0 ∧ g.counter.getD i 0 < (sizes g).getD i 0) →
    (carry g left idx).1 = true →
    Bounded (carry g left idx).2 ∧ rank g < rank (carry g left idx).2 := by
  induction left with
  | zero =>
    intro idx g _ _ _ _ _ _ _ _ h
    exact absurd h (by simp [carry])
  | succ left ih =>
    intro idx g hst hne hlc hidx hptr hz hle hab
    rw [carry_succ]
    have hsame1 := carryStep_same g idx
    have hc1 : (carryStep g idx).counter =
        (g.counter.set idx 0).set (idx + 1) (g.counter.getD (idx + 1) 0 + 1) := rfl
    have hptr1 : (carryStep g idx).lProbs_ptr = 0 := hptr
    have hlen_s : (sizes g).length = g.dimNumber := by simp [sizes, hst.len_m]
    have hrank1 : rank g < rank (carryStep g idx) := by
      unfold rank
      rw [sizes_congr hsame1, hc1]
      exact rankC_carry idx g.counter (sizes g) (by omega) (by omega) hz hle (sizes_nonneg g)
    generalize carryStep g idx = g1 at hsame1 hc1 hptr1 hrank1
    have hst1 : Static g1 := hst.of_same hsame1
    have hd1 : g1.dimNumber = g.dimNumber := hsame1.1
    have hne1 : g1.empty = false := by rw [hsame1.2.2.2.2.1]; exact hne
    have hlc1 : g1.counter.length = g1.dimNumber := by
      rw [hc1, hd1]; simpa using hlc
    have hcg : ∀ j, idx + 2 ≤ j → g1.counter.getD j 0 = g.counter.getD j 0 := by
      intro j hj
      rw [hc1, getD_set_ne _ _ _ _ _ (by omega), getD_set_ne _ _ _ _ _ (by omega)]
    have hcl : ∀ j, j ≤ idx → g1.counter.getD j 0 = 0 := by
      intro j hj
      rw [hc1, getD_set_ne _ _ _ _ _ (by omega)]
      by_cases hji : j = idx
      · subst hji
        rw [getD_set_eq _ _ _ _ (by omega)]
      · rw [getD_set_ne _ _ _ _ _ (by omega)]
        exact hz j (by omega)
    have hcs : g1.counter.getD (idx + 1) 0 = g.counter.getD (idx + 1) 0 + 1 := by
      rw [hc1, getD_set_eq _ _ _ _ (by rw [List.length_set]; omega)]
    have hsz : sizes g1 = sizes g := sizes_congr hsame1
    have hab1 : ∀ i, idx + 1 < i → i < g1.dimNumber →
        0 ≤ g1.counter.getD i 0 ∧ g1.counter.getD i 0 < (sizes g1).getD i 0 := by
      intro i hi hid
      rw [hcg i (by omega), hsz]
      exact hab i (by omega) (hd1 ▸ hid)
    split
    · rename_i hcond
      intro _
      have hr := recalc_same g1 (idx + 1)
      have hin := (inRange_iff _ _).mp hcond.1
      rw [← sizes_getD g (idx + 1) (by rw [hst.len_m]; omega)] at hin
      refine ⟨⟨?_, ?_, ?_, ?_⟩, ?_⟩
      · show (recalc g1 (idx + 1)).counter.getD 0 0 = (recalc g1 (idx + 1)).lProbs_ptr
        rw [recalc_counter, recalc_ptr, hptr1, hcl 0 (by omega)]
      · show -1 ≤ (recalc g1 (idx + 1)).counter.getD 0 0
        rw [recalc_counter, hcl 0 (by omega)]; omega
      · intro i hi1 hid
        show 0 ≤ (recalc g1 (idx + 1)).counter.getD i 0
        rw [recalc_counter]
        rw [show (recalc g1 (idx + 1)).dimNumber = g.dimNumber from hr.1.trans hd1] at hid
        by_cases h1 : i ≤ idx
        · rw [hcl i h1]
        · by_cases h2 : i = idx + 1
          · subst h2; rw [hcs]; exact hin.1
          · exact (hab1 i (by omega) (by omega)).1
      · intro i hid
        show (recalc g1 (idx + 1)).counter.getD i 0 < (sizes (recalc g1 (idx + 1))).getD i 0
        rw [recalc_counter, sizes_congr hr, hsz]
        rw [show (recalc g1 (idx + 1)).dimNumber = g.dimNumber from hr.1.trans hd1] at hid
        by_cases h1 : i ≤ idx
        · rw [hcl i h1]; exact sizes_pos g hst hne i hid
        · by_cases h2 : i = idx + 1
          · subst h2; rw [hcs]; exact hin.2
          · rw [← hsz]; exact (hab1 i (by omega) (by omega)).2
      · show rank g < rank (recalc g1 (idx + 1))
        rw [rank_recalc]; exact hrank1
    · intro h
      have := ih (idx + 1) g1 hst1 hne1 hlc1 (by omega) hptr1 (fun j hj => hcl j (by omega))
        (by rw [hcs, hsz]; have := (hab (idx + 1) (by omega) (by omega)).2; omega) hab1 h
      exact ⟨this.1, lt_trans hrank1 this.2⟩

theorem rankC_set_zero (cs ns : List Int) (x : Int) (h1 : 0 < cs.length) (h2 : 0 < ns.length) :
    rankC (cs.set 0 x) ns = rankC cs ns + (x - cs.getD 0 0) := by
  cases cs with
  | nil => simp at h1
  | cons c cs =>
    cases ns with
    | nil => simp at h2
    | cons n ns => simp only [List.set_cons_zero, rankC, List.getD_cons_zero]; ring

theorem incrFirst_same (g : IsoThresholdGenerator α) : SameStatic g (incrFirst g) :=
  ⟨rfl, rfl, rfl, rfl, rfl, rfl, rfl, rfl, rfl, rfl⟩

/-- An accepting call of advance on a live cursor leaves counters inside the tables and
moves the cursor forward in the enumeration order. -/
theorem advance_bounded (g : IsoThresholdGenerator α) (hst : Static g) (hl : Live g)
    (hb : Bounded g) (hacc : (advanceToNextConfiguration g).1 = true) :
    Bounded (advanceToNextConfiguration g).2 ∧ rank g < rank (advanceToNextConfiguration g).2 := by
  rw [advance_eq] at hacc ⊢
  have hdpos := hst.dim_pos
  split at hacc
  · rename_i hcond
    rw [if_pos hcond]
    have hin := (inRange_iff _ _).mp hcond.1
    rw [← sizes_getD g 0 (by rw [hst.len_m]; omega)] at hin
    have hc1 : (recalcStep (incrFirst g) 0).counter = g.counter.set 0 (g.lProbs_ptr + 1) := rfl
    have hs1 : sizes (recalcStep (incrFirst g) 0) = sizes g :=
      sizes_congr ((incrFirst_same g).trans (recalcStep_same _ 0))
    refine ⟨⟨?_, ?_, ?_, ?_⟩, ?_⟩
    · show (recalcStep (incrFirst g) 0).counter.getD 0 0 = g.lProbs_ptr + 1
      rw [hc1, getD_set_eq _ _ _ _ (by rw [hl.len_c]; omega)]
    · show -1 ≤ (recalcStep (incrFirst g) 0).counter.getD 0 0
      rw [hc1, getD_set_eq _ _ _ _ (by rw [hl.len_c]; omega)]; omega
    · intro i hi1 hid
      show 0 ≤ (recalcStep (incrFirst g) 0).counter.getD i 0
      rw [hc1, getD_set_ne _ _ _ _ _ (by omega)]
      exact hb.lo i hi1 hid
    · intro i hid
      show (recalcStep (incrFirst g) 0).counter.getD i 0 < (sizes (recalcStep (incrFirst g) 0)).getD i 0
      rw [hs1, hc1]
      by_cases hi0 : i = 0
      · subst hi0
        rw [getD_set_eq _ _ _ _ (by rw [hl.len_c]; omega)]; exact hin.2
      · rw [getD_set_ne _ _ _ _ _ (by omega)]
        exact hb.hi i hid
    · show rank g < rank (recalcStep (incrFirst g) 0)
      unfold rank
      rw [hs1, hc1, rankC_set_zero _ _ _ (by rw [hl.len_c]; omega)
        (by simp [sizes, hst.len_m]; omega), hb.sync]
      omega
  · rename_i hcond
    rw [if_neg hcond]
    have hs0 : SameStatic g { g with lProbs_ptr := 0 } :=
      ⟨rfl, rfl, rfl, rfl, rfl, rfl, rfl, rfl, rfl, rfl⟩
    have := carry_bounded (g.dimNumber - 1) 0 { g with lProbs_ptr := 0 } (hst.of_same hs0)
      hl.nonempty hl.len_c (by show 0 + (g.dimNumber - 1) + 1 = g.dimNumber; omega) rfl
      (fun j hj => absurd hj (by omega)) (le_of_lt (hb.hi 0 hdpos))
      (fun i hi hid => ⟨hb.lo i (by omega) hid, hb.hi i hid⟩) hacc
    exact this

/-! ### The frame of the partial tables -/

theorem Frame.of_eq {g g1 : IsoThresholdGenerator α} (hf : Frame g)
    (hd : g1.dimNumber = g.dimNumber) (hl : g1.partialLProbs = g.partialLProbs)
    (hm : g1.partialMasses = g.partialMasses) (hp : g1.partialProbs = g.partialProbs) :
    Frame g1 :=
  ⟨by rw [hl, hd]; exact hf.len_l, by rw [hm, hd]; exact hf.len_m,
    by rw [hp, hd]; exact hf.len_p, by rw [hm, hd]; exact hf.last_m,
    by rw [hp, hd]; exact hf.last_p⟩

theorem recalcStep_frame (g : IsoThresholdGenerator α) (k : Nat) (hk : k < g.dimNumber)
    (hf : Frame g) : Frame (recalcStep g k) := by
  refine ⟨?_, ?_, ?_, ?_, ?_⟩
  · show (g.partialLProbs.set k _).length = _
    rw [List.length_set]; exact hf.len_l
  · show (g.partialMasses.set k _).length = _
    rw [List.length_set]; exact hf.len_m
  · show (g.partialProbs.set k _).length = _
    rw [List.length_set]; exact hf.len_p
  · show (g.partialMasses.set k _).getD g.dimNumber 0 = 0
    rw [getD_set_ne _ _ _ _ _ (by omega)]; exact hf.last_m
  · show (g.partialProbs.set k _).getD g.dimNumber 0 = 1
    rw [getD_set_ne _ _ _ _ _ (by omega)]; exact hf.last_p

theorem recalc_frame (g : IsoThresholdGenerator α) (k : Nat) (hk : k < g.dimNumber)
    (hf : Frame g) : Frame (recalc g k) := by
  induction k generalizing g with
  | zero => exact recalcStep_frame g 0 hk hf
  | succ k ih =>
    exact ih (recalcStep g (k + 1)) (by show k < g.dimNumber; omega)
      (recalcStep_frame g (k + 1) hk hf)

theorem terminate_search_frame (g : IsoThresholdGenerator α) (hf : Frame g) :
    Frame (terminate_search g) :=
  ⟨by show (List.replicate (g.dimNumber + 1) (⊥ : WithBot α)).length = g.dimNumber + 1; simp,
    hf.len_m, hf.len_p, hf.last_m, hf.last_p⟩

theorem carry_frame (left : Nat) : ∀ (idx : Nat) (g : IsoThresholdGenerator α),
    idx + left + 1 = g.dimNumber → Frame g → Frame (carry g left idx).2 := by
  induction left with
  | zero => intro idx g _ hf; exact terminate_search_frame g hf
  | succ left ih =>
    intro idx g hidx hf
    rw [carry_succ]
    have hf1 : Frame (carryStep g idx) := hf.of_eq rfl rfl rfl rfl
    split
    · exact recalc_frame _ _ (by show idx + 1 < g.dimNumber; omega) hf1
    · exact ih (idx + 1) _ (by show idx + 1 + left + 1 = g.dimNumber; omega) hf1

theorem advance_frame (g : IsoThresholdGenerator α) (hst : Static g) (hf : Frame g) :
    Frame (advanceToNextConfiguration g).2 := by
  rw [advance_eq]
  have hdpos := hst.dim_pos
  split
  · exact recalcStep_frame _ 0 hdpos (hf.of_eq rfl rfl rfl rfl)
  · exact carry_frame (g.dimNumber - 1) 0 _ (by show 0 + (g.dimNumber - 1) + 1 = g.dimNumber; omega)
      (hf.of_eq rfl rfl rfl rfl)

/-- On a terminated cursor advance fails. -/
theorem advance_dead (g : IsoThresholdGenerator α) (hd : Dead g) :
    (advanceToNextConfiguration g).1 = false ∧ Dead (advanceToNextConfiguration g).2 := by
  rw [advance_eq]
  have hno : ¬ ((g.marginalResults.getD 0 default).inRange (g.lProbs_ptr + 1) ∧
        (g.Lcutoff : WithBot α) ≤ g.partialLProbs.getD 1 ⊥ +
          (g.marginalResults.getD 0 default).get_lProb (g.lProbs_ptr + 1)) := by
    rw [hd 1]; simp
  rw [if_neg hno]
  exact (carry_dead (g.dimNumber - 1) 0 { g with lProbs_ptr := 0 } hd).2

/-- One call of advance on a reachable state: the state stays reachable with the same
fixed part; an accepted call moves the cursor forward in the enumeration order; a failed
call leaves the terminated cursor. -/
theorem advance_good (g : IsoThresholdGenerator α) (hg : Good g) :
    Good (advanceToNextConfiguration g).2 ∧ SameStatic g (advanceToNextConfiguration g).2 ∧
    ((advanceToNextConfiguration g).1 = true →
      Live g ∧ Bounded g ∧ Live (advanceToNextConfiguration g).2 ∧
      Bounded (advanceToNextConfiguration g).2 ∧ rank g < rank (advanceToNextConfiguration g).2) ∧
    ((advanceToNextConfiguration g).1 = false → Dead (advanceToNextConfiguration g).2) := by
  obtain ⟨hst, hf, hc⟩ := hg
  have hinv : Inv g := ⟨hst, hc.elim Or.inl (fun h => Or.inr h.1)⟩
  obtain ⟨hsame, hinv1, hacc⟩ := advance_spec g hinv
  have hf1 := advance_frame g hst hf
  rcases hc with hd | ⟨hl, hb⟩
  · obtain ⟨h1, h2⟩ := advance_dead g hd
    refine ⟨⟨hinv1.1, hf1, Or.inl h2⟩, hsame, ?_, fun _ => h2⟩
    intro h; rw [h1] at h; exact absurd h (by simp)
  · cases hb1 : (advanceToNextConfiguration g).1 with
    | true =>
      obtain ⟨hb', hr⟩ := advance_bounded g hst hl hb hb1
      have hl' := (hacc hb1).1
      exact ⟨⟨hinv1.1, hf1, Or.inr ⟨hl', hb'⟩⟩, hsame, fun _ => ⟨hl, hb, hl', hb', hr⟩,
        fun h => absurd h (by simp)⟩
    | false =>
      have hdead : Dead (advanceToNextConfiguration g).2 := by
        rw [advance_eq] at hb1 ⊢
        split at hb1
        · exact absurd hb1 (by simp)
        · rename_i hcond
          rw [if_neg hcond]
          have hs0 : SameStatic g { g with lProbs_ptr := 0 } :=
            ⟨rfl, rfl, rfl, rfl, rfl, rfl, rfl, rfl, rfl, rfl⟩
          exact (carry_spec (g.dimNumber - 1) 0 { g with lProbs_ptr := 0 } (hst.of_same hs0)
            hl.nonempty hl.len_c hl.len_p
            (by have := hst.dim_pos; show 0 + (g.dimNumber - 1) + 1 = g.dimNumber; omega)
            (fun k hk hkd => hl.sums k (by omega) hkd)
            (fun j hj => absurd hj (by omega))).2.2 hb1
      exact ⟨⟨hinv1.1, hf1, Or.inl hdead⟩, hsame, fun h => absurd h (by simp), fun _ => hdead⟩

/-- The rank of a live cursor with counters inside the tables lies between -1 and the
size of the product of the extended tables. -/
theorem rank_bounds (g : IsoThresholdGenerator α) (hst : Static g) (hl : Live g)
    (hb : Bounded g) : -1 ≤ rank g ∧ rank g ≤ ((sizes g).map (· + 1)).prod - 1 := by
  have hlen_s : (sizes g).length = g.dimNumber := by simp [sizes, hst.len_m]
  have hdpos := hst.dim_pos
  constructor
  · unfold rank
    have hlc := hl.len_c
    have hlo0 := hb.lo0
    have hlo := hb.lo
    generalize g.counter = cs at hlc hlo0 hlo
    generalize hss : sizes g = ns at hlen_s
    have hnn : ∀ i, 0 ≤ ns.getD i 0 := by rw [← hss]; exact sizes_nonneg g
    cases cs with
    | nil => simp at hlc; omega
    | cons c cs =>
      cases ns with
      | nil => simp at hlen_s; omega
      | cons n ns =>
        have h0 : -1 ≤ c := by simpa using hlo0
        have hn0 : 0 ≤ n := by simpa using hnn 0
        have := rankC_nonneg cs ns
          (fun i => by
            by_cases hi : i + 1 < g.dimNumber
            · simpa using hlo (i + 1) (by omega) hi
            · rw [List.getD_eq_getElem?_getD, List.getElem?_eq_none (by simp at hlc; omega)]
              simp)
          (fun i => by simpa using hnn (i + 1))
        simp only [rankC]
        nlinarith
  · unfold rank
    apply rankC_le _ _ _ (sizes_nonneg g)
    intro i
    by_cases hi : i < g.dimNumber
    · exact le_of_lt (hb.hi i hi)
    · rw [List.getD_eq_getElem?_getD, List.getElem?_eq_none (by rw [hl.len_c]; omega)]
      exact sizes_nonneg g i

theorem fuelBound_eq (g : IsoThresholdGenerator α) :
    ((fuelBound g : Nat) : Int) = ((sizes g).map (· + 1)).prod + 1 := by
  unfold fuelBound sizes
  rw [List.map_map]
  push_cast
  rw [List.map_map]
  rfl

/-- The enumeration loop terminates within the bound: a terminated cursor needs one
iteration, a live one at most as many as there are ranks left. -/
theorem enumerate_terminates (fuel : Nat) : ∀ (g : IsoThresholdGenerator α), Good g →
    (Dead g ∨ ((sizes g).map (· + 1)).prod - 1 - rank g < fuel) → 0 < fuel →
    ∃ l, enumerate fuel g = some l := by
  induction fuel with
  | zero => intro g _ _ h; omega
  | succ fuel ih =>
    intro g hg hm _
    obtain ⟨hg1, hsame, hacc, hrej⟩ := advance_good g hg
    unfold enumerate
    cases hb : (advanceToNextConfiguration g).1 with
    | false =>
      rw [show advanceToNextConfiguration g =
        (false, (advanceToNextConfiguration g).2) from by rw [← hb]]
      exact ⟨[], rfl⟩
    | true =>
      rw [show advanceToNextConfiguration g =
        (true, (advanceToNextConfiguration g).2) from by rw [← hb]]
      obtain ⟨hl, hbd, hl', hbd', hr⟩ := hacc hb
      have hrb := rank_bounds _ hg1.static hl' hbd'
      have hm' : ((sizes g).map (· + 1)).prod - 1 - rank g < fuel + 1 := by
        rcases hm with hd | hm
        · have := (advance_dead g hd).1
          rw [hb] at this; exact absurd this (by simp)
        · exact hm
      rw [sizes_congr hsame] at hrb
      obtain ⟨l, hl⟩ := ih _ hg1 (Or.inr (by rw [sizes_congr hsame]; omega))
        (by omega)
      simp only [hl, Option.map_some']
      exact ⟨_, rfl⟩

end IsoThresholdGenerator

namespace IsoThresholdGenerator

variable {α : Type} [LinearOrderedCommRing α]

/-! ### reset restores the constructed state -/

theorem AgreeFrom.getD {β : Type} {k : Nat} {l l1 : List β} (h : AgreeFrom k l l1) (i : Nat)
    (hi : k ≤ i) (d : β) : l.getD i d = l1.getD i d := by
  rw [List.getD_eq_getElem?_getD, List.getD_eq_getElem?_getD, h.2 i hi]

theorem AgreeFrom.set {β : Type} {k : Nat} {l l1 : List β} (h : AgreeFrom (k + 1) l l1)
    (x : β) : AgreeFrom k (l.set k x) (l1.set k x) := by
  refine ⟨by simp [h.1], ?_⟩
  intro i hi
  by_cases hik : k = i
  · subst hik
    simp [List.getElem?_set, h.1]
  · rw [List.getElem?_set_ne hik, List.getElem?_set_ne hik]
    exact h.2 i (by omega)

theorem AgreeFrom.eq {β : Type} {l l1 : List β} (h : AgreeFrom 0 l l1) : l = l1 :=
  List.ext_getElem? (fun i => h.2 i (Nat.zero_le i))

theorem AgreeFrom.of_last {β : Type} {n : Nat} {l l1 : List β} (d : β)
    (h1 : l.length = n + 1) (h2 : l1.length = n + 1) (h : l.getD n d = l1.getD n d) :
    AgreeFrom n l l1 := by
  refine ⟨by rw [h1, h2], ?_⟩
  intro i hi
  by_cases hin : i = n
  · subst hin
    rw [List.getD_eq_getElem?_getD, List.getD_eq_getElem?_getD,
      List.getElem?_eq_getElem (by omega), List.getElem?_eq_getElem (by omega)] at h
    rw [List.getElem?_eq_getElem (by omega), List.getElem?_eq_getElem (by omega)]
    simpa using h
  · rw [List.getElem?_eq_none (by omega), List.getElem?_eq_none (by omega)]

/-- recalc depends on the partial tables only above the recomputed entries. -/
theorem recalc_agree (k0 : Nat) : ∀ (g g1 : IsoThresholdGenerator α),
    g1.marginalResults = g.marginalResults → g1.counter = g.counter →
    AgreeFrom (k0 + 1) g.partialLProbs g1.partialLProbs →
    AgreeFrom (k0 + 1) g.partialMasses g1.partialMasses →
    AgreeFrom (k0 + 1) g.partialProbs g1.partialProbs →
    (recalc g k0).partialLProbs = (recalc g1 k0).partialLProbs ∧
    (recalc g k0).partialMasses = (recalc g1 k0).partialMasses ∧
    (recalc g k0).partialProbs = (recalc g1 k0).partialProbs := by
  have hstep : ∀ (k : Nat) (g g1 : IsoThresholdGenerator α),
      g1.marginalResults = g.marginalResults → g1.counter = g.counter →
      AgreeFrom (k + 1) g.partialLProbs g1.partialLProbs →
      AgreeFrom (k + 1) g.partialMasses g1.partialMasses →
      AgreeFrom (k + 1) g.partialProbs g1.partialProbs →
      AgreeFrom k (recalcStep g k).partialLProbs (recalcStep g1 k).partialLProbs ∧
      AgreeFrom k (recalcStep g k).partialMasses (recalcStep g1 k).partialMasses ∧
      AgreeFrom k (recalcStep g k).partialProbs (recalcStep g1 k).partialProbs := by
    intro k g g1 hm hc hl hms hp
    refine ⟨?_, ?_, ?_⟩
    · show AgreeFrom k (g.partialLProbs.set k _) (g1.partialLProbs.set k _)
      rw [hm, hc, ← hl.getD (k + 1) le_rfl]
      exact hl.set _
    · show AgreeFrom k (g.partialMasses.set k _) (g1.partialMasses.set k _)
      rw [hm, hc, ← hms.getD (k + 1) le_rfl]
      exact hms.set _
    · show AgreeFrom k (g.partialProbs.set k _) (g1.partialProbs.set k _)
      rw [hm, hc, ← hp.getD (k + 1) le_rfl]
      exact hp.set _
  induction k0 with
  | zero =>
    intro g g1 hm hc hl hms hp
    obtain ⟨a, b, c⟩ := hstep 0 g g1 hm hc hl hms hp
    exact ⟨a.eq, b.eq, c.eq⟩
  | succ k0 ih =>
    intro g g1 hm hc hl hms hp
    obtain ⟨a, b, c⟩ := hstep (k0 + 1) g g1 hm hc hl hms hp
    exact ih (recalcStep g (k0 + 1)) (recalcStep g1 (k0 + 1)) hm hc a b c

theorem carry_dead_eq (left : Nat) : ∀ (idx : Nat) (g : IsoThresholdGenerator α), Dead g →
    (carry g left idx).2 = terminate_search g := by
  induction left with
  | zero => intro idx g _; rfl
  | succ left ih =>
    intro idx g hd
    rw [carry_succ]
    have hno : ¬ ((g.marginalResults.getD (idx + 1) default).inRange
          (g.counter.getD (idx + 1) 0 + 1) ∧
          (g.Lcutoff : WithBot α) ≤ g.partialLProbs.getD (idx + 2) ⊥ +
            (g.marginalResults.getD (idx + 1) default).get_lProb (g.counter.getD (idx + 1) 0 + 1) +
            ((g.maxConfsLPSum.getD idx 0 : α) : WithBot α)) := by
      rw [hd (idx + 2)]
      simp
    rw [if_neg hno, ih (idx + 1) (carryStep g idx) hd]
    rfl

theorem advance_dead_eq (g : IsoThresholdGenerator α) (hd : Dead g) :
    (advanceToNextConfiguration g).2 = terminate_search g := by
  rw [advance_eq]
  have hno : ¬ ((g.marginalResults.getD 0 default).inRange (g.lProbs_ptr + 1) ∧
        (g.Lcutoff : WithBot α) ≤ g.partialLProbs.getD 1 ⊥ +
          (g.marginalResults.getD 0 default).get_lProb (g.lProbs_ptr + 1)) := by
    rw [hd 1]; simp
  rw [if_neg hno]
  exact (carry_dead_eq (g.dimNumber - 1) 0 { g with lProbs_ptr := 0 } hd).trans rfl

theorem constructBase_frame (log : α → α) (lowest : α)
    (sortOrder : List (PrecalculatedMarginal α) → List Nat)
    (iso : Iso α) (thr : α) (ab reorder : Bool) :
    Frame (constructBase log lowest sortOrder iso thr ab reorder) := by
  refine ⟨?_, ?_, ?_, ?_, ?_⟩
  · show (List.replicate iso.dimNumber (⊥ : WithBot α) ++ [((0 : α) : WithBot α)]).length = _
    simp; rfl
  · show (List.replicate iso.dimNumber (0 : α) ++ [0]).length = _
    simp; rfl
  · show (List.replicate iso.dimNumber (0 : α) ++ [1]).length = _
    simp; rfl
  · show (List.replicate iso.dimNumber (0 : α) ++ [0]).getD iso.dimNumber 0 = (0 : α)
    rw [List.getD_eq_getElem?_getD, List.getElem?_append_right (by simp)]
    simp
  · show (List.replicate iso.dimNumber (0 : α) ++ [1]).getD iso.dimNumber 0 = (1 : α)
    rw [List.getD_eq_getElem?_getD, List.getElem?_append_right (by simp)]
    simp

theorem getD_replicate_zero (n i : Nat) : (List.replicate n (0 : Int)).getD i 0 = 0 := by
  rw [List.getD_eq_getElem?_getD, List.getElem?_replicate]
  split <;> rfl

/-- The constructed state is reachable: besides the cursor invariant, the partial tables
are framed and the counters lie inside the tables. -/
theorem construct_good (log : α → α) (lowest : α)
    (sortOrder : List (PrecalculatedMarginal α) → List Nat)
    (hsort : ∀ l, (sortOrder l).Perm (List.range l.length))
    (iso : Iso α) (hiso : iso.MarginalsWF) (thr : α) (ab reorder : Bool)
    (g : IsoThresholdGenerator α)
    (hg : construct log lowest sortOrder iso thr ab reorder = some g) : Good g := by
  obtain ⟨hinv, hbase, hlv⟩ := construct_spec log lowest sortOrder hsort iso hiso thr ab reorder g hg
  have hf0 := constructBase_frame log lowest sortOrder iso thr ab reorder
  unfold construct at hg
  by_cases hdim : iso.dimNumber = 0
  · rw [if_pos hdim] at hg; exact absurd hg (by simp)
  rw [if_neg hdim] at hg
  have hc0 : (constructBase log lowest sortOrder iso thr ab reorder).counter =
    List.replicate (constructBase log lowest sortOrder iso thr ab reorder).dimNumber 0 := rfl
  have hp0 : (constructBase log lowest sortOrder iso thr ab reorder).lProbs_ptr = 0 := rfl
  generalize constructBase log lowest sortOrder iso thr ab reorder = g0 at hg hf0 hc0 hp0
  have hdpos := hinv.1.dim_pos
  simp only at hg
  split at hg
  · rename_i hne
    have hg' : g = decrFirst (recalc g0 (g0.dimNumber - 1)) := (Option.some.inj hg).symm
    have hdim' : g.dimNumber = g0.dimNumber := by
      rw [hg']; exact (recalc_same g0 _).1
    have hgc : g.counter = (List.replicate g0.dimNumber (0 : Int)).set 0 (-1) := by
      rw [hg']
      show (recalc g0 (g0.dimNumber - 1)).counter.set 0
        ((recalc g0 (g0.dimNumber - 1)).counter.getD 0 0 - 1) = _
      rw [recalc_counter, hc0, getD_replicate_zero]
      rfl
    have hgp : g.lProbs_ptr = -1 := by
      rw [hg']
      show (recalc g0 (g0.dimNumber - 1)).lProbs_ptr - 1 = -1
      rw [recalc_ptr, hp0]; rfl
    have hframe : Frame g := by
      have := recalc_frame g0 (g0.dimNumber - 1) (by omega) hf0
      rw [hg']
      exact this.of_eq rfl rfl rfl rfl
    have hlive : Live g := by
      apply hlv
      rw [hg']
      show (recalc g0 (g0.dimNumber - 1)).empty = false
      rw [(recalc_same g0 _).2.2.2.2.1]
      simpa using hne
    refine ⟨hinv.1, hframe, Or.inr ⟨hlive, ⟨?_, ?_, ?_, ?_⟩⟩⟩
    · rw [hgc, hgp, getD_set_eq _ _ _ _ (by simp; omega)]
    · rw [hgc, getD_set_eq _ _ _ _ (by simp; omega)]
    · intro i hi1 _
      rw [hgc, getD_set_ne _ _ _ _ _ (by omega), getD_replicate_zero]
    · intro i hid
      have := sizes_pos g hinv.1 hlive.nonempty i hid
      rw [hgc]
      by_cases hi0 : i = 0
      · subst hi0
        rw [getD_set_eq _ _ _ _ (by simp; omega)]; omega
      · rw [getD_set_ne _ _ _ _ _ (by omega), getD_replicate_zero]; exact this
  · have hg' : g = { terminate_search g0 with lcfmsv := some ⊤ } := (Option.some.inj hg).symm
    refine ⟨hinv.1, ?_, Or.inl ?_⟩
    · rw [hg']; exact (terminate_search_frame g0 hf0).of_eq rfl rfl rfl rfl
    · rw [hg']; exact terminate_search_dead g0

theorem construct_cases (log : α → α) (lowest : α)
    (sortOrder : List (PrecalculatedMarginal α) → List Nat)
    (iso : Iso α) (thr : α) (ab reorder : Bool) (g : IsoThresholdGenerator α)
    (hg : construct log lowest sortOrder iso thr ab reorder = some g) :
    iso.dimNumber ≠ 0 ∧
    (((constructBase log lowest sortOrder iso thr ab reorder).empty = false ∧
      g = decrFirst (recalc (constructBase log lowest sortOrder iso thr ab reorder)
        ((constructBase log lowest sortOrder iso thr ab reorder).dimNumber - 1))) ∨
     ((constructBase log lowest sortOrder iso thr ab reorder).empty = true ∧
      g = { terminate_search (constructBase log lowest sortOrder iso thr ab reorder) with
            lcfmsv := some ⊤ })) := by
  unfold construct at hg
  by_cases hdim : iso.dimNumber = 0
  · rw [if_pos hdim] at hg; exact absurd hg (by simp)
  rw [if_neg hdim] at hg
  refine ⟨hdim, ?_⟩
  simp only at hg
  split at hg
  · rename_i hne
    exact Or.inl ⟨by simpa using hne, (Option.some.inj hg).symm⟩
  · rename_i hne
    exact Or.inr ⟨by simpa using hne, (Option.some.inj hg).symm⟩

theorem advanceN_good (n : Nat) (g : IsoThresholdGenerator α) (hg : Good g) :
    Good (advanceN n g) ∧ SameStatic g (advanceN n g) := by
  induction n with
  | zero => exact ⟨hg, SameStatic.refl g⟩
  | succ n ih =>
    rw [advanceN_succ]
    have := advance_good _ ih.1
    exact ⟨this.1, ih.2.trans this.2.1⟩

/-- reset on a state with the fixed part of a non-empty base state rebuilds the state the
constructor derives from the base. -/
theorem reset_eq_of (g0 s : IsoThresholdGenerator α) (h0 : SameStatic g0 s)
    (hne : g0.empty = false) (hd : 0 < g0.dimNumber) (hf0 : Frame g0) (hfs : Frame s)
    (hc0 : g0.counter = List.replicate g0.dimNumber 0) (hp0 : g0.lProbs_ptr = 0)
    (hl0 : g0.partialLProbs.getD g0.dimNumber ⊥ = ((0 : α) : WithBot α)) :
    reset s = decrFirst (recalc g0 (g0.dimNumber - 1)) := by
  obtain ⟨a1, a2, a3, a4, a5, a6, a7, a8, a9, a10⟩ := h0
  unfold reset
  rw [if_neg (by rw [a5, hne]; simp)]
  simp only
  generalize hs1 : ({ s with partialLProbs := s.partialLProbs.set s.dimNumber ((0 : α) : WithBot α)
                             counter := List.replicate s.dimNumber 0 } :
    IsoThresholdGenerator α) = s1
  have hs1same : SameStatic s s1 := by
    subst hs1; exact ⟨rfl, rfl, rfl, rfl, rfl, rfl, rfl, rfl, rfl, rfl⟩
  have hs1c : s1.counter = List.replicate s.dimNumber 0 := by subst hs1; rfl
  have hs1l : s1.partialLProbs = s.partialLProbs.set s.dimNumber ((0 : α) : WithBot α) := by
    subst hs1; rfl
  have hs1m : s1.partialMasses = s.partialMasses := by subst hs1; rfl
  have hs1p : s1.partialProbs = s.partialProbs := by subst hs1; rfl
  have hs1ptr : s1.lProbs_ptr = s.lProbs_ptr := by subst hs1; rfl
  have hagree := recalc_agree (g0.dimNumber - 1) g0 s1 (by rw [hs1same.2.2.2.2.2.2.1, a7])
    (by rw [hs1c, hc0, a1])
    (by
      rw [show g0.dimNumber - 1 + 1 = g0.dimNumber from by omega]
      apply AgreeFrom.of_last ⊥ hf0.len_l
      · rw [hs1l, List.length_set, hfs.len_l, a1]
      · rw [hl0, hs1l, a1, getD_set_eq _ _ _ _ (by rw [hfs.len_l, a1]; omega)])
    (by
      rw [show g0.dimNumber - 1 + 1 = g0.dimNumber from by omega]
      apply AgreeFrom.of_last 0 hf0.len_m
      · rw [hs1m, hfs.len_m, a1]
      · rw [hf0.last_m, hs1m, ← a1, hfs.last_m])
    (by
      rw [show g0.dimNumber - 1 + 1 = g0.dimNumber from by omega]
      apply AgreeFrom.of_last 0 hf0.len_p
      · rw [hs1p, hfs.len_p, a1]
      · rw [hf0.last_p, hs1p, ← a1, hfs.last_p])
  have hr0 := recalc_same g0 (g0.dimNumber - 1)
  have hr1 := (hs1same.trans (recalc_same s1 (g0.dimNumber - 1)))
  obtain ⟨b1, b2, b3, b4, b5, b6, b7, b8, b9, b10⟩ := hr0
  obtain ⟨c1, c2, c3, c4, c5, c6, c7, c8, c9, c10⟩ := hr1
  rw [a1]
  apply IsoThresholdGenerator.ext
  · show (recalc s1 (g0.dimNumber - 1)).dimNumber = (recalc g0 (g0.dimNumber - 1)).dimNumber
    rw [c1, b1, a1]
  · show (recalc s1 (g0.dimNumber - 1)).allDim = (recalc g0 (g0.dimNumber - 1)).allDim
    rw [c2, b2, a2]
  · show (recalc s1 (g0.dimNumber - 1)).modeLProb = (recalc g0 (g0.dimNumber - 1)).modeLProb
    rw [c3, b3, a3]
  · show (recalc s1 (g0.dimNumber - 1)).Lcutoff = (recalc g0 (g0.dimNumber - 1)).Lcutoff
    rw [c4, b4, a4]
  · show (recalc s1 (g0.dimNumber - 1)).empty = (recalc g0 (g0.dimNumber - 1)).empty
    rw [c5, b5, a5]
  · show (recalc s1 (g0.dimNumber - 1)).marginalResultsUnsorted =
      (recalc g0 (g0.dimNumber - 1)).marginalResultsUnsorted
    rw [c6, b6, a6]
  · show (recalc s1 (g0.dimNumber - 1)).marginalResults =
      (recalc g0 (g0.dimNumber - 1)).marginalResults
    rw [c7, b7, a7]
  · show (recalc s1 (g0.dimNumber - 1)).marginalOrder =
      (recalc g0 (g0.dimNumber - 1)).marginalOrder
    rw [c8, b8, a8]
  · show (recalc s1 (g0.dimNumber - 1)).maxConfsLPSum =
      (recalc g0 (g0.dimNumber - 1)).maxConfsLPSum
    rw [c9, b9, a9]
  · show (recalc s1 (g0.dimNumber - 1)).counter.set 0
        ((recalc s1 (g0.dimNumber - 1)).counter.getD 0 0 - 1) =
      (recalc g0 (g0.dimNumber - 1)).counter.set 0
        ((recalc g0 (g0.dimNumber - 1)).counter.getD 0 0 - 1)
    rw [recalc_counter, recalc_counter, hs1c, hc0, a1]
  · exact hagree.1.symm
  · exact hagree.2.1.symm
  · exact hagree.2.2.symm
  · show (-1 : Int) = (recalc g0 (g0.dimNumber - 1)).lProbs_ptr - 1
    rw [recalc_ptr, hp0]; rfl
  · show (recalc s1 (g0.dimNumber - 1)).lcfmsv = (recalc g0 (g0.dimNumber - 1)).lcfmsv
    rw [c10, b10, a10]

/-- From every state reached by calls of advance, reset leads back to the state the
constructor left. -/
theorem reset_reachable (log : α → α) (lowest : α)
    (sortOrder : List (PrecalculatedMarginal α) → List Nat)
    (hsort : ∀ l, (sortOrder l).Perm (List.range l.length))
    (iso : Iso α) (hiso : iso.MarginalsWF) (thr : α) (ab reorder : Bool)
    (g : IsoThresholdGenerator α)
    (hg : construct log lowest sortOrder iso thr ab reorder = some g) (n : Nat) :
    reset (advanceN n g) = g := by
  have hgood := construct_good log lowest sortOrder hsort iso hiso thr ab reorder g hg
  obtain ⟨hdim, hcase⟩ := construct_cases log lowest sortOrder iso thr ab reorder g hg
  have hf0 := constructBase_frame log lowest sortOrder iso thr ab reorder
  have hc0 : (constructBase log lowest sortOrder iso thr ab reorder).counter =
    List.replicate (constructBase log lowest sortOrder iso thr ab reorder).dimNumber 0 := rfl
  have hp0 : (constructBase log lowest sortOrder iso thr ab reorder).lProbs_ptr = 0 := rfl
  have hl0 : (constructBase log lowest sortOrder iso thr ab reorder).partialLProbs.getD
      (constructBase log lowest sortOrder iso thr ab reorder).dimNumber ⊥ =
      ((0 : α) : WithBot α) := getD_replicate_append _ _ _ _
  have hd0 : 0 < (constructBase log lowest sortOrder iso thr ab reorder).dimNumber :=
    Nat.pos_of_ne_zero hdim
  generalize constructBase log lowest sortOrder iso thr ab reorder = g0 at hcase hf0 hc0 hp0 hl0 hd0
  rcases hcase with ⟨hne, hg'⟩ | ⟨hemp, hg'⟩
  · obtain ⟨hgn, hsn⟩ := advanceN_good n g hgood
    have h0g : SameStatic g0 g := by
      rw [hg']
      exact (recalc_same g0 _).trans ⟨rfl, rfl, rfl, rfl, rfl, rfl, rfl, rfl, rfl, rfl⟩
    rw [reset_eq_of g0 (advanceN n g) (h0g.trans hsn) hne hd0 hf0 hgn.frame hc0 hp0 hl0, hg']
  · have hts : terminate_search g = g := by rw [hg']; rfl
    have hdead : Dead g := by rw [hg']; exact terminate_search_dead g0
    have hfix : ∀ k, advanceN k g = g := by
      intro k
      induction k with
      | zero => rfl
      | succ k ih => rw [advanceN_succ, ih, advance_dead_eq g hdead, hts]
    have hge : g.empty = true := by rw [hg']; exact hemp
    rw [hfix n]
    unfold reset
    rw [if_pos hge, hts]

/-! ### Counting and enumerating -/

theorem finalState_advanceN (fuel : Nat) : ∀ (g : IsoThresholdGenerator α),
    ∃ k, finalState fuel g = advanceN k g := by
  induction fuel with
  | zero => intro g; exact ⟨0, rfl⟩
  | succ fuel ih =>
    intro g
    unfold finalState
    cases hb : (advanceToNextConfiguration g).1 with
    | false =>
      rw [show advanceToNextConfiguration g =
        (false, (advanceToNextConfiguration g).2) from by rw [← hb]]
      exact ⟨1, rfl⟩
    | true =>
      rw [show advanceToNextConfiguration g =
        (true, (advanceToNextConfiguration g).2) from by rw [← hb]]
      obtain ⟨k, hk⟩ := ih (advanceToNextConfiguration g).2
      refine ⟨k + 1, ?_⟩
      simp only [hk]
      unfold advanceN
      rw [Function.iterate_succ_apply]

/-- The counting loop counts what the enumeration loop emits, and ends with reset on the
state the enumeration ends in. -/
theorem count_confs_loop_eq (fuel : Nat) : ∀ (g : IsoThresholdGenerator α) (ret : Nat)
    (l : List (Emitted α)), enumerate fuel g = some l →
    count_confs_loop fuel g ret = some (ret + l.length, reset (finalState fuel g)) := by
  induction fuel with
  | zero => intro g ret l h; simp [enumerate] at h
  | succ fuel ih =>
    intro g ret l h
    unfold enumerate at h
    unfold count_confs_loop finalState
    cases hb : (advanceToNextConfiguration g).1 with
    | false =>
      rw [show advanceToNextConfiguration g =
        (false, (advanceToNextConfiguration g).2) from by rw [← hb]] at h ⊢
      simp only [Option.some.injEq] at h
      subst h
      rfl
    | true =>
      rw [show advanceToNextConfiguration g =
        (true, (advanceToNextConfiguration g).2) from by rw [← hb]] at h ⊢
      simp only at h ⊢
      cases he : enumerate fuel (advanceToNextConfiguration g).2 with
      | none => rw [he] at h; simp at h
      | some l1 =>
        rw [he] at h
        simp only [Option.map_some', Option.some.injEq] at h
        subst h
        rw [ih _ (ret + 1) l1 he, List.length_cons]
        congr 2
        omega

end IsoThresholdGenerator

/-! ## The claims on the threshold generator -/

namespace IsoThresholdGenerator

/-- C1: for every molecule with well-formed marginals and every cutoff `C > 0`, the log
cutoff of the generator is `log C` (absolute) or `log C + modeLProb` (relative), and every
configuration for which advanceToNextConfiguration returns true, after any number of
earlier calls, has a joint log-probability, the reported one, at or above that cutoff: its
probability `exp(lprob)` is at least `C`, respectively `C * exp(modeLProb)`. -/
theorem threshold_accepted_prob_ge_cutoff (lowest : ℝ)
    (sortOrder : List (PrecalculatedMarginal ℝ) → List Nat)
    (hsort : ∀ l, (sortOrder l).Perm (List.range l.length))
    (iso : Iso ℝ) (hiso : iso.MarginalsWF) (C : ℝ) (hC : 0 < C) (absolute reorder : Bool)
    (g : IsoThresholdGenerator ℝ)
    (hg : construct Real.log lowest sortOrder iso C absolute reorder = some g) (n : ℕ)
    (hacc : (advanceToNextConfiguration (advanceN n g)).1 = true) :
    g.Lcutoff = (if absolute then Real.log C else Real.log C + iso.modeLProb) ∧
    ∃ lp : ℝ, lprob (advanceToNextConfiguration (advanceN n g)).2 = (lp : WithBot ℝ) ∧
      jointLProb (advanceToNextConfiguration (advanceN n g)).2 = (lp : WithBot ℝ) ∧
      g.Lcutoff ≤ lp ∧
      (if absolute then C else C * Real.exp iso.modeLProb) ≤ Real.exp lp := by
  obtain ⟨hinv, hbase, _⟩ := construct_spec Real.log lowest sortOrder hsort iso hiso C absolute
    reorder g hg
  have hcut : g.Lcutoff = (if absolute then Real.log C else Real.log C + iso.modeLProb) := by
    have h4 : g.Lcutoff = mkLcutoff Real.log lowest iso.modeLProb C absolute := hbase.2.2.2.1
    rw [h4, mkLcutoff, if_neg (not_le.mpr hC)]
  obtain ⟨hsame, hinvn⟩ := advanceN_spec n g hinv
  obtain ⟨_, lp, h1, h2, h3⟩ := (advance_spec _ hinvn).2.2 hacc
  rw [hsame.2.2.2.1] at h3
  refine ⟨hcut, lp, h1, h2, h3, ?_⟩
  rw [hcut] at h3
  cases absolute with
  | true =>
    simp only [if_true] at h3 ⊢
    calc C = Real.exp (Real.log C) := (Real.exp_log hC).symm
      _ ≤ Real.exp lp := Real.exp_le_exp.mpr h3
  | false =>
    simp only [Bool.false_eq_true, if_false] at h3 ⊢
    calc C * Real.exp iso.modeLProb = Real.exp (Real.log C + iso.modeLProb) := by
          rw [Real.exp_add, Real.exp_log hC]
      _ ≤ Real.exp lp := Real.exp_le_exp.mpr h3

theorem threshold_accepted_prob_ge_cutoff_witness :
    ∃ lp : ℝ, lprob (advanceToNextConfiguration (advanceN 0
        (decrFirst (recalc (constructBase Real.log 0 (fun l => List.range l.length)
          ⟨false, 1, [1], [1], 4, 1, [⟨1, 1, [⟨0, 1, 1, [1]⟩], 0⟩], 0⟩ 1 true false) 0)))).2
        = (lp : WithBot ℝ) ∧ (1 : ℝ) ≤ Real.exp lp := by
  have h := threshold_accepted_prob_ge_cutoff 0 (fun l => List.range l.length)
    (fun l => List.Perm.refl _)
    ⟨false, 1, [1], [1], 4, 1, [⟨1, 1, [⟨0, 1, 1, [1]⟩], 0⟩], 0⟩
    (by simp [Iso.MarginalsWF, Marginal.WF]) 1 one_pos true false
    (decrFirst (recalc (constructBase Real.log 0 (fun l => List.range l.length)
          ⟨false, 1, [1], [1], 4, 1, [⟨1, 1, [⟨0, 1, 1, [1]⟩], 0⟩], 0⟩ 1 true false) 0))
    (by simp [construct, constructBase, mkUnsorted, mkLcutoff, PrecalculatedMarginal.ofMarginal,
          Marginal.getModeLProb, PrecalculatedMarginal.inRange]) 0
    (by
      simp [advanceN, advance_eq, constructBase, mkUnsorted, mkLcutoff,
        PrecalculatedMarginal.ofMarginal, Marginal.getModeLProb, PrecalculatedMarginal.inRange,
        PrecalculatedMarginal.get_lProb, decrFirst, recalc, recalcStep, mkMaxConfsLPSum])
  obtain ⟨_, lp, h1, _, _, h5⟩ := h
  exact ⟨lp, h1, by simpa using h5⟩

end IsoThresholdGenerator

namespace IsoThresholdGenerator

variable {α : Type} [LinearOrderedCommRing α]

theorem sampleIso_wf : sampleIso.MarginalsWF := by
  simp [Iso.MarginalsWF, Marginal.WF, sampleIso, sampleMarginalA, sampleMarginalB]

/-- C7: on a freshly constructed generator count_confs() returns (the loop ends within
the bound) and leaves the constructed state; after a further reset(), advancing to
exhaustion emits exactly count_confs() configurations, the same ones in the same order as
the fresh generator emits. -/
theorem count_reset_enumerate_roundtrip (log : α → α) (lowest : α)
    (sortOrder : List (PrecalculatedMarginal α) → List Nat)
    (hsort : ∀ l, (sortOrder l).Perm (List.range l.length))
    (iso : Iso α) (hiso : iso.MarginalsWF) (thr : α) (ab reorder : Bool)
    (g : IsoThresholdGenerator α)
    (hg : construct log lowest sortOrder iso thr ab reorder = some g) :
    ∃ (n : Nat) (g1 : IsoThresholdGenerator α) (l : List (Emitted α)),
      count_confs (fuelBound g) g = some (n, g1) ∧
      enumerate (fuelBound g) (reset g1) = some l ∧ l.length = n ∧
      enumerate (fuelBound g) g = some l := by
  have hgood := construct_good log lowest sortOrder hsort iso hiso thr ab reorder g hg
  have hreset := reset_reachable log lowest sortOrder hsort iso hiso thr ab reorder g hg
  have hfb := fuelBound_eq g
  have hterm : ∃ l, enumerate (fuelBound g) g = some l := by
    apply enumerate_terminates (fuelBound g) g hgood
    · rcases hgood.cursor with hd | ⟨hl, hb⟩
      · exact Or.inl hd
      · right
        have := (rank_bounds g hgood.static hl hb).1
        rw [hfb]; omega
    · have : (0 : Int) < (fuelBound g : Int) := by
        rw [hfb]
        have : (0 : Int) < ((sizes g).map (· + 1)).prod := by
          apply List.prod_pos
          intro a ha
          obtain ⟨b, hb, rfl⟩ := List.mem_map.mp ha
          obtain ⟨m, _, rfl⟩ := List.mem_map.mp hb
          show (0 : Int) < (m.get_no_confs : Int) + 1
          omega
        omega
      exact_mod_cast this
  obtain ⟨l, hl⟩ := hterm
  obtain ⟨k, hk⟩ := finalState_advanceN (fuelBound g) g
  have hcount := count_confs_loop_eq (fuelBound g) g 0 l hl
  rw [hk, hreset k, Nat.zero_add] at hcount
  refine ⟨l.length, g, l, hcount, ?_, rfl, hl⟩
  have := hreset 0
  rw [show advanceN 0 g = g from rfl] at this
  rw [this]
  exact hl

theorem count_reset_enumerate_roundtrip_witness :
    ∃ g, construct (fun _ => (-30 : Int)) (-1000000) idOrder sampleIso 5 true true = some g ∧
      ∃ (n : Nat) (g1 : IsoThresholdGenerator Int) (l : List (Emitted Int)),
        count_confs (fuelBound g) g = some (n, g1) ∧
        enumerate (fuelBound g) (reset g1) = some l ∧ l.length = n ∧
        enumerate (fuelBound g) g = some l := by
  obtain ⟨g, hg⟩ := Option.isSome_iff_exists.mp
    (by decide : (construct (fun _ => (-30 : Int)) (-1000000) idOrder sampleIso 5 true
      true).isSome = true)
  exact ⟨g, hg, count_reset_enumerate_roundtrip _ _ idOrder (fun l => List.Perm.refl _)
    sampleIso sampleIso_wf 5 true true g hg⟩

end IsoThresholdGenerator

/-! ## The concrete scenario: a molecule of two elements -/

theorem scenarioIso_eq {α : Type} [LinearOrderedField α] (lg : α → α)
    (hA12 : lg (9 / 50) ≤ lg (81 / 100)) (hA23 : lg (1 / 100) ≤ lg (9 / 50))
    (hB12 : lg (1 / 5) ≤ lg (4 / 5)) :
    scenarioIso lg = twoElementIso (lg (81 / 100)) (lg (9 / 50)) (lg (1 / 100)) (lg (4 / 5))
      (lg (1 / 5)) 2 3 4 10 11 (81 / 100) (9 / 50) (1 / 100) (4 / 5) (1 / 5) := by
  have hA13 := le_trans hA23 hA12
  norm_num [scenarioIso, Iso.ofArrays, Iso.setupMarginals, Marginal.ofElement, compositions,
    List.range_succ, Marginal.entry, multinomialCoeff, sizeofInt, Marginal.getModeLProb, hA12,
    hA23, hB12, hA13, List.orderedInsert, Nat.factorial, twoElementIso]

theorem perm_pair (l : List Nat) (h : l.Perm [0, 1]) : l = [0, 1] ∨ l = [1, 0] := by
  have hlen := h.length_eq
  have hnd : l.Nodup := h.nodup_iff.mpr (by decide)
  match l, hlen, hnd, h with
  | [x, y], _, hnd, h =>
    have hx : x ∈ [0, 1] := h.mem_iff.mp (by simp)
    have hy : y ∈ [0, 1] := h.mem_iff.mp (by simp)
    simp at hx hy hnd
    rcases hx with rfl | rfl <;> rcases hy with rfl | rfl <;> simp_all

namespace IsoThresholdGenerator

variable {α : Type} [LinearOrderedCommRing α]

theorem enumerate_succ (fuel : Nat) (g : IsoThresholdGenerator α) :
    enumerate (fuel + 1) g =
      match advanceToNextConfiguration g with
      | (true, g1) =>
        (enumerate fuel g1).map
          (fun l => ⟨g1.counter, lprob g1, mass g1, prob g1, get_conf_signature g1⟩ :: l)
      | (false, _) => some [] := rfl

theorem twoElement_enumerate (L a1 a2 b1 b2 ma1 ma2 mb1 mb2 pa1 pa2 pb1 pb2 : α)
    (mo : Option (List Nat)) (hmo : mo = none ∨ mo = some [0, 1])
    (h11 : L ≤ b1 + a1) (h21 : L ≤ b1 + a2) (h12 : L ≤ b2 + a1) (h22 : ¬ L ≤ b2 + a2) :
    enumerate 10 (decrFirst (recalc
        (twoElementBase L a1 a2 b1 b2 ma1 ma2 mb1 mb2 pa1 pa2 pb1 pb2 mo false) 1)) =
      some [⟨[0, 0], ((b1 + a1 : α) : WithBot α), mb1 + ma1, pb1 * pa1, [[2, 0], [1, 0]]⟩,
        ⟨[1, 0], ((b1 + a2 : α) : WithBot α), mb1 + ma2, pb1 * pa2, [[1, 1], [1, 0]]⟩,
        ⟨[0, 1], ((b2 + a1 : α) : WithBot α), mb2 + ma1, pb2 * pa1, [[2, 0], [0, 1]]⟩] := by
  rcases hmo with rfl | rfl <;>
  simp [enumerate_succ, twoElementBase, recalc, recalcStep, decrFirst, advance_eq,
    PrecalculatedMarginal.inRange, PrecalculatedMarginal.get_lProb,
    PrecalculatedMarginal.get_mass, PrecalculatedMarginal.get_prob, incrFirst,
    ← WithBot.coe_add, WithBot.coe_le_coe, h11, h21, h12, h22, carry_succ, carryStep, carry,
    lprob, mass, prob, get_conf_signature, PrecalculatedMarginal.get_conf, List.range_succ]

theorem twoElement_enumerate_swapped (L a1 a2 b1 b2 ma1 ma2 mb1 mb2 pa1 pa2 pb1 pb2 : α)
    (h11 : L ≤ a1 + b1) (h21 : L ≤ a2 + b1) (h12 : L ≤ a1 + b2) (h22 : ¬ L ≤ a2 + b2) :
    enumerate 10 (decrFirst (recalc
        (twoElementBase L a1 a2 b1 b2 ma1 ma2 mb1 mb2 pa1 pa2 pb1 pb2 (some [1, 0]) true) 1)) =
      some [⟨[0, 0], ((a1 + b1 : α) : WithBot α), ma1 + mb1, pa1 * pb1, [[2, 0], [1, 0]]⟩,
        ⟨[1, 0], ((a1 + b2 : α) : WithBot α), ma1 + mb2, pa1 * pb2, [[2, 0], [0, 1]]⟩,
        ⟨[0, 1], ((a2 + b1 : α) : WithBot α), ma2 + mb1, pa2 * pb1, [[1, 1], [1, 0]]⟩] := by
  simp [enumerate_succ, twoElementBase, recalc, recalcStep, decrFirst, advance_eq,
    PrecalculatedMarginal.inRange, PrecalculatedMarginal.get_lProb,
    PrecalculatedMarginal.get_mass, PrecalculatedMarginal.get_prob, incrFirst,
    ← WithBot.coe_add, WithBot.coe_le_coe, h11, h21, h12, h22, carry_succ, carryStep, carry,
    lprob, mass, prob, get_conf_signature, PrecalculatedMarginal.get_conf, List.range_succ]

/-- The run of the threshold generator on a molecule of two elements whose tables are
given, when exactly the three configurations (0,0), (1,0) and (0,1) of the first two entries
reach the cutoff: whatever the order of the marginals, the generator is constructed and
emits these three. -/
theorem twoElement_run (lg : α → α) (lowest : α)
    (so : List (PrecalculatedMarginal α) → List Nat)
    (hsort : ∀ l, (so l).Perm (List.range l.length))
    (a1 a2 a3 b1 b2 ma1 ma2 ma3 mb1 mb2 pa1 pa2 pa3 pb1 pb2 thr : α) (reorder : Bool)
    (hthr : 0 < thr)
    (h11 : lg thr ≤ b1 + a1) (h21 : lg thr ≤ b1 + a2) (h12 : lg thr ≤ b2 + a1)
    (h22 : ¬ lg thr ≤ b2 + a2) (h31 : ¬ lg thr ≤ b1 + a3) :
    ∃ g l, construct lg lowest so
        (twoElementIso a1 a2 a3 b1 b2 ma1 ma2 ma3 mb1 mb2 pa1 pa2 pa3 pb1 pb2) thr true reorder
        = some g ∧ fuelBound g = 10 ∧
      enumerate 10 g = some l ∧
      ((l.map (fun e => (e.conf, e.prob)) =
          [([[2, 0], [1, 0]], pb1 * pa1), ([[1, 1], [1, 0]], pb1 * pa2),
           ([[2, 0], [0, 1]], pb2 * pa1)]) ∨
       (l.map (fun e => (e.conf, e.prob)) =
          [([[2, 0], [1, 0]], pa1 * pb1), ([[2, 0], [0, 1]], pa1 * pb2),
           ([[1, 1], [1, 0]], pa2 * pb1)])) := by
  have hthr' : ¬ thr ≤ 0 := not_le.mpr hthr
  have hA1 : lg thr - (a1 + b1) + a1 ≤ a1 := by linarith
  have hA2 : lg thr - (a1 + b1) + a1 ≤ a2 := by linarith
  have hA3 : ¬ lg thr - (a1 + b1) + a1 ≤ a3 := by intro h; apply h31; linarith
  have hB1 : lg thr - (a1 + b1) + b1 ≤ b1 := by linarith
  have hB2 : lg thr - (a1 + b1) + b1 ≤ b2 := by linarith
  have h11' : lg thr ≤ a1 + b1 := by linarith
  have h21' : lg thr ≤ a2 + b1 := by linarith
  have h12' : lg thr ≤ a1 + b2 := by linarith
  have h22' : ¬ lg thr ≤ a2 + b2 := by intro h; apply h22; linarith
  have hso := perm_pair _ (hsort
    [⟨[⟨a1, ma1, pa1, [2, 0]⟩, ⟨a2, ma2, pa2, [1, 1]⟩], a1⟩,
     ⟨[⟨b1, mb1, pb1, [1, 0]⟩, ⟨b2, mb2, pb2, [0, 1]⟩], b1⟩])
  have hcons : ∀ (mo : Option (List Nat)) (sw : Bool),
      fuelBound (decrFirst (recalc (twoElementBase (lg thr) a1 a2 b1 b2 ma1 ma2 mb1 mb2 pa1 pa2
        pb1 pb2 mo sw) 1)) = 10 := by
    intro mo sw
    cases sw <;>
    simp [fuelBound, twoElementBase, recalc, recalcStep, decrFirst,
      PrecalculatedMarginal.get_no_confs]
  by_cases hre : reorder = true ∧ so
    [⟨[⟨a1, ma1, pa1, [2, 0]⟩, ⟨a2, ma2, pa2, [1, 1]⟩], a1⟩,
     ⟨[⟨b1, mb1, pb1, [1, 0]⟩, ⟨b2, mb2, pb2, [0, 1]⟩], b1⟩] = [1, 0]
  · obtain ⟨hr, hs⟩ := hre
    refine ⟨decrFirst (recalc (twoElementBase (lg thr) a1 a2 b1 b2 ma1 ma2 mb1 mb2 pa1 pa2 pb1 pb2
      (some [1, 0]) true) 1), _, ?_, hcons _ _,
      twoElement_enumerate_swapped _ _ _ _ _ _ _ _ _ _ _ _ _ h11' h21' h12' h22', Or.inr ?_⟩
    · subst hr
      simp [construct, constructBase, twoElementIso, mkLcutoff, mkUnsorted, hthr',
        PrecalculatedMarginal.ofMarginal, Marginal.getModeLProb, List.range_succ, hA1, hA2, hA3,
        hB1, hB2, PrecalculatedMarginal.inRange, mkMaxConfsLPSum,
        PrecalculatedMarginal.getModeLProb, twoElementBase, hs, mkMarginalOrder]
    · simp
  · have hmo : ∃ mo, (mo = none ∨ mo = some [0, 1]) ∧ construct lg lowest so
        (twoElementIso a1 a2 a3 b1 b2 ma1 ma2 ma3 mb1 mb2 pa1 pa2 pa3 pb1 pb2) thr true reorder
        = some (decrFirst (recalc (twoElementBase (lg thr) a1 a2 b1 b2 ma1 ma2 mb1 mb2 pa1 pa2
          pb1 pb2 mo false) 1)) := by
      cases reorder with
      | false =>
        refine ⟨none, Or.inl rfl, ?_⟩
        simp [construct, constructBase, twoElementIso, mkLcutoff, mkUnsorted, hthr',
          PrecalculatedMarginal.ofMarginal, Marginal.getModeLProb, List.range_succ, hA1, hA2, hA3,
          hB1, hB2, PrecalculatedMarginal.inRange, mkMaxConfsLPSum,
          PrecalculatedMarginal.getModeLProb, twoElementBase]
      | true =>
        have hs : so [⟨[⟨a1, ma1, pa1, [2, 0]⟩, ⟨a2, ma2, pa2, [1, 1]⟩], a1⟩,
            ⟨[⟨b1, mb1, pb1, [1, 0]⟩, ⟨b2, mb2, pb2, [0, 1]⟩], b1⟩] = [0, 1] := by
          rcases hso with h | h
          · exact h
          · exact absurd ⟨rfl, h⟩ hre
        refine ⟨some [0, 1], Or.inr rfl, ?_⟩
        simp [construct, constructBase, twoElementIso, mkLcutoff, mkUnsorted, hthr',
          PrecalculatedMarginal.ofMarginal, Marginal.getModeLProb, List.range_succ, hA1, hA2, hA3,
          hB1, hB2, PrecalculatedMarginal.inRange, mkMaxConfsLPSum,
          PrecalculatedMarginal.getModeLProb, twoElementBase, hs, mkMarginalOrder]
    obtain ⟨mo, hmo1, hmo2⟩ := hmo
    refine ⟨_, _, hmo2, hcons _ _,
      twoElement_enumerate _ _ _ _ _ _ _ _ _ _ _ _ _ mo hmo1 h11 h21 h12 h22, Or.inl ?_⟩
    simp

end IsoThresholdGenerator

theorem log_le_add_of_le_mul (c x y : ℝ) (hc : 0 < c) (hx : 0 < x) (hy : 0 < y)
    (h : c ≤ x * y) : Real.log c ≤ Real.log x + Real.log y := by
  rw [← Real.log_mul (ne_of_gt hx) (ne_of_gt hy)]
  exact Real.log_le_log hc h

theorem not_log_le_add_of_mul_lt (c x y : ℝ) (hc : 0 < c) (hx : 0 < x) (hy : 0 < y)
    (h : x * y < c) : ¬ Real.log c ≤ Real.log x + Real.log y := by
  rw [← Real.log_mul (ne_of_gt hx) (ne_of_gt hy)]
  intro hle
  have := (Real.log_le_log_iff hc (mul_pos hx hy)).mp hle
  linarith

theorem twoElementIso_wf {α : Type} [LinearOrderedCommRing α]
    (a1 a2 a3 b1 b2 ma1 ma2 ma3 mb1 mb2 pa1 pa2 pa3 pb1 pb2 : α)
    (h21 : a2 ≤ a1) (h32 : a3 ≤ a2) (hb : b2 ≤ b1) :
    (twoElementIso a1 a2 a3 b1 b2 ma1 ma2 ma3 mb1 mb2 pa1 pa2 pa3 pb1 pb2).MarginalsWF := by
  simp [Iso.MarginalsWF, Marginal.WF, twoElementIso, h21, h32, hb, le_trans h32 h21]

namespace IsoThresholdGenerator

/-- C10: for the molecule of element A (2 atoms, isotope probabilities 0.9 and 0.1, masses
1 and 2) and element B (1 atom, probabilities 0.8 and 0.2, masses 10 and 11), the threshold
generator with absolute cutoff 0.05 is constructed and, run to exhaustion, emits exactly
three configurations: A=[2,0],B=[1,0] with probability 0.648, A=[1,1],B=[1,0] with 0.144
and A=[2,0],B=[0,1] with 0.162 (in an order that depends on the order of the marginals);
their probabilities sum to 0.954 and count_confs() returns 3. -/
theorem threshold_scenario_three_configurations (lowest : ℝ)
    (sortOrder : List (PrecalculatedMarginal ℝ) → List Nat)
    (hsort : ∀ l, (sortOrder l).Perm (List.range l.length)) (reorder : Bool) :
    ∃ g l, construct Real.log lowest sortOrder (scenarioIso Real.log) 0.05 true reorder = some g ∧
      enumerate (fuelBound g) g = some l ∧
      (l.map (fun e => (e.conf, e.prob))).Perm
        [([[2, 0], [1, 0]], 0.648), ([[1, 1], [1, 0]], 0.144), ([[2, 0], [0, 1]], 0.162)] ∧
      (l.map Emitted.prob).sum = 0.954 ∧
      count_confs (fuelBound g) g = some (3, g) := by
  have hA12 : Real.log (9 / 50) ≤ Real.log (81 / 100) :=
    Real.log_le_log (by norm_num) (by norm_num)
  have hA23 : Real.log (1 / 100) ≤ Real.log (9 / 50) :=
    Real.log_le_log (by norm_num) (by norm_num)
  have hB12 : Real.log (1 / 5) ≤ Real.log (4 / 5) :=
    Real.log_le_log (by norm_num) (by norm_num)
  have heq := scenarioIso_eq Real.log hA12 hA23 hB12
  have hwf : (scenarioIso Real.log).MarginalsWF := by
    rw [heq]
    exact twoElementIso_wf _ _ _ _ _ _ _ _ _ _ _ _ _ _ _ hA12 hA23 hB12
  obtain ⟨g, l, hg, hfb, hl, hmap⟩ := twoElement_run Real.log lowest sortOrder hsort
    (Real.log (81 / 100)) (Real.log (9 / 50)) (Real.log (1 / 100)) (Real.log (4 / 5))
    (Real.log (1 / 5)) 2 3 4 10 11 (81 / 100) (9 / 50) (1 / 100) (4 / 5) (1 / 5) 0.05 reorder
    (by norm_num)
    (log_le_add_of_le_mul _ _ _ (by norm_num) (by norm_num) (by norm_num) (by norm_num))
    (log_le_add_of_le_mul _ _ _ (by norm_num) (by norm_num) (by norm_num) (by norm_num))
    (log_le_add_of_le_mul _ _ _ (by norm_num) (by norm_num) (by norm_num) (by norm_num))
    (not_log_le_add_of_mul_lt _ _ _ (by norm_num) (by norm_num) (by norm_num) (by norm_num))
    (not_log_le_add_of_mul_lt _ _ _ (by norm_num) (by norm_num) (by norm_num) (by norm_num))
  rw [← heq] at hg
  have hlen : l.length = 3 := by
    rcases hmap with h | h
    · have := congrArg List.length h; simpa using this
    · have := congrArg List.length h; simpa using this
  have hprob : l.map Emitted.prob = (l.map (fun e => (e.conf, e.prob))).map Prod.snd := by
    rw [List.map_map]; rfl
  refine ⟨g, l, hg, by rw [hfb]; exact hl, ?_, ?_, ?_⟩
  · rcases hmap with h | h
    · rw [h]
      have : ([([[2, 0], [1, 0]], (4 / 5 : ℝ) * (81 / 100)), ([[1, 1], [1, 0]], 4 / 5 * (9 / 50)),
          ([[2, 0], [0, 1]], 1 / 5 * (81 / 100))] : List (List (List Nat) × ℝ)) =
          [([[2, 0], [1, 0]], 0.648), ([[1, 1], [1, 0]], 0.144), ([[2, 0], [0, 1]], 0.162)] := by
        norm_num
      rw [this]
    · rw [h]
      have : ([([[2, 0], [1, 0]], (81 / 100 : ℝ) * (4 / 5)), ([[2, 0], [0, 1]], 81 / 100 * (1 / 5)),
          ([[1, 1], [1, 0]], 9 / 50 * (4 / 5))] : List (List (List Nat) × ℝ)) =
          [([[2, 0], [1, 0]], 0.648), ([[2, 0], [0, 1]], 0.162), ([[1, 1], [1, 0]], 0.144)] := by
        norm_num
      rw [this]
      exact List.Perm.cons _ (List.Perm.swap _ _ _)
  · rw [hprob]
    rcases hmap with h | h <;> rw [h] <;> norm_num
  · have hcount := count_confs_loop_eq (fuelBound g) g 0 l (by rw [hfb]; exact hl)
    obtain ⟨k, hk⟩ := finalState_advanceN (fuelBound g) g
    rw [hk, reset_reachable Real.log lowest sortOrder hsort _ hwf 0.05 true reorder g hg k,
      hlen] at hcount
    exact hcount

theorem threshold_scenario_three_configurations_witness :
    ∃ g l, construct Real.log 0 idOrder (scenarioIso Real.log) 0.05 true true = some g ∧
      enumerate (fuelBound g) g = some l ∧
      (l.map (fun e => (e.conf, e.prob))).Perm
        [([[2, 0], [1, 0]], 0.648), ([[1, 1], [1, 0]], 0.144), ([[2, 0], [0, 1]], 0.162)] ∧
      (l.map Emitted.prob).sum = 0.954 ∧
      count_confs (fuelBound g) g = some (3, g) :=
  threshold_scenario_three_configurations 0 idOrder (fun _ => List.Perm.refl _) true

end IsoThresholdGenerator

/-! ## Properties of the ordered generator -/

theorem pqPopMax_spec {α : Type} [LinearOrder α] : PQSpec (pqPopMax (α := α)) := by
  refine ⟨rfl, ?_⟩
  intro q
  induction q with
  | nil => intro h; exact absurd rfl h
  | cons x q ih =>
    intro _
    by_cases hq : q = []
    · subst hq
      exact ⟨x, [], rfl, List.Perm.refl _, by simp⟩
    · obtain ⟨y, rest, hy, hperm, hmax⟩ := ih hq
      by_cases hxy : y.lprob ≤ x.lprob
      · refine ⟨x, q, by simp [pqPopMax, hy, hxy], List.Perm.refl _, ?_⟩
        intro z hz
        rcases List.mem_cons.mp hz with rfl | hz
        · exact le_rfl
        · exact le_trans (hmax z hz) hxy
      · refine ⟨y, x :: rest, by simp [pqPopMax, hy, hxy], ?_, ?_⟩
        · exact (List.Perm.cons x hperm).trans (List.Perm.swap y x rest)
        · intro z hz
          rcases List.mem_cons.mp hz with rfl | hz
          · exact le_of_lt (not_le.mp hxy)
          · exact hmax z hz

namespace IsoOrderedGenerator

variable {α : Type} [LinearOrderedCommRing α]

/-! ### Index vectors -/

theorem incr_length (c : List Nat) (j : Nat) : (incr c j).length = c.length := by
  simp [incr]

theorem incr_getD_self (c : List Nat) (j : Nat) (h : j < c.length) :
    (incr c j).getD j 0 = c.getD j 0 + 1 := by
  unfold incr; rw [getD_set_eq _ _ _ _ h]

theorem incr_getD_ne (c : List Nat) (j k : Nat) (h : j ≠ k) :
    (incr c j).getD k 0 = c.getD k 0 := by
  unfold incr; rw [getD_set_ne _ _ _ _ _ h]

theorem incr_ne_self (c : List Nat) (j : Nat) (h : j < c.length) : incr c j ≠ c := by
  intro he
  have := incr_getD_self c j h
  rw [he] at this
  omega

theorem incr_injective (c : List Nat) (i j : Nat) (hi : i < c.length)
    (h : incr c i = incr c j) : i = j := by
  by_contra hne
  have h1 := incr_getD_self c i hi
  rw [h, incr_getD_ne c j i (fun h => hne h.symm)] at h1
  omega

theorem incr_cons_zero (x : Nat) (t : List Nat) : incr (x :: t) 0 = (x + 1) :: t := by
  simp [incr]

theorem incr_cons_succ (x : Nat) (t : List Nat) (j : Nat) :
    incr (x :: t) (j + 1) = x :: incr t j := by
  simp [incr]

theorem incr_not_root (c : List Nat) (j : Nat) (h : j < c.length) : ¬ isRoot (incr c j) := by
  intro hr
  have hmem : (incr c j).getD j 0 ∈ incr c j := by
    rw [List.getD_eq_getElem?_getD, List.getElem?_eq_getElem (by rw [incr_length]; exact h)]
    exact List.getElem_mem _
  have := hr _ hmem
  rw [incr_getD_self c j h] at this
  omega

/-- The predecessor of the vector incremented at `j` is the vector itself, when all its
entries before `j` are zero. -/
theorem parent_incr : ∀ (c : List Nat) (j : Nat), j < c.length →
    (∀ i, i < j → c.getD i 0 = 0) → parent (incr c j) = c
  | [], _, h, _ => by simp at h
  | x :: t, 0, _, _ => by rw [incr_cons_zero]; rfl
  | x :: t, j + 1, h, hz => by
    have hx : x = 0 := by simpa using hz 0 (by omega)
    subst hx
    rw [incr_cons_succ]
    show 0 :: parent (incr t j) = 0 :: t
    rw [parent_incr t j (by simpa using h) (fun i hi => by simpa using hz (i + 1) (by omega))]

/-- A vector that is not all zero is its predecessor incremented at the first entry that
is not zero. -/
theorem incr_parent : ∀ (c : List Nat), ¬ isRoot c →
    ∃ j, j < c.length ∧ (∀ i, i < j → (parent c).getD i 0 = 0) ∧ incr (parent c) j = c ∧
      (parent c).length = c.length
  | [], h => absurd (fun x hx => by simp at hx) h
  | 0 :: t, h => by
    have ht : ¬ isRoot t := by
      intro hr
      apply h
      intro x hx
      rcases List.mem_cons.mp hx with rfl | hx
      · rfl
      · exact hr x hx
    obtain ⟨j, hj, hz, hi, hl⟩ := incr_parent t ht
    refine ⟨j + 1, by simpa using hj, ?_, ?_, ?_⟩
    · intro i hi'
      cases i with
      | zero => rfl
      | succ i => simpa [parent] using hz i (by omega)
    · show incr (0 :: parent t) (j + 1) = 0 :: t
      rw [incr_cons_succ, hi]
    · show (0 :: parent t).length = (0 :: t).length
      simp [hl]
  | (n + 1) :: t, _ => by
    refine ⟨0, by simp, fun i hi => absurd hi (by omega), ?_, ?_⟩
    · show incr (n :: t) 0 = (n + 1) :: t
      rw [incr_cons_zero]
    · rfl

theorem replicate_isRoot (n : Nat) : isRoot (List.replicate n 0) := by
  intro x hx
  exact (List.mem_replicate.mp hx).2

theorem isRoot_eq_replicate (c : List Nat) (h : isRoot c) : c = List.replicate c.length 0 := by
  apply List.eq_replicate_iff.mpr
  exact ⟨rfl, h⟩

/-! ### The loop over the elements -/

theorem scanBody_probe (g : IsoOrderedGenerator α) (top : OrdNode α) (j : Nat)
    (s : ScanState α)
    (hp : (g.marginalResults.getD j ⟨0, 0, [], 0⟩).probeConfigurationIdx
      (top.conf.getD j 0 + 1) = true) :
    ∃ a, (scanBody g top j s).pq =
        ⟨a, combinedSum (incr top.conf j) (logProbs g) g.dimNumber, incr top.conf j⟩ :: s.pq ∧
      ((scanBody g top j s).ccount = s.ccount ∨ (scanBody g top j s).ccount = (j : Int)) := by
  unfold scanBody
  rw [if_pos hp]
  by_cases hc : s.ccount = -1
  · rw [if_pos hc]; exact ⟨_, rfl, Or.inr rfl⟩
  · rw [if_neg hc]; exact ⟨_, rfl, Or.inl rfl⟩

theorem scanBody_noprobe (g : IsoOrderedGenerator α) (top : OrdNode α) (j : Nat)
    (s : ScanState α)
    (hp : ¬ (g.marginalResults.getD j ⟨0, 0, [], 0⟩).probeConfigurationIdx
      (top.conf.getD j 0 + 1) = true) :
    scanBody g top j s = s := by
  unfold scanBody
  rw [if_neg hp]

/-- The loop over the elements pushes, on top of the queue it starts from, one node per
element `i` from `j` on such that the indices of the elements `j..i-1` are zero and the
next index of element `i` exists: the node of the index vector incremented at `i`. -/
theorem scan_spec (g : IsoOrderedGenerator α) (top : OrdNode α)
    (hlen : top.conf.length = g.dimNumber) :
    ∀ (left j : Nat) (s : ScanState α), j + left = g.dimNumber →
    ∃ new : List (OrdNode α),
      (scan g top left j s).pq = new ++ s.pq ∧
      (∀ x ∈ new, x.lprob = combinedSum x.conf (logProbs g) g.dimNumber) ∧
      (∀ c, c ∈ new.map OrdNode.conf ↔ ∃ i, j ≤ i ∧ i < g.dimNumber ∧
        (∀ k, j ≤ k → k < i → top.conf.getD k 0 = 0) ∧
        (g.marginalResults.getD i ⟨0, 0, [], 0⟩).probeConfigurationIdx
          (top.conf.getD i 0 + 1) = true ∧ c = incr top.conf i) ∧
      (new.map OrdNode.conf).Nodup ∧
      ((s.ccount = -1 ∨ ∃ i, i < g.dimNumber ∧ s.ccount = (i : Int)) →
        ((scan g top left j s).ccount = -1 ∨
          ∃ i, i < g.dimNumber ∧ (scan g top left j s).ccount = (i : Int))) := by
  intro left
  induction left with
  | zero =>
    intro j s hj
    refine ⟨[], rfl, by simp, ?_, by simp, fun h => h⟩
    intro c
    simp only [List.map_nil, List.not_mem_nil, false_iff]
    rintro ⟨i, h1, h2, _⟩
    omega
  | succ left ih =>
    intro j s hj
    have hjd : j < g.dimNumber := by omega
    -- the body at element j
    have hbody : ∃ nb : List (OrdNode α),
        (scanBody g top j s).pq = nb ++ s.pq ∧
        (∀ x ∈ nb, x.lprob = combinedSum x.conf (logProbs g) g.dimNumber) ∧
        (∀ c, c ∈ nb.map OrdNode.conf ↔
          ((g.marginalResults.getD j ⟨0, 0, [], 0⟩).probeConfigurationIdx
            (top.conf.getD j 0 + 1) = true ∧ c = incr top.conf j)) ∧
        (nb.map OrdNode.conf).Nodup ∧
        ((s.ccount = -1 ∨ ∃ i, i < g.dimNumber ∧ s.ccount = (i : Int)) →
          ((scanBody g top j s).ccount = -1 ∨
            ∃ i, i < g.dimNumber ∧ (scanBody g top j s).ccount = (i : Int))) := by
      by_cases hp : (g.marginalResults.getD j ⟨0, 0, [], 0⟩).probeConfigurationIdx
          (top.conf.getD j 0 + 1) = true
      · obtain ⟨a, ha, hc⟩ := scanBody_probe g top j s hp
        refine ⟨[⟨a, combinedSum (incr top.conf j) (logProbs g) g.dimNumber, incr top.conf j⟩],
          ha, ?_, ?_, by simp, ?_⟩
        · intro x hx
          rw [List.mem_singleton] at hx
          subst hx; rfl
        · intro c
          simp only [List.map_cons, List.map_nil, List.mem_singleton]
          exact ⟨fun h => ⟨hp, h⟩, fun h => h.2⟩
        · intro h
          rcases hc with hc | hc
          · rw [hc]; exact h
          · exact Or.inr ⟨j, hjd, hc⟩
      · rw [scanBody_noprobe g top j s hp]
        refine ⟨[], rfl, by simp, ?_, by simp, fun h => h⟩
        intro c
        simp only [List.map_nil, List.not_mem_nil, false_iff]
        rintro ⟨h, _⟩
        exact hp h
    obtain ⟨nb, hb1, hb2, hb3, hb4, hb5⟩ := hbody
    have hscan : scan g top (left + 1) j s =
        if top.conf.getD j 0 > 0 then scanBody g top j s
        else scan g top left (j + 1) (scanBody g top j s) := rfl
    rw [hscan]
    by_cases hbrk : top.conf.getD j 0 > 0
    · rw [if_pos hbrk]
      refine ⟨nb, hb1, hb2, ?_, hb4, hb5⟩
      intro c
      rw [hb3 c]
      constructor
      · rintro ⟨hp, hc⟩
        exact ⟨j, le_rfl, hjd, fun k hk1 hk2 => absurd hk2 (by omega), hp, hc⟩
      · rintro ⟨i, hi1, hi2, hz, hp, hc⟩
        have : i = j := by
          by_contra hne
          have := hz j le_rfl (by omega)
          omega
        subst this
        exact ⟨hp, hc⟩
    · rw [if_neg hbrk]
      have hz0 : top.conf.getD j 0 = 0 := by omega
      obtain ⟨nr, hr1, hr2, hr3, hr4, hr5⟩ := ih (j + 1) (scanBody g top j s) (by omega)
      refine ⟨nr ++ nb, ?_, ?_, ?_, ?_, ?_⟩
      · rw [hr1, hb1, List.append_assoc]
      · intro x hx
        rcases List.mem_append.mp hx with hx | hx
        · exact hr2 x hx
        · exact hb2 x hx
      · intro c
        rw [List.map_append, List.mem_append, hr3 c, hb3 c]
        constructor
        · rintro (⟨i, hi1, hi2, hz, hp, hc⟩ | ⟨hp, hc⟩)
          · refine ⟨i, by omega, hi2, ?_, hp, hc⟩
            intro k hk1 hk2
            by_cases hkj : k = j
            · subst hkj; exact hz0
            · exact hz k (by omega) hk2
          · exact ⟨j, le_rfl, hjd, fun k hk1 hk2 => absurd hk2 (by omega), hp, hc⟩
        · rintro ⟨i, hi1, hi2, hz, hp, hc⟩
          by_cases hij : i = j
          · subst hij; exact Or.inr ⟨hp, hc⟩
          · exact Or.inl ⟨i, by omega, hi2, fun k hk1 hk2 => hz k (by omega) hk2, hp, hc⟩
      · rw [List.map_append]
        refine List.Nodup.append hr4 hb4 ?_
        intro c hc1 hc2
        obtain ⟨i, hi1, hi2, _, _, hci⟩ := (hr3 c).mp hc1
        obtain ⟨_, hcj⟩ := (hb3 c).mp hc2
        rw [hci] at hcj
        have := incr_injective top.conf i j (by omega) hcj
        omega
      · intro h
        exact hr5 (hb5 h)

/-! ### One call of advance -/

theorem incr_set_back (c : List Nat) (i : Nat) (h : i < c.length) :
    (incr c i).set i ((incr c i).getD i 0 - 1) = c := by
  rw [incr_getD_self c i h]
  unfold incr
  rw [List.set_set]
  apply List.ext_getElem?
  intro k
  by_cases hk : i = k
  · subst hk
    rw [List.getElem?_set_self (by exact h), List.getD_eq_getElem?_getD,
      List.getElem?_eq_getElem h]
    simp
  · rw [List.getElem?_set_ne hk]

theorem ordAdvance_eq (pqPop : List (OrdNode α) → Option (OrdNode α × List (OrdNode α)))
    (exp : α → α) (g : IsoOrderedGenerator α) (top : OrdNode α) (pq1 : List (OrdNode α))
    (h : pqPop g.pq = some (top, pq1)) :
    advanceToNextConfiguration pqPop exp g =
      (true,
        { g with
          pq := (scan g top g.dimNumber 0 ⟨pq1, -1, g.allocated⟩).pq
          topConf :=
            if 0 ≤ (scan g top g.dimNumber 0 ⟨pq1, -1, g.allocated⟩).ccount then
              ⟨top.addr, combinedSum (incr top.conf
                  (scan g top g.dimNumber 0 ⟨pq1, -1, g.allocated⟩).ccount.toNat) (logProbs g)
                  g.dimNumber,
                incr top.conf (scan g top g.dimNumber 0 ⟨pq1, -1, g.allocated⟩).ccount.toNat⟩
            else top
          ccount := (scan g top g.dimNumber 0 ⟨pq1, -1, g.allocated⟩).ccount
          allocated := (scan g top g.dimNumber 0 ⟨pq1, -1, g.allocated⟩).allocated
          currentLProb := top.lprob
          currentMass := combinedSum top.conf (masses g) g.dimNumber
          currentProb := exp top.lprob }) := by
  unfold advanceToNextConfiguration
  rw [h]

theorem advance_empty (pqPop : List (OrdNode α) → Option (OrdNode α × List (OrdNode α)))
    (hpq : PQSpec pqPop) (exp : α → α) (g : IsoOrderedGenerator α) (h : g.pq = []) :
    advanceToNextConfiguration pqPop exp g = (false, g) := by
  unfold advanceToNextConfiguration
  rw [h, hpq.nil]

/-- A call of advance on a non-empty queue: a node of greatest log-probability leaves
the queue and is emitted, and the nodes pushed are those of the index vector incremented at
an element `i` such that the indices before `i` are zero and the next index of element `i`
exists. -/
theorem advance_unfold (pqPop : List (OrdNode α) → Option (OrdNode α × List (OrdNode α)))
    (hpq : PQSpec pqPop) (exp : α → α) (g : IsoOrderedGenerator α)
    (hlen : ∀ x ∈ g.pq, x.conf.length = g.dimNumber) (hne : g.pq ≠ []) :
    ∃ (top : OrdNode α) (pq1 new : List (OrdNode α)),
      g.pq.Perm (top :: pq1) ∧ (∀ y ∈ g.pq, y.lprob ≤ top.lprob) ∧
      (advanceToNextConfiguration pqPop exp g).1 = true ∧
      (advanceToNextConfiguration pqPop exp g).2.pq = new ++ pq1 ∧
      (∀ x ∈ new, x.lprob = combinedSum x.conf (logProbs g) g.dimNumber) ∧
      (∀ c, c ∈ new.map OrdNode.conf ↔ ∃ i, i < g.dimNumber ∧
        (∀ k, k < i → top.conf.getD k 0 = 0) ∧
        (g.marginalResults.getD i ⟨0, 0, [], 0⟩).probeConfigurationIdx
          (top.conf.getD i 0 + 1) = true ∧ c = incr top.conf i) ∧
      (new.map OrdNode.conf).Nodup ∧
      emittedConf (advanceToNextConfiguration pqPop exp g).2 = top.conf ∧
      (advanceToNextConfiguration pqPop exp g).2.currentLProb = top.lprob ∧
      (advanceToNextConfiguration pqPop exp g).2.currentProb = exp top.lprob ∧
      (advanceToNextConfiguration pqPop exp g).2.dimNumber = g.dimNumber ∧
      (advanceToNextConfiguration pqPop exp g).2.marginalResults = g.marginalResults := by
  obtain ⟨top, pq1, hpop, hperm, hmax⟩ := hpq.cons g.pq hne
  have htl : top.conf.length = g.dimNumber :=
    hlen top (hperm.mem_iff.mpr (List.mem_cons_self _ _))
  obtain ⟨new, h1, h2, h3, h4, h5⟩ :=
    scan_spec g top htl g.dimNumber 0 ⟨pq1, -1, g.allocated⟩ (by omega)
  rw [ordAdvance_eq pqPop exp g top pq1 hpop]
  refine ⟨top, pq1, new, hperm, hmax, rfl, h1, h2, ?_, h4, ?_, rfl, rfl, rfl, rfl⟩
  · intro c
    rw [h3 c]
    constructor
    · rintro ⟨i, _, hi, hz, hp, hc⟩
      exact ⟨i, hi, fun k hk => hz k (Nat.zero_le k) hk, hp, hc⟩
    · rintro ⟨i, hi, hz, hp, hc⟩
      exact ⟨i, Nat.zero_le i, hi, fun k _ hk => hz k hk, hp, hc⟩
  · rcases h5 (Or.inl rfl) with hc | ⟨i, hi, hc⟩
    · unfold emittedConf
      simp only [hc]
      rfl
    · unfold emittedConf
      simp only [hc]
      rw [if_pos (by omega), if_pos (by omega)]
      simp only [Int.toNat_ofNat]
      exact incr_set_back top.conf i (by omega)

theorem confCounts_getD (g : IsoOrderedGenerator α) (i : Nat)
    (hi : i < g.marginalResults.length) :
    (confCounts g).getD i 0 = (g.marginalResults.getD i ⟨0, 0, [], 0⟩).confs.length := by
  simp [confCounts, List.getD_eq_getElem?_getD, List.getElem?_eq_getElem hi]

theorem confCounts_length (g : IsoOrderedGenerator α) :
    (confCounts g).length = g.marginalResults.length := by
  simp [confCounts]

/-- A successful call of advance keeps the invariant of the search, the emitted vector
being the one of the node that left the queue. -/
theorem advance_inv (pqPop : List (OrdNode α) → Option (OrdNode α × List (OrdNode α)))
    (hpq : PQSpec pqPop) (exp : α → α) (g : IsoOrderedGenerator α) (E : List (List Nat))
    (hinv : SearchInv g E) (hne : g.pq ≠ []) :
    ∃ top : OrdNode α, top ∈ g.pq ∧ (∀ y ∈ g.pq, y.lprob ≤ top.lprob) ∧
      (advanceToNextConfiguration pqPop exp g).1 = true ∧
      emittedConf (advanceToNextConfiguration pqPop exp g).2 = top.conf ∧
      (advanceToNextConfiguration pqPop exp g).2.currentLProb = top.lprob ∧
      SearchInv (advanceToNextConfiguration pqPop exp g).2 (E ++ [top.conf]) := by
  have hcl := confCounts_length g
  have hlen : ∀ x ∈ g.pq, x.conf.length = g.dimNumber := by
    intro x hx
    have := (hinv.inbox x.conf (List.mem_append_right _ (List.mem_map_of_mem _ hx))).1
    rw [this, hcl, hinv.len_m]
  obtain ⟨top, pq1, new, hperm, hmax, htrue, hpq1, hkeys, hnew, hnd, hem, hcur, _, hdim, hmr⟩ :=
    advance_unfold pqPop hpq exp g hlen hne
  have htop : top ∈ g.pq := hperm.mem_iff.mpr (List.mem_cons_self _ _)
  refine ⟨top, htop, hmax, htrue, hem, hcur, ?_⟩
  generalize (advanceToNextConfiguration pqPop exp g).2 = g1 at hpq1 hdim hmr
  have hlp : logProbs g1 = logProbs g := by unfold logProbs; rw [hmr]
  have hcc : confCounts g1 = confCounts g := by unfold confCounts; rw [hmr]
  have htl : top.conf.length = g.dimNumber := hlen top htop
  have hpermc : (g.pq.map OrdNode.conf).Perm (top.conf :: pq1.map OrdNode.conf) := by
    simpa using hperm.map OrdNode.conf
  have hold : ∀ c, c ∈ E ++ g.pq.map OrdNode.conf →
      c ∈ (E ++ [top.conf]) ++ g1.pq.map OrdNode.conf := by
    intro c hc
    rw [hpq1, List.map_append]
    rcases List.mem_append.mp hc with hc | hc
    · exact List.mem_append_left _ (List.mem_append_left _ hc)
    · rcases List.mem_cons.mp (hpermc.mem_iff.mp hc) with rfl | hc
      · exact List.mem_append_left _ (List.mem_append_right _ (List.mem_singleton_self _))
      · exact List.mem_append_right _ (List.mem_append_right _ hc)
  have htopS : top.conf ∈ g.pq.map OrdNode.conf := List.mem_map_of_mem _ htop
  have htopE : top.conf ∉ E := by
    intro h
    exact (List.nodup_append.mp hinv.nodup).2.2 h htopS
  have hnewOld : ∀ c ∈ new.map OrdNode.conf, c ∉ E ++ g.pq.map OrdNode.conf := by
    intro c hc hcs
    obtain ⟨i, hi, hz, _, rfl⟩ := (hnew c).mp hc
    have hp := hinv.pred _ hcs (incr_not_root top.conf i (by omega))
    rw [parent_incr top.conf i (by omega) hz] at hp
    exact htopE hp
  have hnewBox : ∀ c ∈ new.map OrdNode.conf, InBox (confCounts g) c := by
    intro c hc
    obtain ⟨i, hi, hz, hp, rfl⟩ := (hnew c).mp hc
    have htb := hinv.inbox top.conf (List.mem_append_right _ htopS)
    refine ⟨by rw [incr_length]; exact htb.1, ?_⟩
    intro j hj
    by_cases hji : i = j
    · subst hji
      rw [incr_getD_self top.conf i (by omega), confCounts_getD g i (by rw [hinv.len_m]; exact hi)]
      simpa [Marginal.probeConfigurationIdx] using hp
    · rw [incr_getD_ne top.conf i j hji]
      exact htb.2 j hj
  constructor
  · rw [hmr, hdim]; exact hinv.len_m
  · intro x hx
    rw [hlp, hdim]
    rw [hpq1] at hx
    rcases List.mem_append.mp hx with hx | hx
    · exact hkeys x hx
    · exact hinv.keys x (hperm.mem_iff.mpr (List.mem_cons_of_mem _ hx))
  · rw [hpq1, List.map_append]
    have hbase : (E ++ top.conf :: pq1.map OrdNode.conf).Nodup :=
      (List.Perm.append_left E hpermc).nodup_iff.mp hinv.nodup
    have hp2 : ((E ++ [top.conf]) ++ (new.map OrdNode.conf ++ pq1.map OrdNode.conf)).Perm
        (new.map OrdNode.conf ++ (E ++ top.conf :: pq1.map OrdNode.conf)) := by
      have e1 : (E ++ [top.conf]) ++ (new.map OrdNode.conf ++ pq1.map OrdNode.conf) =
          ((E ++ [top.conf]) ++ new.map OrdNode.conf) ++ pq1.map OrdNode.conf := by
        simp [List.append_assoc]
      have e2 : new.map OrdNode.conf ++ (E ++ top.conf :: pq1.map OrdNode.conf) =
          (new.map OrdNode.conf ++ (E ++ [top.conf])) ++ pq1.map OrdNode.conf := by
        simp [List.append_assoc]
      rw [e1, e2]
      exact List.Perm.append_right _ List.perm_append_comm
    rw [hp2.nodup_iff]
    refine List.Nodup.append hnd hbase ?_
    intro c hc1 hc2
    apply hnewOld c hc1
    rcases List.mem_append.mp hc2 with h | h
    · exact List.mem_append_left _ h
    · exact List.mem_append_right _ (hpermc.mem_iff.mpr h)
  · intro c hc
    rw [hcc]
    rw [hpq1, List.map_append] at hc
    rcases List.mem_append.mp hc with hc | hc
    · rcases List.mem_append.mp hc with hc | hc
      · exact hinv.inbox c (List.mem_append_left _ hc)
      · rw [List.mem_singleton] at hc
        subst hc
        exact hinv.inbox _ (List.mem_append_right _ htopS)
    · rcases List.mem_append.mp hc with hc | hc
      · exact hnewBox c hc
      · exact hinv.inbox c (List.mem_append_right _
          (hpermc.mem_iff.mpr (List.mem_cons_of_mem _ hc)))
  · intro c hc hnr
    rw [hpq1, List.map_append] at hc
    have hcase : c ∈ E ++ g.pq.map OrdNode.conf ∨ c ∈ new.map OrdNode.conf := by
      rcases List.mem_append.mp hc with hc | hc
      · rcases List.mem_append.mp hc with hc | hc
        · exact Or.inl (List.mem_append_left _ hc)
        · rw [List.mem_singleton] at hc
          subst hc
          exact Or.inl (List.mem_append_right _ htopS)
      · rcases List.mem_append.mp hc with hc | hc
        · exact Or.inr hc
        · exact Or.inl (List.mem_append_right _
            (hpermc.mem_iff.mpr (List.mem_cons_of_mem _ hc)))
    rcases hcase with hc | hc
    · exact List.mem_append_left _ (hinv.pred c hc hnr)
    · obtain ⟨i, hi, hz, _, rfl⟩ := (hnew c).mp hc
      rw [parent_incr top.conf i (by omega) hz]
      exact List.mem_append_right _ (List.mem_singleton_self _)
  · intro p hp c hbox hnr hpar
    rw [hcc] at hbox
    rcases List.mem_append.mp hp with hp | hp
    · exact hold c (hinv.succ p hp c hbox hnr hpar)
    · rw [List.mem_singleton] at hp
      subst hp
      obtain ⟨j, hj, hz, hinc, hl⟩ := incr_parent c hnr
      rw [hpar] at hz hinc hl
      have hcl' : c.length = g.dimNumber := by rw [hbox.1, hcl, hinv.len_m]
      have hmemnew : c ∈ new.map OrdNode.conf := by
        rw [hnew c]
        refine ⟨j, by omega, hz, ?_, hinc.symm⟩
        have h1 := hbox.2 j (by rw [hcl, hinv.len_m]; omega)
        rw [confCounts_getD g j (by rw [hinv.len_m]; omega)] at h1
        have h2 : c.getD j 0 = top.conf.getD j 0 + 1 := by
          conv_lhs => rw [← hinc]
          exact incr_getD_self top.conf j (by omega)
        simp only [Marginal.probeConfigurationIdx, decide_eq_true_eq]
        omega
      rw [hpq1, List.map_append]
      exact List.mem_append_right _ (List.mem_append_left _ hmemnew)
  · rw [hdim]
    exact hold _ hinv.root

end IsoOrderedGenerator

namespace IsoOrderedGenerator

variable {α : Type} [LinearOrderedCommRing α]

/-! ### The run of the ordered generator -/

theorem getD_replicate_zero_nat (n i : Nat) : (List.replicate n (0 : Nat)).getD i 0 = 0 := by
  rw [List.getD_eq_getElem?_getD, List.getElem?_replicate]
  split <;> rfl

theorem construct_marginalResults (iso : Iso α) (hm : iso.marginals.length = iso.dimNumber) :
    (construct iso).marginalResults = iso.marginals := by
  show (List.range iso.dimNumber).map (fun i => iso.marginals.getD i ⟨0, 0, [], 0⟩) = _
  apply List.ext_getElem
  · simp [hm]
  · intro i h1 h2
    simp [List.getD_eq_getElem?_getD, List.getElem?_eq_getElem h2]

/-- The constructed state satisfies the invariant of the search, nothing being emitted. -/
theorem construct_inv (iso : Iso α) (hm : iso.marginals.length = iso.dimNumber)
    (hne : ∀ m ∈ iso.marginals, m.confs ≠ []) : SearchInv (construct iso) [] := by
  have hmr := construct_marginalResults iso hm
  have hpq : (construct iso).pq.map OrdNode.conf = [List.replicate iso.dimNumber 0] := rfl
  have hd : (construct iso).dimNumber = iso.dimNumber := rfl
  refine ⟨by rw [hmr, hd, hm], ?_, ?_, ?_, ?_, ?_, ?_⟩
  · intro x hx
    have : x = (construct iso).topConf := by
      have h : (construct iso).pq = [(construct iso).topConf] := rfl
      rw [h] at hx
      exact List.mem_singleton.mp hx
    rw [this]
    rfl
  · rw [hpq]; simp
  · intro c hc
    rw [hpq] at hc
    simp only [List.nil_append, List.mem_singleton] at hc
    subst hc
    refine ⟨by simp [confCounts, hmr, hm], ?_⟩
    intro j hj
    rw [getD_replicate_zero_nat, confCounts_getD _ j (by rw [← confCounts_length]; exact hj)]
    have hmem : (construct iso).marginalResults.getD j ⟨0, 0, [], 0⟩ ∈ iso.marginals := by
      rw [hmr, List.getD_eq_getElem?_getD,
        List.getElem?_eq_getElem (by rw [confCounts_length, hmr] at hj; exact hj)]
      exact List.getElem_mem _
    exact List.length_pos.mpr (hne _ hmem)
  · intro c hc hnr
    rw [hpq] at hc
    simp only [List.nil_append, List.mem_singleton] at hc
    subst hc
    exact absurd (replicate_isRoot _) hnr
  · intro p hp
    simp at hp
  · rw [hpq, hd]; simp

theorem ordAdvanceN_succ (pqPop : List (OrdNode α) → Option (OrdNode α × List (OrdNode α)))
    (exp : α → α) (n : Nat) (g : IsoOrderedGenerator α) :
    advanceN pqPop exp (n + 1) g =
      advanceN pqPop exp n (advanceToNextConfiguration pqPop exp g).2 := by
  unfold advanceN
  rw [Function.iterate_succ_apply]

theorem advanceN_succ_last (pqPop : List (OrdNode α) → Option (OrdNode α × List (OrdNode α)))
    (exp : α → α) (n : Nat) (g : IsoOrderedGenerator α) :
    advanceN pqPop exp (n + 1) g =
      (advanceToNextConfiguration pqPop exp (advanceN pqPop exp n g)).2 := by
  unfold advanceN
  rw [Function.iterate_succ_apply']

theorem emitted_succ (pqPop : List (OrdNode α) → Option (OrdNode α × List (OrdNode α)))
    (exp : α → α) (n : Nat) (g : IsoOrderedGenerator α) :
    emitted pqPop exp (n + 1) g =
      (if (advanceToNextConfiguration pqPop exp g).1 = true then
        [emittedConf (advanceToNextConfiguration pqPop exp g).2] else []) ++
      emitted pqPop exp n (advanceToNextConfiguration pqPop exp g).2 := by
  show (match advanceToNextConfiguration pqPop exp g with
    | (true, g1) => emittedConf g1 :: emitted pqPop exp n g1
    | (false, g1) => emitted pqPop exp n g1) = _
  cases hb : (advanceToNextConfiguration pqPop exp g).1 with
  | false =>
    rw [show advanceToNextConfiguration pqPop exp g =
      (false, (advanceToNextConfiguration pqPop exp g).2) from by rw [← hb]]
    simp
  | true =>
    rw [show advanceToNextConfiguration pqPop exp g =
      (true, (advanceToNextConfiguration pqPop exp g).2) from by rw [← hb]]
    simp

/-- The vectors emitted by `n + 1` calls are those emitted by `n` calls followed by what
the last call emits. -/
theorem emitted_succ_last (pqPop : List (OrdNode α) → Option (OrdNode α × List (OrdNode α)))
    (exp : α → α) (n : Nat) : ∀ (g : IsoOrderedGenerator α),
    emitted pqPop exp (n + 1) g = emitted pqPop exp n g ++
      (if (advanceToNextConfiguration pqPop exp (advanceN pqPop exp n g)).1 = true then
        [emittedConf (advanceToNextConfiguration pqPop exp (advanceN pqPop exp n g)).2]
      else []) := by
  induction n with
  | zero =>
    intro g
    rw [emitted_succ]
    simp [emitted, advanceN]
  | succ n ih =>
    intro g
    rw [emitted_succ pqPop exp (n + 1) g, ih, emitted_succ pqPop exp n g, ordAdvanceN_succ,
      List.append_assoc]

/-- The invariant of the search holds along the run. -/
theorem run_inv (pqPop : List (OrdNode α) → Option (OrdNode α × List (OrdNode α)))
    (hpq : PQSpec pqPop) (exp : α → α) (n : Nat) :
    ∀ (g : IsoOrderedGenerator α) (E : List (List Nat)), SearchInv g E →
      SearchInv (advanceN pqPop exp n g) (E ++ emitted pqPop exp n g) := by
  induction n with
  | zero =>
    intro g E h
    simpa [emitted, advanceN] using h
  | succ n ih =>
    intro g E h
    rw [ordAdvanceN_succ, emitted_succ]
    by_cases hq : g.pq = []
    · rw [advance_empty pqPop hpq exp g hq]
      simpa using ih g E h
    · obtain ⟨top, _, _, htrue, hem, _, hinv⟩ := advance_inv pqPop hpq exp g E h hq
      rw [if_pos htrue, hem, ← List.append_assoc]
      exact ih _ _ hinv

end IsoOrderedGenerator

namespace IsoOrderedGenerator

variable {α : Type} [LinearOrderedCommRing α]

theorem combinedSum_eq_sum (conf : List Nat) (vals : List (List α)) (dim : Nat) :
    combinedSum conf vals dim =
      ∑ i in Finset.range dim, (vals.getD i []).getD (conf.getD i 0) 0 := by
  unfold combinedSum
  rw [sum_map_range_eq]

/-- Incrementing an index of a table sorted in non-increasing order does not increase the
combined sum. -/
theorem combinedSum_incr_le (g : IsoOrderedGenerator α)
    (hsorted : ∀ m ∈ g.marginalResults, m.confs.Pairwise (fun a b => b.lprob ≤ a.lprob))
    (c : List Nat) (i : Nat) (hi : i < g.marginalResults.length)
    (hp : (g.marginalResults.getD i ⟨0, 0, [], 0⟩).probeConfigurationIdx (c.getD i 0 + 1) = true) :
    combinedSum (incr c i) (logProbs g) g.dimNumber ≤ combinedSum c (logProbs g) g.dimNumber := by
  rw [combinedSum_eq_sum, combinedSum_eq_sum]
  apply Finset.sum_le_sum
  intro k _
  by_cases hk : i = k
  · subst hk
    by_cases hic : i < c.length
    · rw [incr_getD_self c i hic]
      have hm : g.marginalResults.getD i ⟨0, 0, [], 0⟩ ∈ g.marginalResults := by
        rw [List.getD_eq_getElem?_getD, List.getElem?_eq_getElem hi]
        exact List.getElem_mem _
      have hs := hsorted _ hm
      have hl : (logProbs g).getD i [] =
          (g.marginalResults.getD i ⟨0, 0, [], 0⟩).confs.map MarginalConf.lprob := by
        simp [logProbs, List.getD_eq_getElem?_getD, List.getElem?_eq_getElem hi]
      rw [hl]
      simp only [Marginal.probeConfigurationIdx, decide_eq_true_eq] at hp
      generalize (g.marginalResults.getD i ⟨0, 0, [], 0⟩).confs = cs at hs hp
      generalize c.getD i 0 = a at hp
      rw [List.getD_eq_getElem _ _ (by simpa using hp),
        List.getD_eq_getElem _ _ (by simp; omega)]
      simp only [List.getElem_map]
      exact List.pairwise_iff_getElem.mp hs a (a + 1) (by omega) hp (by omega)
    · have : incr c i = c := by
        unfold incr
        rw [List.set_eq_of_length_le (by omega)]
      rw [this]
  · rw [incr_getD_ne c i k hk]

theorem advance_static (pqPop : List (OrdNode α) → Option (OrdNode α × List (OrdNode α)))
    (exp : α → α) (g : IsoOrderedGenerator α) :
    (advanceToNextConfiguration pqPop exp g).2.marginalResults = g.marginalResults ∧
    (advanceToNextConfiguration pqPop exp g).2.dimNumber = g.dimNumber := by
  unfold advanceToNextConfiguration
  cases pqPop g.pq with
  | none => exact ⟨rfl, rfl⟩
  | some p => exact ⟨rfl, rfl⟩

theorem advanceN_static (pqPop : List (OrdNode α) → Option (OrdNode α × List (OrdNode α)))
    (exp : α → α) (n : Nat) (g : IsoOrderedGenerator α) :
    (advanceN pqPop exp n g).marginalResults = g.marginalResults ∧
    (advanceN pqPop exp n g).dimNumber = g.dimNumber := by
  induction n with
  | zero => exact ⟨rfl, rfl⟩
  | succ n ih =>
    rw [advanceN_succ_last]
    have := advance_static pqPop exp (advanceN pqPop exp n g)
    exact ⟨this.1.trans ih.1, this.2.trans ih.2⟩

/-- C2: for every molecule whose marginals list their configurations in non-increasing
log-probability order (the first being the mode), the log-probabilities reported by
successive successful calls of advanceToNextConfiguration are non-increasing, and so are
the probabilities, `exp` being monotone: when calls `n+1` and `n+2` both return true, the
value reported by call `n+2` is at most the one reported by call `n+1`. This holds for every
priority queue that hands out a node of greatest log-probability. -/
theorem ordered_lprob_nonincreasing
    (pqPop : List (OrdNode α) → Option (OrdNode α × List (OrdNode α))) (hpq : PQSpec pqPop)
    (exp : α → α) (hexp : Monotone exp) (iso : Iso α) (hiso : iso.MarginalsWF) (n : Nat)
    (h1 : (advanceToNextConfiguration pqPop exp
      (advanceN pqPop exp n (construct iso))).1 = true)
    (h2 : (advanceToNextConfiguration pqPop exp
      (advanceN pqPop exp (n + 1) (construct iso))).1 = true) :
    (advanceN pqPop exp (n + 2) (construct iso)).currentLProb ≤
      (advanceN pqPop exp (n + 1) (construct iso)).currentLProb ∧
    (advanceN pqPop exp (n + 2) (construct iso)).currentProb ≤
      (advanceN pqPop exp (n + 1) (construct iso)).currentProb := by
  have hne : ∀ m ∈ iso.marginals, m.confs ≠ [] := by
    intro m hm hnil
    have := (hiso.2 m hm).2
    rw [hnil] at this
    simp at this
  have hinv0 := construct_inv iso hiso.1 hne
  have hinv := run_inv pqPop hpq exp n _ _ hinv0
  have hmr0 := construct_marginalResults iso hiso.1
  have hsorted : ∀ m ∈ (advanceN pqPop exp n (construct iso)).marginalResults,
      m.confs.Pairwise (fun a b => b.lprob ≤ a.lprob) := by
    rw [(advanceN_static pqPop exp n (construct iso)).1, hmr0]
    intro m hm
    exact (hiso.2 m hm).1
  rw [advanceN_succ_last pqPop exp (n + 1), advanceN_succ_last pqPop exp n]
  rw [advanceN_succ_last pqPop exp n] at h2
  generalize advanceN pqPop exp n (construct iso) = g at hinv h1 h2 hsorted
  generalize ([] : List (List Nat)) ++ emitted pqPop exp n (construct iso) = E at hinv
  have hq : g.pq ≠ [] := by
    intro hq
    rw [advance_empty pqPop hpq exp g hq] at h1
    exact absurd h1 (by simp)
  have hlen : ∀ x ∈ g.pq, x.conf.length = g.dimNumber := by
    intro x hx
    have := (hinv.inbox x.conf (List.mem_append_right _ (List.mem_map_of_mem _ hx))).1
    rw [this, confCounts_length, hinv.len_m]
  obtain ⟨top, pq1, new, hperm, hmax, _, hpq1, hkeys, hnew, _, hem, hcur, hcurp, hdim, hmr⟩ :=
    advance_unfold pqPop hpq exp g hlen hq
  obtain ⟨top1, htop1, _, _, hem1, _, hinv1⟩ := advance_inv pqPop hpq exp g E hinv hq
  have htopeq : top1.conf = top.conf := by rw [← hem1, hem]
  rw [htopeq] at hinv1
  generalize (advanceToNextConfiguration pqPop exp g).2 = g1 at *
  have hall : ∀ y ∈ g1.pq, y.lprob ≤ top.lprob := by
    intro y hy
    rw [hpq1] at hy
    rcases List.mem_append.mp hy with hy | hy
    · obtain ⟨i, hi, _, hp, hc⟩ := (hnew y.conf).mp (List.mem_map_of_mem _ hy)
      rw [hkeys y hy, hc, hinv.keys top (hperm.mem_iff.mpr (List.mem_cons_self _ _))]
      exact combinedSum_incr_le g hsorted top.conf i (by rw [hinv.len_m]; exact hi) hp
    · exact hmax y (hperm.mem_iff.mpr (List.mem_cons_of_mem _ hy))
  have hq1 : g1.pq ≠ [] := by
    intro hq1
    rw [advance_empty pqPop hpq exp g1 hq1] at h2
    exact absurd h2 (by simp)
  have hlen1 : ∀ x ∈ g1.pq, x.conf.length = g1.dimNumber := by
    intro x hx
    have := (hinv1.inbox x.conf (List.mem_append_right _ (List.mem_map_of_mem _ hx))).1
    rw [this, confCounts_length, hinv1.len_m]
  obtain ⟨top2, pq2, new2, hperm2, _, _, _, _, _, _, _, hcur2, hcurp2, _, _⟩ :=
    advance_unfold pqPop hpq exp g1 hlen1 hq1
  have hle := hall top2 (hperm2.mem_iff.mpr (List.mem_cons_self _ _))
  rw [hcur2, hcur, hcurp2, hcurp]
  exact ⟨hle, hexp hle⟩

end IsoOrderedGenerator

namespace IsoOrderedGenerator

variable {α : Type} [LinearOrderedCommRing α]

/-! ### The product space -/

theorem inBox_nil (c : List Nat) : InBox [] c ↔ c = [] := by
  unfold InBox
  constructor
  · rintro ⟨h, _⟩
    exact List.length_eq_zero.mp h
  · rintro rfl
    exact ⟨rfl, fun j hj => absurd hj (by simp)⟩

theorem inBox_cons (n : Nat) (ns : List Nat) (c : List Nat) :
    InBox (n :: ns) c ↔ ∃ i t, c = i :: t ∧ i < n ∧ InBox ns t := by
  unfold InBox
  constructor
  · rintro ⟨hl, hj⟩
    cases c with
    | nil => simp at hl
    | cons i t =>
      refine ⟨i, t, rfl, by simpa using hj 0 (by simp), by simpa using hl, ?_⟩
      intro j hjl
      simpa using hj (j + 1) (by simpa using hjl)
  · rintro ⟨i, t, rfl, hi, hl, hj⟩
    refine ⟨by simpa using hl, ?_⟩
    intro j hjl
    cases j with
    | zero => simpa using hi
    | succ j => simpa using hj j (by simpa using hjl)

theorem mem_box_iff : ∀ (ns : List Nat) (c : List Nat), c ∈ box ns ↔ InBox ns c
  | [], c => by rw [inBox_nil]; simp [box]
  | n :: ns, c => by
    rw [inBox_cons]
    simp only [box, List.mem_flatMap, List.mem_range, List.mem_map]
    constructor
    · rintro ⟨i, hi, t, ht, rfl⟩
      exact ⟨i, t, rfl, hi, (mem_box_iff ns t).mp ht⟩
    · rintro ⟨i, t, rfl, hi, ht⟩
      exact ⟨i, hi, t, (mem_box_iff ns t).mpr ht, rfl⟩

theorem box_nodup : ∀ (ns : List Nat), (box ns).Nodup
  | [] => by simp [box]
  | n :: ns => by
    simp only [box]
    rw [List.nodup_flatMap]
    constructor
    · intro i _
      exact (box_nodup ns).map (fun a b h => by simpa using h)
    · apply (List.nodup_range n).imp
      intro a b hab
      intro x hx1 hx2
      obtain ⟨t1, _, rfl⟩ := List.mem_map.mp hx1
      obtain ⟨t2, _, h⟩ := List.mem_map.mp hx2
      simp at h
      exact hab h.1.symm

theorem box_length : ∀ (ns : List Nat), (box ns).length = ns.prod
  | [] => by simp [box]
  | n :: ns => by
    simp [box, List.length_flatMap, Function.comp_def, box_length ns]

theorem parent_sum : ∀ (c : List Nat), ¬ isRoot c → (parent c).sum + 1 = c.sum
  | [], h => absurd (fun x hx => by simp at hx) h
  | 0 :: t, h => by
    have ht : ¬ isRoot t := by
      intro hr
      apply h
      intro x hx
      rcases List.mem_cons.mp hx with rfl | hx
      · rfl
      · exact hr x hx
    have := parent_sum t ht
    show (0 :: parent t).sum + 1 = (0 :: t).sum
    simp only [List.sum_cons]
    omega
  | (n + 1) :: t, _ => by
    show (n :: t).sum + 1 = ((n + 1) :: t).sum
    simp only [List.sum_cons]
    omega

theorem parent_inBox (ns : List Nat) (c : List Nat) (hb : InBox ns c) (hnr : ¬ isRoot c) :
    InBox ns (parent c) := by
  obtain ⟨j, hj, _, hinc, hl⟩ := incr_parent c hnr
  refine ⟨by rw [hl]; exact hb.1, ?_⟩
  intro k hk
  have hck := hb.2 k hk
  by_cases hjk : j = k
  · subst hjk
    have := incr_getD_self (parent c) j (by omega)
    rw [hinc] at this
    omega
  · have := incr_getD_ne (parent c) j k hjk
    rw [hinc] at this
    omega

/-- When the queue is empty every index vector of the product space has been emitted. -/
theorem emitted_all_of_empty (g : IsoOrderedGenerator α) (E : List (List Nat))
    (hinv : SearchInv g E) (hq : g.pq = []) :
    ∀ (w : Nat) (c : List Nat), c.sum = w → InBox (confCounts g) c → c ∈ E := by
  have hS : ∀ c, c ∈ E ++ g.pq.map OrdNode.conf → c ∈ E := by
    intro c hc
    rw [hq] at hc
    simpa using hc
  intro w
  induction w using Nat.strong_induction_on with
  | _ w ih =>
    intro c hw hb
    by_cases hr : isRoot c
    · have hc : c = List.replicate g.dimNumber 0 := by
        rw [isRoot_eq_replicate c hr, hb.1, confCounts_length, hinv.len_m]
      rw [hc]
      exact hS _ hinv.root
    · have hps := parent_sum c hr
      have hp := ih (parent c).sum (by omega) (parent c) rfl (parent_inBox _ c hb hr)
      exact hS c (hinv.succ (parent c) hp c hb hr rfl)

/-- The number of emitted vectors is at most the size of the product space, and the queue
is empty exactly when it is reached. -/
theorem emitted_count (g : IsoOrderedGenerator α) (E : List (List Nat))
    (hinv : SearchInv g E) :
    E.length ≤ (confCounts g).prod ∧ (g.pq = [] ↔ E.length = (confCounts g).prod) := by
  have hnd : E.Nodup := (List.nodup_append.mp hinv.nodup).1
  have hsub : E ⊆ box (confCounts g) := by
    intro c hc
    exact (mem_box_iff _ c).mpr (hinv.inbox c (List.mem_append_left _ hc))
  have hle : E.length ≤ (confCounts g).prod := by
    rw [← box_length]
    exact (List.subperm_of_subset hnd hsub).length_le
  refine ⟨hle, ?_, ?_⟩
  · intro hq
    have hsub2 : box (confCounts g) ⊆ E := by
      intro c hc
      exact emitted_all_of_empty g E hinv hq c.sum c rfl ((mem_box_iff _ c).mp hc)
    have := (List.subperm_of_subset (box_nodup _) hsub2).length_le
    rw [box_length] at this
    omega
  · intro hlen
    by_contra hq
    obtain ⟨x, hx⟩ := List.exists_mem_of_ne_nil _ hq
    have hxS : x.conf ∈ g.pq.map OrdNode.conf := List.mem_map_of_mem _ hx
    have hxE : x.conf ∉ E := fun h => (List.nodup_append.mp hinv.nodup).2.2 h hxS
    have hnd2 : (x.conf :: E).Nodup := List.nodup_cons.mpr ⟨hxE, hnd⟩
    have hsub3 : (x.conf :: E) ⊆ box (confCounts g) := by
      intro c hc
      rcases List.mem_cons.mp hc with rfl | hc
      · exact (mem_box_iff _ _).mpr (hinv.inbox _ (List.mem_append_right _ hxS))
      · exact hsub hc
    have := (List.subperm_of_subset hnd2 hsub3).length_le
    rw [box_length, List.length_cons] at this
    omega

/-- The first calls of advance, as many as the product space has index vectors, all
succeed and each emits one vector; every later call fails and changes nothing. -/
theorem run_counts (pqPop : List (OrdNode α) → Option (OrdNode α × List (OrdNode α)))
    (hpq : PQSpec pqPop) (exp : α → α) (g0 : IsoOrderedGenerator α)
    (hinv0 : SearchInv g0 []) :
    (∀ k, k ≤ (confCounts g0).prod → (emitted pqPop exp k g0).length = k) ∧
    (∀ k, k < (confCounts g0).prod →
      (advanceToNextConfiguration pqPop exp (advanceN pqPop exp k g0)).1 = true) ∧
    (∀ k, (confCounts g0).prod ≤ k →
      advanceN pqPop exp k g0 = advanceN pqPop exp (confCounts g0).prod g0 ∧
      (advanceToNextConfiguration pqPop exp (advanceN pqPop exp k g0)).1 = false) := by
  have hinv : ∀ k, SearchInv (advanceN pqPop exp k g0) (emitted pqPop exp k g0) := by
    intro k
    simpa using run_inv pqPop hpq exp k g0 [] hinv0
  have hcc : ∀ k, confCounts (advanceN pqPop exp k g0) = confCounts g0 := by
    intro k
    unfold confCounts
    rw [(advanceN_static pqPop exp k g0).1]
  have hsucc : ∀ k, (emitted pqPop exp k g0).length < (confCounts g0).prod →
      (advanceToNextConfiguration pqPop exp (advanceN pqPop exp k g0)).1 = true := by
    intro k hk
    have hc := emitted_count _ _ (hinv k)
    rw [hcc k] at hc
    have hq : (advanceN pqPop exp k g0).pq ≠ [] := fun h => by
      have := hc.2.mp h
      omega
    obtain ⟨_, _, _, htrue, _⟩ := advance_inv pqPop hpq exp _ _ (hinv k) hq
    exact htrue
  have hlen : ∀ k, k ≤ (confCounts g0).prod → (emitted pqPop exp k g0).length = k := by
    intro k
    induction k with
    | zero => intro _; rfl
    | succ k ih =>
      intro hk
      have hk' := ih (by omega)
      rw [emitted_succ_last, if_pos (hsucc k (by omega)), List.length_append, hk']
      rfl
  have hfail : ∀ g : IsoOrderedGenerator α, g.pq = [] →
      ∀ j, advanceN pqPop exp j g = g := by
    intro g hq j
    induction j with
    | zero => rfl
    | succ j ih => rw [ordAdvanceN_succ, advance_empty pqPop hpq exp g hq]; exact ih
  have hend : (advanceN pqPop exp (confCounts g0).prod g0).pq = [] := by
    have hc := emitted_count _ _ (hinv (confCounts g0).prod)
    rw [hcc] at hc
    exact hc.2.mpr (hlen _ le_rfl)
  refine ⟨hlen, fun k hk => hsucc k (by rw [hlen k (by omega)]; exact hk), ?_⟩
  intro k hk
  have hkk : advanceN pqPop exp k g0 = advanceN pqPop exp (confCounts g0).prod g0 := by
    obtain ⟨d, rfl⟩ := Nat.exists_eq_add_of_le hk
    have : advanceN pqPop exp ((confCounts g0).prod + d) g0 =
        advanceN pqPop exp d (advanceN pqPop exp (confCounts g0).prod g0) := by
      unfold advanceN
      rw [Nat.add_comm, Function.iterate_add_apply]
    rw [this, hfail _ hend]
  refine ⟨hkk, ?_⟩
  rw [hkk, advance_empty pqPop hpq exp _ hend]

end IsoOrderedGenerator

namespace IsoOrderedGenerator

variable {α : Type} [LinearOrderedCommRing α]

/-! ### The claims on the ordered generator -/

theorem ordered_lprob_nonincreasing_witness :
    (advanceN pqPopMax id 2 (construct sampleIso)).currentLProb ≤
      (advanceN pqPopMax id 1 (construct sampleIso)).currentLProb ∧
    (advanceN pqPopMax id 2 (construct sampleIso)).currentProb ≤
      (advanceN pqPopMax id 1 (construct sampleIso)).currentProb :=
  ordered_lprob_nonincreasing pqPopMax pqPopMax_spec id monotone_id sampleIso
    IsoThresholdGenerator.sampleIso_wf 0 (by decide) (by decide)

/-- C3: over a whole run of the ordered generator, for every number `n` of calls of
advanceToNextConfiguration after construction, no index vector occurs twice among the
vectors emitted and the vectors still in the priority queue, so that every index vector is
pushed at most once and no two emitted configurations are identical; and every emitted or
queued vector other than the all-zero one has been pushed from its one predecessor, the
vector with the first non-zero index decremented, which has been emitted. -/
theorem ordered_no_duplicates
    (pqPop : List (OrdNode α) → Option (OrdNode α × List (OrdNode α))) (hpq : PQSpec pqPop)
    (exp : α → α) (iso : Iso α) (hm : iso.marginals.length = iso.dimNumber)
    (hne : ∀ m ∈ iso.marginals, m.confs ≠ []) (n : Nat) :
    (emitted pqPop exp n (construct iso) ++
      (advanceN pqPop exp n (construct iso)).pq.map OrdNode.conf).Nodup ∧
    (emitted pqPop exp n (construct iso)).Nodup ∧
    ∀ c ∈ emitted pqPop exp n (construct iso) ++
        (advanceN pqPop exp n (construct iso)).pq.map OrdNode.conf,
      ¬ isRoot c → parent c ∈ emitted pqPop exp n (construct iso) := by
  have hinv := run_inv pqPop hpq exp n _ _ (construct_inv iso hm hne)
  rw [List.nil_append] at hinv
  exact ⟨hinv.nodup, (List.nodup_append.mp hinv.nodup).1, hinv.pred⟩

theorem ordered_no_duplicates_witness :
    (emitted pqPopMax id 4 (construct sampleIso) ++
      (advanceN pqPopMax id 4 (construct sampleIso)).pq.map OrdNode.conf).Nodup ∧
    (emitted pqPopMax id 4 (construct sampleIso)).Nodup ∧
    ∀ c ∈ emitted pqPopMax id 4 (construct sampleIso) ++
        (advanceN pqPopMax id 4 (construct sampleIso)).pq.map OrdNode.conf,
      ¬ isRoot c → parent c ∈ emitted pqPopMax id 4 (construct sampleIso) :=
  ordered_no_duplicates pqPopMax pqPopMax_spec id sampleIso rfl (by decide) 4

/-- C4: the ordered generator is complete and finite: if element `j` has `n_j ≥ 1`
configurations, advanceToNextConfiguration returns true on each of the first
`n_0 * ... * n_(D-1)` calls and false on every call after that, and the vectors emitted by
these first calls are the index vectors of the product space, each exactly once. -/
theorem ordered_complete_and_finite
    (pqPop : List (OrdNode α) → Option (OrdNode α × List (OrdNode α))) (hpq : PQSpec pqPop)
    (exp : α → α) (iso : Iso α) (hm : iso.marginals.length = iso.dimNumber)
    (hne : ∀ m ∈ iso.marginals, m.confs ≠ []) :
    (∀ k, k < (iso.marginals.map (fun m => m.confs.length)).prod →
      (advanceToNextConfiguration pqPop exp
        (advanceN pqPop exp k (construct iso))).1 = true) ∧
    (∀ k, (iso.marginals.map (fun m => m.confs.length)).prod ≤ k →
      (advanceToNextConfiguration pqPop exp
        (advanceN pqPop exp k (construct iso))).1 = false) ∧
    (emitted pqPop exp (iso.marginals.map (fun m => m.confs.length)).prod
      (construct iso)).Perm (box (iso.marginals.map (fun m => m.confs.length))) ∧
    (∀ k, (iso.marginals.map (fun m => m.confs.length)).prod ≤ k →
      emitted pqPop exp k (construct iso) =
        emitted pqPop exp (iso.marginals.map (fun m => m.confs.length)).prod
          (construct iso)) := by
  have hinv0 := construct_inv iso hm hne
  have hcc : confCounts (construct iso) = iso.marginals.map (fun m => m.confs.length) := by
    unfold confCounts
    rw [construct_marginalResults iso hm]
  obtain ⟨hlen, hsucc, hfail⟩ := run_counts pqPop hpq exp (construct iso) hinv0
  rw [hcc] at hlen hsucc hfail
  have hinv := run_inv pqPop hpq exp (iso.marginals.map (fun m => m.confs.length)).prod _ _ hinv0
  rw [List.nil_append] at hinv
  refine ⟨hsucc, fun k hk => (hfail k hk).2, ?_, ?_⟩
  · have hnd := (List.nodup_append.mp hinv.nodup).1
    have hsub : emitted pqPop exp (iso.marginals.map (fun m => m.confs.length)).prod
        (construct iso) ⊆ box (iso.marginals.map (fun m => m.confs.length)) := by
      intro c hc
      have := hinv.inbox c (List.mem_append_left _ hc)
      have hcc2 : confCounts (advanceN pqPop exp
          (iso.marginals.map (fun m => m.confs.length)).prod (construct iso)) =
          iso.marginals.map (fun m => m.confs.length) := by
        unfold confCounts
        rw [(advanceN_static pqPop exp _ _).1, construct_marginalResults iso hm]
      rw [hcc2] at this
      exact (mem_box_iff _ c).mpr this
    apply (List.subperm_of_subset hnd hsub).perm_of_length_le
    rw [box_length, hlen _ le_rfl]
  · intro k hk
    obtain ⟨d, rfl⟩ := Nat.exists_eq_add_of_le hk
    induction d with
    | zero => rfl
    | succ d ih =>
      rw [← Nat.add_assoc, emitted_succ_last, ih (by omega),
        if_neg (by rw [(hfail _ (by omega)).2]; simp), List.append_nil]

theorem ordered_complete_and_finite_witness :
    (∀ k, k < 6 →
      (advanceToNextConfiguration pqPopMax id
        (advanceN pqPopMax id k (construct sampleIso))).1 = true) ∧
    (∀ k, 6 ≤ k →
      (advanceToNextConfiguration pqPopMax id
        (advanceN pqPopMax id k (construct sampleIso))).1 = false) ∧
    (emitted pqPopMax id 6 (construct sampleIso)).Perm (box [3, 2]) ∧
    (∀ k, 6 ≤ k →
      emitted pqPopMax id k (construct sampleIso) =
        emitted pqPopMax id 6 (construct sampleIso)) :=
  ordered_complete_and_finite pqPopMax pqPopMax_spec id sampleIso rfl (by decide)

end IsoOrderedGenerator

/-! ## Arrays, exchanges and partial sums -/

theorem swapL_length {β : Type} (l : List β) (i j : Nat) : (swapL l i j).length = l.length := by
  unfold swapL
  split <;> simp

theorem swapL_getD {β : Type} (l : List β) (i j k : Nat) (d : β) (hi : i < l.length)
    (hj : j < l.length) :
    (swapL l i j).getD k d = l.getD (Equiv.swap i j k) d := by
  unfold swapL
  rw [List.getElem?_eq_getElem hi, List.getElem?_eq_getElem hj]
  simp only
  by_cases hkj : k = j
  · subst hkj
    rw [getD_set_eq _ _ _ _ (by simpa using hj), Equiv.swap_apply_right,
      List.getD_eq_getElem _ _ hi]
  · rw [getD_set_ne _ _ _ _ _ (fun h => hkj h.symm)]
    by_cases hki : k = i
    · subst hki
      rw [getD_set_eq _ _ _ _ hi, Equiv.swap_apply_left, List.getD_eq_getElem _ _ hj]
    · rw [getD_set_ne _ _ _ _ _ (fun h => hki h.symm), Equiv.swap_apply_of_ne_of_ne hki hkj]

theorem PermOn.same {β : Type} [Zero β] (lo hi : Nat) (p : List β) : PermOn lo hi p p :=
  ⟨rfl, Equiv.refl _, fun _ _ => rfl, fun _ => rfl⟩

theorem PermOn.chain {β : Type} [Zero β] {lo hi : Nat} {p p1 p2 : List β}
    (h1 : PermOn lo hi p p1) (h2 : PermOn lo hi p1 p2) : PermOn lo hi p p2 := by
  obtain ⟨l1, σ, hσ, e1⟩ := h1
  obtain ⟨l2, τ, hτ, e2⟩ := h2
  refine ⟨l2.trans l1, τ.trans σ, ?_, ?_⟩
  · intro k hk
    show σ (τ k) = k
    rw [hτ k hk, hσ k hk]
  · intro k
    show p2.getD k 0 = p.getD (σ (τ k)) 0
    rw [e2, e1]

theorem PermOn.mono {β : Type} [Zero β] {lo hi lo1 hi1 : Nat} {p p1 : List β}
    (h : PermOn lo hi p p1) (hlo : lo1 ≤ lo) (hhi : hi ≤ hi1) : PermOn lo1 hi1 p p1 := by
  obtain ⟨l1, σ, hσ, e1⟩ := h
  exact ⟨l1, σ, fun k hk => hσ k (by omega), e1⟩

theorem PermOn.swap {β : Type} [Zero β] (lo hi : Nat) (p : List β) (i j : Nat)
    (hi1 : lo ≤ i) (hi2 : i < hi) (hj1 : lo ≤ j) (hj2 : j < hi) (hlen : hi ≤ p.length) :
    PermOn lo hi p (swapL p i j) := by
  refine ⟨swapL_length p i j, Equiv.swap i j, ?_, ?_⟩
  · intro k hk
    exact Equiv.swap_apply_of_ne_of_ne (by omega) (by omega)
  · intro k
    exact swapL_getD p i j k 0 (by omega) (by omega)

/-- Outside the range the entries are the same. -/
theorem PermOn.outside {β : Type} [Zero β] {lo hi : Nat} {p p1 : List β}
    (h : PermOn lo hi p p1) (k : Nat) (hk : k < lo ∨ hi ≤ k) : p1.getD k 0 = p.getD k 0 := by
  obtain ⟨_, σ, hσ, e1⟩ := h
  rw [e1, hσ k hk]

/-- An entry inside the range comes from an entry inside the range. -/
theorem PermOn.inside {β : Type} [Zero β] {lo hi : Nat} {p p1 : List β}
    (h : PermOn lo hi p p1) (k : Nat) (hk1 : lo ≤ k) (hk2 : k < hi) :
    ∃ k1, lo ≤ k1 ∧ k1 < hi ∧ p1.getD k 0 = p.getD k1 0 := by
  obtain ⟨_, σ, hσ, e1⟩ := h
  refine ⟨σ k, ?_, ?_, e1 k⟩
  · by_contra hlt
    have := hσ (σ k) (Or.inl (by omega))
    have := σ.injective this
    omega
  · by_contra hlt
    have := hσ (σ k) (Or.inr (by omega))
    have := σ.injective this
    omega

/-- The sum over a range of indices that contains the rearranged range is the same. -/
theorem PermOn.sum_Ico {β : Type} [AddCommMonoid β] {lo hi : Nat} {p p1 : List β}
    (h : PermOn lo hi p p1) (a b : Nat) (ha : a ≤ lo) (hb : hi ≤ b) :
    ∑ k in Finset.Ico a b, p1.getD k 0 = ∑ k in Finset.Ico a b, p.getD k 0 := by
  obtain ⟨_, σ, hσ, e1⟩ := h
  simp only [e1]
  apply Equiv.Perm.sum_comp σ (Finset.Ico a b) (fun k => p.getD k 0)
  intro k hk
  simp only [Set.mem_setOf_eq] at hk
  simp only [Finset.coe_Ico, Set.mem_Ico]
  by_contra hn
  exact hk (hσ k (by omega))

theorem PermOn.prefixSum_eq {β : Type} [AddCommMonoid β] {lo hi : Nat} {p p1 : List β}
    (h : PermOn lo hi p p1) (b : Nat) (hb : hi ≤ b ∨ b ≤ lo) :
    prefixSum p1 b = prefixSum p b := by
  unfold prefixSum
  rcases hb with hb | hb
  · rw [Finset.range_eq_Ico]
    exact h.sum_Ico 0 b (Nat.zero_le _) hb
  · apply Finset.sum_congr rfl
    intro k hk
    exact h.outside k (Or.inl (by simp at hk; omega))

theorem prefixSum_succ {β : Type} [AddCommMonoid β] (p : List β) (a : Nat) :
    prefixSum p (a + 1) = prefixSum p a + p.getD a 0 := by
  unfold prefixSum
  rw [Finset.sum_range_succ]

theorem prefixSum_add_Ico {β : Type} [AddCommMonoid β] (p : List β) (a b : Nat) (h : a ≤ b) :
    prefixSum p a + ∑ k in Finset.Ico a b, p.getD k 0 = prefixSum p b := by
  unfold prefixSum
  rw [Finset.range_eq_Ico]
  exact Finset.sum_Ico_consecutive _ (Nat.zero_le _) h

/-! ## LayeredTabulator: the partition loop -/

namespace LayeredTabulator

variable {α : Type} [LinearOrderedCommRing α]

theorem probAt_eq (t : LayeredTabulator α) (i : Nat) : probAt t i = (probsL t).getD i 0 := rfl

theorem probsL_swap (t : LayeredTabulator α) (i j : Nat) :
    probsL (swap t i j) = swapL (probsL t) i j := by
  unfold probsL swap
  cases h : t._probs with
  | none => simp [swapL]
  | some l => simp

theorem SameShape.unchanged (t : LayeredTabulator α) : SameShape t t := ⟨rfl, rfl, rfl, rfl⟩

theorem SameShape.andThen {t t1 t2 : LayeredTabulator α} (h1 : SameShape t t1)
    (h2 : SameShape t1 t2) : SameShape t t2 :=
  ⟨h2.target.trans h1.target, h2.size.trans h1.size, h2.no.trans h1.no, h2.some.trans h1.some⟩

theorem sameShape_swap (t : LayeredTabulator α) (i j : Nat) : SameShape t (swap t i j) := by
  refine ⟨rfl, rfl, rfl, ?_⟩
  unfold swap
  cases t._probs <;> rfl

/-- The partition loop rearranges the entries from `loweridx` on: the entries it leaves
before the final `loweridx` are above the pivot value, those from there on are not, and
`new_csum` grows by the entries moved below. -/
theorem partitionLoop_spec (pprob : α) (st e1 : Nat) :
    ∀ (left ii : Nat) (s : PartState α), st ≤ s.loweridx → s.loweridx ≤ ii → ii + left = e1 →
      e1 < (probsL s.tab).length →
      (∀ k, st ≤ k → k < s.loweridx → pprob < (probsL s.tab).getD k 0) →
      (∀ k, s.loweridx ≤ k → k < ii → (probsL s.tab).getD k 0 ≤ pprob) →
      PermOn s.loweridx e1 (probsL s.tab) (probsL (partitionLoop pprob left ii s).tab) ∧
      SameShape s.tab (partitionLoop pprob left ii s).tab ∧
      s.loweridx ≤ (partitionLoop pprob left ii s).loweridx ∧
      (partitionLoop pprob left ii s).loweridx ≤ e1 ∧
      (∀ k, st ≤ k → k < (partitionLoop pprob left ii s).loweridx →
        pprob < (probsL (partitionLoop pprob left ii s).tab).getD k 0) ∧
      (∀ k, (partitionLoop pprob left ii s).loweridx ≤ k → k < e1 →
        (probsL (partitionLoop pprob left ii s).tab).getD k 0 ≤ pprob) ∧
      (partitionLoop pprob left ii s).new_csum = s.new_csum +
        ∑ k in Finset.Ico s.loweridx (partitionLoop pprob left ii s).loweridx,
          (probsL (partitionLoop pprob left ii s).tab).getD k 0 := by
  intro left
  induction left with
  | zero =>
    intro ii s h1 h2 h3 h4 h5 h6
    simp only [partitionLoop]
    refine ⟨PermOn.same _ _ _, SameShape.unchanged _, le_refl _, by omega, h5, ?_, by simp⟩
    intro k hk1 hk2
    exact h6 k hk1 (by omega)
  | succ left ih =>
    intro ii s h1 h2 h3 h4 h5 h6
    by_cases hc : pprob < probAt s.tab ii
    · have hstep : partitionLoop pprob (left + 1) ii s = partitionLoop pprob left (ii + 1)
          ⟨swap s.tab ii s.loweridx,
            s.new_csum + probAt (swap s.tab ii s.loweridx) s.loweridx, s.loweridx + 1⟩ := by
        simp only [partitionLoop, if_pos hc]
      rw [hstep]
      have hsw : PermOn s.loweridx e1 (probsL s.tab) (probsL (swap s.tab ii s.loweridx)) := by
        rw [probsL_swap]
        exact PermOn.swap _ _ _ _ _ h2 (by omega) (le_refl _) (by omega) (by omega)
      have hg : ∀ k, (probsL (swap s.tab ii s.loweridx)).getD k 0 =
          (probsL s.tab).getD (Equiv.swap ii s.loweridx k) 0 := by
        intro k
        rw [probsL_swap]
        exact swapL_getD _ _ _ _ _ (by omega) (by omega)
      have hlo : (probsL (swap s.tab ii s.loweridx)).getD s.loweridx 0 =
          (probsL s.tab).getD ii 0 := by rw [hg, Equiv.swap_apply_right]
      obtain ⟨r1, r2, r3, r4, r5, r6, r7⟩ := ih (ii + 1)
        ⟨swap s.tab ii s.loweridx,
          s.new_csum + probAt (swap s.tab ii s.loweridx) s.loweridx, s.loweridx + 1⟩
        (by show st ≤ s.loweridx + 1; omega) (by show s.loweridx + 1 ≤ ii + 1; omega)
        (by omega) (by show e1 < (probsL (swap s.tab ii s.loweridx)).length
                       rw [hsw.1]; exact h4)
        (by
          intro k hk1 hk2
          show pprob < (probsL (swap s.tab ii s.loweridx)).getD k 0
          have hk2 : k < s.loweridx + 1 := hk2
          by_cases hk : k = s.loweridx
          · rw [hk, hlo]; exact hc
          · rw [hg, Equiv.swap_apply_of_ne_of_ne (by omega) hk]
            exact h5 k hk1 (by omega))
        (by
          intro k hk1 hk2
          show (probsL (swap s.tab ii s.loweridx)).getD k 0 ≤ pprob
          have hk1 : s.loweridx + 1 ≤ k := hk1
          by_cases hk : k = ii
          · rw [hk, hg, Equiv.swap_apply_left]
            exact h6 _ (le_refl _) (by omega)
          · rw [hg, Equiv.swap_apply_of_ne_of_ne hk (by omega)]
            exact h6 k (by omega) (by omega))
      simp only at r1 r2 r3 r4 r5 r6 r7
      generalize partitionLoop pprob left (ii + 1)
        ⟨swap s.tab ii s.loweridx,
          s.new_csum + probAt (swap s.tab ii s.loweridx) s.loweridx, s.loweridx + 1⟩ = res
        at r1 r2 r3 r4 r5 r6 r7 ⊢
      have r3 : s.loweridx + 1 ≤ res.loweridx := r3
      have r1 : PermOn (s.loweridx + 1) e1 (probsL (swap s.tab ii s.loweridx)) (probsL res.tab) :=
        r1
      refine ⟨hsw.chain (r1.mono (Nat.le_succ _) (le_refl _)),
        (sameShape_swap _ _ _).andThen r2, by omega, r4, r5, r6, ?_⟩
      have hout := r1.outside s.loweridx (Or.inl (Nat.lt_succ_self _))
      have hlt : s.loweridx < res.loweridx := by omega
      rw [r7, probAt_eq, ← hout, add_assoc, Finset.sum_eq_sum_Ico_succ_bot hlt]
    · have hstep : partitionLoop pprob (left + 1) ii s = partitionLoop pprob left (ii + 1) s := by
        simp only [partitionLoop, if_neg hc]
      rw [hstep]
      exact ih (ii + 1) s h1 (by omega) (by omega) h4 h5 (by
        intro k hk1 hk2
        by_cases hk : k = ii
        · rw [hk]; exact not_lt.mp hc
        · exact h6 k hk1 (by omega))

end LayeredTabulator

/-! ## LayeredTabulator: one iteration of the trimming loop -/

namespace LayeredTabulator

variable {α : Type} [LinearOrderedCommRing α]

theorem pivotIndex_mem (buildingR : Bool) (rand : Nat → Nat) (k start end_ : Nat)
    (h : start < end_) :
    start ≤ pivotIndex buildingR rand k start end_ ∧
      pivotIndex buildingR rand k start end_ < end_ := by
  unfold pivotIndex
  have hpos : 0 < end_ - start := by omega
  have h1 := Nat.mod_lt (rand k) hpos
  have h2 : (end_ - start) / 2 < end_ - start := Nat.div_lt_self hpos (by decide)
  split <;> omega

/-- One iteration partitions the range `[start, end)` around a pivot value `v` that ends
at the index `lo`, and continues on the side the cumulative sum selects. -/
theorem trimStep_partition (buildingR : Bool) (rand : Nat → Nat) (k : Nat) (s : TrimState α)
    (tg : α) (htg : s.tab.target_total_prob = ((tg : α) : WithTop α))
    (hlt : s.start < s.end_) (hlen : s.end_ ≤ (probsL s.tab).length)
    (hsum : s.sum_to_start = prefixSum (probsL s.tab) s.start) :
    ∃ (lo : Nat) (t3 : LayeredTabulator α) (v : α), s.start ≤ lo ∧ lo < s.end_ ∧
      SameShape s.tab t3 ∧ PermOn s.start s.end_ (probsL s.tab) (probsL t3) ∧
      (∀ i, s.start ≤ i → i < lo → v < (probsL t3).getD i 0) ∧
      (probsL t3).getD lo 0 = v ∧
      (∀ i, lo < i → i < s.end_ → (probsL t3).getD i 0 ≤ v) ∧
      trimStep buildingR rand k s =
        if prefixSum (probsL t3) lo < tg then
          ⟨t3, lo + 1, s.end_, prefixSum (probsL t3) (lo + 1)⟩
        else ⟨t3, s.start, lo, s.sum_to_start⟩ := by
  obtain ⟨hp1, hp2⟩ := pivotIndex_mem buildingR rand k s.start s.end_ hlt
  generalize hpiv : pivotIndex buildingR rand k s.start s.end_ = pivot at hp1 hp2
  have hsw1 : PermOn s.start s.end_ (probsL s.tab) (probsL (swap s.tab pivot (s.end_ - 1))) := by
    rw [probsL_swap]
    exact PermOn.swap _ _ _ _ _ hp1 hp2 (by omega) (by omega) hlen
  have hlen1 : (probsL (swap s.tab pivot (s.end_ - 1))).length = (probsL s.tab).length := hsw1.1
  have hpp : (probsL (swap s.tab pivot (s.end_ - 1))).getD (s.end_ - 1) 0 =
      (probsL s.tab).getD pivot 0 := by
    rw [probsL_swap, swapL_getD _ _ _ _ _ (by omega) (by omega), Equiv.swap_apply_right]
  obtain ⟨r1, r2, r3, r4, r5, r6, r7⟩ := partitionLoop_spec (probAt s.tab pivot) s.start
    (s.end_ - 1) (s.end_ - 1 - s.start) s.start
    ⟨swap s.tab pivot (s.end_ - 1), s.sum_to_start, s.start⟩ (le_refl _) (le_refl _)
    (by omega) (by show s.end_ - 1 < (probsL (swap s.tab pivot (s.end_ - 1))).length; omega)
    (by intro k hk1 hk2; have hk2 : k < s.start := hk2; omega)
    (by intro k hk1 hk2; have hk1 : s.start ≤ k := hk1; omega)
  have hstep : trimStep buildingR rand k s =
      if (((partitionLoop (probAt s.tab pivot) (s.end_ - 1 - s.start) s.start
          ⟨swap s.tab pivot (s.end_ - 1), s.sum_to_start, s.start⟩).new_csum : α) : WithTop α) <
          (swap (partitionLoop (probAt s.tab pivot) (s.end_ - 1 - s.start) s.start
          ⟨swap s.tab pivot (s.end_ - 1), s.sum_to_start, s.start⟩).tab (s.end_ - 1)
          (partitionLoop (probAt s.tab pivot) (s.end_ - 1 - s.start) s.start
          ⟨swap s.tab pivot (s.end_ - 1), s.sum_to_start, s.start⟩).loweridx).target_total_prob
      then
        ⟨swap (partitionLoop (probAt s.tab pivot) (s.end_ - 1 - s.start) s.start
          ⟨swap s.tab pivot (s.end_ - 1), s.sum_to_start, s.start⟩).tab (s.end_ - 1)
          (partitionLoop (probAt s.tab pivot) (s.end_ - 1 - s.start) s.start
          ⟨swap s.tab pivot (s.end_ - 1), s.sum_to_start, s.start⟩).loweridx,
          (partitionLoop (probAt s.tab pivot) (s.end_ - 1 - s.start) s.start
          ⟨swap s.tab pivot (s.end_ - 1), s.sum_to_start, s.start⟩).loweridx + 1, s.end_,
          (partitionLoop (probAt s.tab pivot) (s.end_ - 1 - s.start) s.start
          ⟨swap s.tab pivot (s.end_ - 1), s.sum_to_start, s.start⟩).new_csum +
          probAt (swap (partitionLoop (probAt s.tab pivot) (s.end_ - 1 - s.start) s.start
          ⟨swap s.tab pivot (s.end_ - 1), s.sum_to_start, s.start⟩).tab (s.end_ - 1)
          (partitionLoop (probAt s.tab pivot) (s.end_ - 1 - s.start) s.start
          ⟨swap s.tab pivot (s.end_ - 1), s.sum_to_start, s.start⟩).loweridx)
          (partitionLoop (probAt s.tab pivot) (s.end_ - 1 - s.start) s.start
          ⟨swap s.tab pivot (s.end_ - 1), s.sum_to_start, s.start⟩).loweridx⟩
      else
        ⟨swap (partitionLoop (probAt s.tab pivot) (s.end_ - 1 - s.start) s.start
          ⟨swap s.tab pivot (s.end_ - 1), s.sum_to_start, s.start⟩).tab (s.end_ - 1)
          (partitionLoop (probAt s.tab pivot) (s.end_ - 1 - s.start) s.start
          ⟨swap s.tab pivot (s.end_ - 1), s.sum_to_start, s.start⟩).loweridx, s.start,
          (partitionLoop (probAt s.tab pivot) (s.end_ - 1 - s.start) s.start
          ⟨swap s.tab pivot (s.end_ - 1), s.sum_to_start, s.start⟩).loweridx,
          s.sum_to_start⟩ := by
    rw [← hpiv]; rfl
  rw [hstep]
  generalize partitionLoop (probAt s.tab pivot) (s.end_ - 1 - s.start) s.start
    ⟨swap s.tab pivot (s.end_ - 1), s.sum_to_start, s.start⟩ = ps at r1 r2 r3 r4 r5 r6 r7 ⊢
  have r1 : PermOn s.start (s.end_ - 1) (probsL (swap s.tab pivot (s.end_ - 1))) (probsL ps.tab) :=
    r1
  have r2 : SameShape (swap s.tab pivot (s.end_ - 1)) ps.tab := r2
  have r3 : s.start ≤ ps.loweridx := r3
  have r7 : ps.new_csum = s.sum_to_start +
      ∑ k in Finset.Ico s.start ps.loweridx, (probsL ps.tab).getD k 0 := r7
  have hlen2 : (probsL ps.tab).length = (probsL s.tab).length := r1.1.trans hlen1
  have hsw3 : PermOn s.start s.end_ (probsL ps.tab)
      (probsL (swap ps.tab (s.end_ - 1) ps.loweridx)) := by
    rw [probsL_swap]
    exact PermOn.swap _ _ _ _ _ (by omega) (by omega) r3 (by omega) (by omega)
  have hg : ∀ i, (probsL (swap ps.tab (s.end_ - 1) ps.loweridx)).getD i 0 =
      (probsL ps.tab).getD (Equiv.swap (s.end_ - 1) ps.loweridx i) 0 := by
    intro i
    rw [probsL_swap]
    exact swapL_getD _ _ _ _ _ (by omega) (by omega)
  have hend : (probsL ps.tab).getD (s.end_ - 1) 0 = probAt s.tab pivot := by
    rw [r1.outside _ (Or.inr (le_refl _)), hpp]; rfl
  have hperm : PermOn s.start s.end_ (probsL s.tab)
      (probsL (swap ps.tab (s.end_ - 1) ps.loweridx)) :=
    (hsw1.chain (r1.mono (le_refl _) (Nat.sub_le _ _))).chain hsw3
  have hshape : SameShape s.tab (swap ps.tab (s.end_ - 1) ps.loweridx) :=
    ((sameShape_swap _ _ _).andThen r2).andThen (sameShape_swap _ _ _)
  have hcs : ps.new_csum = prefixSum (probsL (swap ps.tab (s.end_ - 1) ps.loweridx))
      ps.loweridx := by
    rw [r7, hsum, ← hperm.prefixSum_eq s.start (Or.inr (le_refl _)),
      ← prefixSum_add_Ico _ _ _ r3]
    congr 1
    apply Finset.sum_congr rfl
    intro i hi
    rw [Finset.mem_Ico] at hi
    rw [hg, Equiv.swap_apply_of_ne_of_ne (by omega) (by omega)]
  refine ⟨ps.loweridx, swap ps.tab (s.end_ - 1) ps.loweridx, probAt s.tab pivot, r3, by omega,
    hshape, hperm, ?_, ?_, ?_, ?_⟩
  · intro i hi1 hi2
    rw [hg, Equiv.swap_apply_of_ne_of_ne (by omega) (by omega)]
    exact r5 i hi1 hi2
  · rw [hg, Equiv.swap_apply_right]
    exact hend
  · intro i hi1 hi2
    by_cases hie : i = s.end_ - 1
    · rw [hie, hg, Equiv.swap_apply_left]
      exact r6 _ (le_refl _) (by omega)
    · rw [hg, Equiv.swap_apply_of_ne_of_ne hie (by omega)]
      exact r6 i (by omega) (by omega)
  · have htg3 : (swap ps.tab (s.end_ - 1) ps.loweridx).target_total_prob = ((tg : α) : WithTop α) :=
      hshape.target.trans htg
    simp only [htg3, WithTop.coe_lt_coe, hcs, probAt_eq, ← prefixSum_succ]

/-- One iteration keeps the invariant of the trimming loop and shortens the range. -/
theorem trimStep_inv (buildingR : Bool) (rand : Nat → Nat) (k : Nat) (p0 : List α)
    (ls n : Nat) (tg : α) (s : TrimState α) (hinv : TrimInv p0 ls n tg s)
    (hlt : s.start < s.end_) :
    TrimInv p0 ls n tg (trimStep buildingR rand k s) ∧
      SameShape s.tab (trimStep buildingR rand k s).tab ∧
      (trimStep buildingR rand k s).end_ - (trimStep buildingR rand k s).start <
        s.end_ - s.start := by
  have hlenp : (probsL s.tab).length = n := hinv.perm.1.trans hinv.len
  obtain ⟨lo, t3, v, h1, h2, hshape, hperm, habove, hat, hbelow, hstep⟩ :=
    trimStep_partition buildingR rand k s tg hinv.target hlt
      (by rw [hlenp]; exact hinv.end_le) hinv.sum
  have hle := hinv.le_start
  have hen := hinv.end_le
  have hout : ∀ i, i < s.start ∨ s.end_ ≤ i → (probsL t3).getD i 0 = (probsL s.tab).getD i 0 :=
    fun i hi => hperm.outside i hi
  have hge : ∀ i, s.start ≤ i → i ≤ lo → v ≤ (probsL t3).getD i 0 := by
    intro i hi1 hi2
    rcases Nat.lt_or_ge i lo with h | h
    · exact le_of_lt (habove i hi1 h)
    · have : i = lo := by omega
      rw [this, hat]
  have hle2 : ∀ i, lo ≤ i → i < s.end_ → (probsL t3).getD i 0 ≤ v := by
    intro i hi1 hi2
    rcases Nat.lt_or_ge lo i with h | h
    · exact hbelow i h hi2
    · have : i = lo := by omega
      rw [this, hat]
  rw [hstep]
  by_cases hc : prefixSum (probsL t3) lo < tg
  · rw [if_pos hc]
    refine ⟨⟨hinv.perm.chain (hperm.mono hle hen), hinv.len, by show ls ≤ lo + 1; omega,
      by show lo + 1 ≤ s.end_; omega, hen, rfl, ?_, ?_, ?_, ?_, hshape.target.trans hinv.target⟩,
      hshape, by show s.end_ - (lo + 1) < s.end_ - s.start; omega⟩
    · show tg ≤ prefixSum (probsL t3) s.end_
      rw [hperm.prefixSum_eq _ (Or.inl (le_refl _))]
      exact hinv.reach
    · intro i j hi1 hi2 hj1 hj2
      have hi2 : i < lo + 1 := hi2
      have hj1 : lo + 1 ≤ j := hj1
      show (probsL t3).getD j 0 ≤ (probsL t3).getD i 0
      rcases Nat.lt_or_ge i s.start with hi | hi
      · rw [hout i (Or.inl hi)]
        obtain ⟨j1, hj3, hj4, hj5⟩ := (hperm.mono (le_refl _) hen).inside j (by omega) hj2
        rw [hj5]
        exact hinv.low i j1 hi1 hi hj3 hj4
      · rcases Nat.lt_or_ge j s.end_ with hj | hj
        · exact (hle2 j (by omega) hj).trans (hge i hi (by omega))
        · rw [hout j (Or.inr hj)]
          obtain ⟨i1, hi3, hi4, hi5⟩ := hperm.inside i hi (by omega)
          rw [hi5]
          exact hinv.high i1 j hi3 hi4 hj hj2
    · intro i j hi1 hi2 hj1 hj2
      have hi1 : lo + 1 ≤ i := hi1
      have hi2 : i < s.end_ := hi2
      have hj1 : s.end_ ≤ j := hj1
      show (probsL t3).getD j 0 ≤ (probsL t3).getD i 0
      rw [hout j (Or.inr hj1)]
      obtain ⟨i1, hi3, hi4, hi5⟩ := hperm.inside i (by omega) hi2
      rw [hi5]
      exact hinv.high i1 j hi3 hi4 hj1 hj2
    · right
      refine ⟨by show ls < lo + 1; omega, hc, ?_⟩
      intro i hi1 hi2
      have hi2 : i < lo + 1 := hi2
      show (probsL t3).getD lo 0 ≤ (probsL t3).getD i 0
      rcases Nat.lt_or_ge i s.start with hi | hi
      · rw [hout i (Or.inl hi)]
        obtain ⟨j1, hj3, hj4, hj5⟩ := hperm.inside lo h1 h2
        rw [hj5]
        exact hinv.low i j1 hi1 hi hj3 (by omega)
      · rw [hat]
        exact hge i hi (by omega)
  · rw [if_neg hc]
    refine ⟨⟨hinv.perm.chain (hperm.mono hle hen), hinv.len, hle, h1,
      by show lo ≤ n; omega, ?_, not_lt.mp hc, ?_, ?_, ?_, hshape.target.trans hinv.target⟩,
      hshape, by show lo - s.start < s.end_ - s.start; omega⟩
    · show s.sum_to_start = prefixSum (probsL t3) s.start
      rw [hperm.prefixSum_eq _ (Or.inr (le_refl _))]
      exact hinv.sum
    · intro i j hi1 hi2 hj1 hj2
      have hi2 : i < s.start := hi2
      have hj1 : s.start ≤ j := hj1
      show (probsL t3).getD j 0 ≤ (probsL t3).getD i 0
      rw [hout i (Or.inl hi2)]
      obtain ⟨j1, hj3, hj4, hj5⟩ := (hperm.mono (le_refl _) hen).inside j hj1 hj2
      rw [hj5]
      exact hinv.low i j1 hi1 hi2 hj3 hj4
    · intro i j hi1 hi2 hj1 hj2
      have hi1 : s.start ≤ i := hi1
      have hi2 : i < lo := hi2
      have hj1 : lo ≤ j := hj1
      show (probsL t3).getD j 0 ≤ (probsL t3).getD i 0
      rcases Nat.lt_or_ge j s.end_ with hj | hj
      · exact (hle2 j hj1 hj).trans (le_of_lt (habove i hi1 hi2))
      · rw [hout j (Or.inr hj)]
        obtain ⟨i1, hi3, hi4, hi5⟩ := hperm.inside i hi1 (by omega)
        rw [hi5]
        exact hinv.high i1 j hi3 hi4 hj hj2
    · rcases hinv.least with h | ⟨h3, h4, h5⟩
      · exact Or.inl h
      · right
        refine ⟨h3, ?_, ?_⟩
        · show prefixSum (probsL t3) (s.start - 1) < tg
          rw [hperm.prefixSum_eq _ (Or.inr (Nat.sub_le _ _))]
          exact h4
        · intro i hi1 hi2
          have hi2 : i < s.start := hi2
          show (probsL t3).getD (s.start - 1) 0 ≤ (probsL t3).getD i 0
          rw [hout i (Or.inl hi2), hout (s.start - 1) (Or.inl (by omega))]
          exact h5 i hi1 hi2

/-- The trimming loop ends, with enough iterations allowed, in a state with
`start = end` that satisfies the invariant. -/
theorem quicktrim_spec (buildingR : Bool) (rand : Nat → Nat) (p0 : List α) (ls n : Nat)
    (tg : α) : ∀ (fuel k : Nat) (s : TrimState α), TrimInv p0 ls n tg s →
      s.end_ - s.start ≤ fuel →
      TrimInv p0 ls n tg (quicktrim buildingR rand fuel k s) ∧
      SameShape s.tab (quicktrim buildingR rand fuel k s).tab ∧
      (quicktrim buildingR rand fuel k s).start = (quicktrim buildingR rand fuel k s).end_ := by
  intro fuel
  induction fuel with
  | zero =>
    intro k s hinv hf
    have := hinv.start_le
    exact ⟨hinv, SameShape.unchanged _, by show s.start = s.end_; omega⟩
  | succ fuel ih =>
    intro k s hinv hf
    by_cases hlt : s.start < s.end_
    · have hq : quicktrim buildingR rand (fuel + 1) k s =
          quicktrim buildingR rand fuel (k + 1) (trimStep buildingR rand k s) := by
        simp only [quicktrim, if_pos hlt]
      obtain ⟨h1, h2, h3⟩ := trimStep_inv buildingR rand k p0 ls n tg s hinv hlt
      obtain ⟨r1, r2, r3⟩ := ih (k + 1) _ h1 (by omega)
      rw [hq]
      exact ⟨r1, h2.andThen r2, r3⟩
    · have hq : quicktrim buildingR rand (fuel + 1) k s = s := by
        simp only [quicktrim, if_neg hlt]
      rw [hq]
      have := hinv.start_le
      exact ⟨hinv, SameShape.unchanged _, by omega⟩

end LayeredTabulator

/-! ## LayeredTabulator: the layer loop -/

theorem prefixSum_cons {β : Type} [AddCommMonoid β] (x : β) (l : List β) (k : Nat) :
    prefixSum (x :: l) (k + 1) = x + prefixSum l k := by
  unfold prefixSum
  rw [Finset.sum_range_succ', add_comm]
  rfl

theorem prefixSum_append_length {β : Type} [AddCommMonoid β] (a b : List β) :
    prefixSum (a ++ b) a.length = a.sum := by
  induction a with
  | nil => simp [prefixSum]
  | cons x a ih =>
    rw [List.cons_append, List.length_cons, prefixSum_cons, ih, List.sum_cons]

theorem prefixSum_length {β : Type} [AddCommMonoid β] (a : List β) :
    prefixSum a a.length = a.sum := by
  have h := prefixSum_append_length a []
  rwa [List.append_nil] at h

namespace LayeredTabulator

variable {α : Type} [LinearOrderedCommRing α]

theorem stored_addConf (tg : α) (t : LayeredTabulator α) (rows : List (Row α)) (r : Row α)
    (h : Stored tg t rows) : Stored tg (addConf t r) (rows ++ [r]) := by
  refine ⟨?_, ?_, h.opt, h.target⟩
  · show t._probs.map (fun l => l ++ [r.prob]) = _
    rw [h.probs]
    simp
  · show t._confs_no + 1 = _
    rw [h.no]
    simp

/-- With `optimize` set the inner loop stores every row of the layer. -/
theorem addRows_spec (tg : α) : ∀ (layer : List (Row α)) (t : LayeredTabulator α) (p : α)
    (rows : List (Row α)), Stored tg t rows →
      ∃ t1, addRows t p layer = (t1, p + (layer.map Row.prob).sum, false) ∧
        Stored tg t1 (rows ++ layer) := by
  intro layer
  induction layer with
  | nil =>
    intro t p rows h
    exact ⟨t, by simp [addRows], by simpa using h⟩
  | cons r rs ih =>
    intro t p rows h
    obtain ⟨t1, h1, h2⟩ := ih (addConf t r) (p + r.prob) (rows ++ [r]) (stored_addConf tg t rows r h)
    refine ⟨t1, ?_, by simpa using h2⟩
    simp only [addRows, h.opt, Bool.not_true, Bool.false_and, Bool.false_eq_true, if_false, h1,
      List.map_cons, List.sum_cons, add_assoc]

/-- The layer loop of an optimizing run: it stops behind the first layer with which the
stored probability reaches the target, `last_switch` being the number of rows stored
before that layer, or it stores every layer without reaching the target. -/
theorem collectLayers_spec (tg : α) : ∀ (layers pre : List (List (Row α)))
    (t : LayeredTabulator α) (p : α), Stored tg t pre.flatten →
      p = (pre.flatten.map Row.prob).sum → p < tg →
      (collectLayers t pre.flatten.length p p layers).returned = false ∧
      ((∃ pre1 layer post, pre ++ layers = pre1 ++ layer :: post ∧
          Stored tg (collectLayers t pre.flatten.length p p layers).tab (pre1.flatten ++ layer) ∧
          (collectLayers t pre.flatten.length p p layers).last_switch = pre1.flatten.length ∧
          (collectLayers t pre.flatten.length p p layers).prob_at_last_switch =
            (pre1.flatten.map Row.prob).sum ∧
          (pre1.flatten.map Row.prob).sum < tg ∧
          (collectLayers t pre.flatten.length p p layers).prob_so_far =
            ((pre1.flatten ++ layer).map Row.prob).sum ∧
          tg ≤ ((pre1.flatten ++ layer).map Row.prob).sum) ∨
        (((pre ++ layers).flatten.map Row.prob).sum < tg)) := by
  intro layers
  induction layers with
  | nil =>
    intro pre t p h hp hlt
    refine ⟨rfl, Or.inr ?_⟩
    rw [List.append_nil, ← hp]
    exact hlt
  | cons layer rest ih =>
    intro pre t p h hp hlt
    obtain ⟨t1, h1, h2⟩ := addRows_spec tg layer t p pre.flatten h
    have hsum : p + (layer.map Row.prob).sum = ((pre.flatten ++ layer).map Row.prob).sum := by
      rw [List.map_append, List.sum_append, hp]
    by_cases hc : tg ≤ p + (layer.map Row.prob).sum
    · have hq : collectLayers t pre.flatten.length p p (layer :: rest) =
          ⟨t1, pre.flatten.length, p, p + (layer.map Row.prob).sum, false⟩ := by
        simp only [collectLayers, h1, h2.target, WithTop.coe_le_coe, if_pos hc]
      rw [hq]
      refine ⟨rfl, Or.inl ⟨pre, layer, rest, rfl, h2, rfl, hp, ?_, hsum, ?_⟩⟩
      · rw [← hp]; exact hlt
      · rw [← hsum]; exact hc
    · have hfl : (pre ++ [layer]).flatten = pre.flatten ++ layer := by simp
      have hq : collectLayers t pre.flatten.length p p (layer :: rest) =
          collectLayers t1 (pre ++ [layer]).flatten.length (p + (layer.map Row.prob).sum)
            (p + (layer.map Row.prob).sum) rest := by
        simp only [collectLayers, h1, h2.target, WithTop.coe_le_coe, if_neg hc, h2.no, hfl]
      rw [hq]
      have := ih (pre ++ [layer]) t1 (p + (layer.map Row.prob).sum) (by rw [hfl]; exact h2)
        (by rw [hfl]; exact hsum) (not_le.mp hc)
      simpa using this

end LayeredTabulator

/-! ## LayeredTabulator: the trimmed table -/

/-- Rearranged arrays hold the same entries. -/
theorem PermOn.perm {β : Type} [Zero β] {lo hi : Nat} {p p1 : List β} (h : PermOn lo hi p p1)
    (hhi : hi ≤ p.length) : p1.Perm p := by
  obtain ⟨hl, σ, hσ, e1⟩ := h
  have hmem : ∀ k, σ k < p.length ↔ k < p.length := by
    intro k
    constructor
    · intro hk
      by_contra hn
      rw [hσ k (Or.inr (by omega))] at hk
      exact hn hk
    · intro hk
      by_contra hn
      have := σ.injective (hσ (σ k) (Or.inr (by omega)))
      omega
  have hp : p = (List.range p.length).map (fun k => p.getD k 0) := by
    apply List.ext_getElem (by simp)
    intro i h1 h2
    simp [List.getElem?_eq_getElem h1]
  have hp1 : p1 = ((List.range p.length).map σ).map (fun k => p.getD k 0) := by
    apply List.ext_getElem (by simp [hl])
    intro i h1 h2
    have := e1 i
    rw [List.getD_eq_getElem _ _ h1] at this
    simp [this]
  have hperm : ((List.range p.length).map σ).Perm (List.range p.length) := by
    rw [List.perm_ext_iff_of_nodup ((List.nodup_range _).map σ.injective) (List.nodup_range _)]
    intro a
    simp only [List.mem_map, List.mem_range]
    constructor
    · rintro ⟨k, hk, rfl⟩
      exact (hmem k).mpr hk
    · intro ha
      exact ⟨σ.symm a, (hmem _).mp (by simpa using ha), by simp⟩
  rw [hp1]
  nth_rewrite 3 [hp]
  exact hperm.map _

/-- A set of indices of the original array has a set of as many indices of the rearranged
array with the same sum. -/
theorem PermOn.sum_finset {β : Type} [AddCommMonoid β] {lo hi : Nat} {p p1 : List β}
    (h : PermOn lo hi p p1) (s : Finset Nat) :
    ∃ s1 : Finset Nat, s1.card = s.card ∧
      ∑ k in s1, p1.getD k 0 = ∑ i in s, p.getD i 0 := by
  obtain ⟨_, σ, _, e1⟩ := h
  refine ⟨s.map σ.symm.toEmbedding, Finset.card_map _, ?_⟩
  rw [Finset.sum_map]
  apply Finset.sum_congr rfl
  intro i _
  rw [e1]
  simp

/-- Among the sets of at most `m` indices the first `m` indices have the largest sum, when
the entries are not negative and each of the first `m` is at least every later one. -/
theorem sum_le_prefixSum {β : Type} [LinearOrderedCommRing β] (p : List β) (m : Nat)
    (hnn : ∀ k, 0 ≤ p.getD k 0)
    (hord : ∀ i j, i < m → m ≤ j → p.getD j 0 ≤ p.getD i 0) (s : Finset Nat)
    (hcard : s.card ≤ m) : ∑ k in s, p.getD k 0 ≤ prefixSum p m := by
  unfold prefixSum
  have h1 : ∑ k in s, p.getD k 0 =
      ∑ k in s ∩ Finset.range m, p.getD k 0 + ∑ k in s \ Finset.range m, p.getD k 0 :=
    (Finset.sum_inter_add_sum_diff s (Finset.range m) _).symm
  have h2 : ∑ k in Finset.range m, p.getD k 0 =
      ∑ k in s ∩ Finset.range m, p.getD k 0 + ∑ k in Finset.range m \ s, p.getD k 0 := by
    rw [Finset.inter_comm]
    exact (Finset.sum_inter_add_sum_diff (Finset.range m) s _).symm
  rw [h1, h2]
  apply add_le_add_left
  have hc1 : (s \ Finset.range m).card + (s ∩ Finset.range m).card = s.card :=
    Finset.card_sdiff_add_card_inter s (Finset.range m)
  have hc2 : (Finset.range m \ s).card + (Finset.range m ∩ s).card = m := by
    rw [Finset.card_sdiff_add_card_inter, Finset.card_range]
  have hc3 : (Finset.range m ∩ s).card = (s ∩ Finset.range m).card := by
    rw [Finset.inter_comm]
  have hcard2 : (s \ Finset.range m).card ≤ (Finset.range m \ s).card := by omega
  rcases (s \ Finset.range m).eq_empty_or_nonempty with he | hne
  · rw [he, Finset.sum_empty]
    exact Finset.sum_nonneg (fun k _ => hnn k)
  · obtain ⟨a, ha, hmax⟩ := Finset.exists_max_image _ (fun k => p.getD k 0) hne
    have ham : m ≤ a := by
      simp only [Finset.mem_sdiff, Finset.mem_range] at ha
      omega
    calc ∑ k in s \ Finset.range m, p.getD k 0
        ≤ (s \ Finset.range m).card • p.getD a 0 := Finset.sum_le_card_nsmul _ _ _ hmax
      _ ≤ (Finset.range m \ s).card • p.getD a 0 := nsmul_le_nsmul_left (hnn a) hcard2
      _ ≤ ∑ k in Finset.range m \ s, p.getD k 0 := by
          apply Finset.card_nsmul_le_sum
          intro x hx
          simp only [Finset.mem_sdiff, Finset.mem_range] at hx
          exact hord x a hx.1 ham

namespace LayeredTabulator

variable {α : Type} [LinearOrderedCommRing α]

theorem probsL_of_stored {tg : α} {t : LayeredTabulator α} {rows : List (Row α)}
    (h : Stored tg t rows) : probsL t = rows.map Row.prob := by
  unfold probsL
  rw [h.probs]
  rfl

/-- The state in which the trimming loop ends: the rows before `end` reach the target,
without the last of them they do not, the last of them has the least probability of
them, and none of them has less probability than a row from `end` on. -/
theorem trimmed_spec (buildingR : Bool) (rand : Nat → Nat) (tg : α) (c : CollectState α)
    (rows : List (Row α)) (hst : Stored tg c.tab rows) (hls : c.last_switch ≤ rows.length)
    (hpls : c.prob_at_last_switch = prefixSum (probsL c.tab) c.last_switch)
    (hlt : c.prob_at_last_switch < tg) (hreach : tg ≤ prefixSum (probsL c.tab) rows.length)
    (H : ∀ i j, i < c.last_switch → c.last_switch ≤ j → j < c.tab._confs_no →
      probAt c.tab j ≤ probAt c.tab i) :
    PermOn c.last_switch rows.length (probsL c.tab) (probsL (trimmed buildingR rand c).tab) ∧
      SameShape c.tab (trimmed buildingR rand c).tab ∧
      0 < (trimmed buildingR rand c).end_ ∧ (trimmed buildingR rand c).end_ ≤ rows.length ∧
      tg ≤ prefixSum (probsL (trimmed buildingR rand c).tab) (trimmed buildingR rand c).end_ ∧
      prefixSum (probsL (trimmed buildingR rand c).tab) ((trimmed buildingR rand c).end_ - 1) <
        tg ∧
      (∀ i, i < (trimmed buildingR rand c).end_ →
        (probsL (trimmed buildingR rand c).tab).getD ((trimmed buildingR rand c).end_ - 1) 0 ≤
          (probsL (trimmed buildingR rand c).tab).getD i 0) ∧
      (∀ i j, i < (trimmed buildingR rand c).end_ → (trimmed buildingR rand c).end_ ≤ j →
        j < rows.length →
        (probsL (trimmed buildingR rand c).tab).getD j 0 ≤
          (probsL (trimmed buildingR rand c).tab).getD i 0) := by
  have hlen : (probsL c.tab).length = rows.length := by
    rw [probsL_of_stored hst, List.length_map]
  have hinit : TrimInv (probsL c.tab) c.last_switch rows.length tg
      ⟨c.tab, c.last_switch, c.tab._confs_no, c.prob_at_last_switch⟩ := by
    refine ⟨PermOn.same _ _ _, hlen, le_refl _, by show _ ≤ c.tab._confs_no; rw [hst.no]; exact hls,
      by show c.tab._confs_no ≤ _; rw [hst.no], hpls,
      by show tg ≤ prefixSum _ c.tab._confs_no; rw [hst.no]; exact hreach, ?_, ?_, Or.inl rfl,
      hst.target⟩
    · intro i j hi1 hi2
      have hi2 : i < c.last_switch := hi2
      omega
    · intro i j _ _ hj1 hj2
      have hj1 : c.tab._confs_no ≤ j := hj1
      rw [hst.no] at hj1
      omega
  obtain ⟨hinv, hshape, heq⟩ := quicktrim_spec buildingR rand (probsL c.tab) c.last_switch
    rows.length tg (c.tab._confs_no - c.last_switch) 0
    ⟨c.tab, c.last_switch, c.tab._confs_no, c.prob_at_last_switch⟩ hinit (le_refl _)
  have htr : trimmed buildingR rand c = quicktrim buildingR rand (c.tab._confs_no - c.last_switch) 0
    ⟨c.tab, c.last_switch, c.tab._confs_no, c.prob_at_last_switch⟩ := rfl
  rw [← htr] at hinv hshape heq
  generalize trimmed buildingR rand c = s at hinv hshape heq ⊢
  have hperm := hinv.perm
  have hHs : ∀ i j, i < c.last_switch → c.last_switch ≤ j → j < rows.length →
      (probsL s.tab).getD j 0 ≤ (probsL s.tab).getD i 0 := by
    intro i j hi hj1 hj2
    rw [hperm.outside i (Or.inl hi)]
    obtain ⟨j1, hj3, hj4, hj5⟩ := hperm.inside j hj1 hj2
    rw [hj5]
    exact H i j1 hi hj3 (by rw [hst.no]; exact hj4)
  have hle := hinv.le_start
  have hen := hinv.end_le
  rcases hinv.least with h | ⟨h1, h2, h3⟩
  · exfalso
    have h4 := hinv.reach
    rw [← heq, h, hperm.prefixSum_eq _ (Or.inr (le_refl _)), ← hpls] at h4
    exact absurd hlt (not_lt.mpr h4)
  · rw [heq] at h1 h2 h3
    refine ⟨hperm, hshape, by omega, hen, hinv.reach, h2, ?_, ?_⟩
    · intro i hi
      rcases Nat.lt_or_ge i c.last_switch with hi1 | hi1
      · exact hHs i _ hi1 (by omega) (by omega)
      · exact h3 i hi1 hi
    · intro i j hi hj1 hj2
      rcases Nat.lt_or_ge i c.last_switch with hi1 | hi1
      · exact hHs i j hi1 (by omega) hj2
      · exact hinv.low i j hi1 (by rw [heq]; exact hi) (by rw [heq]; exact hj1) hj2

end LayeredTabulator

/-! ## LayeredTabulator: the optimal table -/

theorem prefixSum_take {β : Type} [AddCommMonoid β] (p : List β) (e : Nat) :
    prefixSum (p.take e) e = prefixSum p e := by
  unfold prefixSum
  apply Finset.sum_congr rfl
  intro k hk
  rw [Finset.mem_range] at hk
  simp [List.getD_eq_getElem?_getD, List.getElem?_take_of_lt hk]

theorem getD_take_of_lt {β : Type} (p : List β) (e k : Nat) (d : β) (hk : k < e) :
    (p.take e).getD k d = p.getD k d := by
  simp [List.getD_eq_getElem?_getD, List.getElem?_take_of_lt hk]

namespace LayeredTabulator

variable {α : Type} [LinearOrderedCommRing α]

theorem finish_confs_no (b : Bool) (s : TrimState α) : (finish b s)._confs_no = s.end_ := by
  by_cases h : s.end_ ≤ s.tab.current_size / 2
  · simp only [finish, if_pos h]
  · simp only [finish, if_neg h]

theorem finish_probs (s : TrimState α) : (finish true s)._probs = s.tab._probs ∨
    (finish true s)._probs = s.tab._probs.map (fun l => l.take s.end_) := by
  by_cases h : s.end_ ≤ s.tab.current_size / 2
  · right
    simp only [finish, if_pos h, if_true]
  · left
    simp only [finish, if_neg h, if_true]

/-- The layer loop of an optimizing run whose rows reach the target. -/
theorem collect_spec (layers : List (List (Row α))) (allDim : Nat)
    (gm gp gl gc : Bool) (tg : α) (h0 : 0 < tg) (h1 : tg < 1)
    (hreach : tg ≤ (layers.flatten.map Row.prob).sum) :
    (collect layers allDim gm gp gl gc tg true).returned = false ∧
      ∃ pre1 layer post, layers = pre1 ++ layer :: post ∧
        Stored tg (collect layers allDim gm gp gl gc tg true).tab (pre1.flatten ++ layer) ∧
        (collect layers allDim gm gp gl gc tg true).last_switch = pre1.flatten.length ∧
        (collect layers allDim gm gp gl gc tg true).prob_at_last_switch =
          (pre1.flatten.map Row.prob).sum ∧
        (pre1.flatten.map Row.prob).sum < tg ∧
        (collect layers allDim gm gp gl gc tg true).prob_so_far =
          ((pre1.flatten ++ layer).map Row.prob).sum ∧
        tg ≤ ((pre1.flatten ++ layer).map Row.prob).sum := by
  have hst : Stored tg
      ({ _masses := if gm then some [] else none
         _lprobs := if gl then some [] else none
         _probs := if true || gp then some [] else none
         _confs := if gc then some [] else none
         _confs_no := 0
         allDim := allDim
         target_total_prob := if 1 ≤ tg then ⊤ else ((tg : α) : WithTop α)
         current_size := ISOSPEC_INIT_TABLE_SIZE
         optimize := true } : LayeredTabulator α) ([] : List (List (Row α))).flatten :=
    ⟨by simp, rfl, rfl, by simp [not_le.mpr h1]⟩
  obtain ⟨r1, r2⟩ := collectLayers_spec tg layers [] _ 0 hst (by simp) h0
  refine ⟨r1, ?_⟩
  rcases r2 with ⟨pre1, layer, post, e, h⟩ | h
  · exact ⟨pre1, layer, post, by simpa using e, h⟩
  · rw [List.nil_append] at h
    exact absurd hreach (not_le.mpr h)

/-- What the constructor of an optimizing run leaves, over the array `P` the loops end
with: the table is `P` or its first `_confs_no` entries. -/
theorem construct_optimize_spec (buildingR : Bool) (rand : Nat → Nat)
    (layers : List (List (Row α))) (allDim : Nat) (gm gl gc : Bool) (tg : α) (h0 : 0 < tg)
    (h1 : tg < 1) (hpos : ∀ r ∈ layers.flatten, 0 < r.prob)
    (hreach : tg ≤ (layers.flatten.map Row.prob).sum)
    (H : ∀ i j, i < (collect layers allDim gm true gl gc tg true).last_switch →
      (collect layers allDim gm true gl gc tg true).last_switch ≤ j →
      j < (collect layers allDim gm true gl gc tg true).tab._confs_no →
      probAt (collect layers allDim gm true gl gc tg true).tab j ≤
        probAt (collect layers allDim gm true gl gc tg true).tab i) :
    ∃ P : List α,
      PermOn 0 P.length (probsL (collect layers allDim gm true gl gc tg true).tab) P ∧
      (probsL (collect layers allDim gm true gl gc tg true).tab) <+:
        layers.flatten.map Row.prob ∧
      ((construct buildingR rand layers allDim gm true gl gc tg true)._probs = some P ∨
        (construct buildingR rand layers allDim gm true gl gc tg true)._probs = some (P.take
          (construct buildingR rand layers allDim gm true gl gc tg true)._confs_no)) ∧
      0 < (construct buildingR rand layers allDim gm true gl gc tg true)._confs_no ∧
      (construct buildingR rand layers allDim gm true gl gc tg true)._confs_no ≤ P.length ∧
      (∀ k, 0 ≤ P.getD k 0) ∧ (∀ k, k < P.length → 0 < P.getD k 0) ∧
      tg ≤ prefixSum P (construct buildingR rand layers allDim gm true gl gc tg true)._confs_no ∧
      (∃ m, m < (construct buildingR rand layers allDim gm true gl gc tg true)._confs_no ∧
        (∀ i, i < (construct buildingR rand layers allDim gm true gl gc tg true)._confs_no →
          P.getD m 0 ≤ P.getD i 0) ∧
        prefixSum P (construct buildingR rand layers allDim gm true gl gc tg true)._confs_no -
          P.getD m 0 < tg) ∧
      (∀ i j, i < (construct buildingR rand layers allDim gm true gl gc tg true)._confs_no →
        (construct buildingR rand layers allDim gm true gl gc tg true)._confs_no ≤ j →
        j < P.length → P.getD j 0 ≤ P.getD i 0) ∧
      (∀ s : Finset Nat,
        s.card < (construct buildingR rand layers allDim gm true gl gc tg true)._confs_no →
        ∑ k in s, P.getD k 0 < tg) := by
  obtain ⟨hret, pre1, layer, post, hlay, hst, hls, hpls, hlt, hpsf, hge⟩ :=
    collect_spec layers allDim gm true gl gc tg h0 h1 hreach
  have hcon : construct buildingR rand layers allDim gm true gl gc tg true =
      if (collect layers allDim gm true gl gc tg true).prob_so_far ≤ tg then
        (collect layers allDim gm true gl gc tg true).tab
      else finish true (trimmed buildingR rand (collect layers allDim gm true gl gc tg true)) := by
    unfold construct
    simp only [not_le.mpr h0, if_false, hret, Bool.false_eq_true, Bool.not_true, Bool.false_or,
      hst.target, WithTop.coe_le_coe, decide_eq_true_eq]
  rw [hcon]
  generalize collect layers allDim gm true gl gc tg true = c at *
  have hP0 : probsL c.tab = (pre1.flatten ++ layer).map Row.prob := probsL_of_stored hst
  have hlen0 : (probsL c.tab).length = (pre1.flatten ++ layer).length := by
    rw [hP0, List.length_map]
  have hpre : probsL c.tab <+: layers.flatten.map Row.prob := by
    rw [hP0, hlay]
    refine ⟨post.flatten.map Row.prob, ?_⟩
    simp
  have hpos0 : ∀ k, k < (probsL c.tab).length → 0 < (probsL c.tab).getD k 0 := by
    intro k hk
    rw [List.getD_eq_getElem _ _ hk]
    have hmem := hpre.subset (List.getElem_mem hk)
    obtain ⟨r, hr, hr2⟩ := List.mem_map.mp hmem
    rw [← hr2]
    exact hpos r hr
  have hnn0 : ∀ k, 0 ≤ (probsL c.tab).getD k 0 := by
    intro k
    rcases Nat.lt_or_ge k (probsL c.tab).length with hk | hk
    · exact le_of_lt (hpos0 k hk)
    · rw [List.getD_eq_default _ _ hk]
  have hsumN : prefixSum (probsL c.tab) (pre1.flatten ++ layer).length =
      ((pre1.flatten ++ layer).map Row.prob).sum := by
    rw [← hlen0, prefixSum_length, hP0]
  have hN0 : 0 < (pre1.flatten ++ layer).length := by
    by_contra hn
    have hnil : pre1.flatten ++ layer = [] := List.eq_nil_of_length_eq_zero (by omega)
    rw [hnil] at hge
    simp only [List.map_nil, List.sum_nil] at hge
    exact absurd h0 (not_lt.mpr hge)
  by_cases hc : c.prob_so_far ≤ tg
  · rw [if_pos hc]
    have heq : prefixSum (probsL c.tab) (pre1.flatten ++ layer).length = tg := by
      rw [hsumN]
      exact le_antisymm (by rw [← hpsf]; exact hc) hge
    refine ⟨probsL c.tab, PermOn.same _ _ _, hpre, Or.inl ?_, ?_, ?_, hnn0, hpos0, ?_, ?_, ?_, ?_⟩
    · rw [hst.probs, hP0]
    · rw [hst.no]; exact hN0
    · rw [hst.no, hlen0]
    · rw [hst.no, heq]
    · rw [hst.no]
      obtain ⟨m, hm, hmin⟩ := Finset.exists_min_image (Finset.range (pre1.flatten ++ layer).length)
        (fun k => (probsL c.tab).getD k 0) ⟨0, Finset.mem_range.mpr hN0⟩
      rw [Finset.mem_range] at hm
      refine ⟨m, hm, fun i hi => hmin i (Finset.mem_range.mpr hi), ?_⟩
      rw [heq]
      exact sub_lt_self _ (hpos0 m (by rw [hlen0]; exact hm))
    · intro i j _ hj1 hj2
      rw [hst.no] at hj1
      omega
    · intro s hs
      rw [hst.no] at hs
      have hex : ∃ i, i < (pre1.flatten ++ layer).length ∧ i ∉ s := by
        by_contra hn
        push_neg at hn
        have hsub : Finset.range (pre1.flatten ++ layer).length ⊆ s := by
          intro x hx
          exact hn x (Finset.mem_range.mp hx)
        have := Finset.card_le_card hsub
        rw [Finset.card_range] at this
        omega
      obtain ⟨i, hi1, hi2⟩ := hex
      have hle : ∑ k in s, (probsL c.tab).getD k 0 ≤
          prefixSum (probsL c.tab) (pre1.flatten ++ layer).length - (probsL c.tab).getD i 0 := by
        have hsplit : prefixSum (probsL c.tab) (pre1.flatten ++ layer).length =
            ∑ k in (Finset.range (pre1.flatten ++ layer).length).erase i,
              (probsL c.tab).getD k 0 + (probsL c.tab).getD i 0 := by
          unfold prefixSum
          rw [Finset.sum_erase_add _ _ (Finset.mem_range.mpr hi1)]
        rw [hsplit, add_sub_cancel_right,
          ← Finset.sum_inter_add_sum_diff s (Finset.range (pre1.flatten ++ layer).length)]
        have hz : ∑ k in s \ Finset.range (pre1.flatten ++ layer).length,
            (probsL c.tab).getD k 0 = 0 := by
          apply Finset.sum_eq_zero
          intro k hk
          simp only [Finset.mem_sdiff, Finset.mem_range, not_lt] at hk
          exact List.getD_eq_default _ _ (by rw [hlen0]; exact hk.2)
        rw [hz, add_zero]
        apply Finset.sum_le_sum_of_subset_of_nonneg
        · intro x hx
          simp only [Finset.mem_inter, Finset.mem_range] at hx
          rw [Finset.mem_erase, Finset.mem_range]
          exact ⟨fun h => hi2 (h ▸ hx.1), hx.2⟩
        · intro k _ _
          exact hnn0 k
      rw [heq] at hle
      exact lt_of_le_of_lt hle (sub_lt_self _ (hpos0 i (by rw [hlen0]; exact hi1)))
  · rw [if_neg hc]
    obtain ⟨hperm, hshape, he0, heN, hsum, hsum1, hmin, hord⟩ :=
      trimmed_spec buildingR rand tg c (pre1.flatten ++ layer) hst
        (by rw [hls]; simp) (by
          have h3 := prefixSum_append_length (pre1.flatten.map Row.prob) (layer.map Row.prob)
          rw [List.length_map] at h3
          rw [hpls, hls, hP0, List.map_append, h3])
        (by rw [hpls]; exact hlt) (by rw [hsumN]; exact hge) H
    generalize trimmed buildingR rand c = s at *
    have hlenP : (probsL s.tab).length = (pre1.flatten ++ layer).length := hperm.1.trans hlen0
    have hsome : s.tab._probs = some (probsL s.tab) := by
      have h2 := hshape.some
      rw [hst.probs] at h2
      unfold probsL
      cases h3 : s.tab._probs with
      | none => rw [h3] at h2; simp at h2
      | some l => rfl
    have hno : (finish true s)._confs_no = s.end_ := finish_confs_no true s
    have hposP : ∀ k, k < (probsL s.tab).length → 0 < (probsL s.tab).getD k 0 := by
      intro k hk
      obtain ⟨k1, _, hk2, hk3⟩ := (hperm.mono (Nat.zero_le _) (le_refl _)).inside k
        (Nat.zero_le _) (by rw [← hlenP]; exact hk)
      rw [hk3]
      exact hpos0 k1 (by rw [hlen0]; exact hk2)
    have hnnP : ∀ k, 0 ≤ (probsL s.tab).getD k 0 := by
      intro k
      rcases Nat.lt_or_ge k (probsL s.tab).length with hk | hk
      · exact le_of_lt (hposP k hk)
      · rw [List.getD_eq_default _ _ hk]
    refine ⟨probsL s.tab, ?_, hpre, ?_, ?_, ?_, hnnP, hposP, ?_, ?_, ?_, ?_⟩
    · rw [hlenP]
      exact hperm.mono (Nat.zero_le _) (le_refl _)
    · rw [hno]
      rcases finish_probs s with h | h
      · left
        rw [h, hsome]
      · right
        rw [h, hsome]
        rfl
    · rw [hno]; exact he0
    · rw [hno, hlenP]; exact heN
    · rw [hno]; exact hsum
    · rw [hno]
      refine ⟨s.end_ - 1, by omega, hmin, ?_⟩
      have := prefixSum_succ (probsL s.tab) (s.end_ - 1)
      rw [Nat.sub_add_cancel he0] at this
      rw [this, add_sub_cancel_right]
      exact hsum1
    · rw [hno, hlenP]; exact hord
    · intro t ht
      rw [hno] at ht
      refine lt_of_le_of_lt (sum_le_prefixSum (probsL s.tab) (s.end_ - 1) hnnP ?_ t (by omega))
        hsum1
      intro i j hi hj
      rcases Nat.lt_or_ge j s.end_ with hj1 | hj1
      · have hje : j = s.end_ - 1 := by omega
        rw [hje]
        exact hmin i (by omega)
      · rcases Nat.lt_or_ge j (pre1.flatten ++ layer).length with hj2 | hj2
        · exact hord i j (by omega) hj1 hj2
        · rw [List.getD_eq_default _ _ (by rw [hlenP]; exact hj2)]
          exact hnnP i

end LayeredTabulator

/-! ## LayeredTabulator: the optimal table reaches the target with the fewest rows -/

namespace LayeredTabulator

variable {α : Type} [LinearOrderedCommRing α]

/-- When no row of a layer is more probable than a row of an earlier layer, the rows
stored before the last switch are at least as probable as the rows of the last layer. -/
theorem stored_before_switch_ge (layers : List (List (Row α))) (allDim : Nat)
    (gm gp gl gc : Bool) (tg : α) (h0 : 0 < tg) (h1 : tg < 1)
    (hreach : tg ≤ (layers.flatten.map Row.prob).sum)
    (hlayers : layers.Pairwise (fun l1 l2 => ∀ r1 ∈ l1, ∀ r2 ∈ l2, r2.prob ≤ r1.prob)) :
    ∀ i j, i < (collect layers allDim gm gp gl gc tg true).last_switch →
      (collect layers allDim gm gp gl gc tg true).last_switch ≤ j →
      j < (collect layers allDim gm gp gl gc tg true).tab._confs_no →
      probAt (collect layers allDim gm gp gl gc tg true).tab j ≤
        probAt (collect layers allDim gm gp gl gc tg true).tab i := by
  obtain ⟨_, pre1, layer, post, hlay, hst, hls, _, _, _, _⟩ :=
    collect_spec layers allDim gm gp gl gc tg h0 h1 hreach
  generalize collect layers allDim gm gp gl gc tg true = c at *
  intro i j hi hj1 hj2
  rw [hls] at hi hj1
  rw [hst.no, List.length_append] at hj2
  rw [probAt_eq, probAt_eq, probsL_of_stored hst, List.map_append]
  have hi2 : i < (pre1.flatten.map Row.prob).length := by rw [List.length_map]; exact hi
  have hj3 : j - (pre1.flatten.map Row.prob).length < (layer.map Row.prob).length := by
    rw [List.length_map, List.length_map]; omega
  rw [List.getD_append _ _ _ _ hi2, List.getD_append_right _ _ _ _ (by rw [List.length_map]; exact hj1),
    List.getD_eq_getElem _ _ hi2, List.getD_eq_getElem _ _ hj3]
  obtain ⟨r1, hr1, e1⟩ := List.mem_map.mp (List.getElem_mem hi2)
  obtain ⟨r2, hr2, e2⟩ := List.mem_map.mp (List.getElem_mem hj3)
  rw [← e1, ← e2]
  obtain ⟨l1, hl1, hr1⟩ := List.mem_flatten.mp hr1
  rw [hlay, List.pairwise_append] at hlayers
  exact hlayers.2.2 l1 hl1 layer (List.mem_cons_self _ _) r1 hr1 r2 hr2

/-- C5: for LayeredTabulator with optimize=true and a target in (0,1) that the emitted
rows reach, the probabilities kept after construction, `_probs[0.._confs_no)`, sum to at
least the target, and without a kept entry of lowest probability they sum to less than
the target, for every choice of the pivots. The rows of the generator have positive
probability and no row of a layer is more probable than a row of an earlier layer. -/
theorem layered_optimize_kept_sum_minimal (buildingR : Bool) (rand : Nat → Nat)
    (layers : List (List (Row α))) (allDim : Nat) (gm gl gc : Bool) (tg : α) (h0 : 0 < tg)
    (h1 : tg < 1) (hpos : ∀ r ∈ layers.flatten, 0 < r.prob)
    (hreach : tg ≤ (layers.flatten.map Row.prob).sum)
    (hlayers : layers.Pairwise (fun l1 l2 => ∀ r1 ∈ l1, ∀ r2 ∈ l2, r2.prob ≤ r1.prob)) :
    ∃ P : List α,
      (construct buildingR rand layers allDim gm true gl gc tg true)._probs = some P ∧
      0 < (construct buildingR rand layers allDim gm true gl gc tg true)._confs_no ∧
      (construct buildingR rand layers allDim gm true gl gc tg true)._confs_no ≤ P.length ∧
      tg ≤ prefixSum P (construct buildingR rand layers allDim gm true gl gc tg true)._confs_no ∧
      ∀ i, i < (construct buildingR rand layers allDim gm true gl gc tg true)._confs_no →
        (∀ j, j < (construct buildingR rand layers allDim gm true gl gc tg true)._confs_no →
          P.getD i 0 ≤ P.getD j 0) →
        prefixSum P (construct buildingR rand layers allDim gm true gl gc tg true)._confs_no -
          P.getD i 0 < tg := by
  obtain ⟨P, _, _, hP, he0, heN, _, _, hsum, ⟨m, hm, hmin, hlow⟩, _, _⟩ :=
    construct_optimize_spec buildingR rand layers allDim gm gl gc tg h0 h1 hpos hreach
      (stored_before_switch_ge layers allDim gm true gl gc tg h0 h1 hreach hlayers)
  generalize (construct buildingR rand layers allDim gm true gl gc tg true)._confs_no = e at *
  generalize (construct buildingR rand layers allDim gm true gl gc tg true)._probs = pr at *
  have hfin : ∀ i, i < e → (∀ j, j < e → P.getD i 0 ≤ P.getD j 0) →
      prefixSum P e - P.getD i 0 < tg := by
    intro i hi hall
    have : P.getD i 0 = P.getD m 0 := le_antisymm (hall m hm) (hmin i hi)
    rw [this]
    exact hlow
  rcases hP with hP | hP
  · exact ⟨P, hP, he0, heN, hsum, hfin⟩
  · refine ⟨P.take e, hP, he0, by rw [List.length_take]; omega, by rw [prefixSum_take]; exact hsum,
      ?_⟩
    intro i hi hall
    rw [prefixSum_take, getD_take_of_lt _ _ _ _ hi]
    apply hfin i hi
    intro j hj
    have := hall j hj
    rwa [getD_take_of_lt _ _ _ _ hi, getD_take_of_lt _ _ _ _ hj] at this

/-- C6: for LayeredTabulator with optimize=true the kept rows are a smallest set of
emitted rows whose probabilities sum to at least the target: the kept probabilities with
the discarded ones `D` are the emitted ones, every kept probability is at least every
discarded one, the kept ones reach the target, and no set of fewer than `_confs_no`
emitted rows does. Every row stored before the last layer switch is required to be at
least as probable as every row of the last layer. -/
theorem layered_optimize_smallest_cardinality (buildingR : Bool) (rand : Nat → Nat)
    (layers : List (List (Row α))) (allDim : Nat) (gm gl gc : Bool) (tg : α) (h0 : 0 < tg)
    (h1 : tg < 1) (hpos : ∀ r ∈ layers.flatten, 0 < r.prob)
    (hreach : tg ≤ (layers.flatten.map Row.prob).sum)
    (H : ∀ i j, i < (collect layers allDim gm true gl gc tg true).last_switch →
      (collect layers allDim gm true gl gc tg true).last_switch ≤ j →
      j < (collect layers allDim gm true gl gc tg true).tab._confs_no →
      probAt (collect layers allDim gm true gl gc tg true).tab j ≤
        probAt (collect layers allDim gm true gl gc tg true).tab i) :
    ∃ P D : List α,
      (construct buildingR rand layers allDim gm true gl gc tg true)._probs = some P ∧
      (construct buildingR rand layers allDim gm true gl gc tg true)._confs_no ≤ P.length ∧
      (P.take (construct buildingR rand layers allDim gm true gl gc tg true)._confs_no ++ D).Perm
        (probsL (collect layers allDim gm true gl gc tg true).tab) ∧
      (probsL (collect layers allDim gm true gl gc tg true).tab) <+:
        layers.flatten.map Row.prob ∧
      (∀ x ∈ P.take (construct buildingR rand layers allDim gm true gl gc tg true)._confs_no,
        ∀ d ∈ D, d ≤ x) ∧
      tg ≤ (P.take (construct buildingR rand layers allDim gm true gl gc tg true)._confs_no).sum ∧
      ∀ s : Finset Nat,
        s.card < (construct buildingR rand layers allDim gm true gl gc tg true)._confs_no →
        ∑ k in s, (probsL (collect layers allDim gm true gl gc tg true).tab).getD k 0 < tg := by
  obtain ⟨P, hperm, hpre, hP, he0, heN, _, _, hsum, _, hord, hcard⟩ :=
    construct_optimize_spec buildingR rand layers allDim gm gl gc tg h0 h1 hpos hreach H
  generalize (construct buildingR rand layers allDim gm true gl gc tg true)._confs_no = e at *
  generalize (construct buildingR rand layers allDim gm true gl gc tg true)._probs = pr at *
  generalize probsL (collect layers allDim gm true gl gc tg true).tab = P0 at *
  have hlen : P.length = P0.length := hperm.1
  have hp : (P.take e ++ P.drop e).Perm P0 := by
    rw [List.take_append_drop]
    exact hperm.perm (by rw [hlen])
  have hkd : ∀ x ∈ P.take e, ∀ d ∈ P.drop e, d ≤ x := by
    intro x hx d hd
    obtain ⟨i, hi, rfl⟩ := List.mem_iff_getElem.mp hx
    obtain ⟨j, hj, rfl⟩ := List.mem_iff_getElem.mp hd
    rw [List.length_take] at hi
    rw [List.length_drop] at hj
    rw [List.getElem_take, List.getElem_drop]
    have := hord i (e + j) (by omega) (by omega) (by omega)
    rwa [List.getD_eq_getElem _ _ (by omega), List.getD_eq_getElem _ _ (by omega)] at this
  have hs : tg ≤ (P.take e).sum := by
    have h2 := prefixSum_length (P.take e)
    rw [List.length_take, Nat.min_eq_left heN, prefixSum_take] at h2
    rw [← h2]
    exact hsum
  have hall : ∀ s : Finset Nat, s.card < e → ∑ k in s, P0.getD k 0 < tg := by
    intro s hs
    obtain ⟨s1, hc, hs1⟩ := hperm.sum_finset s
    rw [← hs1]
    exact hcard s1 (by rw [hc]; exact hs)
  rcases hP with hP | hP
  · exact ⟨P, P.drop e, hP, heN, hp, hpre, hkd, hs, hall⟩
  · refine ⟨P.take e, P.drop e, hP, by rw [List.length_take]; omega, ?_, hpre, ?_, ?_, hall⟩
    · rw [List.take_take, Nat.min_self]; exact hp
    · rw [List.take_take, Nat.min_self]; exact hkd
    · rw [List.take_take, Nat.min_self]; exact hs

end LayeredTabulator

namespace LayeredTabulator

theorem layered_optimize_kept_sum_minimal_witness :
    ∃ P : List ℚ,
      (construct false (fun _ => 0) sampleLayers 1 true true true true (3 / 5) true)._probs =
        some P ∧
      0 < (construct false (fun _ => 0) sampleLayers 1 true true true true (3 / 5) true)._confs_no ∧
      (construct false (fun _ => 0) sampleLayers 1 true true true true (3 / 5) true)._confs_no ≤
        P.length ∧
      (3 / 5 : ℚ) ≤ prefixSum P
        (construct false (fun _ => 0) sampleLayers 1 true true true true (3 / 5) true)._confs_no ∧
      ∀ i, i < (construct false (fun _ => 0) sampleLayers 1 true true true true (3 / 5)
          true)._confs_no →
        (∀ j, j < (construct false (fun _ => 0) sampleLayers 1 true true true true (3 / 5)
          true)._confs_no → P.getD i 0 ≤ P.getD j 0) →
        prefixSum P (construct false (fun _ => 0) sampleLayers 1 true true true true (3 / 5)
          true)._confs_no - P.getD i 0 < 3 / 5 :=
  layered_optimize_kept_sum_minimal false (fun _ => 0) sampleLayers 1 true true true (3 / 5)
    (by norm_num) (by norm_num)
    (by
      intro r hr
      simp only [sampleLayers, List.flatten, List.append_nil, List.cons_append, List.nil_append,
        List.mem_cons, List.mem_singleton, List.not_mem_nil, or_false] at hr
      rcases hr with rfl | rfl | rfl <;> norm_num)
    (by norm_num [sampleLayers])
    (by
      simp only [sampleLayers, List.pairwise_cons, List.mem_cons, List.mem_singleton,
        List.not_mem_nil]
      norm_num)

theorem layered_optimize_smallest_cardinality_witness :
    ∃ P D : List ℚ,
      (construct false (fun _ => 0) sampleLayers 1 true true true true (3 / 5) true)._probs =
        some P ∧
      (construct false (fun _ => 0) sampleLayers 1 true true true true (3 / 5) true)._confs_no ≤
        P.length ∧
      (P.take (construct false (fun _ => 0) sampleLayers 1 true true true true (3 / 5)
        true)._confs_no ++ D).Perm
        (probsL (collect sampleLayers 1 true true true true (3 / 5) true).tab) ∧
      (probsL (collect sampleLayers 1 true true true true (3 / 5) true).tab) <+:
        sampleLayers.flatten.map Row.prob ∧
      (∀ x ∈ P.take (construct false (fun _ => 0) sampleLayers 1 true true true true (3 / 5)
        true)._confs_no, ∀ d ∈ D, d ≤ x) ∧
      (3 / 5 : ℚ) ≤ (P.take (construct false (fun _ => 0) sampleLayers 1 true true true true
        (3 / 5) true)._confs_no).sum ∧
      ∀ s : Finset Nat,
        s.card < (construct false (fun _ => 0) sampleLayers 1 true true true true (3 / 5)
          true)._confs_no →
        ∑ k in s, (probsL (collect sampleLayers 1 true true true true (3 / 5) true).tab).getD k 0 <
          3 / 5 :=
  layered_optimize_smallest_cardinality false (fun _ => 0) sampleLayers 1 true true true (3 / 5)
    (by norm_num) (by norm_num)
    (by
      intro r hr
      simp only [sampleLayers, List.flatten, List.append_nil, List.cons_append, List.nil_append,
        List.mem_cons, List.mem_singleton, List.not_mem_nil, or_false] at hr
      rcases hr with rfl | rfl | rfl <;> norm_num)
    (by norm_num [sampleLayers])
    (by
      have hc : collect sampleLayers 1 true true true true (3 / 5 : ℚ) true =
          ⟨⟨some [1, 2, 3], some [-1, -3, -2], some [1 / 2, 1 / 8, 1 / 4], some [[0], [1], [2]], 3,
            1, ((3 / 5 : ℚ) : WithTop ℚ), 1024, true⟩, 1, 1 / 2, 7 / 8, false⟩ := by
        have e1 : ¬ (1 : ℚ) ≤ 3 / 5 := by norm_num
        have e2 : ¬ (((3 / 5 : ℚ) : WithTop ℚ) ≤ ((2⁻¹ : ℚ) : WithTop ℚ)) := by
          rw [WithTop.coe_le_coe]; norm_num
        have e3 : ((3 / 5 : ℚ) : WithTop ℚ) ≤ ((2⁻¹ + 8⁻¹ + 4⁻¹ : ℚ) : WithTop ℚ) := by
          rw [WithTop.coe_le_coe]; norm_num
        simp only [collect, collectLayers, addRows, addConf, sampleLayers, ISOSPEC_INIT_TABLE_SIZE,
          e1, if_false, Bool.not_true, Bool.false_and, Bool.true_or, if_true, Option.map_some',
          List.nil_append, List.cons_append, zero_add, one_div, e2, e3, Bool.false_eq_true]
        norm_num
      rw [hc]
      intro i j hi hj1 hj2
      have hi : i < 1 := hi
      have hj1 : 1 ≤ j := hj1
      have hj2 : j < 3 := hj2
      have hi0 : i = 0 := by omega
      subst hi0
      interval_cases j <;> norm_num [probAt])

end LayeredTabulator

/-! ## parse_formula: characters, digits and the library functions -/

theorem isalpha_not_isdigit (c : Char) (h : isalpha c = true) : isdigit c = false := by
  unfold isalpha at h
  unfold isdigit
  simp only [Bool.or_eq_true, Bool.and_eq_true, decide_eq_true_eq] at h
  simp only [Bool.and_eq_false_imp, decide_eq_true_eq, decide_eq_false_iff_not]
  omega

theorem isdigit_not_isalpha (c : Char) (h : isdigit c = true) : isalpha c = false := by
  cases h2 : isalpha c
  · rfl
  · rw [isalpha_not_isdigit c h2] at h
    exact absurd h (by decide)

theorem isdigit_range (c : Char) (h : isdigit c = true) : 48 ≤ c.toNat ∧ c.toNat ≤ 57 := by
  unfold isdigit at h
  simpa using h

theorem isdigit_not_isspace (c : Char) (h : isdigit c = true) : isspace c = false := by
  have := isdigit_range c h
  unfold isspace
  simp only [Bool.or_eq_false_iff, Bool.and_eq_false_imp, decide_eq_true_eq,
    decide_eq_false_iff_not]
  omega

theorem char_toNat_injective (a b : Char) (h : a.toNat = b.toNat) : a = b := by
  rw [← Char.ofNat_toNat a, ← Char.ofNat_toNat b, h]

/-- A run of characters with the property, followed by nothing or by a character
without it, is what `takeWhile` takes. -/
theorem takeWhile_run {β : Type} (p : β → Bool) (l rest : List β) (hl : ∀ c ∈ l, p c = true)
    (hr : ∀ c ∈ rest.head?, p c = false) : (l ++ rest).takeWhile p = l := by
  rw [List.takeWhile_append_of_pos hl]
  cases rest with
  | nil => simp
  | cons c r =>
    have := hr c (by simp)
    simp [List.takeWhile_cons, this]

theorem dropWhile_run {β : Type} (p : β → Bool) (l rest : List β) (hl : ∀ c ∈ l, p c = true)
    (hr : ∀ c ∈ rest.head?, p c = false) : (l ++ rest).dropWhile p = rest := by
  rw [List.dropWhile_append_of_pos hl]
  cases rest with
  | nil => simp
  | cons c r =>
    have := hr c (by simp)
    simp [List.dropWhile_cons, this]

/-- On a string that begins with the characters of `s0`, `strncmp` over `s0.length`
characters finds a symbol of that length equal exactly when the symbol is `s0`. -/
theorem strncmp_symbol : ∀ (s0 more sym : List Char),
    (sym.length = s0.length ∧ strncmp (s0 ++ more) sym s0.length = 0) ↔ sym = s0 := by
  intro s0
  induction s0 with
  | nil =>
    intro more sym
    simp [strncmp, List.length_eq_zero]
  | cons a s0 ih =>
    intro more sym
    cases sym with
    | nil => simp
    | cons b sym =>
      simp only [List.length_cons, List.cons_append, strncmp, Nat.add_right_cancel_iff,
        List.cons.injEq]
      by_cases hab : a = b
      · subst hab
        simp only [if_true, true_and]
        exact ih more sym
      · rw [if_neg hab]
        constructor
        · rintro ⟨_, h⟩
          exfalso
          apply hab
          apply char_toNat_injective
          omega
        · rintro ⟨h, _⟩
          exact absurd h.symm hab

theorem findSymbolFrom_spec (s0 more : List Char) : ∀ (table : List ElemEntry) (j : Nat),
    findSymbolFrom (s0 ++ more, s0.length) table j =
      if s0 ∈ table.map ElemEntry.symbol then some (j + symbolIndex table s0) else none := by
  intro table
  induction table with
  | nil => intro j; simp [findSymbolFrom]
  | cons ent rest ih =>
    intro j
    simp only [findSymbolFrom, strncmp_symbol, List.map_cons, List.mem_cons, symbolIndex,
      List.indexOf_cons]
    by_cases h : ent.symbol = s0
    · simp [h]
    · have h2 : ¬ s0 = ent.symbol := fun e => h e.symm
      have hb : (ent.symbol == s0) = false := by simpa using h
      rw [if_neg h, ih (j + 1)]
      simp only [h2, false_or, symbolIndex, hb, cond_false]
      split
      · congr 1; omega
      · rfl

/-- The search finds the first entry with the symbol, and finds none exactly when the
table does not hold the symbol. -/
theorem findSymbol_spec (table : List ElemEntry) (s0 more : List Char) :
    findSymbol table (s0 ++ more, s0.length) =
      if s0 ∈ table.map ElemEntry.symbol then some (symbolIndex table s0) else none := by
  unfold findSymbol
  rw [findSymbolFrom_spec]
  simp

theorem digitsValue_append_single (ds : List Char) (c : Char) :
    digitsValue (ds ++ [c]) = 10 * digitsValue ds + (c.toNat - 48) := by
  unfold digitsValue
  rw [List.foldl_append]
  rfl

/-- On a non-empty run of digits followed by nothing or by a character that is not a
digit, `atoi` returns the value of the run when it fits an `int`. -/
theorem atoi_digits (outOfRange : Int → Int) (ds rest : List Char) (hne : ds ≠ [])
    (hds : ∀ c ∈ ds, isdigit c = true) (hr : ∀ c ∈ rest.head?, isdigit c = false)
    (hv : digitsValue ds < 2 ^ 31) : atoi outOfRange (ds ++ rest) = (digitsValue ds : Int) := by
  obtain ⟨c, r, rfl⟩ := List.exists_cons_of_ne_nil hne
  have hc := hds c (List.mem_cons_self _ _)
  have hrange := isdigit_range c hc
  have htw : ((c :: r) ++ rest).takeWhile isdigit = c :: r := takeWhile_run _ _ _ hds hr
  have hdw : (c :: (r ++ rest)).dropWhile isspace = c :: (r ++ rest) := by
    rw [List.dropWhile_cons, isdigit_not_isspace c hc]
    rfl
  have h45 : ¬ c.toNat = 45 := by omega
  have h43 : ¬ c.toNat = 43 := by omega
  have htw2 : (c :: (r ++ rest)).takeWhile isdigit = c :: r := htw
  have hrng : -(2 : Int) ^ 31 ≤ (digitsValue (c :: r) : Int) ∧
      (digitsValue (c :: r) : Int) < (2 : Int) ^ 31 := by
    have h0 : (0 : Int) ≤ (digitsValue (c :: r) : Int) := Int.natCast_nonneg _
    have h1 : (digitsValue (c :: r) : Int) < (2 : Int) ^ 31 := by exact_mod_cast hv
    constructor
    · have : -(2 : Int) ^ 31 ≤ 0 := by norm_num
      exact le_trans this h0
    · exact h1
  simp only [atoi, List.cons_append, hdw, h45, h43, if_false, htw2]
  rw [if_pos hrng]

theorem digitChar_toNat (d : Nat) (h : d < 10) : (Char.ofNat (48 + d)).toNat = 48 + d := by
  interval_cases d <;> rfl

theorem digitChar_isdigit (d : Nat) (h : d < 10) : isdigit (Char.ofNat (48 + d)) = true := by
  interval_cases d <;> rfl

theorem digitsValue_map_reverse (L : List Nat) (h : ∀ d ∈ L, d < 10) :
    digitsValue (L.reverse.map (fun d => Char.ofNat (48 + d))) = Nat.ofDigits 10 L := by
  induction L with
  | nil => rfl
  | cons d L ih =>
    rw [List.reverse_cons, List.map_append, List.map_singleton, digitsValue_append_single,
      ih (fun x hx => h x (List.mem_cons_of_mem _ hx)), digitChar_toNat d (h d (List.mem_cons_self _ _)),
      Nat.ofDigits_cons]
    omega

/-- The digits `dec n` are a non-empty run of decimal digits that denotes `n`. -/
theorem dec_spec (n : Nat) :
    dec n ≠ [] ∧ (∀ c ∈ dec n, isdigit c = true) ∧ digitsValue (dec n) = n := by
  unfold dec
  by_cases h : n = 0
  · subst h
    simp only [if_true]
    refine ⟨by simp, ?_, rfl⟩
    intro c hc
    rw [List.mem_singleton] at hc
    subst hc
    rfl
  · rw [if_neg h]
    have hlt : ∀ d ∈ Nat.digits 10 n, d < 10 := fun d hd => Nat.digits_lt_base (by decide) hd
    refine ⟨?_, ?_, ?_⟩
    · intro he
      rw [List.map_eq_nil_iff, List.reverse_eq_nil_iff] at he
      exact (Nat.digits_ne_nil_iff_ne_zero.mpr h) he
    · intro c hc
      obtain ⟨d, hd, rfl⟩ := List.mem_map.mp hc
      exact digitChar_isdigit d (hlt d (List.mem_reverse.mp hd))
    · rw [digitsValue_map_reverse _ hlt, Nat.ofDigits_digits]

/-! ## parse_formula: the scanning loop -/

theorem formatFormula_cons (p : List Char × List Char) (ps : List (List Char × List Char)) :
    formatFormula (p :: ps) = p.1 ++ (p.2 ++ formatFormula ps) := by
  simp [formatFormula]

theorem head_digits_append (ds rest : List Char) (hne : ds ≠ [])
    (hds : ∀ c ∈ ds, isdigit c = true) : ∀ c ∈ (ds ++ rest).head?, isalpha c = false := by
  obtain ⟨d, r, rfl⟩ := List.exists_cons_of_ne_nil hne
  intro c hc
  simp only [List.cons_append, List.head?_cons, Option.mem_def, Option.some.injEq] at hc
  subst hc
  exact isdigit_not_isalpha _ (hds _ (List.mem_cons_self _ _))

/-- A well split string whose first run of letters is not empty does not begin with a
digit. -/
theorem head_format_not_digit (ps : List (List Char × List Char)) (h : WellSplit ps)
    (hq : ∀ q ∈ ps.head?, q.1 ≠ []) : ∀ c ∈ (formatFormula ps).head?, isdigit c = false := by
  cases ps with
  | nil => intro c hc; simp [formatFormula] at hc
  | cons q qs =>
    have hne := hq q (by simp)
    obtain ⟨a, r, hr⟩ := List.exists_cons_of_ne_nil hne
    intro c hc
    rw [formatFormula_cons, hr] at hc
    simp only [List.cons_append, List.head?_cons, Option.mem_def, Option.some.injEq] at hc
    subst hc
    exact isalpha_not_isdigit _ (h.1 a (by rw [hr]; exact List.mem_cons_self _ _))

/-- The scanning loop on a well split string stores its pairs, within as many iterations
as the string has characters. -/
theorem scanFormula_wellSplit (outOfRange : Int → Int) :
    ∀ (pairs : List (List Char × List Char)) (fuel : Nat), WellSplit pairs →
      (formatFormula pairs).length ≤ fuel →
      scanFormula outOfRange fuel (formatFormula pairs) = some (tokensOf outOfRange pairs) := by
  intro pairs
  induction pairs with
  | nil =>
    intro fuel _ _
    cases fuel <;> rfl
  | cons p ps ih =>
    intro fuel hw hlen
    obtain ⟨h1, h2, h3, h4, h5⟩ := hw
    have hnd := head_format_not_digit ps h5 h4
    have hdrop1 : (formatFormula (p :: ps)).dropWhile isalpha = p.2 ++ formatFormula ps := by
      rw [formatFormula_cons]
      exact dropWhile_run _ _ _ h1 (head_digits_append _ _ h2 h3)
    have htake1 : (formatFormula (p :: ps)).takeWhile isalpha = p.1 := by
      rw [formatFormula_cons]
      exact takeWhile_run _ _ _ h1 (head_digits_append _ _ h2 h3)
    have hdrop2 : (p.2 ++ formatFormula ps).dropWhile isdigit = formatFormula ps :=
      dropWhile_run _ _ _ h3 hnd
    have hlen2 : (formatFormula (p :: ps)).length =
        p.1.length + (p.2.length + (formatFormula ps).length) := by
      rw [formatFormula_cons, List.length_append, List.length_append]
    have hpos : 0 < p.2.length := List.length_pos.mpr h2
    obtain ⟨c, s, hcs⟩ : ∃ c s, formatFormula (p :: ps) = c :: s := by
      cases hf : formatFormula (p :: ps) with
      | nil => rw [hf] at hlen2; simp at hlen2; omega
      | cons c s => exact ⟨c, s, rfl⟩
    obtain ⟨f, rfl⟩ : ∃ f, fuel = f + 1 := ⟨fuel - 1, by rw [hcs] at hlen; simp at hlen; omega⟩
    have hstep : scanFormula outOfRange (f + 1) (c :: s) =
        (scanFormula outOfRange f (((c :: s).dropWhile isalpha).dropWhile isdigit)).map
          (fun r => ((c :: s, ((c :: s).takeWhile isalpha).length),
            atoi outOfRange ((c :: s).dropWhile isalpha)) :: r) := rfl
    rw [hcs, hstep, ← hcs, hdrop1, hdrop2, htake1, ih f h5 (by omega)]
    rfl

theorem format_wellSplit_head (pairs : List (List Char × List Char)) (h : WellSplit pairs)
    (hd : ∀ c ∈ (formatFormula pairs).head?, isdigit c = false) : ∀ q ∈ pairs.head?, q.1 ≠ [] := by
  cases pairs with
  | nil => intro q hq; simp at hq
  | cons p ps =>
    intro q hq he
    simp only [List.head?_cons, Option.mem_def, Option.some.injEq] at hq
    subst hq
    obtain ⟨d, r, hr⟩ := List.exists_cons_of_ne_nil h.2.1
    have := hd d (by rw [formatFormula_cons, he, hr]; simp)
    rw [h.2.2.1 d (by rw [hr]; exact List.mem_cons_self _ _)] at this
    exact absurd this (by decide)

/-- Every string of letters and digits whose last character is a digit is well split. -/
theorem exists_wellSplit : ∀ (n : Nat) (s : List Char), s.length ≤ n →
    (∀ c ∈ s, isdigit c = true ∨ isalpha c = true) → (∀ c ∈ s.getLast?, isdigit c = true) →
    ∃ pairs, WellSplit pairs ∧ s = formatFormula pairs ∧ (s ≠ [] → pairs ≠ []) := by
  intro n
  induction n with
  | zero =>
    intro s hlen _ _
    have : s = [] := List.eq_nil_of_length_eq_zero (by omega)
    exact ⟨[], trivial, by rw [this]; rfl, fun h => absurd this h⟩
  | succ n ih =>
    intro s hlen hall hlast
    by_cases hs : s = []
    · exact ⟨[], trivial, by rw [hs]; rfl, fun h => absurd hs h⟩
    have hsplit1 := List.takeWhile_append_dropWhile isalpha s
    have hletters : ∀ c ∈ s.takeWhile isalpha, isalpha c = true :=
      fun c hc => List.mem_takeWhile_imp hc
    have hr : s.dropWhile isalpha ≠ [] := by
      intro he
      rw [List.dropWhile_eq_nil_iff] at he
      obtain ⟨c, hc⟩ : ∃ c, s.getLast? = some c := by
        cases hl : s.getLast? with
        | none => exact absurd (List.getLast?_eq_none_iff.mp hl) hs
        | some c => exact ⟨c, rfl⟩
      have h1 := hlast c hc
      rw [isalpha_not_isdigit c (he c (List.mem_of_getLast?_eq_some hc))] at h1
      exact absurd h1 (by decide)
    obtain ⟨d, r, hdr⟩ := List.exists_cons_of_ne_nil hr
    have hdna : isalpha d = false := by
      have := List.head?_dropWhile_not isalpha s
      rw [hdr] at this
      simpa using this
    have hmem_r : ∀ c ∈ s.dropWhile isalpha, c ∈ s := fun c hc =>
      (List.dropWhile_sublist isalpha).subset hc
    have hdd : isdigit d = true := by
      rcases hall d (hmem_r d (by rw [hdr]; exact List.mem_cons_self _ _)) with h | h
      · exact h
      · rw [hdna] at h; exact absurd h (by decide)
    have hsplit2 := List.takeWhile_append_dropWhile isdigit (s.dropWhile isalpha)
    have hdigits : ∀ c ∈ (s.dropWhile isalpha).takeWhile isdigit, isdigit c = true :=
      fun c hc => List.mem_takeWhile_imp hc
    have hdne : (s.dropWhile isalpha).takeWhile isdigit ≠ [] := by
      rw [hdr, List.takeWhile_cons, hdd]
      simp
    have hmem_rest : ∀ c ∈ (s.dropWhile isalpha).dropWhile isdigit, c ∈ s := fun c hc =>
      hmem_r c ((List.dropWhile_sublist isdigit).subset hc)
    have hs_eq : s = s.takeWhile isalpha ++ ((s.dropWhile isalpha).takeWhile isdigit ++
        (s.dropWhile isalpha).dropWhile isdigit) := by
      rw [hsplit2, hsplit1]
    have hlen_rest : ((s.dropWhile isalpha).dropWhile isdigit).length ≤ n := by
      have h1 := congrArg List.length hs_eq
      rw [List.length_append, List.length_append] at h1
      have h2 : 0 < ((s.dropWhile isalpha).takeWhile isdigit).length := List.length_pos.mpr hdne
      omega
    have hlast_rest : ∀ c ∈ ((s.dropWhile isalpha).dropWhile isdigit).getLast?,
        isdigit c = true := by
      intro c hc
      apply hlast c
      by_cases hre : (s.dropWhile isalpha).dropWhile isdigit = []
      · rw [hre] at hc; simp at hc
      · rw [hs_eq, ← List.append_assoc, List.getLast?_append_of_ne_nil _ hre]
        exact hc
    obtain ⟨pairs, hw, hfmt, _⟩ := ih _ hlen_rest (fun c hc => hall c (hmem_rest c hc)) hlast_rest
    have hhead : ∀ c ∈ (formatFormula pairs).head?, isdigit c = false := by
      rw [← hfmt]
      intro c hc
      have := List.head?_dropWhile_not isdigit (s.dropWhile isalpha)
      rw [Option.mem_def.mp hc] at this
      exact this
    refine ⟨(s.takeWhile isalpha, (s.dropWhile isalpha).takeWhile isdigit) :: pairs,
      ⟨hletters, hdne, hdigits, format_wellSplit_head pairs hw hhead, hw⟩, ?_,
      fun _ => List.cons_ne_nil _ _⟩
    rw [formatFormula_cons, ← hfmt]
    exact hs_eq

/-! ## parse_formula: validation and lookup -/

theorem wellSplit_mem : ∀ (pairs : List (List Char × List Char)), WellSplit pairs →
    ∀ p ∈ pairs, (∀ c ∈ p.1, isalpha c = true) ∧ p.2 ≠ [] ∧ ∀ c ∈ p.2, isdigit c = true := by
  intro pairs
  induction pairs with
  | nil => intro _ p hp; simp at hp
  | cons q qs ih =>
    intro hw p hp
    rcases List.mem_cons.mp hp with rfl | hp
    · exact ⟨hw.1, hw.2.1, hw.2.2.1⟩
    · exact ih hw.2.2.2.2 p hp

theorem wellSplit_of_tokens (table : List ElemEntry) :
    ∀ (pairs : List (List Char × List Char)), (∀ p ∈ pairs, IsToken table p) → WellSplit pairs := by
  intro pairs
  induction pairs with
  | nil => intro _; trivial
  | cons q qs ih =>
    intro h
    have hq := h q (List.mem_cons_self _ _)
    refine ⟨hq.2.1, hq.2.2.2.1, hq.2.2.2.2, ?_, ih (fun p hp => h p (List.mem_cons_of_mem _ hp))⟩
    intro p hp
    cases qs with
    | nil => simp at hp
    | cons r rs =>
      simp only [List.head?_cons, Option.mem_def, Option.some.injEq] at hp
      subst hp
      exact (h _ (List.mem_cons_of_mem _ (List.mem_cons_self _ _))).1

theorem format_ne_nil (pairs : List (List Char × List Char)) (hw : WellSplit pairs)
    (hne : pairs ≠ []) : formatFormula pairs ≠ [] := by
  obtain ⟨p, ps, rfl⟩ := List.exists_cons_of_ne_nil hne
  rw [formatFormula_cons]
  intro h
  have := (List.append_eq_nil.mp (List.append_eq_nil.mp h).2).1
  exact hw.2.1 this

theorem format_alnum : ∀ (pairs : List (List Char × List Char)), WellSplit pairs →
    ∀ c ∈ formatFormula pairs, isdigit c = true ∨ isalpha c = true := by
  intro pairs
  induction pairs with
  | nil => intro _ c hc; simp [formatFormula] at hc
  | cons p ps ih =>
    intro hw c hc
    rw [formatFormula_cons, List.mem_append, List.mem_append] at hc
    rcases hc with hc | hc | hc
    · exact Or.inr (hw.1 c hc)
    · exact Or.inl (hw.2.2.1 c hc)
    · exact ih hw.2.2.2.2 c hc

theorem format_last_digit : ∀ (pairs : List (List Char × List Char)), WellSplit pairs →
    ∀ c ∈ (formatFormula pairs).getLast?, isdigit c = true := by
  intro pairs
  induction pairs with
  | nil => intro _ c hc; simp [formatFormula] at hc
  | cons p ps ih =>
    intro hw c hc
    rw [formatFormula_cons, ← List.append_assoc] at hc
    by_cases he : formatFormula ps = []
    · rw [he, List.append_nil, List.getLast?_append_of_ne_nil _ hw.2.1] at hc
      exact hw.2.2.1 c (List.mem_of_getLast?_eq_some hc)
    · rw [List.getLast?_append_of_ne_nil _ he] at hc
      exact ih hw.2.2.2.2 c hc

theorem tokensOf_length (o : Int → Int) (pairs : List (List Char × List Char)) :
    (tokensOf o pairs).length = pairs.length := by
  induction pairs with
  | nil => rfl
  | cons p ps ih => simp [tokensOf, ih]

/-- The lookup of the elements the scanning loop stores succeeds exactly when every
symbol is in the table, and gives the first entry of each. -/
theorem lookupAll_tokens (table : List ElemEntry) (o : Int → Int) :
    ∀ (pairs : List (List Char × List Char)),
      lookupAll table ((tokensOf o pairs).map (fun t => t.1)) =
        if ∀ p ∈ pairs, p.1 ∈ table.map ElemEntry.symbol then
          some (pairs.map (fun p => symbolIndex table p.1))
        else none := by
  intro pairs
  induction pairs with
  | nil => simp [tokensOf, lookupAll]
  | cons p ps ih =>
    simp only [tokensOf, List.map_cons, lookupAll, formatFormula_cons, findSymbol_spec]
    by_cases hp : p.1 ∈ table.map ElemEntry.symbol
    · rw [if_pos hp, ih]
      by_cases hps : ∀ q ∈ ps, q.1 ∈ table.map ElemEntry.symbol
      · rw [if_pos hps, if_pos (by
          intro q hq
          rcases List.mem_cons.mp hq with rfl | hq
          · exact hp
          · exact hps q hq)]
        rfl
      · rw [if_neg hps, if_neg (fun h => hps (fun q hq => h q (List.mem_cons_of_mem _ hq)))]
        rfl
    · rw [if_neg hp, if_neg (fun h => hp (h p (List.mem_cons_self _ _)))]

/-- What parse_formula does with a formula that passes its three checks, `pairs` being
the way the formula is split. -/
theorem parse_formula_validated (table : List ElemEntry) (o : Int → Int)
    (m pr : List Nat) (pairs : List (List Char × List Char)) (hw : WellSplit pairs)
    (hne : pairs ≠ []) :
    parse_formula table o (formatFormula pairs) m pr =
      if ∀ p ∈ pairs, p.1 ∈ table.map ElemEntry.symbol then
        some (Except.ok
          { dimNumber := pairs.length
            isotope_masses := m ++ pairs.map (fun p => symbolIndex table p.1)
            isotope_probabilities := pr ++ pairs.map (fun p => symbolIndex table p.1)
            isotopeNumbers := (pairs.map (fun p => symbolIndex table p.1)).map
              (isotopeCount table)
            atomCounts := (tokensOf o pairs).map (fun t => t.2)
            confSize := pairs.length * sizeofInt })
      else some (Except.error invalid_argument.invalid_formula) := by
  have hnil := format_ne_nil pairs hw hne
  have hlen : ¬ (formatFormula pairs).length = 0 := fun h => hnil (List.eq_nil_of_length_eq_zero h)
  have hlast : isdigit ((formatFormula pairs).getD ((formatFormula pairs).length - 1)
      (Char.ofNat 0)) = true := by
    have hl := List.getLast?_eq_getElem? (formatFormula pairs)
    cases hg : (formatFormula pairs).getLast? with
    | none => exact absurd (List.getLast?_eq_none_iff.mp hg) hnil
    | some c =>
      rw [hg] at hl
      rw [List.getD_eq_getElem?_getD, ← hl]
      exact format_last_digit pairs hw c hg
  have hany : (formatFormula pairs).any (fun c => !isdigit c && !isalpha c) = false := by
    rw [List.any_eq_false]
    intro c hc
    rcases format_alnum pairs hw c hc with h | h <;> simp [h]
  unfold parse_formula
  rw [if_neg hlen, hlast, hany, scanFormula_wellSplit o pairs _ hw (le_refl _)]
  simp only [Bool.not_true, Bool.false_eq_true, if_false, lookupAll_tokens, tokensOf_length]
  by_cases hs : ∀ p ∈ pairs, p.1 ∈ table.map ElemEntry.symbol
  · simp only [if_pos hs]
  · simp only [if_neg hs]

/-- For every formula parse_formula returns: it throws, or it succeeds on a valid
formula. -/
theorem parse_formula_total (table : List ElemEntry) (o : Int → Int) (formula : List Char)
    (m pr : List Nat) (hsym : ∀ e ∈ table, e.symbol ≠ []) :
    (∃ err, parse_formula table o formula m pr = some (Except.error err)) ∨
      ((∃ r, parse_formula table o formula m pr = some (Except.ok r)) ∧
        ValidFormula table formula) := by
  by_cases h1 : formula.length = 0
  · left
    exact ⟨_, by unfold parse_formula; rw [if_pos h1]⟩
  by_cases h2 : isdigit (formula.getD (formula.length - 1) (Char.ofNat 0)) = true
  swap
  · left
    refine ⟨invalid_argument.must_be_followed_by_number, ?_⟩
    unfold parse_formula
    rw [if_neg h1, if_pos (by simpa using h2)]
  by_cases h3 : formula.any (fun c => !isdigit c && !isalpha c) = true
  · left
    refine ⟨invalid_argument.invalid_character, ?_⟩
    unfold parse_formula
    rw [if_neg h1, h2, if_pos h3]
    rfl
  have hall : ∀ c ∈ formula, isdigit c = true ∨ isalpha c = true := by
    intro c hc
    have h4 := Bool.eq_false_iff.mpr h3
    rw [List.any_eq_false] at h4
    have := h4 c hc
    cases hd : isdigit c
    · right
      simpa [hd] using this
    · exact Or.inl rfl
  have hlast : ∀ c ∈ formula.getLast?, isdigit c = true := by
    intro c hc
    rw [List.getD_eq_getElem?_getD, ← List.getLast?_eq_getElem?, Option.mem_def.mp hc] at h2
    exact h2
  obtain ⟨pairs, hw, hf, hne⟩ := exists_wellSplit formula.length formula (le_refl _) hall hlast
  have hne2 : pairs ≠ [] := hne (fun h => h1 (by rw [h]; rfl))
  have hp := parse_formula_validated table o m pr pairs hw hne2
  rw [← hf] at hp
  by_cases hs : ∀ p ∈ pairs, p.1 ∈ table.map ElemEntry.symbol
  · right
    rw [if_pos hs] at hp
    refine ⟨⟨_, hp⟩, pairs, hne2, ?_, hf⟩
    intro p hpm
    obtain ⟨ha, hd1, hd2⟩ := wellSplit_mem pairs hw p hpm
    refine ⟨?_, ha, hs p hpm, hd1, hd2⟩
    obtain ⟨e, he, hes⟩ := List.mem_map.mp (hs p hpm)
    rw [← hes]
    exact hsym e he
  · left
    rw [if_neg hs] at hp
    exact ⟨_, hp⟩

/-- On a valid formula parse_formula succeeds. -/
theorem parse_formula_valid (table : List ElemEntry) (o : Int → Int) (formula : List Char)
    (m pr : List Nat) (h : ValidFormula table formula) :
    ∃ r, parse_formula table o formula m pr = some (Except.ok r) := by
  obtain ⟨pairs, hne, htok, hf⟩ := h
  have hp := parse_formula_validated table o m pr pairs (wellSplit_of_tokens table pairs htok) hne
  rw [if_pos (fun p hp => (htok p hp).2.2.1), ← hf] at hp
  exact ⟨_, hp⟩

/-! ## parse_formula: what the tables give -/

theorem indexOf_first {β : Type} [BEq β] [LawfulBEq β] (a : β) : ∀ (l : List β), a ∈ l →
    l[l.indexOf a]? = some a ∧ ∀ j, j < l.indexOf a → l[j]? ≠ some a := by
  intro l
  induction l with
  | nil => intro h; simp at h
  | cons b l ih =>
    intro h
    rw [List.indexOf_cons]
    by_cases hb : b = a
    · subst hb
      simp
    · have hb2 : (b == a) = false := by simpa using hb
      rw [hb2, cond_false]
      have hm : a ∈ l := by
        rcases List.mem_cons.mp h with h | h
        · exact absurd h.symm hb
        · exact h
      obtain ⟨h1, h2⟩ := ih hm
      refine ⟨by simpa using h1, ?_⟩
      intro j hj
      cases j with
      | zero => simpa using hb
      | succ j => simpa using h2 j (by omega)

theorem symbolIndex_first (table : List ElemEntry) (s : List Char)
    (h : s ∈ table.map ElemEntry.symbol) : IsFirstIndex table s (symbolIndex table s) := by
  obtain ⟨h1, h2⟩ := indexOf_first s (table.map ElemEntry.symbol) h
  unfold IsFirstIndex symbolIndex
  refine ⟨by rw [← List.getElem?_map]; exact h1, ?_⟩
  intro j hj
  rw [← List.getElem?_map]
  exact h2 j hj

theorem takeWhile_length_spec {β : Type} (p : β → Bool) : ∀ (l : List β),
    (∀ j, j < (l.takeWhile p).length → ∃ x, l[j]? = some x ∧ p x = true) ∧
      ∀ x, l[(l.takeWhile p).length]? = some x → p x = false := by
  intro l
  induction l with
  | nil => simp
  | cons a l ih =>
    rw [List.takeWhile_cons]
    cases hp : p a
    · simp [hp]
    · simp only [if_true, List.length_cons]
      refine ⟨?_, ?_⟩
      · intro j hj
        cases j with
        | zero => exact ⟨a, by simp, hp⟩
        | succ j => simpa using ih.1 j (by omega)
      · intro x hx
        exact ih.2 x (by simpa using hx)

/-- The count of isotopes is the length of the run of entries with the atomic number of
the entry it starts at. -/
theorem isotopeCount_run (table : List ElemEntry) (idx : Nat) (h : idx < table.length) :
    ∃ cnt : Nat, isotopeCount table idx = (cnt : Int) ∧ 0 < cnt ∧ IsRunLength table idx cnt := by
  unfold isotopeCount IsRunLength
  rw [List.getElem?_eq_getElem h]
  simp only [Option.map_some']
  obtain ⟨h1, h2⟩ := takeWhile_length_spec (fun e => decide (e.atomicNo = table[idx].atomicNo))
    (table.drop idx)
  refine ⟨_, rfl, ?_, ?_, ?_⟩
  · have hd : table.drop idx = table[idx] :: table.drop (idx + 1) := List.drop_eq_getElem_cons h
    rw [hd, List.takeWhile_cons]
    simp
  · intro j hj
    obtain ⟨x, hx1, hx2⟩ := h1 j hj
    rw [List.getElem?_drop] at hx1
    rw [hx1]
    simpa using hx2
  · intro he
    cases hx : table[idx + ((table.drop idx).takeWhile
        (fun e => decide (e.atomicNo = table[idx].atomicNo))).length]? with
    | none => rw [hx] at he; simp at he
    | some x =>
      rw [hx] at he
      have := h2 x (by rw [List.getElem?_drop]; exact hx)
      simp only [Option.map_some', Option.some.injEq] at he
      simp [he] at this

/-- The numbers the scanning loop stores are the values of the digit strings that fit an
`int`. -/
theorem tokensOf_numbers (o : Int → Int) : ∀ (pairs : List (List Char × List Char)),
    WellSplit pairs → (∀ p ∈ pairs, digitsValue p.2 < 2 ^ 31) →
    (tokensOf o pairs).map (fun t => t.2) = pairs.map (fun p => (digitsValue p.2 : Int)) := by
  intro pairs
  induction pairs with
  | nil => intro _ _; rfl
  | cons p ps ih =>
    intro hw hv
    simp only [tokensOf, List.map_cons]
    rw [ih hw.2.2.2.2 (fun q hq => hv q (List.mem_cons_of_mem _ hq)),
      atoi_digits o p.2 (formatFormula ps) hw.2.1 hw.2.2.1
        (head_format_not_digit ps hw.2.2.2.2 hw.2.2.2.1) (hv p (List.mem_cons_self _ _))]

/-! ## parse_formula: the formulas it accepts and what it returns for them -/

/-- C8: parse_formula raises invalid_argument if and only if the formula is not a
non-empty concatenation of tokens, a token being a non-empty run of letters that is a
symbol of the element table followed by a non-empty run of decimal digits, and it
returns a result otherwise. In particular it raises for the empty string, for a formula
whose last character is not a digit, for a formula with a character that is neither a
letter nor a digit, for a formula that starts with a digit, and for a symbol the table
does not hold. The table contains no empty symbol. -/
theorem parse_formula_throws_iff_not_valid (table : List ElemEntry) (o : Int → Int)
    (formula : List Char) (m pr : List Nat) (hsym : ∀ e ∈ table, e.symbol ≠ []) :
    ((∃ err, parse_formula table o formula m pr = some (Except.error err)) ↔
        ¬ ValidFormula table formula) ∧
      ((∃ r, parse_formula table o formula m pr = some (Except.ok r)) ↔
        ValidFormula table formula) ∧
      (formula = [] → ∃ err, parse_formula table o formula m pr = some (Except.error err)) ∧
      ((∃ c ∈ formula.getLast?, isdigit c = false) →
        ∃ err, parse_formula table o formula m pr = some (Except.error err)) ∧
      ((∃ c ∈ formula, isdigit c = false ∧ isalpha c = false) →
        ∃ err, parse_formula table o formula m pr = some (Except.error err)) ∧
      ((∃ c ∈ formula.head?, isdigit c = true) →
        ∃ err, parse_formula table o formula m pr = some (Except.error err)) ∧
      (∀ pairs, formula = formatFormula pairs → WellSplit pairs → pairs ≠ [] →
        (∃ p ∈ pairs, p.1 ∉ table.map ElemEntry.symbol) →
        parse_formula table o formula m pr =
          some (Except.error invalid_argument.invalid_formula)) := by
  have htot := parse_formula_total table o formula m pr hsym
  have hval := parse_formula_valid table o formula m pr
  have hiff : (∃ err, parse_formula table o formula m pr = some (Except.error err)) ↔
      ¬ ValidFormula table formula := by
    constructor
    · rintro ⟨err, he⟩ hv
      obtain ⟨r, hr⟩ := hval hv
      rw [he] at hr
      cases hr
    · intro hn
      rcases htot with h | ⟨_, h⟩
      · exact h
      · exact absurd h hn
  refine ⟨hiff, ?_, ?_, ?_, ?_, ?_, ?_⟩
  · constructor
    · rintro ⟨r, hr⟩
      rcases htot with ⟨err, he⟩ | ⟨_, h⟩
      · rw [he] at hr
        cases hr
      · exact h
    · exact hval
  · intro he
    apply hiff.mpr
    rintro ⟨pairs, hne, htok, hf⟩
    exact format_ne_nil pairs (wellSplit_of_tokens table pairs htok) hne (hf ▸ he)
  · rintro ⟨c, hc, hd⟩
    apply hiff.mpr
    rintro ⟨pairs, hne, htok, hf⟩
    rw [hf] at hc
    rw [format_last_digit pairs (wellSplit_of_tokens table pairs htok) c hc] at hd
    exact absurd hd (by decide)
  · rintro ⟨c, hc, hd, ha⟩
    apply hiff.mpr
    rintro ⟨pairs, hne, htok, hf⟩
    rw [hf] at hc
    rcases format_alnum pairs (wellSplit_of_tokens table pairs htok) c hc with h | h
    · rw [h] at hd; exact absurd hd (by decide)
    · rw [h] at ha; exact absurd ha (by decide)
  · rintro ⟨c, hc, hd⟩
    apply hiff.mpr
    rintro ⟨pairs, hne, htok, hf⟩
    rw [hf] at hc
    have hq : ∀ q ∈ pairs.head?, q.1 ≠ [] := fun q hq =>
      (htok q (List.mem_of_mem_head? hq)).1
    rw [head_format_not_digit pairs (wellSplit_of_tokens table pairs htok) hq c hc] at hd
    exact absurd hd (by decide)
  · rintro pairs hf hw hne ⟨p, hp, hns⟩
    rw [hf, parse_formula_validated table o m pr pairs hw hne, if_neg (fun h => hns (h p hp))]

theorem parse_formula_throws_iff_not_valid_witness :
    (∀ e ∈ sampleTable, e.symbol ≠ []) ∧ ¬ ValidFormula sampleTable ['H', '2', 'O'] ∧
      ValidFormula sampleTable ['H', '2', 'O', '1'] :=
  ⟨by decide,
    (parse_formula_throws_iff_not_valid sampleTable id ['H', '2', 'O'] [] [] (by decide)).1.mp
      ⟨_, rfl⟩,
    (parse_formula_throws_iff_not_valid sampleTable id ['H', '2', 'O', '1'] [] []
      (by decide)).2.1.mp ⟨_, rfl⟩⟩

/-- C9: formatting then parsing is the identity. For a non-empty list of pairs
`(s_i, n_i)`, `s_i` a symbol of the element table (a non-empty run of letters) and
`n_i` a natural number within the range of `int`, parse_formula on the concatenation
`s_1 dec(n_1) ... s_k dec(n_k)` returns `dimNumber = k`, the counts `n_i` in the same
order, `confSize = k * sizeof(int)`, and for each `i` the mass and probability pointers
at the first table entry whose symbol is `s_i`, with the number of consecutive entries
from there on that share its atomic number as `isotopeNumbers[i]`. -/
theorem parse_formula_format_roundtrip (table : List ElemEntry) (o : Int → Int)
    (m pr : List Nat) (pairs : List (List Char × Nat)) (hne : pairs ≠ [])
    (hsym : ∀ p ∈ pairs, p.1 ∈ table.map ElemEntry.symbol ∧ p.1 ≠ [] ∧
      ∀ c ∈ p.1, isalpha c = true)
    (hint : ∀ p ∈ pairs, p.2 < 2 ^ 31) :
    parse_formula table o (formatFormula (pairs.map (fun p => (p.1, dec p.2)))) m pr =
        some (Except.ok
          { dimNumber := pairs.length
            isotope_masses := m ++ pairs.map (fun p => symbolIndex table p.1)
            isotope_probabilities := pr ++ pairs.map (fun p => symbolIndex table p.1)
            isotopeNumbers := pairs.map (fun p => isotopeCount table (symbolIndex table p.1))
            atomCounts := pairs.map (fun p => (p.2 : Int))
            confSize := pairs.length * sizeofInt }) ∧
      ∀ p ∈ pairs, IsFirstIndex table p.1 (symbolIndex table p.1) ∧
        ∃ cnt : Nat, isotopeCount table (symbolIndex table p.1) = (cnt : Int) ∧ 0 < cnt ∧
          IsRunLength table (symbolIndex table p.1) cnt := by
  have htok : ∀ q ∈ pairs.map (fun p => (p.1, dec p.2)), IsToken table q := by
    intro q hq
    obtain ⟨p, hp, rfl⟩ := List.mem_map.mp hq
    obtain ⟨h1, h2, h3⟩ := hsym p hp
    obtain ⟨d1, d2, _⟩ := dec_spec p.2
    exact ⟨h2, h3, h1, d1, d2⟩
  have hw := wellSplit_of_tokens table _ htok
  have hval : ∀ q ∈ pairs.map (fun p => (p.1, dec p.2)), digitsValue q.2 < 2 ^ 31 := by
    intro q hq
    obtain ⟨p, hp, rfl⟩ := List.mem_map.mp hq
    rw [(dec_spec p.2).2.2]
    exact hint p hp
  refine ⟨?_, ?_⟩
  · rw [parse_formula_validated table o m pr _ hw (by simpa using hne),
      if_pos (fun q hq => (htok q hq).2.2.1), tokensOf_numbers o _ hw hval]
    simp only [List.length_map, List.map_map]
    congr 3
    apply List.map_congr_left
    intro p _
    show ((digitsValue (dec p.2) : Nat) : Int) = (p.2 : Int)
    rw [(dec_spec p.2).2.2]
  · intro p hp
    have hfirst := symbolIndex_first table p.1 (hsym p hp).1
    refine ⟨hfirst, isotopeCount_run table _ ?_⟩
    by_contra hn
    have h1 := hfirst.1
    rw [List.getElem?_eq_none (by omega)] at h1
    simp at h1

theorem parse_formula_format_roundtrip_witness :
    parse_formula sampleTable id
        (formatFormula ([(['C'], 2), (['H'], 6), (['O'], 1), (['C', 'l'], 0)].map
          (fun p => (p.1, dec p.2)))) [] [] =
        some (Except.ok
          { dimNumber := [(['C'], 2), (['H'], 6), (['O'], 1), (['C', 'l'], 0)].length
            isotope_masses := [] ++ [(['C'], 2), (['H'], 6), (['O'], 1), (['C', 'l'], 0)].map
              (fun p => symbolIndex sampleTable p.1)
            isotope_probabilities := [] ++
              [(['C'], 2), (['H'], 6), (['O'], 1), (['C', 'l'], 0)].map
                (fun p => symbolIndex sampleTable p.1)
            isotopeNumbers := [(['C'], 2), (['H'], 6), (['O'], 1), (['C', 'l'], 0)].map
              (fun p => isotopeCount sampleTable (symbolIndex sampleTable p.1))
            atomCounts := [(['C'], 2), (['H'], 6), (['O'], 1), (['C', 'l'], 0)].map
              (fun p => (p.2 : Int))
            confSize := [(['C'], 2), (['H'], 6), (['O'], 1), (['C', 'l'], 0)].length *
              sizeofInt }) :=
  (parse_formula_format_roundtrip sampleTable id [] []
    [(['C'], 2), (['H'], 6), (['O'], 1), (['C', 'l'], 0)] (by simp) (by decide) (by decide)).1

/-! ## The ordered generator on the molecule of two elements -/

theorem pqPop_singleton {α : Type} [LinearOrder α]
    (pqPop : List (OrdNode α) → Option (OrdNode α × List (OrdNode α))) (hpq : PQSpec pqPop)
    (x : OrdNode α) : pqPop [x] = some (x, []) := by
  obtain ⟨y, rest, h1, h2, _⟩ := hpq.cons [x] (by simp)
  have hl := h2.length_eq
  have hr : rest = [] := by
    cases rest with
    | nil => rfl
    | cons _ _ => simp at hl
  subst hr
  have := List.perm_singleton.mp h2.symm
  simp only [List.cons.injEq, and_true] at this
  rw [h1, this]

theorem pqPop_pair {α : Type} [LinearOrder α]
    (pqPop : List (OrdNode α) → Option (OrdNode α × List (OrdNode α))) (hpq : PQSpec pqPop)
    (a b : OrdNode α) (hlt : a.lprob < b.lprob) :
    pqPop [a, b] = some (b, [a]) ∧ pqPop [b, a] = some (b, [a]) := by
  have key : ∀ q : List (OrdNode α), q.Perm [b, a] → pqPop q = some (b, [a]) := by
    intro q hq
    have hne : q ≠ [] := by
      intro h
      rw [h] at hq
      simpa using hq.length_eq
    obtain ⟨y, rest, h1, h2, h3⟩ := hpq.cons q hne
    have hy : y ∈ [b, a] := hq.mem_iff.mp (h2.mem_iff.mpr (List.mem_cons_self _ _))
    have hb : b.lprob ≤ y.lprob := h3 b (hq.mem_iff.mpr (by simp))
    have hyb : y = b := by
      simp only [List.mem_cons, List.mem_singleton, List.not_mem_nil, or_false] at hy
      rcases hy with h | h
      · exact h
      · rw [h] at hb
        exact absurd hlt (not_lt.mpr hb)
    subst hyb
    have hr : rest.Perm [a] := (List.Perm.cons_inv (h2.symm.trans hq))
    rw [h1, List.perm_singleton.mp hr]
  exact ⟨key _ (List.Perm.swap _ _ _), key _ (List.Perm.refl _)⟩

namespace IsoOrderedGenerator

variable {α : Type} [LinearOrderedCommRing α]

theorem twoElement_ordered_run
    (pqPop : List (OrdNode α) → Option (OrdNode α × List (OrdNode α))) (hpq : PQSpec pqPop)
    (ex : α → α) (a1 a2 a3 b1 b2 ma1 ma2 ma3 mb1 mb2 pa1 pa2 pa3 pb1 pb2 : α)
    (h1 : a2 + b1 < a1 + b2) (h2 : a2 + b2 < a2 + b1) :
    advanceToNextConfiguration pqPop ex
        (construct (twoElementIso a1 a2 a3 b1 b2 ma1 ma2 ma3 mb1 mb2 pa1 pa2 pa3 pb1 pb2)) =
      (true, twoElementOrdered a1 a2 a3 b1 b2 ma1 ma2 ma3 mb1 mb2 pa1 pa2 pa3 pb1 pb2
        [⟨1, a1 + b2, [0, 1]⟩, ⟨0, a2 + b1, [1, 0]⟩] ⟨0, a2 + b1, [1, 0]⟩ 0 2
        (a1 + b1) (ma1 + mb1) (ex (a1 + b1))) ∧
    advanceToNextConfiguration pqPop ex
        (twoElementOrdered a1 a2 a3 b1 b2 ma1 ma2 ma3 mb1 mb2 pa1 pa2 pa3 pb1 pb2
          [⟨1, a1 + b2, [0, 1]⟩, ⟨0, a2 + b1, [1, 0]⟩] ⟨0, a2 + b1, [1, 0]⟩ 0 2
          (a1 + b1) (ma1 + mb1) (ex (a1 + b1))) =
      (true, twoElementOrdered a1 a2 a3 b1 b2 ma1 ma2 ma3 mb1 mb2 pa1 pa2 pa3 pb1 pb2
        [⟨1, a2 + b2, [1, 1]⟩, ⟨0, a2 + b1, [1, 0]⟩] ⟨1, a2 + b2, [1, 1]⟩ 0 2
        (a1 + b2) (ma1 + mb2) (ex (a1 + b2))) ∧
    advanceToNextConfiguration pqPop ex
        (twoElementOrdered a1 a2 a3 b1 b2 ma1 ma2 ma3 mb1 mb2 pa1 pa2 pa3 pb1 pb2
          [⟨1, a2 + b2, [1, 1]⟩, ⟨0, a2 + b1, [1, 0]⟩] ⟨1, a2 + b2, [1, 1]⟩ 0 2
          (a1 + b2) (ma1 + mb2) (ex (a1 + b2))) =
      (true, twoElementOrdered a1 a2 a3 b1 b2 ma1 ma2 ma3 mb1 mb2 pa1 pa2 pa3 pb1 pb2
        [⟨0, a3 + b1, [2, 0]⟩, ⟨1, a2 + b2, [1, 1]⟩] ⟨0, a3 + b1, [2, 0]⟩ 0 2
        (a2 + b1) (ma2 + mb1) (ex (a2 + b1))) := by
  have hp1 := pqPop_singleton pqPop hpq
  have hp2 := (pqPop_pair pqPop hpq ⟨0, a2 + b1, [1, 0]⟩ ⟨1, a1 + b2, [0, 1]⟩ h1).2
  have hp3 := (pqPop_pair pqPop hpq ⟨1, a2 + b2, [1, 1]⟩ ⟨0, a2 + b1, [1, 0]⟩ h2).1
  refine ⟨?_, ?_, ?_⟩
  · rw [ordAdvance_eq pqPop ex _ ⟨0, a1 + b1, [0, 0]⟩ []
      (by simp [construct, twoElementIso, List.range_succ, combinedSum, hp1])]
    simp [construct, twoElementIso, twoElementOrdered, scan, scanBody,
      Marginal.probeConfigurationIdx, incr, combinedSum, logProbs, masses, List.range_succ]
  · rw [ordAdvance_eq pqPop ex _ _ _ hp2]
    simp [twoElementIso, twoElementOrdered, scan, scanBody,
      Marginal.probeConfigurationIdx, incr, combinedSum, logProbs, masses, List.range_succ]
  · rw [ordAdvance_eq pqPop ex _ _ _ hp3]
    simp [twoElementIso, twoElementOrdered, scan, scanBody,
      Marginal.probeConfigurationIdx, incr, combinedSum, logProbs, masses, List.range_succ]

end IsoOrderedGenerator

namespace IsoOrderedGenerator

theorem exp_log_add (x y : ℝ) (hx : 0 < x) (hy : 0 < y) :
    Real.exp (Real.log x + Real.log y) = x * y := by
  rw [Real.exp_add, Real.exp_log hx, Real.exp_log hy]

/-- C11: for the molecule of element A (2 atoms, isotope probabilities 0.9 and 0.1, masses
1 and 2) and element B (1 atom, probabilities 0.8 and 0.2, masses 10 and 11), the first
three calls of IsoOrderedGenerator::advanceToNextConfiguration return true and report the
probabilities 0.648, 0.162 and 0.144 in that order, for three pairwise distinct
configurations; the first is the mode A=[2,0], B=[1,0] with mass 12. The priority queue is
any queue that hands out a node of greatest log-probability. -/
theorem ordered_scenario_first_three
    (pqPop : List (OrdNode ℝ) → Option (OrdNode ℝ × List (OrdNode ℝ))) (hpq : PQSpec pqPop) :
    (advanceToNextConfiguration pqPop Real.exp (construct (scenarioIso Real.log))).1 = true ∧
    (advanceToNextConfiguration pqPop Real.exp
      (advanceN pqPop Real.exp 1 (construct (scenarioIso Real.log)))).1 = true ∧
    (advanceToNextConfiguration pqPop Real.exp
      (advanceN pqPop Real.exp 2 (construct (scenarioIso Real.log)))).1 = true ∧
    (advanceN pqPop Real.exp 1 (construct (scenarioIso Real.log))).currentProb = 0.648 ∧
    (advanceN pqPop Real.exp 2 (construct (scenarioIso Real.log))).currentProb = 0.162 ∧
    (advanceN pqPop Real.exp 3 (construct (scenarioIso Real.log))).currentProb = 0.144 ∧
    get_conf_signature (advanceN pqPop Real.exp 1 (construct (scenarioIso Real.log))) =
      [[2, 0], [1, 0]] ∧
    (advanceN pqPop Real.exp 1 (construct (scenarioIso Real.log))).currentMass = 12 ∧
    get_conf_signature (advanceN pqPop Real.exp 2 (construct (scenarioIso Real.log))) =
      [[2, 0], [0, 1]] ∧
    get_conf_signature (advanceN pqPop Real.exp 3 (construct (scenarioIso Real.log))) =
      [[1, 1], [1, 0]] ∧
    [get_conf_signature (advanceN pqPop Real.exp 1 (construct (scenarioIso Real.log))),
      get_conf_signature (advanceN pqPop Real.exp 2 (construct (scenarioIso Real.log))),
      get_conf_signature (advanceN pqPop Real.exp 3 (construct (scenarioIso Real.log)))].Nodup := by
  have hA12 : Real.log (9 / 50) ≤ Real.log (81 / 100) :=
    Real.log_le_log (by norm_num) (by norm_num)
  have hA23 : Real.log (1 / 100) ≤ Real.log (9 / 50) :=
    Real.log_le_log (by norm_num) (by norm_num)
  have hB12 : Real.log (1 / 5) ≤ Real.log (4 / 5) :=
    Real.log_le_log (by norm_num) (by norm_num)
  have heq := scenarioIso_eq Real.log hA12 hA23 hB12
  have h1 : Real.log (9 / 50) + Real.log (4 / 5) < Real.log (81 / 100) + Real.log (1 / 5) := by
    rw [← Real.log_mul (by norm_num) (by norm_num), ← Real.log_mul (by norm_num) (by norm_num)]
    exact Real.log_lt_log (by norm_num) (by norm_num)
  have h2 : Real.log (9 / 50) + Real.log (1 / 5) < Real.log (9 / 50) + Real.log (4 / 5) :=
    add_lt_add_left (Real.log_lt_log (by norm_num) (by norm_num)) _
  obtain ⟨s1, s2, s3⟩ := twoElement_ordered_run pqPop hpq Real.exp (Real.log (81 / 100))
    (Real.log (9 / 50)) (Real.log (1 / 100)) (Real.log (4 / 5)) (Real.log (1 / 5)) 2 3 4 10 11
    (81 / 100) (9 / 50) (1 / 100) (4 / 5) (1 / 5) h1 h2
  rw [← heq] at s1
  simp only [advanceN, Function.iterate_succ, Function.iterate_zero, Function.comp_apply, id_eq,
    s1, s2, s3]
  have c1 : get_conf_signature (twoElementOrdered (Real.log (81 / 100)) (Real.log (9 / 50))
      (Real.log (1 / 100)) (Real.log (4 / 5)) (Real.log (1 / 5)) 2 3 4 10 11 (81 / 100) (9 / 50)
      (1 / 100) (4 / 5) (1 / 5)
      [⟨1, Real.log (81 / 100) + Real.log (1 / 5), [0, 1]⟩,
        ⟨0, Real.log (9 / 50) + Real.log (4 / 5), [1, 0]⟩]
      ⟨0, Real.log (9 / 50) + Real.log (4 / 5), [1, 0]⟩ 0 2
      (Real.log (81 / 100) + Real.log (4 / 5)) (2 + 10)
      (Real.exp (Real.log (81 / 100) + Real.log (4 / 5)))) = [[2, 0], [1, 0]] := by
    simp [get_conf_signature, emittedConf, twoElementOrdered, twoElementIso, List.range_succ]
  have c2 : get_conf_signature (twoElementOrdered (Real.log (81 / 100)) (Real.log (9 / 50))
      (Real.log (1 / 100)) (Real.log (4 / 5)) (Real.log (1 / 5)) 2 3 4 10 11 (81 / 100) (9 / 50)
      (1 / 100) (4 / 5) (1 / 5)
      [⟨1, Real.log (9 / 50) + Real.log (1 / 5), [1, 1]⟩,
        ⟨0, Real.log (9 / 50) + Real.log (4 / 5), [1, 0]⟩]
      ⟨1, Real.log (9 / 50) + Real.log (1 / 5), [1, 1]⟩ 0 2
      (Real.log (81 / 100) + Real.log (1 / 5)) (2 + 11)
      (Real.exp (Real.log (81 / 100) + Real.log (1 / 5)))) = [[2, 0], [0, 1]] := by
    simp [get_conf_signature, emittedConf, twoElementOrdered, twoElementIso, List.range_succ]
  have c3 : get_conf_signature (twoElementOrdered (Real.log (81 / 100)) (Real.log (9 / 50))
      (Real.log (1 / 100)) (Real.log (4 / 5)) (Real.log (1 / 5)) 2 3 4 10 11 (81 / 100) (9 / 50)
      (1 / 100) (4 / 5) (1 / 5)
      [⟨0, Real.log (1 / 100) + Real.log (4 / 5), [2, 0]⟩,
        ⟨1, Real.log (9 / 50) + Real.log (1 / 5), [1, 1]⟩]
      ⟨0, Real.log (1 / 100) + Real.log (4 / 5), [2, 0]⟩ 0 2
      (Real.log (9 / 50) + Real.log (4 / 5)) (3 + 10)
      (Real.exp (Real.log (9 / 50) + Real.log (4 / 5)))) = [[1, 1], [1, 0]] := by
    simp [get_conf_signature, emittedConf, twoElementOrdered, twoElementIso, List.range_succ]
  rw [c1, c2, c3]
  refine ⟨trivial, trivial, trivial, ?_, ?_, ?_, rfl, ?_, rfl, rfl, by decide⟩
  · show Real.exp (Real.log (81 / 100) + Real.log (4 / 5)) = 0.648
    rw [exp_log_add _ _ (by norm_num) (by norm_num)]
    norm_num
  · show Real.exp (Real.log (81 / 100) + Real.log (1 / 5)) = 0.162
    rw [exp_log_add _ _ (by norm_num) (by norm_num)]
    norm_num
  · show Real.exp (Real.log (9 / 50) + Real.log (4 / 5)) = 0.144
    rw [exp_log_add _ _ (by norm_num) (by norm_num)]
    norm_num
  · show (2 : ℝ) + 10 = 12
    norm_num

theorem ordered_scenario_first_three_witness :
    (advanceN pqPopMax Real.exp 1 (construct (scenarioIso Real.log))).currentProb = 0.648 ∧
    (advanceN pqPopMax Real.exp 2 (construct (scenarioIso Real.log))).currentProb = 0.162 ∧
    (advanceN pqPopMax Real.exp 3 (construct (scenarioIso Real.log))).currentProb = 0.144 :=
  ⟨(ordered_scenario_first_three pqPopMax pqPopMax_spec).2.2.2.1,
    (ordered_scenario_first_three pqPopMax pqPopMax_spec).2.2.2.2.1,
    (ordered_scenario_first_three pqPopMax pqPopMax_spec).2.2.2.2.2.1⟩

end IsoOrderedGenerator

/-! ## The degenerate targets of the tabulators -/

namespace LayeredTabulator

variable {α : Type} [LinearOrderedCommRing α]

/-- C12: for every target cumulative probability <= 0, both values of optimize and all
flags, the constructors of LayeredTabulator and TotalProbFixedEnvelope return an empty
envelope: `_confs_no = 0` and every array is null. No generator is constructed: the
result does not depend on what the layered generator would emit, nor on the pivots, nor
on `call_init`. -/
theorem nonpositive_target_empty_envelope (buildingR : Bool) (rand : Nat → Nat)
    (layers : List (List (Row α))) (allDim : Nat) (gm gp gl gc : Bool) (tg : α) (opt : Bool)
    (call_init : TotalProbFixedEnvelope α → Iso α → Bool → TotalProbFixedEnvelope α)
    (u : Int) (iso : Iso α) (tgetConfs : Bool) (h : tg ≤ 0) :
    (construct buildingR rand layers allDim gm gp gl gc tg opt)._confs_no = 0 ∧
    (construct buildingR rand layers allDim gm gp gl gc tg opt)._masses = none ∧
    (construct buildingR rand layers allDim gm gp gl gc tg opt)._lprobs = none ∧
    (construct buildingR rand layers allDim gm gp gl gc tg opt)._probs = none ∧
    (construct buildingR rand layers allDim gm gp gl gc tg opt)._confs = none ∧
    (∀ buildingR1 rand1 layers1 allDim1,
      construct buildingR1 rand1 layers1 allDim1 gm gp gl gc tg opt =
        construct buildingR rand layers allDim gm gp gl gc tg opt) ∧
    (TotalProbFixedEnvelope.construct call_init u iso tg opt tgetConfs)._confs_no = 0 ∧
    (TotalProbFixedEnvelope.construct call_init u iso tg opt tgetConfs)._masses = none ∧
    (TotalProbFixedEnvelope.construct call_init u iso tg opt tgetConfs)._probs = none ∧
    (TotalProbFixedEnvelope.construct call_init u iso tg opt tgetConfs)._confs = none ∧
    (∀ call_init1 iso1,
      TotalProbFixedEnvelope.construct call_init1 u iso1 tg opt tgetConfs =
        TotalProbFixedEnvelope.construct call_init u iso tg opt tgetConfs) := by
  have hc : ∀ buildingR1 rand1 layers1 allDim1,
      construct buildingR1 rand1 layers1 allDim1 gm gp gl gc tg opt =
        { _masses := none, _lprobs := none, _probs := none, _confs := none, _confs_no := 0
          allDim := 0
          target_total_prob := if 1 ≤ tg then ⊤ else (tg : WithTop α)
          current_size := ISOSPEC_INIT_TABLE_SIZE
          optimize := opt } := by
    intro b r l a
    unfold construct
    rw [if_pos h]
  have he : ∀ call_init1 iso1,
      TotalProbFixedEnvelope.construct call_init1 u iso1 tg opt tgetConfs =
        TotalProbFixedEnvelope.initial u tg opt := by
    intro c i
    unfold TotalProbFixedEnvelope.construct
    rw [if_pos h]
  rw [hc, he]
  refine ⟨rfl, rfl, rfl, rfl, rfl, fun b r l a => hc b r l a, rfl, rfl, rfl, rfl,
    fun c i => he c i⟩

theorem nonpositive_target_empty_envelope_witness :
    (construct false (fun _ => 0) sampleLayers 4 true true true true (0 : ℚ) true)._confs_no = 0 ∧
    (construct false (fun _ => 0) sampleLayers 4 true true true true (0 : ℚ) true)._probs = none :=
  ⟨(nonpositive_target_empty_envelope false (fun _ => 0) sampleLayers 4 true true true true
      (0 : ℚ) true (fun e _ _ => e) 0 ⟨false, 0, [], [], 0, 0, [], 0⟩ false (le_refl _)).1,
    (nonpositive_target_empty_envelope false (fun _ => 0) sampleLayers 4 true true true true
      (0 : ℚ) true (fun e _ _ => e) 0 ⟨false, 0, [], [], 0, 0, [], 0⟩ false (le_refl _)).2.2.2.1⟩

end LayeredTabulator

/-! ## The stored target of the tabulators -/

namespace LayeredTabulator

variable {α : Type} [LinearOrderedCommRing α]

theorem addRows_target : ∀ (rows : List (Row α)) (t : LayeredTabulator α) (p : α),
    (addRows t p rows).1.target_total_prob = t.target_total_prob := by
  intro rows
  induction rows with
  | nil => intro t p; rfl
  | cons r rs ih =>
    intro t p
    unfold addRows
    split
    · rfl
    · rw [ih]; rfl

theorem collectLayers_target : ∀ (layers : List (List (Row α))) (t : LayeredTabulator α)
    (ls : Nat) (pls p : α),
    (collectLayers t ls pls p layers).tab.target_total_prob = t.target_total_prob := by
  intro layers
  induction layers with
  | nil => intro t ls pls p; rfl
  | cons layer rest ih =>
    intro t ls pls p
    have h := addRows_target layer t p
    unfold collectLayers
    rcases hr : addRows t p layer with ⟨t1, p1, b⟩
    rw [hr] at h
    cases b
    · simp only
      split
      · exact h
      · rw [ih]; exact h
    · exact h

theorem partitionLoop_target (pprob : α) : ∀ (left ii : Nat) (s : PartState α),
    (partitionLoop pprob left ii s).tab.target_total_prob = s.tab.target_total_prob := by
  intro left
  induction left with
  | zero => intro ii s; rfl
  | succ left ih =>
    intro ii s
    unfold partitionLoop
    split
    · rw [ih]; rfl
    · rw [ih]

theorem trimStep_target (buildingR : Bool) (rand : Nat → Nat) (k : Nat) (s : TrimState α) :
    (trimStep buildingR rand k s).tab.target_total_prob = s.tab.target_total_prob := by
  unfold trimStep
  simp only
  split
  · show (swap _ _ _).target_total_prob = _
    show (partitionLoop _ _ _ _).tab.target_total_prob = _
    rw [partitionLoop_target]
    rfl
  · show (swap _ _ _).target_total_prob = _
    show (partitionLoop _ _ _ _).tab.target_total_prob = _
    rw [partitionLoop_target]
    rfl

theorem quicktrim_target (buildingR : Bool) (rand : Nat → Nat) : ∀ (fuel k : Nat)
    (s : TrimState α),
    (quicktrim buildingR rand fuel k s).tab.target_total_prob = s.tab.target_total_prob := by
  intro fuel
  induction fuel with
  | zero => intro k s; rfl
  | succ fuel ih =>
    intro k s
    unfold quicktrim
    split
    · rw [ih, trimStep_target]
    · rfl

theorem finish_target (b : Bool) (s : TrimState α) :
    (finish b s).target_total_prob = s.tab.target_total_prob := by
  by_cases h : s.end_ ≤ s.tab.current_size / 2
  · simp only [finish, if_pos h]
  · simp only [finish, if_neg h]

/-- The constructor stores the target unchanged when it is below 1 and as infinity
otherwise, whatever path it takes. -/
theorem construct_target (buildingR : Bool) (rand : Nat → Nat)
    (layers : List (List (Row α))) (allDim : Nat) (gm gp gl gc : Bool) (tg : α) (opt : Bool) :
    (construct buildingR rand layers allDim gm gp gl gc tg opt).target_total_prob =
      if 1 ≤ tg then ⊤ else (tg : WithTop α) := by
  have hc : (collect layers allDim gm gp gl gc tg opt).tab.target_total_prob =
      if 1 ≤ tg then ⊤ else (tg : WithTop α) := by
    unfold collect
    rw [collectLayers_target]
  unfold construct
  split
  · rfl
  · simp only
    split
    · exact hc
    · split
      · exact hc
      · rw [finish_target]
        show (quicktrim _ _ _ _ _).tab.target_total_prob = _
        rw [quicktrim_target]
        exact hc

end LayeredTabulator

/-! ## The layered tabulator with an infinite target -/

namespace LayeredTabulator

variable {α : Type} [LinearOrderedCommRing α]

/-- The tabulator after the rows `rows` are stored behind the ones it holds. -/
theorem foldl_addConf : ∀ (rows : List (Row α)) (t : LayeredTabulator α),
    (rows.foldl addConf t)._confs_no = t._confs_no + rows.length ∧
    (rows.foldl addConf t)._masses = t._masses.map (fun l => l ++ rows.map Row.mass) ∧
    (rows.foldl addConf t)._lprobs = t._lprobs.map (fun l => l ++ rows.map Row.lprob) ∧
    (rows.foldl addConf t)._probs = t._probs.map (fun l => l ++ rows.map Row.prob) ∧
    (rows.foldl addConf t)._confs = t._confs.map (fun l => l ++ rows.map Row.conf) ∧
    (rows.foldl addConf t).target_total_prob = t.target_total_prob := by
  intro rows
  induction rows with
  | nil =>
    intro t
    simp
  | cons r rs ih =>
    intro t
    obtain ⟨h1, h2, h3, h4, h5, h6⟩ := ih (addConf t r)
    rw [List.foldl_cons, h1, h2, h3, h4, h5, h6]
    refine ⟨by simp [addConf]; omega, ?_, ?_, ?_, ?_, rfl⟩ <;>
    simp [addConf, Option.map_map, Function.comp_def]

theorem addRows_top : ∀ (rows : List (Row α)) (t : LayeredTabulator α) (p : α),
    t.target_total_prob = ⊤ →
    addRows t p rows = (rows.foldl addConf t, p + (rows.map Row.prob).sum, false) := by
  intro rows
  induction rows with
  | nil => intro t p _; simp [addRows]
  | cons r rs ih =>
    intro t p h
    have hn : ¬ (t.target_total_prob ≤ ((p + r.prob : α) : WithTop α)) := by
      rw [h, top_le_iff]
      exact WithTop.coe_ne_top
    unfold addRows
    have hd : (!t.optimize && decide (t.target_total_prob ≤ ((p + r.prob : α) : WithTop α))) =
        false := by
      rw [decide_eq_false hn, Bool.and_false]
    rw [hd, ih (addConf t r) (p + r.prob) h]
    simp [add_assoc]

theorem collectLayers_top : ∀ (layers : List (List (Row α))) (t : LayeredTabulator α)
    (ls : Nat) (pls p : α), t.target_total_prob = ⊤ →
    (collectLayers t ls pls p layers).tab = layers.flatten.foldl addConf t ∧
    (collectLayers t ls pls p layers).returned = false ∧
    (collectLayers t ls pls p layers).prob_so_far = p + (layers.flatten.map Row.prob).sum := by
  intro layers
  induction layers with
  | nil => intro t ls pls p _; simp [collectLayers]
  | cons layer rest ih =>
    intro t ls pls p h
    have h1 : (layer.foldl addConf t).target_total_prob = ⊤ := by
      rw [(foldl_addConf layer t).2.2.2.2.2, h]
    have hn : ¬ ((layer.foldl addConf t).target_total_prob ≤
        ((p + (layer.map Row.prob).sum : α) : WithTop α)) := by
      rw [h1, top_le_iff]
      exact WithTop.coe_ne_top
    unfold collectLayers
    rw [addRows_top layer t p h]
    simp only [if_neg hn]
    obtain ⟨r1, r2, r3⟩ := ih (layer.foldl addConf t) (layer.foldl addConf t)._confs_no
      (p + (layer.map Row.prob).sum) (p + (layer.map Row.prob).sum) h1
    refine ⟨?_, r2, ?_⟩
    · rw [r1, List.flatten_cons, List.foldl_append]
    · rw [r3, List.flatten_cons, List.map_append, List.sum_append, add_assoc]

/-- C13: a target cumulative probability of at least 1 is stored as infinity, a target
below 1 as it is given, by LayeredTabulator and by TotalProbFixedEnvelope. With the
infinite target LayeredTabulator does not stop on the accumulated probability and does
not trim: it stores the rows of every layer until nextLayer returns false, in the order
they are emitted, so `_confs_no` is the number of configurations the layered generator
emits, for both values of optimize. -/
theorem infinite_target_stores_all_layers (buildingR : Bool) (rand : Nat → Nat)
    (layers : List (List (Row α))) (allDim : Nat) (gm gp gl gc : Bool) (tg : α) (opt : Bool)
    (u : Int) :
    ((construct buildingR rand layers allDim gm gp gl gc tg opt).target_total_prob =
      if 1 ≤ tg then ⊤ else (tg : WithTop α)) ∧
    ((TotalProbFixedEnvelope.initial u tg opt).target_total_prob =
      if 1 ≤ tg then ⊤ else (tg : WithTop α)) ∧
    (1 ≤ tg →
      (construct buildingR rand layers allDim gm gp gl gc tg opt)._confs_no =
        layers.flatten.length ∧
      (construct buildingR rand layers allDim gm gp gl gc tg opt)._masses =
        (if gm then some (layers.flatten.map Row.mass) else none) ∧
      (construct buildingR rand layers allDim gm gp gl gc tg opt)._lprobs =
        (if gl then some (layers.flatten.map Row.lprob) else none) ∧
      (construct buildingR rand layers allDim gm gp gl gc tg opt)._probs =
        (if opt || gp then some (layers.flatten.map Row.prob) else none) ∧
      (construct buildingR rand layers allDim gm gp gl gc tg opt)._confs =
        (if gc then some (layers.flatten.map Row.conf) else none)) := by
  refine ⟨construct_target buildingR rand layers allDim gm gp gl gc tg opt, rfl, ?_⟩
  intro h1
  have h0 : ¬ tg ≤ 0 := not_le.mpr (lt_of_lt_of_le one_pos h1)
  obtain ⟨c1, c2, c3⟩ := collectLayers_top layers
    ({ _masses := if gm then some [] else none
       _lprobs := if gl then some [] else none
       _probs := if opt || gp then some [] else none
       _confs := if gc then some [] else none
       _confs_no := 0
       allDim := allDim
       target_total_prob := if 1 ≤ tg then ⊤ else (tg : WithTop α)
       current_size := ISOSPEC_INIT_TABLE_SIZE
       optimize := opt } : LayeredTabulator α) 0 0 0 (by simp [h1])
  have hcon : construct buildingR rand layers allDim gm gp gl gc tg opt =
      (collect layers allDim gm gp gl gc tg opt).tab := by
    have ht : (collect layers allDim gm gp gl gc tg opt).tab.target_total_prob = ⊤ := by
      unfold collect
      rw [collectLayers_target]
      simp [h1]
    have hr : (collect layers allDim gm gp gl gc tg opt).returned = false := c2
    unfold construct
    rw [if_neg h0]
    simp only [hr, Bool.false_eq_true, if_false, ht, le_top, decide_True, Bool.or_true, if_true]
  have hc : (collect layers allDim gm gp gl gc tg opt).tab = _ := c1
  rw [hcon, hc]
  obtain ⟨f1, f2, f3, f4, f5, _⟩ := foldl_addConf layers.flatten
    ({ _masses := if gm then some [] else none
       _lprobs := if gl then some [] else none
       _probs := if opt || gp then some [] else none
       _confs := if gc then some [] else none
       _confs_no := 0
       allDim := allDim
       target_total_prob := if 1 ≤ tg then ⊤ else (tg : WithTop α)
       current_size := ISOSPEC_INIT_TABLE_SIZE
       optimize := opt } : LayeredTabulator α)
  rw [f1, f2, f3, f4, f5]
  refine ⟨by simp, ?_, ?_, ?_, ?_⟩
  · cases gm <;> simp
  · cases gl <;> simp
  · cases hb : (opt || gp) <;> simp
  · cases gc <;> simp

theorem infinite_target_stores_all_layers_witness :
    (construct false (fun _ => 0) sampleLayers 4 true true true true (1 : ℚ) true)._confs_no =
      sampleLayers.flatten.length ∧
    (construct false (fun _ => 0) sampleLayers 4 true true true true (1 : ℚ)
      true).target_total_prob = ⊤ :=
  ⟨((infinite_target_stores_all_layers false (fun _ => 0) sampleLayers 4 true true true true
      (1 : ℚ) true 0).2.2 (le_refl _)).1,
    by
      have h := (infinite_target_stores_all_layers false (fun _ => 0) sampleLayers 4 true true
        true true (1 : ℚ) true 0).1
      rwa [if_pos (le_refl _)] at h⟩

end LayeredTabulator

/-! ## ThresholdTabulator: the arrays are filled exactly -/

theorem Buf.store_written {β : Type} (w : List β) (r : Nat) (xs : List β) (step : Nat)
    (h : xs.length ≤ r) :
    Buf.store ⟨w.map some ++ List.replicate r none, (w.length : Int)⟩ xs step =
      some ⟨(w ++ xs).map some ++ List.replicate (r - xs.length) none,
        (w.length : Int) + step⟩ := by
  unfold Buf.store
  have hc : (0 : Int) ≤ (w.length : Int) ∧ ((w.length : Int)).toNat + xs.length ≤
      (w.map some ++ List.replicate r (none : Option β)).length := by
    refine ⟨Int.natCast_nonneg _, ?_⟩
    simp only [Int.toNat_ofNat, List.length_append, List.length_map, List.length_replicate]
    omega
  rw [if_pos hc]
  simp only [Int.toNat_ofNat]
  have h1 : (w.map some ++ List.replicate r (none : Option β)).take w.length = w.map some := by
    rw [List.take_append_of_le_length (by simp)]
    exact List.take_of_length_le (by simp)
  have h2 : (w.map some ++ List.replicate r (none : Option β)).drop (w.length + xs.length) =
      List.replicate (r - xs.length) none := by
    rw [List.drop_append_eq_append_drop, List.drop_of_length_le (by simp)]
    simp
  rw [h1, h2, List.map_append]

theorem Buf.storeIf_written {β : Type} (b : Bool) (w : List β) (r : Nat) (xs : List β)
    (step r1 : Nat) (w1 : List β) (h : xs.length ≤ r) (hw : w1 = w ++ xs)
    (hr : r1 = r - xs.length) (hs : (w1.length : Int) = (w.length : Int) + step) :
    Buf.storeIf (if b then some ⟨w.map some ++ List.replicate r none, (w.length : Int)⟩ else none)
      xs step =
      some (if b then some ⟨w1.map some ++ List.replicate r1 none, (w1.length : Int)⟩
        else none) := by
  cases b
  · rfl
  · simp only [if_true, Buf.storeIf]
    rw [Buf.store_written w r xs step h, hs, hw, hr]
    rfl

namespace ThresholdTabulator

variable {α : Type} [LinearOrderedCommRing α]

theorem allocated_eq_filled (n allDim : Nat) (gm gp gl gc : Bool) :
    allocated n allDim gm gp gl gc = (filled n allDim gm gp gl gc [] : ThresholdTabulator α) := by
  simp [allocated, filled, Buf.alloc]

theorem flatMap_conf_length (allDim : Nat) (rows : List (IsoThresholdGenerator.Emitted α))
    (hall : ∀ e ∈ rows, e.conf.flatten.length = allDim) :
    (rows.flatMap (fun e => e.conf.flatten)).length = rows.length * allDim := by
  induction rows with
  | nil => simp
  | cons e es ih =>
    rw [List.flatMap_cons, List.length_append, ih (fun x hx => hall x (List.mem_cons_of_mem _ hx)),
      hall e (List.mem_cons_self _ _), List.length_cons]
    ring

/-- A row that fits is written behind the rows already written. -/
theorem storeRow_filled (n allDim : Nat) (gm gp gl gc : Bool)
    (rows : List (IsoThresholdGenerator.Emitted α)) (g : IsoThresholdGenerator α)
    (hall : ∀ e ∈ rows, e.conf.flatten.length = allDim)
    (hsig : (IsoThresholdGenerator.get_conf_signature g).flatten.length = allDim)
    (hlt : rows.length < n) :
    storeRow (filled n allDim gm gp gl gc rows) g =
      some (filled n allDim gm gp gl gc (rows ++ [⟨g.counter, IsoThresholdGenerator.lprob g,
        IsoThresholdGenerator.mass g, IsoThresholdGenerator.prob g,
        IsoThresholdGenerator.get_conf_signature g⟩])) := by
  have hflat := flatMap_conf_length allDim rows hall
  have hfit : (IsoThresholdGenerator.get_conf_signature g).flatten.length ≤
      n * allDim - rows.length * allDim := by
    rw [hsig, ← Nat.sub_mul]
    exact Nat.le_mul_of_pos_left _ (by omega)
  have hsub : n * allDim - (rows.length + 1) * allDim =
      n * allDim - rows.length * allDim -
        (IsoThresholdGenerator.get_conf_signature g).flatten.length := by
    rw [hsig, Nat.add_mul, Nat.one_mul, Nat.sub_sub]
  have hm := Buf.storeIf_written gm (rows.map (fun e => e.mass)) (n - rows.length)
    [IsoThresholdGenerator.mass g] 1 (n - (rows.length + 1))
    (rows.map (fun e => e.mass) ++ [IsoThresholdGenerator.mass g]) (by simp; omega) rfl
    (by simp; omega) (by simp)
  have hl := Buf.storeIf_written gl (rows.map (fun e => e.lprob)) (n - rows.length)
    [IsoThresholdGenerator.lprob g] 1 (n - (rows.length + 1))
    (rows.map (fun e => e.lprob) ++ [IsoThresholdGenerator.lprob g]) (by simp; omega) rfl
    (by simp; omega) (by simp)
  have hp := Buf.storeIf_written gp (rows.map (fun e => e.prob)) (n - rows.length)
    [IsoThresholdGenerator.prob g] 1 (n - (rows.length + 1))
    (rows.map (fun e => e.prob) ++ [IsoThresholdGenerator.prob g]) (by simp; omega) rfl
    (by simp; omega) (by simp)
  have hc := Buf.storeIf_written gc (rows.flatMap (fun e => e.conf.flatten))
    (n * allDim - rows.length * allDim) (IsoThresholdGenerator.get_conf_signature g).flatten
    allDim (n * allDim - (rows.length + 1) * allDim)
    (rows.flatMap (fun e => e.conf.flatten) ++
      (IsoThresholdGenerator.get_conf_signature g).flatten) hfit rfl hsub
    (by rw [List.length_append, hsig]; push_cast; rfl)
  unfold storeRow
  simp only [filled]
  rw [hm, hl, hp, hc]
  simp only [List.map_append, List.map_cons, List.map_nil, List.length_append,
    List.length_cons, List.length_nil, List.flatMap_append, List.flatMap_cons, List.flatMap_nil,
    List.append_nil, Nat.zero_add]

end ThresholdTabulator

namespace IsoThresholdGenerator

variable {α : Type} [LinearOrderedCommRing α]

/-- On a constructed generator the enumeration ends within the bound, and count_confs
returns the number of configurations it emits and leaves the constructed state. -/
theorem construct_count_enumerate (log : α → α) (lowest : α)
    (sortOrder : List (PrecalculatedMarginal α) → List Nat)
    (hsort : ∀ l, (sortOrder l).Perm (List.range l.length))
    (iso : Iso α) (hiso : iso.MarginalsWF) (thr : α) (ab reorder : Bool)
    (g : IsoThresholdGenerator α)
    (hg : construct log lowest sortOrder iso thr ab reorder = some g) :
    ∃ l, enumerate (fuelBound g) g = some l ∧
      count_confs (fuelBound g) g = some (l.length, g) := by
  have hgood := construct_good log lowest sortOrder hsort iso hiso thr ab reorder g hg
  have hreset := reset_reachable log lowest sortOrder hsort iso hiso thr ab reorder g hg
  have hfb := fuelBound_eq g
  have hterm : ∃ l, enumerate (fuelBound g) g = some l := by
    apply enumerate_terminates (fuelBound g) g hgood
    · rcases hgood.cursor with hd | ⟨hl, hb⟩
      · exact Or.inl hd
      · right
        have := (rank_bounds g hgood.static hl hb).1
        rw [hfb]; omega
    · have : (0 : Int) < (fuelBound g : Int) := by
        rw [hfb]
        have : (0 : Int) < ((sizes g).map (· + 1)).prod := by
          apply List.prod_pos
          intro a ha
          obtain ⟨b, hb, rfl⟩ := List.mem_map.mp ha
          obtain ⟨m, _, rfl⟩ := List.mem_map.mp hb
          show (0 : Int) < (m.get_no_confs : Int) + 1
          omega
        omega
      exact_mod_cast this
  obtain ⟨l, hl⟩ := hterm
  obtain ⟨k, hk⟩ := finalState_advanceN (fuelBound g) g
  have hcount := count_confs_loop_eq (fuelBound g) g 0 l hl
  rw [hk, hreset k, Nat.zero_add] at hcount
  exact ⟨l, hl, hcount⟩

end IsoThresholdGenerator

namespace ThresholdTabulator

variable {α : Type} [LinearOrderedCommRing α]

/-- The fill loop writes the rows the enumeration emits, one behind the other. -/
theorem fill_spec (n allDim : Nat) (gm gp gl gc : Bool) : ∀ (fuel : Nat)
    (g : IsoThresholdGenerator α) (l rows : List (IsoThresholdGenerator.Emitted α)),
    IsoThresholdGenerator.enumerate fuel g = some l → rows.length + l.length ≤ n →
    (∀ e ∈ rows, e.conf.flatten.length = allDim) → (∀ e ∈ l, e.conf.flatten.length = allDim) →
    fill fuel g (filled n allDim gm gp gl gc rows) =
      some (filled n allDim gm gp gl gc (rows ++ l)) := by
  intro fuel
  induction fuel with
  | zero => intro g l rows h; simp [IsoThresholdGenerator.enumerate] at h
  | succ fuel ih =>
    intro g l rows h hlen hrows hl
    unfold IsoThresholdGenerator.enumerate at h
    unfold fill
    cases hb : (IsoThresholdGenerator.advanceToNextConfiguration g).1 with
    | false =>
      rw [show IsoThresholdGenerator.advanceToNextConfiguration g =
        (false, (IsoThresholdGenerator.advanceToNextConfiguration g).2) from by rw [← hb]] at h ⊢
      simp only [Option.some.injEq] at h
      subst h
      simp
    | true =>
      rw [show IsoThresholdGenerator.advanceToNextConfiguration g =
        (true, (IsoThresholdGenerator.advanceToNextConfiguration g).2) from by rw [← hb]] at h ⊢
      simp only at h ⊢
      generalize (IsoThresholdGenerator.advanceToNextConfiguration g).2 = g1 at h ⊢
      cases he : IsoThresholdGenerator.enumerate fuel g1 with
      | none => rw [he] at h; simp at h
      | some l1 =>
        rw [he] at h
        simp only [Option.map_some', Option.some.injEq] at h
        subst h
        have hsig : (IsoThresholdGenerator.get_conf_signature g1).flatten.length = allDim :=
          hl _ (List.mem_cons_self _ _)
        rw [storeRow_filled n allDim gm gp gl gc rows g1 hrows hsig
          (by simp only [List.length_cons] at hlen; omega)]
        simp only
        rw [ih g1 l1 _ he (by simp only [List.length_append, List.length_cons,
          List.length_nil] at hlen ⊢; omega)
          (by
            intro e hm
            rcases List.mem_append.mp hm with hm | hm
            · exact hrows e hm
            · rw [List.mem_singleton] at hm
              rw [hm]
              exact hsig)
          (fun e hm => hl e (List.mem_cons_of_mem _ hm))]
        rw [List.append_assoc]
        rfl

/-- C14: after ThresholdTabulator is constructed `_confs_no` is the number of
configurations the threshold generator emits; the fill loop writes exactly that many rows
and none past the arrays sized from count_confs(); each requested array points at the
base of its allocation, row `i` holding the mass, log-probability, probability and
configuration of the `i`-th configuration emitted; each array that was not requested is
null. Every configuration signature has `allDim` entries. -/
theorem threshold_tabulator_rows_exact (log : α → α) (lowest : α)
    (sortOrder : List (PrecalculatedMarginal α) → List Nat)
    (hsort : ∀ l, (sortOrder l).Perm (List.range l.length)) (reorder : Bool)
    (iso : Iso α) (hiso : iso.MarginalsWF) (thr : α) (ab gm gp gl gc : Bool)
    (g : IsoThresholdGenerator α)
    (hg : IsoThresholdGenerator.construct log lowest sortOrder iso thr ab reorder = some g)
    (hsig : ∀ l, IsoThresholdGenerator.enumerate (IsoThresholdGenerator.fuelBound g) g = some l →
      ∀ e ∈ l, e.conf.flatten.length = g.allDim) :
    ∃ (l : List (IsoThresholdGenerator.Emitted α)) (tab : ThresholdTabulator α),
      IsoThresholdGenerator.enumerate (IsoThresholdGenerator.fuelBound g) g = some l ∧
      construct log lowest sortOrder reorder iso thr ab gm gp gl gc = some tab ∧
      tab._confs_no = l.length ∧ tab.allDim = g.allDim ∧
      tab._masses = (if gm then some ⟨(l.map (fun e => e.mass)).map some, 0⟩ else none) ∧
      tab._lprobs = (if gl then some ⟨(l.map (fun e => e.lprob)).map some, 0⟩ else none) ∧
      tab._probs = (if gp then some ⟨(l.map (fun e => e.prob)).map some, 0⟩ else none) ∧
      tab._confs = (if gc then some ⟨(l.flatMap (fun e => e.conf.flatten)).map some, 0⟩
        else none) ∧
      (l.flatMap (fun e => e.conf.flatten)).length = l.length * g.allDim := by
  obtain ⟨l, hl, hcount⟩ := IsoThresholdGenerator.construct_count_enumerate log lowest sortOrder
    hsort iso hiso thr ab reorder g hg
  have hall := hsig l hl
  have hfill := fill_spec l.length g.allDim gm gp gl gc (IsoThresholdGenerator.fuelBound g) g l []
    hl (by simp) (by simp) hall
  have hflat := flatMap_conf_length g.allDim l hall
  refine ⟨l, rewindAll (filled l.length g.allDim gm gp gl gc l), hl, ?_, rfl, rfl, ?_, ?_, ?_, ?_,
    hflat⟩
  · unfold construct
    rw [hg]
    simp only [hcount, allocated_eq_filled, hfill, List.nil_append, Option.map_some']
  · cases gm <;> simp [rewindAll, filled, Buf.rewind]
  · cases gl <;> simp [rewindAll, filled, Buf.rewind]
  · cases gp <;> simp [rewindAll, filled, Buf.rewind]
  · cases gc
    · simp [rewindAll, filled, Buf.rewind]
    · simp only [rewindAll, filled, if_true, Option.map_some', Buf.rewind, hflat, Nat.sub_self,
        List.replicate_zero, List.append_nil]
      simp

end ThresholdTabulator

namespace ThresholdTabulator

theorem sample_enumerate :
    ∃ g, IsoThresholdGenerator.construct (fun _ => (-30 : Int)) (-1000000) idOrder sampleIso 5
        true true = some g ∧ g.allDim = 4 ∧
      IsoThresholdGenerator.enumerate (IsoThresholdGenerator.fuelBound g) g =
        some [⟨[0, 0], ((-4 : Int) : WithBot Int), 12, 648, [[2, 0], [1, 0]]⟩,
          ⟨[1, 0], ((-19 : Int) : WithBot Int), 13, 144, [[1, 1], [1, 0]]⟩,
          ⟨[0, 1], ((-18 : Int) : WithBot Int), 13, 162, [[2, 0], [0, 1]]⟩] :=
  ⟨_, rfl, rfl, rfl⟩

theorem threshold_tabulator_rows_exact_witness :
    ∃ (g : IsoThresholdGenerator Int) (l : List (IsoThresholdGenerator.Emitted Int))
      (tab : ThresholdTabulator Int),
      IsoThresholdGenerator.enumerate (IsoThresholdGenerator.fuelBound g) g = some l ∧
      construct (fun _ => (-30 : Int)) (-1000000) idOrder true sampleIso 5 true true true true
        true = some tab ∧
      tab._confs_no = l.length ∧ tab.allDim = g.allDim ∧
      tab._masses = (if true then some ⟨(l.map (fun e => e.mass)).map some, 0⟩ else none) ∧
      tab._lprobs = (if true then some ⟨(l.map (fun e => e.lprob)).map some, 0⟩ else none) ∧
      tab._probs = (if true then some ⟨(l.map (fun e => e.prob)).map some, 0⟩ else none) ∧
      tab._confs = (if true then some ⟨(l.flatMap (fun e => e.conf.flatten)).map some, 0⟩
        else none) ∧
      (l.flatMap (fun e => e.conf.flatten)).length = l.length * g.allDim := by
  obtain ⟨g, hg, hd, he⟩ := sample_enumerate
  refine ⟨g, threshold_tabulator_rows_exact (fun _ => (-30 : Int)) (-1000000) idOrder
    (fun l => List.Perm.refl _) true sampleIso IsoThresholdGenerator.sampleIso_wf 5 true true
    true true true g hg ?_⟩
  intro l hl e hm
  rw [he] at hl
  cases hl
  rw [hd]
  simp only [List.mem_cons, List.mem_singleton, List.not_mem_nil, or_false] at hm
  rcases hm with rfl | rfl | rfl <;> rfl

end ThresholdTabulator

/-! ## IsoLayeredGenerator: when there is no further layer -/

namespace IsoLayeredGenerator

variable {α : Type} [LinearOrderedCommRing α]

theorem recalc_fixed : ∀ (k : Nat) (g : IsoLayeredGenerator α),
    (recalc g k).marginalResults = g.marginalResults ∧
    (recalc g k).lastLThreshold = g.lastLThreshold ∧
    (recalc g k).currentLThreshold = g.currentLThreshold ∧
    (recalc g k).counter = g.counter ∧ (recalc g k).lProbs_ptr = g.lProbs_ptr ∧
    (recalc g k).resetPositions = g.resetPositions ∧ (recalc g k).marginals = g.marginals ∧
    (recalc g k).dimNumber = g.dimNumber := by
  intro k
  induction k with
  | zero => intro g; exact ⟨rfl, rfl, rfl, rfl, rfl, rfl, rfl, rfl⟩
  | succ k ih =>
    intro g
    obtain ⟨h1, h2, h3, h4, h5, h6, h7, h8⟩ := ih (recalcStep g (k + 1))
    exact ⟨h1, h2, h3, h4, h5, h6, h7, h8⟩

/-- C15 (as the code has it): nextLayer(offset) returns false and changes nothing, so
extends no marginal, exactly when `lastLThreshold`, the threshold of the layer before the
current one, is below the log-probability of the least probable configuration, whatever
the offset. Otherwise it returns true, the current threshold becomes the last one and is
lowered by the offset, and every marginal is extended down to the new threshold less the
mode log-probabilities of the other elements, also when the new threshold is below the
least probable configuration. -/
theorem nextLayer_stops_on_last_threshold (g : IsoLayeredGenerator α) (offset : α) :
    (g.lastLThreshold < getUnlikeliestPeakLProb g → nextLayer g offset = (false, g)) ∧
    (¬ g.lastLThreshold < getUnlikeliestPeakLProb g →
      (nextLayer g offset).1 = true ∧
      (nextLayer g offset).2.lastLThreshold = g.currentLThreshold ∧
      (nextLayer g offset).2.currentLThreshold = g.currentLThreshold + offset ∧
      ∀ ii, ii < g.dimNumber →
        (nextLayer g offset).2.marginalResults.getD ii default =
          (g.marginalResults.getD ii default).extend
            (g.currentLThreshold + offset - g.modeLProb +
              (g.marginalResults.getD ii default).getModeLProb)) := by
  constructor
  · intro h
    unfold nextLayer
    rw [if_pos h]
  · intro h
    unfold nextLayer
    rw [if_neg h]
    obtain ⟨h1, h2, h3, _⟩ := recalc_fixed (g.dimNumber - 1) (lowerLayer g offset)
    refine ⟨rfl, h2, h3, ?_⟩
    intro ii hii
    show (recalc (lowerLayer g offset) (g.dimNumber - 1)).marginalResults.getD ii default = _
    rw [h1]
    show (((List.range g.dimNumber).map _) ++ _).getD ii default = _
    rw [List.getD_append _ _ _ _ (by simpa using hii), List.getD_eq_getElem _ _ (by simpa using hii)]
    simp

theorem nextLayer_stops_on_last_threshold_witness :
    (nextLayer singleConfLayered (-1)).1 = true ∧
    nextLayer (nextLayer singleConfLayered (-1)).2 (-1) =
      (false, (nextLayer singleConfLayered (-1)).2) :=
  ⟨((nextLayer_stops_on_last_threshold singleConfLayered (-1)).2 (by decide)).1,
    (nextLayer_stops_on_last_threshold (nextLayer singleConfLayered (-1)).2 (-1)).1 (by decide)⟩

/-- The call of nextLayer that the constructor makes for a molecule with a single
configuration lowers the threshold below the log-probability of that configuration, and
yet returns true and extends the marginal. -/
theorem nextLayer_below_unlikeliest_returns_true :
    singleConfLayered.currentLThreshold + (-1) < getUnlikeliestPeakLProb singleConfLayered ∧
    (nextLayer singleConfLayered (-1)).1 = true ∧
    (nextLayer singleConfLayered (-1)).2.marginalResults ≠ singleConfLayered.marginalResults := by
  decide

end IsoLayeredGenerator

/-! ## The descriptor built from arrays -/

theorem map_range_getD {β : Type} (l : List β) (d : β) :
    (List.range l.length).map (fun i => l.getD i d) = l := by
  apply List.ext_getElem
  · simp
  · intro i h1 h2
    simp [List.getD_eq_getElem?_getD, List.getElem?_eq_getElem h2]

/-- The loop of setupMarginals after `n` passes: the arrays are as they were, and the sum
of the isotope numbers, the marginals and the sum of their mode log-probabilities of the
elements `0..n-1` have been added. -/
theorem setupMarginals_loop {α : Type} [LinearOrderedCommRing α]
    (mk : List α → List α → Nat → Nat → Marginal α) (iso : Iso α) (M P : List (List α))
    (n : Nat) :
    (List.range n).foldl (fun s ii =>
      ({ s with
        allDim := s.allDim + s.isotopeNumbers.getD ii 0
        marginals := s.marginals ++ [mk (M.getD ii []) (P.getD ii [])
          (s.isotopeNumbers.getD ii 0) (s.atomCounts.getD ii 0)]
        modeLProb := s.modeLProb + (mk (M.getD ii [])
          (P.getD ii []) (s.isotopeNumbers.getD ii 0)
          (s.atomCounts.getD ii 0)).getModeLProb } : Iso α)) iso =
    { iso with
      allDim := iso.allDim + ((List.range n).map (fun ii => iso.isotopeNumbers.getD ii 0)).sum
      marginals := iso.marginals ++ (List.range n).map (fun ii =>
        mk (M.getD ii []) (P.getD ii []) (iso.isotopeNumbers.getD ii 0) (iso.atomCounts.getD ii 0))
      modeLProb := iso.modeLProb + ((List.range n).map (fun ii =>
        (mk (M.getD ii []) (P.getD ii []) (iso.isotopeNumbers.getD ii 0)
          (iso.atomCounts.getD ii 0)).getModeLProb)).sum } := by
  induction n with
  | zero => simp
  | succ n ih =>
    rw [List.range_succ, List.foldl_append, ih]
    simp only [List.foldl_cons, List.foldl_nil, List.map_append, List.map_cons, List.map_nil,
      List.sum_append, List.sum_cons, List.sum_nil, add_zero, List.append_assoc, add_assoc]

theorem setupMarginals_eq {α : Type} [LinearOrderedCommRing α]
    (mk : List α → List α → Nat → Nat → Marginal α) (iso : Iso α) (M P : List (List α)) :
    Iso.setupMarginals mk iso M P =
    { iso with
      allDim := iso.allDim +
        ((List.range iso.dimNumber).map (fun ii => iso.isotopeNumbers.getD ii 0)).sum
      marginals := iso.marginals ++ (List.range iso.dimNumber).map (fun ii =>
        mk (M.getD ii []) (P.getD ii []) (iso.isotopeNumbers.getD ii 0) (iso.atomCounts.getD ii 0))
      modeLProb := iso.modeLProb + ((List.range iso.dimNumber).map (fun ii =>
        (mk (M.getD ii []) (P.getD ii []) (iso.isotopeNumbers.getD ii 0)
          (iso.atomCounts.getD ii 0)).getModeLProb)).sum } :=
  setupMarginals_loop mk iso M P iso.dimNumber

/-- The descriptor the constructor from arrays builds. -/
theorem ofArrays_eq {α : Type} [LinearOrderedCommRing α]
    (mk : List α → List α → Nat → Nat → Marginal α) (d : Nat) (ins acs : List Nat)
    (M P : List (List α)) :
    Iso.ofArrays mk d ins acs M P =
    { disowned := false
      dimNumber := d
      isotopeNumbers := ins.take d
      atomCounts := acs.take d
      confSize := d * sizeofInt
      allDim := ((List.range d).map (fun ii => (ins.take d).getD ii 0)).sum
      marginals := (List.range d).map (fun ii =>
        mk (M.getD ii []) (P.getD ii []) ((ins.take d).getD ii 0) ((acs.take d).getD ii 0))
      modeLProb := ((List.range d).map (fun ii =>
        (mk (M.getD ii []) (P.getD ii []) ((ins.take d).getD ii 0)
          ((acs.take d).getD ii 0)).getModeLProb)).sum } := by
  unfold Iso.ofArrays
  rw [setupMarginals_eq]
  simp

/-! ## The ordered generator on a molecule of elements with a single isotope -/

theorem compositions_one (n : Nat) : compositions 1 n = [[n]] := by
  have h0 : ∀ k, 0 < k → compositions 0 k = [] := by
    intro k hk
    cases k with
    | zero => omega
    | succ k => rfl
  have hlow : ∀ m, m ≤ n →
      (List.range m).reverse.flatMap (fun c => (compositions 0 (n - c)).map (c :: ·)) = [] := by
    intro m hm
    induction m with
    | zero => rfl
    | succ m ih =>
      rw [List.range_succ, List.reverse_append, List.flatMap_append, ih (by omega)]
      simp [h0 (n - m) (by omega)]
  show (List.range (n + 1)).reverse.flatMap (fun c => (compositions 0 (n - c)).map (c :: ·)) = _
  rw [List.range_succ, List.reverse_append, List.flatMap_append, hlow n le_rfl]
  simp [compositions]

theorem multinomialCoeff_single (n : Nat) : multinomialCoeff [n] = 1 := by
  simp [multinomialCoeff, Nat.div_self (Nat.factorial_pos n)]

/-- The marginal of an element with one isotope of probability 1 has a single
configuration, of log-probability `log 1`. -/
theorem ofElement_single {α : Type} [LinearOrderedCommRing α] (log : α → α) (m : α) (n : Nat) :
    Marginal.ofElement log [m] [1] 1 n =
      ⟨1, n, [⟨log 1, (n : α) * m, 1, [n]⟩], log 1⟩ := by
  simp [Marginal.ofElement, compositions_one, Marginal.entry, multinomialCoeff_single]

theorem singleIsotopeIso_marginals {α : Type} [LinearOrderedCommRing α] (log : α → α)
    (atomCounts : List Nat) (isotopeMass : List α) (h : atomCounts.length = isotopeMass.length)
    (i : Nat) (hi : i < atomCounts.length) :
    (singleIsotopeIso log atomCounts isotopeMass).dimNumber = atomCounts.length ∧
    (singleIsotopeIso log atomCounts isotopeMass).atomCounts = atomCounts ∧
    ((singleIsotopeIso log atomCounts isotopeMass).marginals.getD i ⟨0, 0, [], 0⟩).confs =
      [⟨log 1, (atomCounts.getD i 0 : α) * isotopeMass.getD i 0, 1, [atomCounts.getD i 0]⟩] := by
  unfold singleIsotopeIso
  rw [ofArrays_eq]
  refine ⟨rfl, by simp, ?_⟩
  simp only [List.take_length]
  rw [List.getD_eq_getElem _ _ (by simpa using hi)]
  simp only [List.getElem_map, List.getElem_range]
  have e1 : (List.take atomCounts.length (List.replicate atomCounts.length 1)).getD i 0 = 1 := by
    rw [List.getD_eq_getElem _ _ (by simpa using hi)]
    simp
  have e2 : (List.replicate atomCounts.length [(1 : α)]).getD i [] = [1] := by
    rw [List.getD_eq_getElem _ _ (by simpa using hi)]
    simp
  have e3 : (isotopeMass.map (fun m => [m])).getD i [] = [isotopeMass.getD i 0] := by
    rw [List.getD_eq_getElem _ _ (by simpa [← h] using hi),
      List.getD_eq_getElem _ _ (by simpa [← h] using hi)]
    simp
  rw [e1, e2, e3, ofElement_single]

theorem getD_map_range {β : Type} (f : Nat → β) (n i : Nat) (hi : i < n) (d : β) :
    ((List.range n).map f).getD i d = f i := by
  rw [List.getD_eq_getElem _ _ (by simpa using hi)]
  simp

namespace IsoOrderedGenerator

variable {α : Type} [LinearOrderedCommRing α]

theorem scan_nothing (g : IsoOrderedGenerator α) (top : OrdNode α)
    (hzero : ∀ j, top.conf.getD j 0 = 0)
    (hone : ∀ j, j < g.dimNumber → (g.marginalResults.getD j ⟨0, 0, [], 0⟩).confs.length ≤ 1)
    (s : ScanState α) :
    ∀ (left j : Nat), j + left = g.dimNumber → scan g top left j s = s := by
  intro left
  induction left with
  | zero => intro j _; rfl
  | succ left ih =>
    intro j hj
    unfold scan
    rw [if_neg (by rw [hzero j]; omega), scanBody_noprobe]
    · exact ih (j + 1) (by omega)
    · have := hone j (by omega)
      simp only [Marginal.probeConfigurationIdx, hzero j, decide_eq_true_eq]
      omega

/-- On a molecule whose every marginal has a single configuration the first call of
advance emits the all-zero index vector and leaves the queue empty. -/
theorem single_conf_advance
    (pqPop : List (OrdNode α) → Option (OrdNode α × List (OrdNode α))) (hpq : PQSpec pqPop)
    (ex : α → α) (iso : Iso α) (mass : Nat → α)
    (hone : ∀ i, i < iso.dimNumber → ∃ c, (iso.marginals.getD i ⟨0, 0, [], 0⟩).confs = [c] ∧
      c.lprob = 0 ∧ c.mass = mass i) :
    (advanceToNextConfiguration pqPop ex (construct iso)).1 = true ∧
    (advanceToNextConfiguration pqPop ex (construct iso)).2.pq = [] ∧
    (advanceToNextConfiguration pqPop ex (construct iso)).2.currentLProb = 0 ∧
    (advanceToNextConfiguration pqPop ex (construct iso)).2.currentProb = ex 0 ∧
    (advanceToNextConfiguration pqPop ex (construct iso)).2.currentMass =
      ((List.range iso.dimNumber).map mass).sum := by
  have hmr : ∀ i, i < iso.dimNumber →
      (construct iso).marginalResults.getD i ⟨0, 0, [], 0⟩ = iso.marginals.getD i ⟨0, 0, [], 0⟩ :=
    fun i hi => getD_map_range _ _ _ hi _
  have hlpt : ∀ i, i < iso.dimNumber → (logProbs (construct iso)).getD i [] =
      (iso.marginals.getD i ⟨0, 0, [], 0⟩).confs.map MarginalConf.lprob := by
    intro i hi
    show (((List.range iso.dimNumber).map _).map _).getD i [] = _
    rw [List.map_map, getD_map_range _ _ _ hi]
    rfl
  have hmst : ∀ i, i < iso.dimNumber → (masses (construct iso)).getD i [] =
      (iso.marginals.getD i ⟨0, 0, [], 0⟩).confs.map MarginalConf.mass := by
    intro i hi
    show (((List.range iso.dimNumber).map _).map _).getD i [] = _
    rw [List.map_map, getD_map_range _ _ _ hi]
    rfl
  have hlp : (construct iso).topConf.lprob = 0 := by
    show combinedSum (List.replicate iso.dimNumber 0) (logProbs (construct iso)) iso.dimNumber = 0
    unfold combinedSum
    apply List.sum_eq_zero
    intro x hx
    obtain ⟨i, hi, rfl⟩ := List.mem_map.mp hx
    rw [List.mem_range] at hi
    obtain ⟨c, hc, hc0, _⟩ := hone i hi
    rw [hlpt i hi, hc, getD_replicate_zero_nat]
    exact hc0
  have hpop : pqPop (construct iso).pq = some ((construct iso).topConf, []) :=
    pqPop_singleton pqPop hpq _
  rw [ordAdvance_eq pqPop ex _ _ _ hpop]
  have hscan := scan_nothing (construct iso) (construct iso).topConf
    (fun j => getD_replicate_zero_nat _ _)
    (by
      intro j hj
      obtain ⟨c, hc, _⟩ := hone j hj
      rw [hmr j hj, hc]
      simp)
    ⟨[], -1, (construct iso).allocated⟩ (construct iso).dimNumber 0 (by simp)
  rw [hscan]
  refine ⟨rfl, rfl, hlp, by rw [hlp], ?_⟩
  show combinedSum (List.replicate iso.dimNumber 0) (masses (construct iso)) iso.dimNumber = _
  unfold combinedSum
  congr 1
  apply List.map_congr_left
  intro i hi
  rw [List.mem_range] at hi
  obtain ⟨c, hc, _, hcm⟩ := hone i hi
  rw [hmst i hi, hc, getD_replicate_zero_nat]
  exact hcm

/-- C16: for every molecule of elements with a single isotope, that is, whose every
marginal has exactly one configuration, of log-probability 0 and of the mass atom count
times isotope mass, the ordered generator has exactly one configuration: the first call
of advanceToNextConfiguration returns true with lprob 0, prob 1 and mass the sum over the
elements of atom count times isotope mass, and the second call and every later one
returns false. The priority queue is any queue that hands out a node of greatest
log-probability. -/
theorem ordered_single_isotope_one_configuration
    (pqPop : List (OrdNode ℝ) → Option (OrdNode ℝ × List (OrdNode ℝ))) (hpq : PQSpec pqPop)
    (iso : Iso ℝ) (isotopeMass : List ℝ)
    (hone : ∀ i, i < iso.dimNumber → ∃ c, (iso.marginals.getD i ⟨0, 0, [], 0⟩).confs = [c] ∧
      c.lprob = 0 ∧ c.mass = (iso.atomCounts.getD i 0 : ℝ) * isotopeMass.getD i 0) :
    (advanceToNextConfiguration pqPop Real.exp (construct iso)).1 = true ∧
    (advanceN pqPop Real.exp 1 (construct iso)).currentLProb = 0 ∧
    (advanceN pqPop Real.exp 1 (construct iso)).currentProb = 1 ∧
    (advanceN pqPop Real.exp 1 (construct iso)).currentMass =
      ((List.range iso.dimNumber).map
        (fun i => (iso.atomCounts.getD i 0 : ℝ) * isotopeMass.getD i 0)).sum ∧
    ∀ n, 1 ≤ n →
      (advanceToNextConfiguration pqPop Real.exp
        (advanceN pqPop Real.exp n (construct iso))).1 = false := by
  obtain ⟨h1, h2, h3, h4, h5⟩ := single_conf_advance pqPop hpq Real.exp iso
    (fun i => (iso.atomCounts.getD i 0 : ℝ) * isotopeMass.getD i 0) hone
  have hfix : ∀ n, advanceN pqPop Real.exp (n + 1) (construct iso) =
      (advanceToNextConfiguration pqPop Real.exp (construct iso)).2 := by
    intro n
    induction n with
    | zero => rfl
    | succ n ih => rw [advanceN_succ_last, ih, advance_empty pqPop hpq Real.exp _ h2]
  refine ⟨h1, by rw [hfix 0]; exact h3, by rw [hfix 0, h4]; exact Real.exp_zero,
    by rw [hfix 0]; exact h5, ?_⟩
  intro n hn
  obtain ⟨k, rfl⟩ := Nat.exists_eq_add_of_le hn
  rw [Nat.add_comm, hfix k, advance_empty pqPop hpq Real.exp _ h2]

theorem ordered_single_isotope_one_configuration_witness :
    (advanceToNextConfiguration pqPopMax Real.exp
      (construct (singleIsotopeIso Real.log [2, 3] [5, 7]))).1 = true ∧
    (advanceN pqPopMax Real.exp 1
      (construct (singleIsotopeIso Real.log [2, 3] [5, 7]))).currentProb = 1 ∧
    (advanceN pqPopMax Real.exp 1
      (construct (singleIsotopeIso Real.log [2, 3] [5, 7]))).currentMass = 31 ∧
    (advanceToNextConfiguration pqPopMax Real.exp
      (advanceN pqPopMax Real.exp 1
        (construct (singleIsotopeIso Real.log [2, 3] [5, 7])))).1 = false := by
  have hone : ∀ i, i < (singleIsotopeIso Real.log [2, 3] [5, 7]).dimNumber →
      ∃ c, ((singleIsotopeIso Real.log [2, 3] [5, 7]).marginals.getD i ⟨0, 0, [], 0⟩).confs = [c] ∧
        c.lprob = 0 ∧ c.mass =
          ((singleIsotopeIso Real.log [2, 3] [5, 7]).atomCounts.getD i 0 : ℝ) *
            ([5, 7] : List ℝ).getD i 0 := by
    intro i hi
    obtain ⟨e1, e2, e3⟩ := singleIsotopeIso_marginals Real.log [2, 3] [5, 7] rfl i
      (by rw [← (singleIsotopeIso_marginals Real.log [2, 3] [5, 7] rfl 0 (by decide)).1]; exact hi)
    exact ⟨_, e3, Real.log_one, by rw [e2]⟩
  have h := ordered_single_isotope_one_configuration pqPopMax pqPopMax_spec
    (singleIsotopeIso Real.log [2, 3] [5, 7]) [5, 7] hone
  refine ⟨h.1, h.2.2.1, ?_, h.2.2.2.2 1 le_rfl⟩
  rw [h.2.2.2.1, (singleIsotopeIso_marginals Real.log [2, 3] [5, 7] rfl 0 (by decide)).1,
    (singleIsotopeIso_marginals Real.log [2, 3] [5, 7] rfl 0 (by decide)).2.1]
  norm_num [List.range_succ]

end IsoOrderedGenerator

namespace IsoThresholdGenerator

variable {α : Type} [LinearOrderedCommRing α]

/-! ### reset from every reachable state -/

/-- After recalc(k0) the masses above `k0` are untouched and every entry `k ≤ k0` is the
entry above it plus the mass of the current entry of marginal `k`. -/
theorem recalc_partialMasses (g : IsoThresholdGenerator α) (k0 : Nat)
    (hlen : k0 < g.partialMasses.length) :
    (∀ k, k0 < k → (recalc g k0).partialMasses.getD k 0 = g.partialMasses.getD k 0) ∧
    (∀ k, k ≤ k0 → (recalc g k0).partialMasses.getD k 0 =
      (recalc g k0).partialMasses.getD (k + 1) 0 +
        (g.marginalResults.getD k default).get_mass (g.counter.getD k 0)) := by
  induction k0 generalizing g with
  | zero =>
    constructor
    · intro k hk
      show (g.partialMasses.set 0 _).getD k 0 = _
      rw [getD_set_ne _ _ _ _ _ (by omega)]
    · intro k hk
      obtain rfl : k = 0 := by omega
      show (g.partialMasses.set 0 _).getD 0 0 = (g.partialMasses.set 0 _).getD 1 0 + _
      rw [getD_set_eq _ _ _ _ hlen, getD_set_ne _ _ _ _ _ (by omega)]
  | succ k0 ih =>
    have hlen1 : k0 < (recalcStep g (k0 + 1)).partialMasses.length := by
      show k0 < (g.partialMasses.set (k0 + 1) _).length
      rw [List.length_set]; omega
    obtain ⟨h1, h2⟩ := ih (recalcStep g (k0 + 1)) hlen1
    have hstep : ∀ k, k0 + 1 < k →
        (recalcStep g (k0 + 1)).partialMasses.getD k 0 = g.partialMasses.getD k 0 := by
      intro k hk
      show (g.partialMasses.set (k0 + 1) _).getD k 0 = _
      rw [getD_set_ne _ _ _ _ _ (by omega)]
    have hstep1 : (recalcStep g (k0 + 1)).partialMasses.getD (k0 + 1) 0 =
        g.partialMasses.getD (k0 + 2) 0 +
          (g.marginalResults.getD (k0 + 1) default).get_mass (g.counter.getD (k0 + 1) 0) := by
      show (g.partialMasses.set (k0 + 1) _).getD (k0 + 1) 0 = _
      rw [getD_set_eq _ _ _ _ hlen]
    constructor
    · intro k hk
      show (recalc (recalcStep g (k0 + 1)) k0).partialMasses.getD k 0 = _
      rw [h1 k (by omega), hstep k hk]
    · intro k hk
      show (recalc (recalcStep g (k0 + 1)) k0).partialMasses.getD k 0 =
        (recalc (recalcStep g (k0 + 1)) k0).partialMasses.getD (k + 1) 0 + _
      by_cases hk0 : k ≤ k0
      · rw [h2 k hk0]
        rfl
      · obtain rfl : k = k0 + 1 := by omega
        rw [h1 (k0 + 1) (by omega), h1 (k0 + 2) (by omega), hstep1, hstep (k0 + 2) (by omega)]

/-- After recalc(k0) the probabilities above `k0` are untouched and every entry `k ≤ k0` is
the entry above it times the probability of the current entry of marginal `k`. -/
theorem recalc_partialProbs (g : IsoThresholdGenerator α) (k0 : Nat)
    (hlen : k0 < g.partialProbs.length) :
    (∀ k, k0 < k → (recalc g k0).partialProbs.getD k 0 = g.partialProbs.getD k 0) ∧
    (∀ k, k ≤ k0 → (recalc g k0).partialProbs.getD k 0 =
      (recalc g k0).partialProbs.getD (k + 1) 0 *
        (g.marginalResults.getD k default).get_prob (g.counter.getD k 0)) := by
  induction k0 generalizing g with
  | zero =>
    constructor
    · intro k hk
      show (g.partialProbs.set 0 _).getD k 0 = _
      rw [getD_set_ne _ _ _ _ _ (by omega)]
    · intro k hk
      obtain rfl : k = 0 := by omega
      show (g.partialProbs.set 0 _).getD 0 0 = (g.partialProbs.set 0 _).getD 1 0 * _
      rw [getD_set_eq _ _ _ _ hlen, getD_set_ne _ _ _ _ _ (by omega)]
  | succ k0 ih =>
    have hlen1 : k0 < (recalcStep g (k0 + 1)).partialProbs.length := by
      show k0 < (g.partialProbs.set (k0 + 1) _).length
      rw [List.length_set]; omega
    obtain ⟨h1, h2⟩ := ih (recalcStep g (k0 + 1)) hlen1
    have hstep : ∀ k, k0 + 1 < k →
        (recalcStep g (k0 + 1)).partialProbs.getD k 0 = g.partialProbs.getD k 0 := by
      intro k hk
      show (g.partialProbs.set (k0 + 1) _).getD k 0 = _
      rw [getD_set_ne _ _ _ _ _ (by omega)]
    have hstep1 : (recalcStep g (k0 + 1)).partialProbs.getD (k0 + 1) 0 =
        g.partialProbs.getD (k0 + 2) 0 *
          (g.marginalResults.getD (k0 + 1) default).get_prob (g.counter.getD (k0 + 1) 0) := by
      show (g.partialProbs.set (k0 + 1) _).getD (k0 + 1) 0 = _
      rw [getD_set_eq _ _ _ _ hlen]
    constructor
    · intro k hk
      show (recalc (recalcStep g (k0 + 1)) k0).partialProbs.getD k 0 = _
      rw [h1 k (by omega), hstep k hk]
    · intro k hk
      show (recalc (recalcStep g (k0 + 1)) k0).partialProbs.getD k 0 =
        (recalc (recalcStep g (k0 + 1)) k0).partialProbs.getD (k + 1) 0 * _
      by_cases hk0 : k ≤ k0
      · rw [h2 k hk0]
        rfl
      · obtain rfl : k = k0 + 1 := by omega
        rw [h1 (k0 + 1) (by omega), h1 (k0 + 2) (by omega), hstep1, hstep (k0 + 2) (by omega)]

/-- The cursor the constructor leaves on a generator that is not empty. -/
theorem construct_cursor (log : α → α) (lowest : α)
    (sortOrder : List (PrecalculatedMarginal α) → List Nat)
    (iso : Iso α) (thr : α) (ab reorder : Bool) (g : IsoThresholdGenerator α)
    (hg : construct log lowest sortOrder iso thr ab reorder = some g) (hne : g.empty = false) :
    g.counter = (List.replicate g.dimNumber (0 : Int)).set 0 (-1) ∧
    g.lProbs_ptr = -1 ∧
    g.partialLProbs.getD g.dimNumber ⊥ = ((0 : α) : WithBot α) ∧
    g.partialMasses.getD g.dimNumber 0 = 0 ∧
    g.partialProbs.getD g.dimNumber 0 = 1 ∧
    ∀ k, k < g.dimNumber →
      g.partialLProbs.getD k ⊥ = g.partialLProbs.getD (k + 1) ⊥ +
        (g.marginalResults.getD k default).get_lProb 0 ∧
      g.partialMasses.getD k 0 = g.partialMasses.getD (k + 1) 0 +
        (g.marginalResults.getD k default).get_mass 0 ∧
      g.partialProbs.getD k 0 = g.partialProbs.getD (k + 1) 0 *
        (g.marginalResults.getD k default).get_prob 0 := by
  obtain ⟨hdim, hcase⟩ := construct_cases log lowest sortOrder iso thr ab reorder g hg
  have hf0 := constructBase_frame log lowest sortOrder iso thr ab reorder
  have hc0 : (constructBase log lowest sortOrder iso thr ab reorder).counter =
    List.replicate (constructBase log lowest sortOrder iso thr ab reorder).dimNumber 0 := rfl
  have hp0 : (constructBase log lowest sortOrder iso thr ab reorder).lProbs_ptr = 0 := rfl
  have hl0 : (constructBase log lowest sortOrder iso thr ab reorder).partialLProbs.getD
      (constructBase log lowest sortOrder iso thr ab reorder).dimNumber ⊥ =
      ((0 : α) : WithBot α) := getD_replicate_append _ _ _ _
  have hd0 : 0 < (constructBase log lowest sortOrder iso thr ab reorder).dimNumber :=
    Nat.pos_of_ne_zero hdim
  generalize constructBase log lowest sortOrder iso thr ab reorder = g0 at hcase hf0 hc0 hp0 hl0 hd0
  rcases hcase with ⟨_, hg'⟩ | ⟨hemp, hg'⟩
  · have hsame := recalc_same g0 (g0.dimNumber - 1)
    have hdim' : g.dimNumber = g0.dimNumber := by rw [hg']; exact hsame.1
    have hmr : g.marginalResults = g0.marginalResults := by
      rw [hg']; exact hsame.2.2.2.2.2.2.1
    have hpl : g.partialLProbs = (recalc g0 (g0.dimNumber - 1)).partialLProbs := by rw [hg']; rfl
    have hpm : g.partialMasses = (recalc g0 (g0.dimNumber - 1)).partialMasses := by rw [hg']; rfl
    have hpp : g.partialProbs = (recalc g0 (g0.dimNumber - 1)).partialProbs := by rw [hg']; rfl
    have hfr := recalc_frame g0 (g0.dimNumber - 1) (by omega) hf0
    obtain ⟨l1, l2⟩ := recalc_partialLProbs g0 (g0.dimNumber - 1) (by rw [hf0.len_l]; omega)
    obtain ⟨m1, m2⟩ := recalc_partialMasses g0 (g0.dimNumber - 1) (by rw [hf0.len_m]; omega)
    obtain ⟨p1, p2⟩ := recalc_partialProbs g0 (g0.dimNumber - 1) (by rw [hf0.len_p]; omega)
    rw [hdim', hmr, hpl, hpm, hpp]
    refine ⟨?_, ?_, ?_, ?_, ?_, ?_⟩
    · rw [hg']
      show (recalc g0 (g0.dimNumber - 1)).counter.set 0
        ((recalc g0 (g0.dimNumber - 1)).counter.getD 0 0 - 1) = _
      rw [recalc_counter, hc0, getD_replicate_zero]
      rfl
    · rw [hg']
      show (recalc g0 (g0.dimNumber - 1)).lProbs_ptr - 1 = -1
      rw [recalc_ptr, hp0]; rfl
    · rw [l1 _ (by omega), hl0]
    · have := hfr.last_m
      rwa [hsame.1] at this
    · have := hfr.last_p
      rwa [hsame.1] at this
    · intro k hk
      have hck : g0.counter.getD k 0 = 0 := by rw [hc0, getD_replicate_zero]
      refine ⟨?_, ?_, ?_⟩
      · rw [l2 k (by omega)]; unfold lpAt; rw [hck]
      · rw [m2 k (by omega), hck]
      · rw [p2 k (by omega), hck]
  · rw [hg'] at hne
    exact absurd hne (by
      show ¬ g0.empty = false
      rw [hemp]; simp)

/-- From every state a caller can reach, reset leads back to the state the constructor
left. -/
theorem reset_of_reachable (log : α → α) (lowest : α)
    (sortOrder : List (PrecalculatedMarginal α) → List Nat)
    (hsort : ∀ l, (sortOrder l).Perm (List.range l.length))
    (iso : Iso α) (hiso : iso.MarginalsWF) (thr : α) (ab reorder : Bool)
    (g : IsoThresholdGenerator α)
    (hg : construct log lowest sortOrder iso thr ab reorder = some g)
    (s : IsoThresholdGenerator α) (hs : Reachable g s) :
    reset s = g ∧ Good s ∧ SameStatic g s := by
  have hgood := construct_good log lowest sortOrder hsort iso hiso thr ab reorder g hg
  obtain ⟨hdim, hcase⟩ := construct_cases log lowest sortOrder iso thr ab reorder g hg
  have hf0 := constructBase_frame log lowest sortOrder iso thr ab reorder
  have hc0 : (constructBase log lowest sortOrder iso thr ab reorder).counter =
    List.replicate (constructBase log lowest sortOrder iso thr ab reorder).dimNumber 0 := rfl
  have hp0 : (constructBase log lowest sortOrder iso thr ab reorder).lProbs_ptr = 0 := rfl
  have hl0 : (constructBase log lowest sortOrder iso thr ab reorder).partialLProbs.getD
      (constructBase log lowest sortOrder iso thr ab reorder).dimNumber ⊥ =
      ((0 : α) : WithBot α) := getD_replicate_append _ _ _ _
  have hd0 : 0 < (constructBase log lowest sortOrder iso thr ab reorder).dimNumber :=
    Nat.pos_of_ne_zero hdim
  generalize constructBase log lowest sortOrder iso thr ab reorder = g0 at hcase hf0 hc0 hp0 hl0 hd0
  rcases hcase with ⟨hne, hg'⟩ | ⟨hemp, hg'⟩
  · have h0g : SameStatic g0 g := by
      rw [hg']
      exact (recalc_same g0 _).trans ⟨rfl, rfl, rfl, rfl, rfl, rfl, rfl, rfl, rfl, rfl⟩
    have key : ∀ s, Good s → SameStatic g s → reset s = g := by
      intro s hgs hss
      rw [reset_eq_of g0 s (h0g.trans hss) hne hd0 hf0 hgs.frame hc0 hp0 hl0, hg']
    have main : Good s ∧ SameStatic g s := by
      induction hs with
      | start => exact ⟨hgood, SameStatic.refl g⟩
      | advance s _ ih =>
        have := advance_good s ih.1
        exact ⟨this.1, ih.2.trans this.2.1⟩
      | terminate s _ ih =>
        exact ⟨⟨ih.1.static.of_same (terminate_search_same s),
          terminate_search_frame s ih.1.frame, Or.inl (terminate_search_dead s)⟩,
          ih.2.trans (terminate_search_same s)⟩
      | reset s _ ih =>
        rw [key s ih.1 ih.2]
        exact ⟨hgood, SameStatic.refl g⟩
    exact ⟨key s main.1 main.2, main⟩
  · have hts : terminate_search g = g := by rw [hg']; rfl
    have hdead : Dead g := by rw [hg']; exact terminate_search_dead g0
    have hge : g.empty = true := by rw [hg']; exact hemp
    have hrs : reset g = g := by
      unfold reset
      rw [if_pos hge, hts]
    have main : s = g := by
      induction hs with
      | start => rfl
      | advance s _ ih => rw [ih, advance_dead_eq g hdead, hts]
      | terminate s _ ih => rw [ih, hts]
      | reset s _ ih => rw [ih, hrs]
    rw [main]
    exact ⟨hrs, hgood, SameStatic.refl g⟩

end IsoThresholdGenerator

namespace IsoThresholdGenerator

variable {α : Type} [LinearOrderedCommRing α]

/-- C17: from every state `s` a caller can bring a constructed IsoThresholdGenerator `g`
to, by calls of advanceToNextConfiguration, terminate_search and reset in any order (so
in the middle of the enumeration, exhausted or terminated), reset() produces exactly the
state the constructor left. On a generator that is not empty this is: all counters 0
except counter[0] = -1, the scan pointer one before the first entry of marginal 0,
partialLProbs[dimNumber] = 0 (and 0 and 1 for the masses and probabilities), and every
partial entry below recomputed from the entry above it and the first entry of its
marginal. On an empty generator it is the terminated state: every counter at the last
index of its marginal, every partial log-probability negative infinity, the scan pointer
at the last entry of marginal 0, and advance fails. -/
theorem reset_restores_constructed_cursor (log : α → α) (lowest : α)
    (sortOrder : List (PrecalculatedMarginal α) → List Nat)
    (hsort : ∀ l, (sortOrder l).Perm (List.range l.length))
    (iso : Iso α) (hiso : iso.MarginalsWF) (thr : α) (ab reorder : Bool)
    (g : IsoThresholdGenerator α)
    (hg : construct log lowest sortOrder iso thr ab reorder = some g)
    (s : IsoThresholdGenerator α) (hs : Reachable g s) :
    reset s = g ∧
    (g.empty = false →
      (reset s).counter = (List.replicate g.dimNumber (0 : Int)).set 0 (-1) ∧
      (reset s).lProbs_ptr = -1 ∧
      (reset s).partialLProbs.getD g.dimNumber ⊥ = ((0 : α) : WithBot α) ∧
      (reset s).partialMasses.getD g.dimNumber 0 = 0 ∧
      (reset s).partialProbs.getD g.dimNumber 0 = 1 ∧
      ∀ k, k < g.dimNumber →
        (reset s).partialLProbs.getD k ⊥ = (reset s).partialLProbs.getD (k + 1) ⊥ +
          (g.marginalResults.getD k default).get_lProb 0 ∧
        (reset s).partialMasses.getD k 0 = (reset s).partialMasses.getD (k + 1) 0 +
          (g.marginalResults.getD k default).get_mass 0 ∧
        (reset s).partialProbs.getD k 0 = (reset s).partialProbs.getD (k + 1) 0 *
          (g.marginalResults.getD k default).get_prob 0) ∧
    (g.empty = true →
      (reset s).counter = (List.range g.dimNumber).map
        (fun ii => ((g.marginalResults.getD ii default).get_no_confs : Int) - 1) ∧
      (reset s).partialLProbs = List.replicate (g.dimNumber + 1) ⊥ ∧
      (reset s).lProbs_ptr = ((g.marginalResults.getD 0 default).get_no_confs : Int) - 1 ∧
      (advanceToNextConfiguration (reset s)).1 = false) := by
  have hrs := (reset_of_reachable log lowest sortOrder hsort iso hiso thr ab reorder g hg s hs).1
  rw [hrs]
  refine ⟨rfl, construct_cursor log lowest sortOrder iso thr ab reorder g hg, ?_⟩
  intro hge
  have hrg := (reset_of_reachable log lowest sortOrder hsort iso hiso thr ab reorder g hg g
    Reachable.start).1
  have hts : terminate_search g = g := by
    unfold reset at hrg
    rwa [if_pos hge] at hrg
  have hdead : Dead g := by
    rw [← hts]; exact terminate_search_dead g
  refine ⟨?_, ?_, ?_, (advance_dead g hdead).1⟩
  · conv_lhs => rw [← hts]
    rfl
  · conv_lhs => rw [← hts]
    rfl
  · conv_lhs => rw [← hts]
    rfl

theorem reset_restores_constructed_cursor_witness :
    ∃ g, construct (fun _ => (-30 : Int)) (-1000000) idOrder sampleIso 5 true true = some g ∧
      g.empty = false ∧
      reset (advanceToNextConfiguration (advanceToNextConfiguration g).2).2 = g ∧
      (reset (advanceToNextConfiguration (advanceToNextConfiguration g).2).2).counter =
        [-1, 0] ∧
      reset (terminate_search (advanceToNextConfiguration g).2) = g := by
  obtain ⟨g, hg⟩ := Option.isSome_iff_exists.mp
    (by decide : (construct (fun _ => (-30 : Int)) (-1000000) idOrder sampleIso 5 true
      true).isSome = true)
  have hne : g.empty = false := by
    have h : ∀ g1, construct (fun _ => (-30 : Int)) (-1000000) idOrder sampleIso 5 true true =
        some g1 → g1.empty = false := by decide
    exact h g hg
  have hdim : g.dimNumber = 2 := by
    have h : ∀ g1, construct (fun _ => (-30 : Int)) (-1000000) idOrder sampleIso 5 true true =
        some g1 → g1.dimNumber = 2 := by decide
    exact h g hg
  have h1 := reset_restores_constructed_cursor (fun _ => (-30 : Int)) (-1000000) idOrder
    (fun l => List.Perm.refl _) sampleIso sampleIso_wf 5 true true g hg
    (advanceToNextConfiguration (advanceToNextConfiguration g).2).2
    (Reachable.advance _ (Reachable.advance _ Reachable.start))
  have h2 := reset_restores_constructed_cursor (fun _ => (-30 : Int)) (-1000000) idOrder
    (fun l => List.Perm.refl _) sampleIso sampleIso_wf 5 true true g hg
    (terminate_search (advanceToNextConfiguration g).2)
    (Reachable.terminate _ (Reachable.advance _ Reachable.start))
  refine ⟨g, hg, hne, h1.1, ?_, h2.1⟩
  rw [(h1.2.1 hne).1, hdim]
  rfl

end IsoThresholdGenerator

/-! ## The derived quantities of the descriptor -/

theorem realloc_append_eq {β : Type} (l : List β) (x : β) (n : Nat) (h : l.length = n) :
    realloc_append l x n = l ++ [x] := by
  unfold realloc_append
  rw [← h, List.take_length]

theorem Iso.empty_consistent {α : Type} [LinearOrderedCommRing α] :
    (Iso.empty : Iso α).Consistent :=
  ⟨rfl, rfl, rfl, rfl, by simp [Iso.empty], by simp [Iso.empty]⟩

theorem Iso.ofArrays_consistent {α : Type} [LinearOrderedCommRing α]
    (mk : List α → List α → Nat → Nat → Marginal α) (d : Nat) (ins acs : List Nat)
    (M P : List (List α)) (h1 : d ≤ ins.length) (h2 : d ≤ acs.length) :
    (Iso.ofArrays mk d ins acs M P).Consistent := by
  rw [ofArrays_eq]
  have hl : (ins.take d).length = d := by rw [List.length_take]; omega
  refine ⟨hl, by simp only [List.length_take]; omega, by simp, ?_, rfl, ?_⟩
  · show ((List.range d).map (fun ii => (ins.take d).getD ii 0)).sum = (ins.take d).sum
    have := map_range_getD (ins.take d) 0
    rw [hl] at this
    rw [this]
  · simp only [List.map_map]
    rfl

theorem Iso.addElement_spec {α : Type} [LinearOrderedCommRing α]
    (mk : List α → List α → Nat → Nat → Marginal α) (iso : Iso α) (h : iso.Consistent)
    (atomCount noIsotopes : Nat) (isotopeMasses isotopeProbabilities : List α) :
    (iso.addElement mk atomCount noIsotopes isotopeMasses isotopeProbabilities).Consistent ∧
    (iso.addElement mk atomCount noIsotopes isotopeMasses isotopeProbabilities).dimNumber =
      iso.dimNumber + 1 ∧
    (iso.addElement mk atomCount noIsotopes isotopeMasses isotopeProbabilities).isotopeNumbers =
      iso.isotopeNumbers ++ [noIsotopes] ∧
    (iso.addElement mk atomCount noIsotopes isotopeMasses isotopeProbabilities).atomCounts =
      iso.atomCounts ++ [atomCount] ∧
    (iso.addElement mk atomCount noIsotopes isotopeMasses isotopeProbabilities).marginals =
      iso.marginals ++ [mk isotopeMasses isotopeProbabilities noIsotopes atomCount] := by
  have e1 := realloc_append_eq iso.isotopeNumbers noIsotopes iso.dimNumber h.len_isotopeNumbers
  have e2 := realloc_append_eq iso.atomCounts atomCount iso.dimNumber h.len_atomCounts
  have e3 := realloc_append_eq iso.marginals
    (mk isotopeMasses isotopeProbabilities noIsotopes atomCount) iso.dimNumber h.len_marginals
  refine ⟨⟨?_, ?_, ?_, ?_, ?_, ?_⟩, rfl, e1, e2, e3⟩
  · show (realloc_append iso.isotopeNumbers noIsotopes iso.dimNumber).length = iso.dimNumber + 1
    rw [e1, List.length_append, h.len_isotopeNumbers]; rfl
  · show (realloc_append iso.atomCounts atomCount iso.dimNumber).length = iso.dimNumber + 1
    rw [e2, List.length_append, h.len_atomCounts]; rfl
  · show (realloc_append iso.marginals _ iso.dimNumber).length = iso.dimNumber + 1
    rw [e3, List.length_append, h.len_marginals]; rfl
  · show iso.allDim + noIsotopes =
      (realloc_append iso.isotopeNumbers noIsotopes iso.dimNumber).sum
    rw [e1, List.sum_append, h.allDim_eq]; simp
  · show iso.confSize + sizeofInt = (iso.dimNumber + 1) * sizeofInt
    rw [h.confSize_eq, Nat.add_mul, Nat.one_mul]
  · show iso.modeLProb + (mk isotopeMasses isotopeProbabilities noIsotopes
        atomCount).getModeLProb =
      ((realloc_append iso.marginals _ iso.dimNumber).map Marginal.getModeLProb).sum
    rw [e3, List.map_append, List.sum_append, h.modeLProb_eq]; simp

theorem Iso.addElements_consistent {α : Type} [LinearOrderedCommRing α]
    (mk : List α → List α → Nat → Nat → Marginal α) (calls : List (ElementArgs α)) :
    ∀ (iso : Iso α), iso.Consistent → (iso.addElements mk calls).Consistent := by
  induction calls with
  | nil => intro iso h; exact h
  | cons e calls ih =>
    intro iso h
    exact ih _ (Iso.addElement_spec mk iso h e.atomCount e.noIsotopes e.isotopeMasses
      e.isotopeProbabilities).1

/-- C18: Iso keeps its derived quantities consistent. The default-constructed empty
descriptor, the descriptor constructed from per-element arrays (which hold at least
`dimNumber` entries) and every descriptor obtained from a consistent one by a sequence of
addElement calls satisfy: allDim is the sum of isotopeNumbers over all elements, confSize
is dimNumber * sizeof(int), dimNumber is the number of elements (the length of each of the
three arrays), and modeLProb is the sum of the mode log-probabilities of the marginals.
One call of addElement increases dimNumber by 1 and appends the new element last in each
of the three arrays. -/
theorem iso_derived_quantities_consistent {α : Type} [LinearOrderedCommRing α]
    (mk : List α → List α → Nat → Nat → Marginal α) :
    (Iso.empty : Iso α).Consistent ∧
    (∀ (d : Nat) (ins acs : List Nat) (M P : List (List α)), d ≤ ins.length → d ≤ acs.length →
      (Iso.ofArrays mk d ins acs M P).Consistent) ∧
    (∀ (iso : Iso α), iso.Consistent → ∀ calls : List (ElementArgs α),
      (iso.addElements mk calls).Consistent) ∧
    (∀ (iso : Iso α), iso.Consistent →
      ∀ (atomCount noIsotopes : Nat) (isotopeMasses isotopeProbabilities : List α),
        (iso.addElement mk atomCount noIsotopes isotopeMasses isotopeProbabilities).dimNumber =
          iso.dimNumber + 1 ∧
        (iso.addElement mk atomCount noIsotopes isotopeMasses
          isotopeProbabilities).isotopeNumbers = iso.isotopeNumbers ++ [noIsotopes] ∧
        (iso.addElement mk atomCount noIsotopes isotopeMasses isotopeProbabilities).atomCounts =
          iso.atomCounts ++ [atomCount] ∧
        (iso.addElement mk atomCount noIsotopes isotopeMasses isotopeProbabilities).marginals =
          iso.marginals ++ [mk isotopeMasses isotopeProbabilities noIsotopes atomCount]) :=
  ⟨Iso.empty_consistent, fun d ins acs M P h1 h2 => Iso.ofArrays_consistent mk d ins acs M P h1 h2,
    fun iso h calls => Iso.addElements_consistent mk calls iso h,
    fun iso h ac ni ms ps => (Iso.addElement_spec mk iso h ac ni ms ps).2⟩

theorem iso_derived_quantities_consistent_witness :
    (Iso.ofArrays (Marginal.ofElement (fun x : Int => x - 1)) 2 [2, 2] [2, 1]
      [[1, 2], [10, 11]] [[9, 1], [8, 2]]).Consistent ∧
    ((Iso.empty : Iso Int).addElements (Marginal.ofElement (fun x : Int => x - 1))
      [⟨2, 2, [1, 2], [9, 1]⟩, ⟨1, 2, [10, 11], [8, 2]⟩]).Consistent ∧
    ((Iso.empty : Iso Int).addElement (Marginal.ofElement (fun x : Int => x - 1)) 2 2 [1, 2]
      [9, 1]).isotopeNumbers = [] ++ [2] :=
  ⟨(iso_derived_quantities_consistent (Marginal.ofElement (fun x : Int => x - 1))).2.1 2 [2, 2]
      [2, 1] [[1, 2], [10, 11]] [[9, 1], [8, 2]] (by decide) (by decide),
    (iso_derived_quantities_consistent (Marginal.ofElement (fun x : Int => x - 1))).2.2.1
      Iso.empty (iso_derived_quantities_consistent (Marginal.ofElement (fun x : Int => x - 1))).1
      _,
    ((iso_derived_quantities_consistent (Marginal.ofElement (fun x : Int => x - 1))).2.2.2
      Iso.empty (iso_derived_quantities_consistent (Marginal.ofElement (fun x : Int => x - 1))).1
      2 2 [1, 2] [9, 1]).2.1⟩

/-! ## Moving a descriptor -/

/-- C19: moving an Iso transfers ownership exactly once. After move-constructing B from A
every field of B (disowned, dimNumber, isotopeNumbers, atomCounts, confSize, allDim,
marginals, modeLProb) has the value A had before the move, A.disowned is true and all
other fields of A are unchanged. So if A owned its data before the move (disowned false),
afterwards B owns it and A does not: the destructor of B releases what the destructor of
A would have released, and the destructor of A releases nothing. The destructor of any
descriptor releases nothing when disowned is true, and releases both integer arrays (and
the table of marginals unless it is null) when disowned is false. -/
theorem iso_move_transfers_ownership_once {α : Type} (A : Iso α) (marginals_null : Bool) :
    (A.move.1.disowned = A.disowned ∧ A.move.1.dimNumber = A.dimNumber ∧
      A.move.1.isotopeNumbers = A.isotopeNumbers ∧ A.move.1.atomCounts = A.atomCounts ∧
      A.move.1.confSize = A.confSize ∧ A.move.1.allDim = A.allDim ∧
      A.move.1.marginals = A.marginals ∧ A.move.1.modeLProb = A.modeLProb) ∧
    (A.move.2.disowned = true ∧ A.move.2.dimNumber = A.dimNumber ∧
      A.move.2.isotopeNumbers = A.isotopeNumbers ∧ A.move.2.atomCounts = A.atomCounts ∧
      A.move.2.confSize = A.confSize ∧ A.move.2.allDim = A.allDim ∧
      A.move.2.marginals = A.marginals ∧ A.move.2.modeLProb = A.modeLProb) ∧
    (A.disowned = false →
      A.move.1.disowned = false ∧ A.move.2.disowned = true ∧
      A.move.1.destructor marginals_null = A.destructor marginals_null ∧
      A.move.2.destructor marginals_null = [] ∧
      Released.array A.isotopeNumbers ∈ A.move.1.destructor marginals_null ∧
      Released.array A.atomCounts ∈ A.move.1.destructor marginals_null ∧
      (marginals_null = false →
        Released.table A.marginals A.dimNumber ∈ A.move.1.destructor marginals_null)) ∧
    (∀ X : Iso α, (X.disowned = true → X.destructor marginals_null = []) ∧
      (X.disowned = false →
        Released.array X.isotopeNumbers ∈ X.destructor marginals_null ∧
        Released.array X.atomCounts ∈ X.destructor marginals_null ∧
        (marginals_null = false →
          Released.table X.marginals X.dimNumber ∈ X.destructor marginals_null))) := by
  have hX : ∀ X : Iso α, (X.disowned = true → X.destructor marginals_null = []) ∧
      (X.disowned = false →
        Released.array X.isotopeNumbers ∈ X.destructor marginals_null ∧
        Released.array X.atomCounts ∈ X.destructor marginals_null ∧
        (marginals_null = false →
          Released.table X.marginals X.dimNumber ∈ X.destructor marginals_null)) := by
    intro X
    constructor
    · intro h
      simp [Iso.destructor, h]
    · intro h
      refine ⟨by simp [Iso.destructor, h], by simp [Iso.destructor, h], ?_⟩
      intro hn
      simp [Iso.destructor, h, hn]
  refine ⟨⟨rfl, rfl, rfl, rfl, rfl, rfl, rfl, rfl⟩, ⟨rfl, rfl, rfl, rfl, rfl, rfl, rfl, rfl⟩, ?_,
    hX⟩
  intro h
  have hB := (hX A.move.1).2 h
  exact ⟨h, rfl, rfl, (hX A.move.2).1 rfl, hB.1, hB.2.1, hB.2.2⟩

theorem iso_move_transfers_ownership_once_witness :
    sampleIso.move.1 = sampleIso ∧ sampleIso.move.2.disowned = true ∧
    sampleIso.move.1.destructor false =
      [Released.table [sampleMarginalA, sampleMarginalB] 2, Released.array [2, 2],
        Released.array [2, 1]] ∧
    sampleIso.move.2.destructor false = [] :=
  ⟨rfl, (iso_move_transfers_ownership_once sampleIso false).2.1.1,
    ((iso_move_transfers_ownership_once sampleIso false).2.2.1 rfl).2.2.1.trans rfl,
    ((iso_move_transfers_ownership_once sampleIso false).2.2.1 rfl).2.2.2.1⟩

namespace IsoThresholdGenerator

variable {α : Type} [LinearOrderedCommRing α]

/-! ### The cutoffs of the marginals -/

theorem mem_ofMarginal (m : Marginal α) (cut : α) (c : MarginalConf α) :
    c ∈ (PrecalculatedMarginal.ofMarginal m cut).confs ↔ c ∈ m.confs ∧ cut ≤ c.lprob := by
  simp [PrecalculatedMarginal.ofMarginal, List.mem_filter]

/-- In a well-formed marginal no configuration is more probable than the mode, and the
mode is one of the configurations. -/
theorem marginal_mode_spec (m : Marginal α) (h : m.WF) :
    (∀ c ∈ m.confs, c.lprob ≤ m.getModeLProb) ∧ ∃ c ∈ m.confs, c.lprob = m.getModeLProb := by
  obtain ⟨hsorted, hhead⟩ := h
  cases hc : m.confs with
  | nil => rw [hc] at hhead; simp at hhead
  | cons c0 rest =>
    rw [hc] at hhead hsorted
    simp only [List.head?_cons, Option.map_some', Option.some.injEq] at hhead
    refine ⟨?_, c0, List.mem_cons_self _ _, hhead⟩
    intro c hcm
    rcases List.mem_cons.mp hcm with rfl | hr
    · exact le_of_eq hhead
    · exact ((List.pairwise_cons.mp hsorted).1 c hr).trans (le_of_eq hhead)

theorem modeLProb_eq_sum (iso : Iso α) (hc : iso.Consistent) :
    iso.modeLProb =
      ∑ j in Finset.range iso.dimNumber, (iso.marginals.getD j ⟨0, 0, [], 0⟩).getModeLProb := by
  rw [hc.modeLProb_eq, ← sum_map_range_eq, ← hc.len_marginals]
  congr 1
  conv_lhs => rw [← map_range_getD iso.marginals ⟨0, 0, [], 0⟩]
  rw [List.map_map]
  rfl

/-- C20: the cutoff the IsoThresholdGenerator constructor passes to marginal `i` is
Lcutoff minus the sum of the mode log-probabilities of the other elements, and it selects
exactly the useful configurations. (a) If a joint configuration, one configuration `cs[j]`
of every element `j`, has log-probability at least Lcutoff, then each of its components is
in the precalculated table of its element. (b) Every configuration in the precalculated
table of an element is a component of a joint configuration of log-probability at least
Lcutoff. The descriptor is consistent (modeLProb is the sum of the modes) and every
marginal lists its mode first; exact arithmetic. -/
theorem threshold_marginal_cutoff_exact (log : α → α) (lowest : α)
    (sortOrder : List (PrecalculatedMarginal α) → List Nat)
    (iso : Iso α) (hc : iso.Consistent) (hwf : iso.MarginalsWF) (thr : α)
    (ab reorder : Bool) :
    (∀ i, i < iso.dimNumber →
      (constructBase log lowest sortOrder iso thr ab reorder).marginalResultsUnsorted.getD i
          default =
        PrecalculatedMarginal.ofMarginal (iso.marginals.getD i ⟨0, 0, [], 0⟩)
          ((constructBase log lowest sortOrder iso thr ab reorder).Lcutoff -
            ∑ j in (Finset.range iso.dimNumber).erase i,
              (iso.marginals.getD j ⟨0, 0, [], 0⟩).getModeLProb)) ∧
    (∀ cs : List (MarginalConf α),
      (∀ j, j < iso.dimNumber →
        cs.getD j ⟨0, 0, 0, []⟩ ∈ (iso.marginals.getD j ⟨0, 0, [], 0⟩).confs) →
      (constructBase log lowest sortOrder iso thr ab reorder).Lcutoff ≤
        ∑ j in Finset.range iso.dimNumber, (cs.getD j ⟨0, 0, 0, []⟩).lprob →
      ∀ i, i < iso.dimNumber → cs.getD i ⟨0, 0, 0, []⟩ ∈
        ((constructBase log lowest sortOrder iso thr ab reorder).marginalResultsUnsorted.getD i
          default).confs) ∧
    (∀ i, i < iso.dimNumber → ∀ c,
      c ∈ ((constructBase log lowest sortOrder iso thr ab reorder).marginalResultsUnsorted.getD i
        default).confs →
      ∃ cs : List (MarginalConf α), cs.length = iso.dimNumber ∧
        (∀ j, j < iso.dimNumber →
          cs.getD j ⟨0, 0, 0, []⟩ ∈ (iso.marginals.getD j ⟨0, 0, [], 0⟩).confs) ∧
        cs.getD i ⟨0, 0, 0, []⟩ = c ∧
        (constructBase log lowest sortOrder iso thr ab reorder).Lcutoff ≤
          ∑ j in Finset.range iso.dimNumber, (cs.getD j ⟨0, 0, 0, []⟩).lprob) := by
  generalize hL : (constructBase log lowest sortOrder iso thr ab reorder).Lcutoff = L
  have hun : (constructBase log lowest sortOrder iso thr ab reorder).marginalResultsUnsorted =
      mkUnsorted iso L := by rw [← hL]; rfl
  rw [hun]
  have hmode := modeLProb_eq_sum iso hc
  have hsplit : ∀ i, i < iso.dimNumber → iso.modeLProb =
      (iso.marginals.getD i ⟨0, 0, [], 0⟩).getModeLProb +
        ∑ j in (Finset.range iso.dimNumber).erase i,
          (iso.marginals.getD j ⟨0, 0, [], 0⟩).getModeLProb := by
    intro i hi
    rw [hmode]
    exact (Finset.add_sum_erase _ _ (Finset.mem_range.mpr hi)).symm
  have hget : ∀ i, i < iso.dimNumber → (mkUnsorted iso L).getD i default =
      PrecalculatedMarginal.ofMarginal (iso.marginals.getD i ⟨0, 0, [], 0⟩)
        (L - iso.modeLProb + (iso.marginals.getD i ⟨0, 0, [], 0⟩).getModeLProb) :=
    fun i hi => getD_map_range _ _ _ hi _
  have hmem : ∀ j, j < iso.dimNumber → (iso.marginals.getD j ⟨0, 0, [], 0⟩).WF := by
    intro j hj
    apply hwf.2
    rw [List.getD_eq_getElem _ _ (by rw [hwf.1]; exact hj)]
    exact List.getElem_mem _
  refine ⟨?_, ?_, ?_⟩
  · intro i hi
    rw [hget i hi]
    congr 1
    rw [hsplit i hi]
    ring
  · intro cs hcs hsum i hi
    rw [hget i hi, mem_ofMarginal]
    refine ⟨hcs i hi, ?_⟩
    have hle : ∑ j in (Finset.range iso.dimNumber).erase i, (cs.getD j ⟨0, 0, 0, []⟩).lprob ≤
        ∑ j in (Finset.range iso.dimNumber).erase i,
          (iso.marginals.getD j ⟨0, 0, [], 0⟩).getModeLProb := by
      apply Finset.sum_le_sum
      intro j hj
      have hj' : j < iso.dimNumber := Finset.mem_range.mp (Finset.mem_of_mem_erase hj)
      exact (marginal_mode_spec _ (hmem j hj')).1 _ (hcs j hj')
    rw [← Finset.add_sum_erase _ _ (Finset.mem_range.mpr hi)] at hsum
    rw [hsplit i hi]
    linarith
  · intro i hi c hcm
    rw [hget i hi, mem_ofMarginal] at hcm
    obtain ⟨hcin, hcut⟩ := hcm
    have hch : ∀ j, j < iso.dimNumber → ∃ x, x ∈ (iso.marginals.getD j ⟨0, 0, [], 0⟩).confs ∧
        x.lprob = (iso.marginals.getD j ⟨0, 0, [], 0⟩).getModeLProb := by
      intro j hj
      obtain ⟨x, hx1, hx2⟩ := (marginal_mode_spec _ (hmem j hj)).2
      exact ⟨x, hx1, hx2⟩
    let pick : Nat → MarginalConf α := fun j =>
      if j = i then c
      else if hj : j < iso.dimNumber then Classical.choose (hch j hj) else ⟨0, 0, 0, []⟩
    have hpick : ∀ j, j < iso.dimNumber →
        ((List.range iso.dimNumber).map pick).getD j ⟨0, 0, 0, []⟩ = pick j :=
      fun j hj => getD_map_range _ _ _ hj _
    have hpi : pick i = c := by simp [pick]
    have hpj : ∀ j, j < iso.dimNumber → j ≠ i →
        pick j ∈ (iso.marginals.getD j ⟨0, 0, [], 0⟩).confs ∧
        (pick j).lprob = (iso.marginals.getD j ⟨0, 0, [], 0⟩).getModeLProb := by
      intro j hj hji
      have : pick j = Classical.choose (hch j hj) := by simp [pick, hji, hj]
      rw [this]
      exact Classical.choose_spec (hch j hj)
    refine ⟨(List.range iso.dimNumber).map pick, by simp, ?_, ?_, ?_⟩
    · intro j hj
      rw [hpick j hj]
      by_cases hji : j = i
      · rw [hji, hpi]; exact hcin
      · exact (hpj j hj hji).1
    · rw [hpick i hi, hpi]
    · have hs : ∑ j in Finset.range iso.dimNumber,
          (((List.range iso.dimNumber).map pick).getD j ⟨0, 0, 0, []⟩).lprob =
          c.lprob + ∑ j in (Finset.range iso.dimNumber).erase i,
            (iso.marginals.getD j ⟨0, 0, [], 0⟩).getModeLProb := by
        rw [← Finset.add_sum_erase _ _ (Finset.mem_range.mpr hi), hpick i hi, hpi]
        congr 1
        apply Finset.sum_congr rfl
        intro j hj
        have hj' : j < iso.dimNumber := Finset.mem_range.mp (Finset.mem_of_mem_erase hj)
        rw [hpick j hj', (hpj j hj' (Finset.ne_of_mem_erase hj)).2]
      rw [hs]
      have := hsplit i hi
      linarith

theorem sampleIso_consistent : sampleIso.Consistent :=
  ⟨rfl, rfl, rfl, rfl, rfl, rfl⟩

theorem threshold_marginal_cutoff_exact_witness :
    (constructBase (fun _ => (-30 : Int)) (-1000000) idOrder sampleIso 5 true
        true).marginalResultsUnsorted.getD 0 default =
      PrecalculatedMarginal.ofMarginal sampleMarginalA (-30 - -2) ∧
    (⟨-17, 3, 18, [1, 1]⟩ : MarginalConf Int) ∈
      ((constructBase (fun _ => (-30 : Int)) (-1000000) idOrder sampleIso 5 true
        true).marginalResultsUnsorted.getD 0 default).confs :=
  ⟨((threshold_marginal_cutoff_exact (fun _ => (-30 : Int)) (-1000000) idOrder sampleIso
      sampleIso_consistent sampleIso_wf 5 true true).1 0 (by decide)).trans (by decide),
    (threshold_marginal_cutoff_exact (fun _ => (-30 : Int)) (-1000000) idOrder sampleIso
      sampleIso_consistent sampleIso_wf 5 true true).2.1
      [⟨-17, 3, 18, [1, 1]⟩, ⟨-2, 10, 8, [1, 0]⟩] (by decide) (by decide) 0 (by decide)⟩

end IsoThresholdGenerator

namespace IsoThresholdGenerator

variable {α : Type} [LinearOrderedCommRing α]

/-! ### Counting from the middle of the enumeration -/

/-- More iterations than the enumeration needs change nothing. -/
theorem enumerate_mono (fuel : Nat) : ∀ (g : IsoThresholdGenerator α) (l : List (Emitted α)),
    enumerate fuel g = some l → ∀ m, enumerate (fuel + m) g = some l := by
  induction fuel with
  | zero => intro g l h; simp [enumerate] at h
  | succ fuel ih =>
    intro g l h m
    rw [show fuel + 1 + m = (fuel + m) + 1 from by omega]
    rw [enumerate_succ] at h ⊢
    cases hb : (advanceToNextConfiguration g).1 with
    | false =>
      rw [show advanceToNextConfiguration g =
        (false, (advanceToNextConfiguration g).2) from by rw [← hb]] at h ⊢
      exact h
    | true =>
      rw [show advanceToNextConfiguration g =
        (true, (advanceToNextConfiguration g).2) from by rw [← hb]] at h ⊢
      simp only at h ⊢
      cases he : enumerate fuel (advanceToNextConfiguration g).2 with
      | none => rw [he] at h; simp at h
      | some l1 =>
        rw [he] at h
        rw [ih _ l1 he m]
        exact h

/-- The first `k` calls of advance of an enumeration that emits `l` succeed, for
`k ≤ l.length`, and the enumeration from the state they lead to emits the rest of `l`. -/
theorem enumerate_advanceN (fuel : Nat) : ∀ (g : IsoThresholdGenerator α)
    (l : List (Emitted α)), enumerate fuel g = some l → ∀ k, k ≤ l.length →
    (∀ j, j < k → (advanceToNextConfiguration (advanceN j g)).1 = true) ∧
    enumerate fuel (advanceN k g) = some (l.drop k) := by
  induction fuel with
  | zero => intro g l h; simp [enumerate] at h
  | succ fuel ih =>
    intro g l h k hk
    cases k with
    | zero => exact ⟨fun j hj => absurd hj (by omega), h⟩
    | succ k =>
      have h0 := h
      rw [enumerate_succ] at h
      cases hb : (advanceToNextConfiguration g).1 with
      | false =>
        rw [show advanceToNextConfiguration g =
          (false, (advanceToNextConfiguration g).2) from by rw [← hb]] at h
        simp only [Option.some.injEq] at h
        subst h
        simp at hk
      | true =>
        rw [show advanceToNextConfiguration g =
          (true, (advanceToNextConfiguration g).2) from by rw [← hb]] at h
        simp only at h
        cases he : enumerate fuel (advanceToNextConfiguration g).2 with
        | none => rw [he] at h; simp at h
        | some l1 =>
          rw [he] at h
          simp only [Option.map_some', Option.some.injEq] at h
          subst h
          obtain ⟨h1, h2⟩ := ih _ l1 he k (by simpa using hk)
          have hstep : ∀ j, advanceN (j + 1) g = advanceN j (advanceToNextConfiguration g).2 := by
            intro j
            unfold advanceN
            rw [Function.iterate_succ_apply]
          refine ⟨?_, ?_⟩
          · intro j hj
            cases j with
            | zero => exact hb
            | succ j => rw [hstep]; exact h1 j (by omega)
          · rw [hstep, List.drop_succ_cons]
            have := enumerate_mono fuel _ _ h2 1
            exact this

/-- C30: count_confs() counts from the current cursor position, not from the start. On a
constructed IsoThresholdGenerator whose enumeration emits the list `l` of N
configurations, for every k with 0 <= k <= N the first k calls of advance succeed, and
count_confs() called after them returns N - k (the loop ends within the bound) and leaves
the state the constructor left, the cursor before the first configuration, so that a
following full enumeration emits all N configurations of `l`. -/
theorem count_confs_counts_from_cursor (log : α → α) (lowest : α)
    (sortOrder : List (PrecalculatedMarginal α) → List Nat)
    (hsort : ∀ l, (sortOrder l).Perm (List.range l.length))
    (iso : Iso α) (hiso : iso.MarginalsWF) (thr : α) (ab reorder : Bool)
    (g : IsoThresholdGenerator α)
    (hg : construct log lowest sortOrder iso thr ab reorder = some g) :
    ∃ l : List (Emitted α), enumerate (fuelBound g) g = some l ∧
      ∀ k, k ≤ l.length →
        (∀ j, j < k → (advanceToNextConfiguration (advanceN j g)).1 = true) ∧
        ∃ g1, count_confs (fuelBound g) (advanceN k g) = some (l.length - k, g1) ∧
          g1 = g ∧ enumerate (fuelBound g) g1 = some l := by
  obtain ⟨l, hl, _⟩ := construct_count_enumerate log lowest sortOrder hsort iso hiso thr ab
    reorder g hg
  have hreset := reset_reachable log lowest sortOrder hsort iso hiso thr ab reorder g hg
  refine ⟨l, hl, ?_⟩
  intro k hk
  obtain ⟨h1, h2⟩ := enumerate_advanceN (fuelBound g) g l hl k hk
  refine ⟨h1, g, ?_, rfl, hl⟩
  obtain ⟨k1, hk1⟩ := finalState_advanceN (fuelBound g) (advanceN k g)
  have hcount := count_confs_loop_eq (fuelBound g) (advanceN k g) 0 (l.drop k) h2
  have hcomp : advanceN k1 (advanceN k g) = advanceN (k1 + k) g := by
    unfold advanceN
    rw [Function.iterate_add_apply]
  rw [hk1, hcomp, hreset (k1 + k), Nat.zero_add, List.length_drop] at hcount
  exact hcount

theorem count_confs_counts_from_cursor_witness :
    ∃ g, construct (fun _ => (-30 : Int)) (-1000000) idOrder sampleIso 5 true true = some g ∧
      ∃ l : List (Emitted Int), enumerate (fuelBound g) g = some l ∧ l.length = 3 ∧
        count_confs (fuelBound g) (advanceN 2 g) = some (1, g) ∧
        count_confs (fuelBound g) (advanceN 3 g) = some (0, g) := by
  obtain ⟨g, hg, _, he⟩ := ThresholdTabulator.sample_enumerate
  obtain ⟨l, hl, h⟩ := count_confs_counts_from_cursor (fun _ => (-30 : Int)) (-1000000) idOrder
    (fun l => List.Perm.refl _) sampleIso sampleIso_wf 5 true true g hg
  have hlen : l.length = 3 := by
    rw [he] at hl
    cases hl
    rfl
  refine ⟨g, hg, l, hl, hlen, ?_, ?_⟩
  · obtain ⟨_, g1, hc, hg1, _⟩ := h 2 (by omega)
    rw [hc, hg1, hlen]
  · obtain ⟨_, g1, hc, hg1, _⟩ := h 3 (by omega)
    rw [hc, hg1, hlen]

end IsoThresholdGenerator

/-! ## The termination sentinel -/

/-- C25 (as the code has it): terminate_search, of the threshold and of the layered
generator, sets every counter[i] to get_no_confs() - 1 of marginal i, which is the last
valid index of the marginal's list when the marginal has a configuration and -1, no index
of the list, when it has none; it sets partialLProbs[0..dimNumber], the identity slot
partialLProbs[dimNumber] included, to negative infinity and leaves partialMasses and
partialProbs unchanged. A threshold generator constructed empty has a marginal without a
configuration in range, is left in this state by its constructor, fails to advance, and
its count_confs() is 0. -/
theorem terminate_search_sentinel {α : Type} [LinearOrderedCommRing α] :
    (∀ g : IsoThresholdGenerator α,
      (IsoThresholdGenerator.terminate_search g).counter.length = g.dimNumber ∧
      (∀ i, i < g.dimNumber →
        (IsoThresholdGenerator.terminate_search g).counter.getD i 0 =
          ((g.marginalResults.getD i default).get_no_confs : Int) - 1 ∧
        (0 < (g.marginalResults.getD i default).get_no_confs →
          (g.marginalResults.getD i default).inRange
            ((IsoThresholdGenerator.terminate_search g).counter.getD i 0) = true ∧
          (g.marginalResults.getD i default).inRange
            ((IsoThresholdGenerator.terminate_search g).counter.getD i 0 + 1) = false) ∧
        ((g.marginalResults.getD i default).get_no_confs = 0 →
          (IsoThresholdGenerator.terminate_search g).counter.getD i 0 = -1)) ∧
      (IsoThresholdGenerator.terminate_search g).partialLProbs =
        List.replicate (g.dimNumber + 1) ⊥ ∧
      (IsoThresholdGenerator.terminate_search g).partialMasses = g.partialMasses ∧
      (IsoThresholdGenerator.terminate_search g).partialProbs = g.partialProbs) ∧
    (∀ g : IsoLayeredGenerator α,
      (IsoLayeredGenerator.terminate_search g).counter.length = g.dimNumber ∧
      (∀ i, i < g.dimNumber →
        (IsoLayeredGenerator.terminate_search g).counter.getD i 0 =
          ((g.marginalResults.getD i default).get_no_confs : Int) - 1 ∧
        (0 < (g.marginalResults.getD i default).get_no_confs →
          0 ≤ (IsoLayeredGenerator.terminate_search g).counter.getD i 0 ∧
          (IsoLayeredGenerator.terminate_search g).counter.getD i 0 + 1 =
            ((g.marginalResults.getD i default).get_no_confs : Int)) ∧
        ((g.marginalResults.getD i default).get_no_confs = 0 →
          (IsoLayeredGenerator.terminate_search g).counter.getD i 0 = -1)) ∧
      (IsoLayeredGenerator.terminate_search g).partialLProbs =
        List.replicate (g.dimNumber + 1) ⊥ ∧
      (IsoLayeredGenerator.terminate_search g).partialMasses = g.partialMasses ∧
      (IsoLayeredGenerator.terminate_search g).partialProbs = g.partialProbs) ∧
    (∀ (log : α → α) (lowest : α) (sortOrder : List (PrecalculatedMarginal α) → List Nat)
      (iso : Iso α) (thr : α) (ab reorder : Bool) (g : IsoThresholdGenerator α),
      (∀ l, (sortOrder l).Perm (List.range l.length)) → iso.MarginalsWF →
      IsoThresholdGenerator.construct log lowest sortOrder iso thr ab reorder = some g →
      g.empty = true →
      (∃ m ∈ g.marginalResultsUnsorted, m.get_no_confs = 0) ∧
      IsoThresholdGenerator.terminate_search g = g ∧
      (IsoThresholdGenerator.advanceToNextConfiguration g).1 = false ∧
      IsoThresholdGenerator.count_confs (IsoThresholdGenerator.fuelBound g) g = some (0, g)) := by
  refine ⟨?_, ?_, ?_⟩
  · intro g
    refine ⟨by simp [IsoThresholdGenerator.terminate_search], ?_, rfl, rfl, rfl⟩
    intro i hi
    have hc : (IsoThresholdGenerator.terminate_search g).counter.getD i 0 =
        ((g.marginalResults.getD i default).get_no_confs : Int) - 1 :=
      getD_map_range _ _ _ hi _
    rw [hc]
    refine ⟨rfl, ?_, ?_⟩
    · intro hpos
      constructor
      · simp only [PrecalculatedMarginal.inRange, Bool.and_eq_true, decide_eq_true_eq]
        unfold PrecalculatedMarginal.get_no_confs at hpos ⊢
        omega
      · simp only [PrecalculatedMarginal.inRange, Bool.and_eq_false_iff, decide_eq_false_iff_not]
        unfold PrecalculatedMarginal.get_no_confs
        right
        omega
    · intro h0
      rw [h0]
      rfl
  · intro g
    refine ⟨by simp [IsoLayeredGenerator.terminate_search], ?_, rfl, rfl, rfl⟩
    intro i hi
    have hc : (IsoLayeredGenerator.terminate_search g).counter.getD i 0 =
        ((g.marginalResults.getD i default).get_no_confs : Int) - 1 :=
      getD_map_range _ _ _ hi _
    rw [hc]
    refine ⟨rfl, ?_, ?_⟩
    · intro hpos
      constructor <;> omega
    · intro h0
      rw [h0]
      rfl
  · intro log lowest sortOrder iso thr ab reorder g hsort hiso hg hge
    obtain ⟨hdim, hcase⟩ :=
      IsoThresholdGenerator.construct_cases log lowest sortOrder iso thr ab reorder g hg
    have hrg := (IsoThresholdGenerator.reset_of_reachable log lowest sortOrder hsort iso hiso thr
      ab reorder g hg g IsoThresholdGenerator.Reachable.start).1
    have hts : IsoThresholdGenerator.terminate_search g = g := by
      unfold IsoThresholdGenerator.reset at hrg
      rwa [if_pos hge] at hrg
    have hdead : IsoThresholdGenerator.Dead g := by
      rw [← hts]; exact IsoThresholdGenerator.terminate_search_dead g
    have hadv := IsoThresholdGenerator.advance_dead g hdead
    have hadv2 := IsoThresholdGenerator.advance_dead_eq g hdead
    refine ⟨?_, hts, hadv.1, ?_⟩
    · rcases hcase with ⟨hne, hg'⟩ | ⟨hemp, hg'⟩
      · rw [hg'] at hge
        have : (IsoThresholdGenerator.constructBase log lowest sortOrder iso thr ab
            reorder).empty = true := by
          have hs := IsoThresholdGenerator.recalc_same
            (IsoThresholdGenerator.constructBase log lowest sortOrder iso thr ab reorder)
            ((IsoThresholdGenerator.constructBase log lowest sortOrder iso thr ab
              reorder).dimNumber - 1)
          rw [← hs.2.2.2.2.1]
          exact hge
        rw [hne] at this
        exact absurd this (by simp)
      · have hany : (IsoThresholdGenerator.constructBase log lowest sortOrder iso thr ab
            reorder).marginalResultsUnsorted.any (fun m => !m.inRange 0) = true := hemp
        rw [List.any_eq_true] at hany
        obtain ⟨m, hm, hin⟩ := hany
        refine ⟨m, by rw [hg']; exact hm, ?_⟩
        simp only [PrecalculatedMarginal.inRange, Bool.not_eq_true', Bool.and_eq_false_iff,
          decide_eq_false_iff_not] at hin
        unfold PrecalculatedMarginal.get_no_confs
        rcases hin with h | h
        · omega
        · simpa using h
    · have hfb : IsoThresholdGenerator.fuelBound g =
          (IsoThresholdGenerator.fuelBound g - 1) + 1 := by
        unfold IsoThresholdGenerator.fuelBound
        omega
      rw [hfb]
      unfold IsoThresholdGenerator.count_confs IsoThresholdGenerator.count_confs_loop
      rw [show IsoThresholdGenerator.advanceToNextConfiguration g =
        (false, (IsoThresholdGenerator.advanceToNextConfiguration g).2) from by rw [← hadv.1]]
      simp only
      rw [hadv2, hts, hrg]

theorem terminate_search_sentinel_witness :
    (IsoThresholdGenerator.terminate_search
      (IsoThresholdGenerator.constructBase (fun _ => (-30 : Int)) (-1000000) idOrder sampleIso 5
        true true)).counter = [1, 1] ∧
    (IsoThresholdGenerator.terminate_search
      (IsoThresholdGenerator.constructBase (fun _ => (-30 : Int)) (-1000000) idOrder sampleIso 5
        true true)).partialLProbs = [⊥, ⊥, ⊥] ∧
    ((IsoThresholdGenerator.constructBase (fun _ => (-30 : Int)) (-1000000) idOrder sampleIso 5
        true true).marginalResults.getD 0 default).inRange
      ((IsoThresholdGenerator.terminate_search
        (IsoThresholdGenerator.constructBase (fun _ => (-30 : Int)) (-1000000) idOrder sampleIso
          5 true true)).counter.getD 0 0) = true :=
  ⟨by decide,
    (terminate_search_sentinel.1 (IsoThresholdGenerator.constructBase (fun _ => (-30 : Int))
      (-1000000) idOrder sampleIso 5 true true)).2.2.1,
    (((terminate_search_sentinel.1 (IsoThresholdGenerator.constructBase (fun _ => (-30 : Int))
      (-1000000) idOrder sampleIso 5 true true)).2.1 0 (by decide)).2.1 (by decide)).1⟩

/-- The constructor of the threshold generator with a cutoff above every configuration
leaves an empty generator; terminate_search sets its counters to -1, which is not an index
of the (empty) lists of its marginals. -/
theorem terminate_search_counter_outside_empty_list :
    (IsoThresholdGenerator.constructBase (fun _ => (100 : Int)) (-1000000) idOrder sampleIso 5
      true true).empty = true ∧
    (IsoThresholdGenerator.terminate_search
      (IsoThresholdGenerator.constructBase (fun _ => (100 : Int)) (-1000000) idOrder sampleIso 5
        true true)).counter = [-1, -1] ∧
    ((IsoThresholdGenerator.constructBase (fun _ => (100 : Int)) (-1000000) idOrder sampleIso 5
      true true).marginalResults.getD 0 default).get_no_confs = 0 ∧
    ((IsoThresholdGenerator.constructBase (fun _ => (100 : Int)) (-1000000) idOrder sampleIso 5
        true true).marginalResults.getD 0 default).inRange
      ((IsoThresholdGenerator.terminate_search
        (IsoThresholdGenerator.constructBase (fun _ => (100 : Int)) (-1000000) idOrder sampleIso
          5 true true)).counter.getD 0 0) = false := by
  decide

/-! ## The order of the marginals and the sums of the modes -/

/-- The loop `marginalOrder[tmpMarginalOrder[ii]] = ii` after `n` passes. -/
theorem marginalOrder_loop (tmp : List Nat) (d : Nat) (hnd : tmp.Nodup) (hlen : tmp.length = d)
    (hlt : ∀ x ∈ tmp, x < d) (n : Nat) (hn : n ≤ d) :
    ((List.range n).foldl (fun mo ii => mo.set (tmp.getD ii 0) ii)
      (List.replicate d 0)).length = d ∧
    ∀ ii, ii < n → ((List.range n).foldl (fun mo ii => mo.set (tmp.getD ii 0) ii)
      (List.replicate d 0)).getD (tmp.getD ii 0) 0 = ii := by
  induction n with
  | zero => exact ⟨by simp, fun ii h => absurd h (by omega)⟩
  | succ n ih =>
    obtain ⟨h1, h2⟩ := ih (by omega)
    rw [List.range_succ, List.foldl_append]
    simp only [List.foldl_cons, List.foldl_nil]
    refine ⟨by rw [List.length_set]; exact h1, ?_⟩
    intro ii hii
    have hn' : n < tmp.length := by omega
    have hgn : tmp.getD n 0 = tmp[n] := List.getD_eq_getElem _ _ hn'
    by_cases he : ii = n
    · subst he
      rw [getD_set_eq _ _ _ _ (by rw [h1, hgn]; exact hlt _ (List.getElem_mem _))]
    · have hii' : ii < tmp.length := by omega
      have hgi : tmp.getD ii 0 = tmp[ii] := List.getD_eq_getElem _ _ hii'
      have hne : tmp.getD n 0 ≠ tmp.getD ii 0 := by
        rw [hgn, hgi]
        intro heq
        exact he ((List.Nodup.getElem_inj_iff hnd).mp heq).symm
      rw [getD_set_ne _ _ _ _ _ hne]
      exact h2 ii (by omega)

/-- The array `marginalOrder` is the inverse of the sorting permutation. -/
theorem mkMarginalOrder_inverse (tmp : List Nat) (d : Nat) (hp : tmp.Perm (List.range d)) :
    (IsoThresholdGenerator.mkMarginalOrder tmp d).Perm (List.range d) ∧
    ∀ i, i < d →
      (IsoThresholdGenerator.mkMarginalOrder tmp d).getD (tmp.getD i 0) 0 = i ∧
      tmp.getD ((IsoThresholdGenerator.mkMarginalOrder tmp d).getD i 0) 0 = i ∧
      (IsoThresholdGenerator.mkMarginalOrder tmp d).getD i 0 < d := by
  have hnd : tmp.Nodup := hp.nodup_iff.mpr (List.nodup_range d)
  have hlen : tmp.length = d := by rw [hp.length_eq, List.length_range]
  have hlt : ∀ x ∈ tmp, x < d := fun x hx => List.mem_range.mp (hp.mem_iff.mp hx)
  obtain ⟨h1, h2⟩ := marginalOrder_loop tmp d hnd hlen hlt d le_rfl
  have hmo : IsoThresholdGenerator.mkMarginalOrder tmp d =
      (List.range d).foldl (fun mo ii => mo.set (tmp.getD ii 0) ii) (List.replicate d 0) := rfl
  rw [← hmo] at h1 h2
  have hsurj : ∀ i, i < d → ∃ ii, ii < d ∧ tmp.getD ii 0 = i := by
    intro i hi
    have hm : i ∈ tmp := hp.mem_iff.mpr (List.mem_range.mpr hi)
    obtain ⟨ii, hii, he⟩ := List.getElem_of_mem hm
    exact ⟨ii, by omega, by rw [List.getD_eq_getElem _ _ hii]; exact he⟩
  have hinv : ∀ i, i < d →
      tmp.getD ((IsoThresholdGenerator.mkMarginalOrder tmp d).getD i 0) 0 = i ∧
      (IsoThresholdGenerator.mkMarginalOrder tmp d).getD i 0 < d := by
    intro i hi
    obtain ⟨ii, hii, he⟩ := hsurj i hi
    have := h2 ii hii
    rw [he] at this
    rw [this]
    exact ⟨he, hii⟩
  refine ⟨?_, fun i hi => ⟨h2 i hi, (hinv i hi).1, (hinv i hi).2⟩⟩
  have hndm : (IsoThresholdGenerator.mkMarginalOrder tmp d).Nodup := by
    rw [List.nodup_iff_injective_get]
    intro a b hab
    have ha : a.1 < d := by have := a.2; omega
    have hb : b.1 < d := by have := b.2; omega
    have e1 : (IsoThresholdGenerator.mkMarginalOrder tmp d).getD a.1 0 =
        (IsoThresholdGenerator.mkMarginalOrder tmp d).get a := by
      rw [List.getD_eq_getElem _ _ a.2]; rfl
    have e2 : (IsoThresholdGenerator.mkMarginalOrder tmp d).getD b.1 0 =
        (IsoThresholdGenerator.mkMarginalOrder tmp d).get b := by
      rw [List.getD_eq_getElem _ _ b.2]; rfl
    have h3 := (hinv a.1 ha).1
    have h4 := (hinv b.1 hb).1
    rw [e1, hab, ← e2, h4] at h3
    exact Fin.ext h3.symm
  have hsub : (IsoThresholdGenerator.mkMarginalOrder tmp d) ⊆ List.range d := by
    intro x hx
    obtain ⟨i, hi, he⟩ := List.getElem_of_mem hx
    rw [List.mem_range, ← he, ← List.getD_eq_getElem _ 0 hi]
    exact (hinv i (by omega)).2
  exact (List.subperm_of_subset hndm hsub).perm_of_length_le (by rw [h1, List.length_range])

/-- The loop that fills `maxConfsLPSum`, after `n` passes. -/
theorem fillMaxConfsLPSum_loop {α : Type} [LinearOrderedCommRing α] (modes : List α) (d : Nat)
    (n : Nat) (hn : n + 2 ≤ d) :
    ((List.range n).foldl (fun t i => t.set (i + 1) (t.getD i 0 + modes.getD (i + 1) 0))
      ((List.replicate (d - 1) (0 : α)).set 0 (modes.getD 0 0))).length = d - 1 ∧
    ∀ k, k ≤ n → ((List.range n).foldl
      (fun t i => t.set (i + 1) (t.getD i 0 + modes.getD (i + 1) 0))
      ((List.replicate (d - 1) (0 : α)).set 0 (modes.getD 0 0))).getD k 0 =
        ∑ i in Finset.range (k + 1), modes.getD i 0 := by
  induction n with
  | zero =>
    refine ⟨by simp, ?_⟩
    intro k hk
    obtain rfl : k = 0 := by omega
    simp only [List.range_zero, List.foldl_nil]
    rw [getD_set_eq _ _ _ _ (by simp; omega)]
    simp
  | succ n ih =>
    obtain ⟨h1, h2⟩ := ih (by omega)
    rw [List.range_succ, List.foldl_append]
    simp only [List.foldl_cons, List.foldl_nil]
    refine ⟨by rw [List.length_set]; exact h1, ?_⟩
    intro k hk
    by_cases he : k = n + 1
    · subst he
      rw [getD_set_eq _ _ _ _ (by rw [h1]; omega), h2 n le_rfl, Finset.sum_range_succ _ (n + 1)]
    · rw [getD_set_ne _ _ _ _ _ (by omega)]
      exact h2 k (by omega)

theorem fillMaxConfsLPSum_spec {α : Type} [LinearOrderedCommRing α] (modes : List α) (d : Nat) :
    (fillMaxConfsLPSum modes d).length = d - 1 ∧
    ∀ k, k + 1 < d → (fillMaxConfsLPSum modes d).getD k 0 =
      ∑ i in Finset.range (k + 1), modes.getD i 0 := by
  unfold fillMaxConfsLPSum
  by_cases hd : 1 < d
  · rw [if_pos hd]
    obtain ⟨h1, h2⟩ := fillMaxConfsLPSum_loop modes d (d - 2) (by omega)
    exact ⟨h1, fun k hk => h2 k (by omega)⟩
  · rw [if_neg hd]
    have : d - 2 = 0 := by omega
    rw [this]
    exact ⟨by simp, fun k hk => absurd hk (by omega)⟩

theorem getD_map_of_lt {β γ : Type} (f : β → γ) (l : List β) (i : Nat) (hi : i < l.length)
    (d : β) (e : γ) : (l.map f).getD i e = f (l.getD i d) := by
  rw [List.getD_eq_getElem _ _ (by simpa using hi), List.getD_eq_getElem _ _ hi]
  simp

/-- On the marginals of a generator the table of the constructor is the one the loop
fills. -/
theorem mkMaxConfsLPSum_eq_fill {α : Type} [LinearOrderedCommRing α]
    (ms : List (PrecalculatedMarginal α)) :
    IsoThresholdGenerator.mkMaxConfsLPSum ms =
      fillMaxConfsLPSum (ms.map PrecalculatedMarginal.getModeLProb) ms.length := by
  obtain ⟨h1, h2⟩ := fillMaxConfsLPSum_spec (ms.map PrecalculatedMarginal.getModeLProb) ms.length
  apply List.ext_getElem
  · rw [h1]; simp [IsoThresholdGenerator.mkMaxConfsLPSum]
  · intro k hk1 hk2
    have hk : k + 1 < ms.length := by rw [h1] at hk2; omega
    have := h2 k hk
    rw [List.getD_eq_getElem _ _ hk2] at this
    rw [this]
    simp only [IsoThresholdGenerator.mkMaxConfsLPSum, List.getElem_map, List.getElem_range,
      sum_map_range_eq]
    apply Finset.sum_congr rfl
    intro i hi
    rw [Finset.mem_range] at hi
    exact (getD_map_of_lt _ ms i (by omega) default 0).symm

/-- The reordered array holds, at the position `marginalOrder` gives for an element, the
marginal of that element. -/
theorem reordered_getD {β : Type} [Inhabited β] (unsorted : List β) (tmp : List Nat) (d : Nat)
    (hp : tmp.Perm (List.range d)) (i : Nat) (hi : i < d) :
    ((List.range d).map (fun ii => unsorted.getD (tmp.getD ii 0) default)).getD
      ((IsoThresholdGenerator.mkMarginalOrder tmp d).getD i 0) default =
      unsorted.getD i default := by
  obtain ⟨_, h⟩ := mkMarginalOrder_inverse tmp d hp
  obtain ⟨_, h2, h3⟩ := h i hi
  rw [getD_map_range _ _ _ h3, h2]

theorem extend_same_element {α : Type} [LinearOrderedCommRing α] (m : LayeredMarginal α)
    (t : α) : (m.extend t).all = m.all ∧ (m.extend t).getModeLProb = m.getModeLProb := by
  unfold LayeredMarginal.extend
  split
  · exact ⟨rfl, rfl⟩
  · exact ⟨rfl, rfl⟩

/-- A call of nextLayer leaves every marginal the marginal of the same element: it may
only extend its cache. -/
theorem nextLayer_same_elements {α : Type} [LinearOrderedCommRing α]
    (g : IsoLayeredGenerator α) (offset : α) (hlen : g.marginalResults.length = g.dimNumber)
    (k : Nat) (hk : k < g.dimNumber) :
    ((IsoLayeredGenerator.nextLayer g offset).2.marginalResults.getD k default).all =
      (g.marginalResults.getD k default).all ∧
    ((IsoLayeredGenerator.nextLayer g offset).2.marginalResults.getD k default).getModeLProb =
      (g.marginalResults.getD k default).getModeLProb := by
  unfold IsoLayeredGenerator.nextLayer
  split
  · exact ⟨rfl, rfl⟩
  · rw [(IsoLayeredGenerator.recalc_fixed _ _).1]
    have he : (IsoLayeredGenerator.lowerLayer g offset).marginalResults.getD k default =
        (g.marginalResults.getD k default).extend
          (g.currentLThreshold + offset - g.modeLProb +
            (g.marginalResults.getD k default).getModeLProb) := by
      show (((List.range g.dimNumber).map _) ++ _).getD k default = _
      rw [List.getD_append _ _ _ _ (by simpa using hk), getD_map_range _ _ _ hk]
    rw [he]
    exact extend_same_element _ _

/-- C26: when marginal reordering is enabled and dimNumber > 1, in the threshold and in
the layered generator, marginalOrder is a permutation of 0..dimNumber-1 and the inverse of
the sorting permutation `tmpMarginalOrder` (the index array after std::sort, itself a
permutation), and for every original element index i, marginalResults[marginalOrder[i]]
is marginalResultsUnsorted[i]. When reordering is disabled or dimNumber = 1,
marginalOrder is null and marginalResults is the unsorted array. In both cases the loop
of the constructor leaves in maxConfsLPSum[k] the sum of the mode log-probabilities of
marginalResults[0..k], for every k in 0..dimNumber-2. -/
theorem marginal_order_inverse_of_sorting {α : Type} [LinearOrderedField α] :
    (∀ (log : α → α) (lowest : α) (sortOrder : List (PrecalculatedMarginal α) → List Nat)
      (iso : Iso α) (thr : α) (ab reorder : Bool) (g : IsoThresholdGenerator α),
      (∀ l, (sortOrder l).Perm (List.range l.length)) →
      IsoThresholdGenerator.construct log lowest sortOrder iso thr ab reorder = some g →
      (reorder = true ∧ 1 < g.dimNumber →
        ∃ mo, g.marginalOrder = some mo ∧ mo.Perm (List.range g.dimNumber) ∧
          ∀ i, i < g.dimNumber →
            g.marginalResults.getD (mo.getD i 0) default =
              g.marginalResultsUnsorted.getD i default ∧
            mo.getD ((sortOrder g.marginalResultsUnsorted).getD i 0) 0 = i ∧
            (sortOrder g.marginalResultsUnsorted).getD (mo.getD i 0) 0 = i) ∧
      (¬ (reorder = true ∧ 1 < g.dimNumber) →
        g.marginalOrder = none ∧ g.marginalResults = g.marginalResultsUnsorted) ∧
      g.maxConfsLPSum = fillMaxConfsLPSum
        (g.marginalResults.map PrecalculatedMarginal.getModeLProb) g.dimNumber ∧
      ∀ k, k + 1 < g.dimNumber → g.maxConfsLPSum.getD k 0 =
        ∑ i in Finset.range (k + 1), (g.marginalResults.getD i default).getModeLProb) ∧
    (∀ (nextafter_down : α → α) (min_double : α) (tmpMarginalOrder : List Nat) (iso : Iso α)
      (reorder : Bool) (g : IsoLayeredGenerator α) (o : LayeredOrder α),
      tmpMarginalOrder.Perm (List.range iso.dimNumber) →
      IsoLayeredGenerator.construct nextafter_down min_double tmpMarginalOrder iso reorder =
        some (g, o) →
      (reorder = true ∧ 1 < g.dimNumber →
        ∃ mo, o.marginalOrder = some mo ∧ mo.Perm (List.range g.dimNumber) ∧
          ∀ i, i < g.dimNumber →
            (IsoLayeredGenerator.constructBase nextafter_down min_double tmpMarginalOrder iso
              reorder).marginalResults.getD (mo.getD i 0) default =
                o.marginalResultsUnsorted.getD i default ∧
            (g.marginalResults.getD (mo.getD i 0) default).all =
              (o.marginalResultsUnsorted.getD i default).all ∧
            mo.getD (o.tmpMarginalOrder.getD i 0) 0 = i ∧
            o.tmpMarginalOrder.getD (mo.getD i 0) 0 = i) ∧
      (¬ (reorder = true ∧ 1 < g.dimNumber) →
        o.marginalOrder = none ∧
        (IsoLayeredGenerator.constructBase nextafter_down min_double tmpMarginalOrder iso
          reorder).marginalResults = o.marginalResultsUnsorted) ∧
      (∀ k, k < g.dimNumber →
        (g.marginalResults.getD k default).all =
          ((IsoLayeredGenerator.constructBase nextafter_down min_double tmpMarginalOrder iso
            reorder).marginalResults.getD k default).all) ∧
      ∀ k, k + 1 < g.dimNumber → o.maxConfsLPSum.getD k 0 =
        ∑ i in Finset.range (k + 1), (g.marginalResults.getD i default).getModeLProb) := by
  constructor
  · intro log lowest sortOrder iso thr ab reorder g hsort hg
    obtain ⟨hdim, hcase⟩ :=
      IsoThresholdGenerator.construct_cases log lowest sortOrder iso thr ab reorder g hg
    have hsame : IsoThresholdGenerator.SameStatic
        (IsoThresholdGenerator.constructBase log lowest sortOrder iso thr ab reorder)
        { g with lcfmsv := none } := by
      rcases hcase with ⟨_, hg'⟩ | ⟨_, hg'⟩
      · rw [hg']
        obtain ⟨a1, a2, a3, a4, a5, a6, a7, a8, a9, a10⟩ := IsoThresholdGenerator.recalc_same
          (IsoThresholdGenerator.constructBase log lowest sortOrder iso thr ab reorder)
          ((IsoThresholdGenerator.constructBase log lowest sortOrder iso thr ab
            reorder).dimNumber - 1)
        exact ⟨a1, a2, a3, a4, a5, a6, a7, a8, a9, rfl⟩
      · rw [hg']
        exact ⟨rfl, rfl, rfl, rfl, rfl, rfl, rfl, rfl, rfl, rfl⟩
    obtain ⟨a1, _, _, _, _, a6, a7, a8, a9, _⟩ := hsame
    have b1 : g.dimNumber = iso.dimNumber := a1
    have b6 : g.marginalResultsUnsorted = IsoThresholdGenerator.mkUnsorted iso
        (IsoThresholdGenerator.mkLcutoff log lowest iso.modeLProb thr ab) := a6
    have hlenU : g.marginalResultsUnsorted.length = iso.dimNumber := by
      rw [b6]; simp [IsoThresholdGenerator.mkUnsorted]
    have hp := hsort g.marginalResultsUnsorted
    rw [hlenU] at hp
    have b7 : g.marginalResults =
        if (reorder && decide (1 < iso.dimNumber)) = true then
          (List.range iso.dimNumber).map (fun ii => g.marginalResultsUnsorted.getD
            ((sortOrder g.marginalResultsUnsorted).getD ii 0) default)
        else g.marginalResultsUnsorted := by
      rw [b6]; exact a7
    have b8 : g.marginalOrder =
        if (reorder && decide (1 < iso.dimNumber)) = true then
          some (IsoThresholdGenerator.mkMarginalOrder (sortOrder g.marginalResultsUnsorted)
            iso.dimNumber)
        else none := by
      rw [b6]; exact a8
    have b9 : g.maxConfsLPSum = IsoThresholdGenerator.mkMaxConfsLPSum g.marginalResults := by
      have : g.maxConfsLPSum = IsoThresholdGenerator.mkMaxConfsLPSum
          (IsoThresholdGenerator.constructBase log lowest sortOrder iso thr ab
            reorder).marginalResults := a9
      rw [this]
      congr 1
      exact a7.symm
    have hlenR : g.marginalResults.length = g.dimNumber := by
      rw [b7, b1]
      split
      · simp
      · exact hlenU
    have hfill : g.maxConfsLPSum = fillMaxConfsLPSum
        (g.marginalResults.map PrecalculatedMarginal.getModeLProb) g.dimNumber := by
      rw [b9, mkMaxConfsLPSum_eq_fill, hlenR]
    refine ⟨?_, ?_, hfill, ?_⟩
    · rintro ⟨hr, hd⟩
      rw [b1] at hd
      have hcond : (reorder && decide (1 < iso.dimNumber)) = true := by simp [hr, hd]
      rw [if_pos hcond] at b7 b8
      obtain ⟨hperm, hinv⟩ := mkMarginalOrder_inverse _ _ hp
      refine ⟨_, b8, by rw [b1]; exact hperm, ?_⟩
      intro i hi
      rw [b1] at hi
      refine ⟨?_, (hinv i hi).1, (hinv i hi).2.1⟩
      rw [b7]
      exact reordered_getD _ _ _ hp i hi
    · intro hn
      have hcond : ¬ (reorder && decide (1 < iso.dimNumber)) = true := by
        rw [b1] at hn
        simpa using hn
      rw [if_neg hcond] at b7 b8
      exact ⟨b8, b7⟩
    · intro k hk
      rw [hfill, (fillMaxConfsLPSum_spec _ _).2 k hk]
      apply Finset.sum_congr rfl
      intro i hi
      rw [Finset.mem_range] at hi
      exact getD_map_of_lt _ _ i (by omega) default 0
  · intro nextafter_down min_double tmp iso reorder g o hp hg
    unfold IsoLayeredGenerator.construct at hg
    by_cases hdim : iso.dimNumber = 0
    · rw [if_pos hdim] at hg; exact absurd hg (by simp)
    rw [if_neg hdim] at hg
    simp only [Option.some.injEq, Prod.mk.injEq] at hg
    obtain ⟨hg1, ho⟩ := hg
    have hlenR : (IsoLayeredGenerator.mkOrder tmp iso reorder).1.length = iso.dimNumber := by
      simp only [IsoLayeredGenerator.mkOrder]
      split <;> simp
    have hbase : (IsoLayeredGenerator.constructBase nextafter_down min_double tmp iso
        reorder).marginalResults = (IsoLayeredGenerator.mkOrder tmp iso reorder).1 := rfl
    have hsame := nextLayer_same_elements
      (IsoLayeredGenerator.stepBack (IsoLayeredGenerator.constructBase nextafter_down min_double
        tmp iso reorder)) (-(1 / 100000)) hlenR
    rw [hg1] at hsame
    have hsame' : ∀ k, k < iso.dimNumber →
        (g.marginalResults.getD k default).all =
          ((IsoLayeredGenerator.mkOrder tmp iso reorder).1.getD k default).all ∧
        (g.marginalResults.getD k default).getModeLProb =
          ((IsoLayeredGenerator.mkOrder tmp iso reorder).1.getD k default).getModeLProb :=
      fun k hk => hsame k hk
    have hgd : g.dimNumber = iso.dimNumber := by
      rw [← hg1]
      unfold IsoLayeredGenerator.nextLayer
      split
      · rfl
      · exact (IsoLayeredGenerator.recalc_fixed _ _).2.2.2.2.2.2.2
    rw [hgd, hbase, ← ho]
    refine ⟨?_, ?_, fun k hk => (hsame' k hk).1, ?_⟩
    · rintro ⟨hr, hd⟩
      have hcond : (reorder && decide (1 < iso.dimNumber)) = true := by simp [hr, hd]
      obtain ⟨hperm, hinv⟩ := mkMarginalOrder_inverse _ _ hp
      have hmr : (IsoLayeredGenerator.mkOrder tmp iso reorder).1 =
          (List.range iso.dimNumber).map (fun ii =>
            (IsoLayeredGenerator.mkOrder tmp iso reorder).2.marginalResultsUnsorted.getD
              (tmp.getD ii 0) default) := by
        simp only [IsoLayeredGenerator.mkOrder, hcond, if_true]
      refine ⟨IsoThresholdGenerator.mkMarginalOrder tmp iso.dimNumber, ?_, hperm, ?_⟩
      · simp only [IsoLayeredGenerator.mkOrder, hcond, if_true]
      · intro i hi
        have hre : (IsoLayeredGenerator.mkOrder tmp iso reorder).1.getD
            ((IsoThresholdGenerator.mkMarginalOrder tmp iso.dimNumber).getD i 0) default =
            (IsoLayeredGenerator.mkOrder tmp iso reorder).2.marginalResultsUnsorted.getD i
              default := by
          rw [hmr]
          exact reordered_getD _ _ _ hp i hi
        refine ⟨hre, ?_, (hinv i hi).1, (hinv i hi).2.1⟩
        rw [(hsame' _ (hinv i hi).2.2).1, hre]
    · intro hn
      have hcond : ¬ (reorder && decide (1 < iso.dimNumber)) = true := by simpa using hn
      simp only [IsoLayeredGenerator.mkOrder, hcond]
      exact ⟨if_neg (by simp), if_neg (by simp)⟩
    · intro k hk
      show (fillMaxConfsLPSum ((IsoLayeredGenerator.mkOrder tmp iso reorder).1.map
        LayeredMarginal.getModeLProb) iso.dimNumber).getD k 0 = _
      rw [(fillMaxConfsLPSum_spec _ _).2 k hk]
      apply Finset.sum_congr rfl
      intro i hi
      rw [Finset.mem_range] at hi
      rw [(hsame' i (by omega)).2]
      exact getD_map_of_lt _ _ i (by omega) default 0

theorem marginal_order_inverse_of_sorting_witness :
    ∃ mo, (IsoLayeredGenerator.mkOrder [1, 0]
        (twoElementIso (-2 : ℚ) (-17) (-46) (-2) (-16) 2 3 4 10 11 81 18 1 8 2)
        true).2.marginalOrder = some mo ∧ mo.Perm (List.range 2) ∧
      (IsoLayeredGenerator.constructBase (fun x => x - 1) 0 [1, 0]
        (twoElementIso (-2 : ℚ) (-17) (-46) (-2) (-16) 2 3 4 10 11 81 18 1 8 2)
        true).marginalResults.getD (mo.getD 0 0) default =
      (IsoLayeredGenerator.mkOrder [1, 0]
        (twoElementIso (-2 : ℚ) (-17) (-46) (-2) (-16) 2 3 4 10 11 81 18 1 8 2)
        true).2.marginalResultsUnsorted.getD 0 default := by
  have hg : IsoLayeredGenerator.construct (fun x => x - 1) 0 [1, 0]
      (twoElementIso (-2 : ℚ) (-17) (-46) (-2) (-16) 2 3 4 10 11 81 18 1 8 2) true =
      some ((IsoLayeredGenerator.nextLayer (IsoLayeredGenerator.stepBack
        (IsoLayeredGenerator.constructBase (fun x => x - 1) 0 [1, 0]
          (twoElementIso (-2 : ℚ) (-17) (-46) (-2) (-16) 2 3 4 10 11 81 18 1 8 2) true))
        (-(1 / 100000))).2,
        (IsoLayeredGenerator.mkOrder [1, 0]
          (twoElementIso (-2 : ℚ) (-17) (-46) (-2) (-16) 2 3 4 10 11 81 18 1 8 2) true).2) := by
    unfold IsoLayeredGenerator.construct
    exact if_neg (by decide)
  have hd : (IsoLayeredGenerator.nextLayer (IsoLayeredGenerator.stepBack
      (IsoLayeredGenerator.constructBase (fun x => x - 1) 0 [1, 0]
        (twoElementIso (-2 : ℚ) (-17) (-46) (-2) (-16) 2 3 4 10 11 81 18 1 8 2) true))
      (-(1 / 100000))).2.dimNumber = 2 := by
    unfold IsoLayeredGenerator.nextLayer
    split
    · rfl
    · exact (IsoLayeredGenerator.recalc_fixed _ _).2.2.2.2.2.2.2
  obtain ⟨mo, h1, h2, h3⟩ := (marginal_order_inverse_of_sorting.2 (fun x => x - 1) 0 [1, 0]
    (twoElementIso (-2 : ℚ) (-17) (-46) (-2) (-16) 2 3 4 10 11 81 18 1 8 2) true _ _
    (by decide) hg).1 ⟨rfl, by rw [hd]; decide⟩
  rw [hd] at h2 h3
  exact ⟨mo, h1, h2, (h3 0 (by decide)).1⟩

namespace IsoLayeredGenerator

/-! ### Runs of nextLayer -/

variable {α : Type} [LinearOrderedField α]

theorem nextLayer_keeps (g : IsoLayeredGenerator α) (offset : α) :
    (nextLayer g offset).2.dimNumber = g.dimNumber ∧
    (nextLayer g offset).2.marginals = g.marginals ∧
    getUnlikeliestPeakLProb (nextLayer g offset).2 = getUnlikeliestPeakLProb g := by
  unfold nextLayer
  split
  · exact ⟨rfl, rfl, rfl⟩
  · obtain ⟨_, _, _, _, _, _, h7, h8⟩ := recalc_fixed (g.dimNumber - 1) (lowerLayer g offset)
    refine ⟨h8, h7, ?_⟩
    unfold getUnlikeliestPeakLProb
    rw [h7, h8]
    rfl

theorem nextLayer_true (g : IsoLayeredGenerator α) (offset : α)
    (h : (nextLayer g offset).1 = true) :
    ¬ g.lastLThreshold < getUnlikeliestPeakLProb g ∧
    (nextLayer g offset).2.lastLThreshold = g.currentLThreshold ∧
    (nextLayer g offset).2.currentLThreshold = g.currentLThreshold + offset ∧
    (nextLayer g offset).2.counter =
      List.replicate g.dimNumber 0 ++ g.counter.drop g.dimNumber := by
  unfold nextLayer at h ⊢
  split
  · rename_i hlt
    rw [if_pos hlt] at h
    exact absurd h (by simp)
  · rename_i hlt
    obtain ⟨_, h2, h3, h4, _⟩ := recalc_fixed (g.dimNumber - 1) (lowerLayer g offset)
    exact ⟨hlt, h2, h3, h4⟩

theorem nextLayer_false (g : IsoLayeredGenerator α) (offset : α)
    (h : (nextLayer g offset).1 = false) :
    g.lastLThreshold < getUnlikeliestPeakLProb g ∧ (nextLayer g offset).2 = g := by
  unfold nextLayer at h ⊢
  split
  · rename_i hlt
    exact ⟨hlt, rfl⟩
  · rename_i hlt
    rw [if_neg hlt] at h
    exact absurd h (by simp)

theorem keepsLayers_unlikeliest (f : IsoLayeredGenerator α → IsoLayeredGenerator α)
    (hf : KeepsLayers f) (g : IsoLayeredGenerator α) :
    getUnlikeliestPeakLProb (f g) = getUnlikeliestPeakLProb g := by
  obtain ⟨_, _, h3, h4, _⟩ := hf g
  unfold getUnlikeliestPeakLProb
  rw [h3, h4]

/-- Once the threshold of the layer before the current one is below the least probable
configuration, every call returns false. -/
theorem nextLayers_all_false (between : Nat → IsoLayeredGenerator α → IsoLayeredGenerator α)
    (hb : ∀ k, KeepsLayers (between k)) (offsets : List α) :
    ∀ (k : Nat) (s : IsoLayeredGenerator α), s.lastLThreshold < getUnlikeliestPeakLProb s →
      (nextLayers between k s offsets).1 = List.replicate offsets.length false := by
  induction offsets with
  | nil => intro k s _; rfl
  | cons o os ih =>
    intro k s hs
    have hs' : (between k s).lastLThreshold < getUnlikeliestPeakLProb (between k s) := by
      rw [keepsLayers_unlikeliest _ (hb k), (hb k s).1]; exact hs
    have hn : nextLayer (between k s) o = (false, between k s) := by
      unfold nextLayer
      rw [if_pos hs']
    show (nextLayer (between k s) o).1 :: (nextLayers between (k + 1)
      (nextLayer (between k s) o).2 os).1 = _
    rw [hn, ih (k + 1) (between k s) hs']
    rfl

/-- The results of a run are a number of `true` followed by `false` only. -/
theorem nextLayers_shape (between : Nat → IsoLayeredGenerator α → IsoLayeredGenerator α)
    (hb : ∀ k, KeepsLayers (between k)) (offsets : List α) :
    ∀ (k : Nat) (s : IsoLayeredGenerator α), ∃ n, n ≤ offsets.length ∧
      (nextLayers between k s offsets).1 =
        List.replicate n true ++ List.replicate (offsets.length - n) false := by
  induction offsets with
  | nil => intro k s; exact ⟨0, le_rfl, rfl⟩
  | cons o os ih =>
    intro k s
    have hu : (nextLayers between k s (o :: os)).1 = (nextLayer (between k s) o).1 ::
      (nextLayers between (k + 1) (nextLayer (between k s) o).2 os).1 := rfl
    cases hr : (nextLayer (between k s) o).1 with
    | true =>
      obtain ⟨n, hn, he⟩ := ih (k + 1) (nextLayer (between k s) o).2
      refine ⟨n + 1, by simp; omega, ?_⟩
      rw [hu, hr, he]
      simp [List.replicate_succ]
    | false =>
      obtain ⟨hlt, hst⟩ := nextLayer_false _ _ hr
      refine ⟨0, by simp, ?_⟩
      rw [hu, hr, hst, nextLayers_all_false between hb os (k + 1) _ hlt]
      simp [List.replicate_succ]

/-- The number of successful calls of a run, by how far the current threshold is above
the least probable configuration. -/
theorem nextLayers_count (between : Nat → IsoLayeredGenerator α → IsoLayeredGenerator α)
    (hb : ∀ k, KeepsLayers (between k)) (δ : α) (hδ : 0 < δ) (offsets : List α) :
    ∀ (k : Nat) (s : IsoLayeredGenerator α) (n : Nat), (∀ x ∈ offsets, x ≤ -δ) →
      s.currentLThreshold - getUnlikeliestPeakLProb s < n * δ →
      (nextLayers between k s offsets).1.count true ≤ n + 1 := by
  induction offsets with
  | nil => intro k s n _ _; simp [nextLayers]
  | cons o os ih =>
    intro k s n hoff hcur
    have hu : (nextLayers between k s (o :: os)).1 = (nextLayer (between k s) o).1 ::
      (nextLayers between (k + 1) (nextLayer (between k s) o).2 os).1 := rfl
    have ho : o ≤ -δ := hoff o (List.mem_cons_self _ _)
    have hos : ∀ x ∈ os, x ≤ -δ := fun x hx => hoff x (List.mem_cons_of_mem _ hx)
    have hU := keepsLayers_unlikeliest _ (hb k) s
    have hc := (hb k s).2.1
    cases hr : (nextLayer (between k s) o).1 with
    | false =>
      obtain ⟨hlt, hst⟩ := nextLayer_false _ _ hr
      rw [hu, hr, hst, nextLayers_all_false between hb os (k + 1) _ hlt]
      simp [List.count_replicate]
    | true =>
      obtain ⟨_, h2, h3, _⟩ := nextLayer_true _ _ hr
      have hk := (nextLayer_keeps (between k s) o).2.2
      rw [hu, hr, List.count_cons_self]
      cases n with
      | zero =>
        have hlt : (nextLayer (between k s) o).2.lastLThreshold <
            getUnlikeliestPeakLProb (nextLayer (between k s) o).2 := by
          rw [h2, hk, hU, hc]
          simp only [Nat.cast_zero, zero_mul] at hcur
          linarith
        rw [nextLayers_all_false between hb os (k + 1) _ hlt]
        simp [List.count_replicate]
      | succ m =>
        have := ih (k + 1) (nextLayer (between k s) o).2 m hos (by
          rw [h3, hk, hU, hc]
          push_cast at hcur
          linarith)
        omega

end IsoLayeredGenerator

namespace IsoLayeredGenerator

theorem recalc_modeLProb {α : Type} [LinearOrderedCommRing α] :
    ∀ (g : IsoLayeredGenerator α) (k : Nat), (recalc g k).modeLProb = g.modeLProb := by
  intro g k
  induction k generalizing g with
  | zero => rfl
  | succ k ih => exact (ih (recalcStep g (k + 1))).trans rfl

end IsoLayeredGenerator

namespace IsoLayeredGenerator

/-- C28: layer lowering terminates. For every delta > 0 and every run of nextLayer calls
with offsets <= -delta on a constructed IsoLayeredGenerator (whatever the caller does in
between that keeps the thresholds and the marginals), nextLayer returns true at most
ceil((modeLProb - unlikeliestPeakLProb) / delta) + 2 times; the results are a number of
`true` followed by `false` only, so once a call returns false every later call returns
false. For every state, a call that returns true sets lastLThreshold to the old
currentLThreshold, lowers currentLThreshold by the offset and resets every counter to 0,
and a call that returns false leaves the state, its thresholds and counters included, as
it was. Over the reals; `nextafter(x, -infinity)` is any function with values at most
`x`. -/
theorem nextLayer_runs_finitely (nextafter_down : ℝ → ℝ) (min_double : ℝ)
    (tmpMarginalOrder : List Nat) (iso : Iso ℝ) (reorder : Bool)
    (g : IsoLayeredGenerator ℝ) (o : LayeredOrder ℝ)
    (hna : nextafter_down iso.modeLProb ≤ iso.modeLProb)
    (hg : construct nextafter_down min_double tmpMarginalOrder iso reorder = some (g, o))
    (between : Nat → IsoLayeredGenerator ℝ → IsoLayeredGenerator ℝ)
    (hb : ∀ k, KeepsLayers (between k))
    (δ : ℝ) (hδ : 0 < δ) (offsets : List ℝ) (hoff : ∀ x ∈ offsets, x ≤ -δ) :
    (nextLayers between 0 g offsets).1.count true ≤
      ⌈(g.modeLProb - getUnlikeliestPeakLProb g) / δ⌉₊ + 2 ∧
    (getUnlikeliestPeakLProb g ≤ g.modeLProb →
      (((nextLayers between 0 g offsets).1.count true : Nat) : Int) ≤
        ⌈(g.modeLProb - getUnlikeliestPeakLProb g) / δ⌉ + 2) ∧
    (∃ n, n ≤ offsets.length ∧ (nextLayers between 0 g offsets).1 =
      List.replicate n true ++ List.replicate (offsets.length - n) false) ∧
    (∀ (s : IsoLayeredGenerator ℝ) (offset : ℝ),
      ((nextLayer s offset).1 = true →
        (nextLayer s offset).2.lastLThreshold = s.currentLThreshold ∧
        (nextLayer s offset).2.currentLThreshold = s.currentLThreshold + offset ∧
        ∀ i, i < s.dimNumber → (nextLayer s offset).2.counter.getD i 1 = 0) ∧
      ((nextLayer s offset).1 = false → (nextLayer s offset).2 = s)) := by
  have hcount : (nextLayers between 0 g offsets).1.count true ≤
      ⌈(g.modeLProb - getUnlikeliestPeakLProb g) / δ⌉₊ + 2 := by
    unfold construct at hg
    by_cases hdim : iso.dimNumber = 0
    · rw [if_pos hdim] at hg; exact absurd hg (by simp)
    rw [if_neg hdim] at hg
    simp only [Option.some.injEq, Prod.mk.injEq] at hg
    obtain ⟨hg1, _⟩ := hg
    cases hr : (nextLayer (stepBack (constructBase nextafter_down min_double tmpMarginalOrder
        iso reorder)) (-(1 / 100000))).1 with
    | false =>
      obtain ⟨hlt, hst⟩ := nextLayer_false _ _ hr
      rw [hg1] at hst
      rw [← hst] at hlt
      rw [nextLayers_all_false between hb offsets 0 g hlt]
      simp [List.count_replicate]
    | true =>
      obtain ⟨_, _, h3, _⟩ := nextLayer_true _ _ hr
      rw [hg1] at h3
      have hmode : g.modeLProb = iso.modeLProb := by
        rw [← hg1]
        unfold nextLayer
        split
        · rfl
        · have := recalc_modeLProb (lowerLayer (stepBack (constructBase nextafter_down
            min_double tmpMarginalOrder iso reorder)) (-(1 / 100000)))
            ((stepBack (constructBase nextafter_down min_double tmpMarginalOrder iso
              reorder)).dimNumber - 1)
          rw [this]
          rfl
      have hcur : g.currentLThreshold < g.modeLProb := by
        rw [h3, hmode]
        show nextafter_down iso.modeLProb + -(1 / 100000) < iso.modeLProb
        linarith
      have hle : (g.modeLProb - getUnlikeliestPeakLProb g) / δ ≤
          (⌈(g.modeLProb - getUnlikeliestPeakLProb g) / δ⌉₊ : ℝ) := Nat.le_ceil _
      have hle2 : g.modeLProb - getUnlikeliestPeakLProb g ≤
          (⌈(g.modeLProb - getUnlikeliestPeakLProb g) / δ⌉₊ : ℝ) * δ :=
        (div_le_iff₀ hδ).mp hle
      have := nextLayers_count between hb δ hδ offsets 0 g
        ⌈(g.modeLProb - getUnlikeliestPeakLProb g) / δ⌉₊ hoff (by linarith)
      omega
  refine ⟨hcount, ?_, nextLayers_shape between hb offsets 0 g, ?_⟩
  · intro hU
    have hnn : 0 ≤ (g.modeLProb - getUnlikeliestPeakLProb g) / δ :=
      div_nonneg (by linarith) hδ.le
    rw [← Int.natCast_ceil_eq_ceil hnn]
    exact_mod_cast hcount
  · intro s offset
    constructor
    · intro h
      obtain ⟨_, h2, h3, h4⟩ := nextLayer_true s offset h
      refine ⟨h2, h3, ?_⟩
      intro i hi
      rw [h4, List.getD_append _ _ _ _ (by simpa using hi),
        List.getD_eq_getElem _ _ (by simpa using hi)]
      simp
    · intro h
      exact (nextLayer_false s offset h).2

end IsoLayeredGenerator

namespace IsoLayeredGenerator

theorem nextLayer_runs_finitely_witness :
    (nextLayers (fun _ s => s) 0
      (nextLayer (stepBack (constructBase (fun x => x - 1) 0 [0, 1]
        (twoElementIso (-2 : ℝ) (-17) (-46) (-2) (-16) 2 3 4 10 11 81 18 1 8 2) false))
        (-(1 / 100000))).2 [-3, -4]).1.count true ≤
      ⌈((nextLayer (stepBack (constructBase (fun x => x - 1) 0 [0, 1]
          (twoElementIso (-2 : ℝ) (-17) (-46) (-2) (-16) 2 3 4 10 11 81 18 1 8 2) false))
          (-(1 / 100000))).2.modeLProb -
        getUnlikeliestPeakLProb (nextLayer (stepBack (constructBase (fun x => x - 1) 0 [0, 1]
          (twoElementIso (-2 : ℝ) (-17) (-46) (-2) (-16) 2 3 4 10 11 81 18 1 8 2) false))
          (-(1 / 100000))).2) / 3⌉₊ + 2 :=
  (nextLayer_runs_finitely (fun x => x - 1) 0 [0, 1]
    (twoElementIso (-2 : ℝ) (-17) (-46) (-2) (-16) 2 3 4 10 11 81 18 1 8 2) false _
    (mkOrder [0, 1]
      (twoElementIso (-2 : ℝ) (-17) (-46) (-2) (-16) 2 3 4 10 11 81 18 1 8 2) false).2
    (sub_le_self _ zero_le_one)
    (by
      unfold construct
      exact if_neg (by decide))
    (fun _ s => s) (fun _ _ => ⟨rfl, rfl, rfl, rfl, rfl⟩) 3 (by norm_num) [-3, -4]
    (by
      intro x hx
      simp only [List.mem_cons, List.mem_singleton, List.not_mem_nil, or_false] at hx
      rcases hx with rfl | rfl <;> norm_num)).1

end IsoLayeredGenerator

namespace IsoOrderedGenerator

variable {α : Type} [LinearOrderedCommRing α]

/-! ### The successors pushed by one call of advance -/

theorem scanBody_fresh (g : IsoOrderedGenerator α) (top : OrdNode α) (L : List Nat) :
    ∀ (s : ScanState α), s.ccount ≠ -1 →
      L.foldl (fun s j => scanBody g top j s) s =
        ⟨(freshNodes g top s.allocated (L.filter (probes g top))).reverse ++ s.pq,
          s.ccount, s.allocated + (L.filter (probes g top)).length⟩ := by
  induction L with
  | nil => intro s _; rfl
  | cons j L ih =>
    intro s hs
    rw [List.foldl_cons]
    by_cases hp : probes g top j = true
    · have hb : scanBody g top j s =
          ⟨successorNode g top s.allocated j :: s.pq, s.ccount, s.allocated + 1⟩ := by
        unfold scanBody
        rw [if_pos (show (g.marginalResults.getD j ⟨0, 0, [], 0⟩).probeConfigurationIdx
          (top.conf.getD j 0 + 1) = true from hp), if_neg hs]
        rfl
      rw [hb, ih ⟨successorNode g top s.allocated j :: s.pq, s.ccount, s.allocated + 1⟩ hs,
        List.filter_cons_of_pos hp]
      simp only [freshNodes, List.reverse_cons, List.append_assoc, List.singleton_append,
        List.length_cons]
      congr 1
      omega
    · rw [scanBody_noprobe g top j s hp, ih s hs, List.filter_cons_of_neg hp]

theorem scanBody_first (g : IsoOrderedGenerator α) (top : OrdNode α) (L : List Nat) :
    ∀ (s : ScanState α), s.ccount = -1 →
      L.foldl (fun s j => scanBody g top j s) s =
        match L.filter (probes g top) with
        | [] => s
        | j :: js =>
          ⟨(freshNodes g top s.allocated js).reverse ++
              (successorNode g top top.addr j :: s.pq), (j : Int), s.allocated + js.length⟩ := by
  induction L with
  | nil => intro s _; rfl
  | cons j L ih =>
    intro s hs
    rw [List.foldl_cons]
    by_cases hp : probes g top j = true
    · have hb : scanBody g top j s =
          ⟨successorNode g top top.addr j :: s.pq, (j : Int), s.allocated⟩ := by
        unfold scanBody
        rw [if_pos (show (g.marginalResults.getD j ⟨0, 0, [], 0⟩).probeConfigurationIdx
          (top.conf.getD j 0 + 1) = true from hp), if_pos hs]
        rfl
      rw [hb, scanBody_fresh g top L ⟨successorNode g top top.addr j :: s.pq, (j : Int),
        s.allocated⟩ (by show (j : Int) ≠ -1; omega), List.filter_cons_of_pos hp]
    · rw [scanBody_noprobe g top j s hp, ih s hs, List.filter_cons_of_neg hp]

theorem findIdx_range_spec (p : Nat → Bool) (n : Nat) :
    (List.range n).findIdx p ≤ n ∧
    (∀ i, i < (List.range n).findIdx p → p i = false) ∧
    ((List.range n).findIdx p < n → p ((List.range n).findIdx p) = true) := by
  have hle : (List.range n).findIdx p ≤ n := by
    have := @List.findIdx_le_length Nat p (List.range n)
    simpa using this
  refine ⟨hle, ?_, ?_⟩
  · intro i hi
    have := List.not_of_lt_findIdx hi
    simpa using this
  · intro h
    have := @List.findIdx_getElem Nat p (List.range n) (by simpa using h)
    simpa using this

/-- The loop over the elements is the body run on the elements `0..z`. -/
theorem scan_eq_foldl (g : IsoOrderedGenerator α) (top : OrdNode α) (hd : 0 < g.dimNumber) :
    ∀ (left j : Nat) (s : ScanState α), j + left = g.dimNumber →
      (∀ i, i < j → top.conf.getD i 0 = 0) →
      scan g top left j s =
        (List.range' j (firstNonzero top.conf g.dimNumber + 1 - j)).foldl
          (fun s j => scanBody g top j s) s := by
  obtain ⟨f1, f2, f3⟩ := findIdx_range_spec (fun j => decide (top.conf.getD j 0 ≠ 0)) g.dimNumber
  intro left
  induction left with
  | zero =>
    intro j s hj _
    have : firstNonzero top.conf g.dimNumber + 1 - j = 0 := by
      unfold firstNonzero
      omega
    rw [this]
    rfl
  | succ left ih =>
    intro j s hj hz
    have hge : j ≤ (List.range g.dimNumber).findIdx (fun j => decide (top.conf.getD j 0 ≠ 0)) := by
      by_contra hlt
      have hlt2 : (List.range g.dimNumber).findIdx
          (fun j => decide (top.conf.getD j 0 ≠ 0)) < j := by omega
      have h1 := f3 (by omega)
      have h2 := hz _ hlt2
      rw [h2] at h1
      simp at h1
    unfold scan
    by_cases hbrk : top.conf.getD j 0 > 0
    · rw [if_pos hbrk]
      have hfj : (List.range g.dimNumber).findIdx (fun j => decide (top.conf.getD j 0 ≠ 0)) = j := by
        by_contra hne
        have := f2 j (by omega)
        rw [decide_eq_false_iff_not, not_not] at this
        omega
      have : firstNonzero top.conf g.dimNumber + 1 - j = 1 := by
        unfold firstNonzero
        rw [hfj]
        omega
      rw [this]
      rfl
    · rw [if_neg hbrk]
      have hz0 : top.conf.getD j 0 = 0 := by omega
      have hgt : j < (List.range g.dimNumber).findIdx
          (fun j => decide (top.conf.getD j 0 ≠ 0)) := by
        by_contra hle
        have heq : (List.range g.dimNumber).findIdx
            (fun j => decide (top.conf.getD j 0 ≠ 0)) = j := by omega
        have := f3 (by omega)
        rw [heq, hz0] at this
        simp at this
      rw [ih (j + 1) _ (by omega) (by
        intro i hi
        by_cases hij : i = j
        · rw [hij]; exact hz0
        · exact hz i (by omega))]
      have : firstNonzero top.conf g.dimNumber + 1 - j =
          (firstNonzero top.conf g.dimNumber + 1 - (j + 1)) + 1 := by
        unfold firstNonzero
        omega
      rw [this, List.range'_succ, List.foldl_cons]

end IsoOrderedGenerator

namespace IsoOrderedGenerator

variable {α : Type} [LinearOrderedCommRing α]

theorem freshNodes_spec (g : IsoOrderedGenerator α) (top : OrdNode α) (js : List Nat) :
    ∀ (a : Nat), (freshNodes g top a js).map OrdNode.conf = js.map (incr top.conf) ∧
      (freshNodes g top a js).map OrdNode.addr = (List.range js.length).map (a + ·) ∧
      ∀ x ∈ freshNodes g top a js, x.lprob = combinedSum x.conf (logProbs g) g.dimNumber := by
  induction js with
  | nil => intro a; exact ⟨rfl, rfl, by simp [freshNodes]⟩
  | cons j js ih =>
    intro a
    obtain ⟨h1, h2, h3⟩ := ih (a + 1)
    refine ⟨?_, ?_, ?_⟩
    · simp only [freshNodes, List.map_cons, h1]
      rfl
    · simp only [freshNodes, List.map_cons, h2, List.length_cons, List.range_succ_eq_map,
        List.map_map]
      refine congrArg₂ _ rfl (List.map_congr_left ?_)
      intro x _
      simp only [Function.comp_apply]
      omega
    · intro x hx
      simp only [freshNodes, List.mem_cons] at hx
      rcases hx with rfl | hx
      · rfl
      · exact h3 x hx

/-- C21: on every pop of a configuration `c` (the node `top`), advanceToNextConfiguration
scans the elements from index 0 upward and stops at the first element whose index in `c`
is not zero. The successors pushed are exactly the vectors `c + e_j` for the elements
`j <= z` whose probe of the index `c_j + 1` succeeds, where `z` is the position of the
first index of `c` that is not zero (`dimNumber - 1` when all are zero): the queue after
the call is the rest of the queue with these nodes pushed in increasing order of `j`.
The first of them is in the node of `c` and each further one in a fresh block, the next
the allocator hands out; no other block is taken, and `ccount` is the first such `j`
(-1 when there is none). -/
theorem ordered_successors_up_to_first_nonzero
    (pqPop : List (OrdNode α) → Option (OrdNode α × List (OrdNode α))) (ex : α → α)
    (g : IsoOrderedGenerator α) (top : OrdNode α) (pq1 : List (OrdNode α))
    (hpop : pqPop g.pq = some (top, pq1)) :
    (advanceToNextConfiguration pqPop ex g).1 = true ∧
    (advanceToNextConfiguration pqPop ex g).2.pq = (successors g top).reverse ++ pq1 ∧
    (advanceToNextConfiguration pqPop ex g).2.allocated =
      g.allocated + ((spawnable g top).length - 1) ∧
    (advanceToNextConfiguration pqPop ex g).2.ccount =
      (match spawnable g top with
        | [] => -1
        | j :: _ => (j : Int)) ∧
    (∀ j, j ∈ spawnable g top ↔
      j < g.dimNumber ∧ j ≤ firstNonzero top.conf g.dimNumber ∧
      (g.marginalResults.getD j ⟨0, 0, [], 0⟩).probeConfigurationIdx
        (top.conf.getD j 0 + 1) = true) ∧
    (∀ j, j < g.dimNumber →
      (j ≤ firstNonzero top.conf g.dimNumber ↔ ∀ i, i < j → top.conf.getD i 0 = 0)) ∧
    (spawnable g top).Pairwise (· < ·) ∧
    (successors g top).map OrdNode.conf = (spawnable g top).map (incr top.conf) ∧
    (successors g top).map OrdNode.addr =
      (match spawnable g top with
        | [] => []
        | _ :: js => top.addr :: (List.range js.length).map (g.allocated + ·)) ∧
    (∀ x ∈ successors g top, x.lprob = combinedSum x.conf (logProbs g) g.dimNumber) := by
  rw [ordAdvance_eq pqPop ex g top pq1 hpop]
  have hscan : scan g top g.dimNumber 0 ⟨pq1, -1, g.allocated⟩ =
      ⟨(successors g top).reverse ++ pq1,
        (match spawnable g top with
          | [] => -1
          | j :: _ => (j : Int)),
        g.allocated + ((spawnable g top).length - 1)⟩ := by
    by_cases hd : g.dimNumber = 0
    · have hs : spawnable g top = [] := by unfold spawnable; rw [if_pos hd]
      have hsu : successors g top = [] := by unfold successors; rw [hs]
      rw [hd, hs, hsu]
      rfl
    · have hsp : spawnable g top =
          (List.range (firstNonzero top.conf g.dimNumber + 1)).filter (probes g top) := by
        unfold spawnable; rw [if_neg hd]
      rw [scan_eq_foldl g top (Nat.pos_of_ne_zero hd) g.dimNumber 0 _ (by omega)
        (fun i hi => absurd hi (by omega)), Nat.sub_zero, ← List.range_eq_range',
        scanBody_first g top _ _ rfl, ← hsp]
      unfold successors
      cases spawnable g top with
      | nil => rfl
      | cons j js =>
        simp only [List.reverse_cons, List.append_assoc, List.singleton_append,
          List.length_cons, Nat.add_sub_cancel]
  obtain ⟨f1, f2, f3⟩ := findIdx_range_spec (fun j => decide (top.conf.getD j 0 ≠ 0)) g.dimNumber
  have hz : ∀ j, j < g.dimNumber →
      (j ≤ firstNonzero top.conf g.dimNumber ↔ ∀ i, i < j → top.conf.getD i 0 = 0) := by
    intro j hj
    unfold firstNonzero
    constructor
    · intro hle i hi
      have := f2 i (by omega)
      rwa [decide_eq_false_iff_not, not_not] at this
    · intro h
      by_contra hlt
      have hfj : (List.range g.dimNumber).findIdx
          (fun j => decide (top.conf.getD j 0 ≠ 0)) < j := by omega
      have := f3 (by omega)
      rw [h _ hfj] at this
      simp at this
  refine ⟨rfl, ?_, ?_, ?_, ?_, hz, ?_, ?_, ?_, ?_⟩
  · show (scan g top g.dimNumber 0 ⟨pq1, -1, g.allocated⟩).pq = _
    rw [hscan]
  · show (scan g top g.dimNumber 0 ⟨pq1, -1, g.allocated⟩).allocated = _
    rw [hscan]
  · show (scan g top g.dimNumber 0 ⟨pq1, -1, g.allocated⟩).ccount = _
    rw [hscan]
  · intro j
    unfold spawnable
    by_cases hd : g.dimNumber = 0
    · rw [if_pos hd]
      simp only [List.not_mem_nil, false_iff]
      rintro ⟨h, _⟩
      omega
    · rw [if_neg hd, List.mem_filter, List.mem_range]
      have hzle : firstNonzero top.conf g.dimNumber ≤ g.dimNumber - 1 := by
        unfold firstNonzero; omega
      constructor
      · rintro ⟨h1, h2⟩
        exact ⟨by omega, by omega, h2⟩
      · rintro ⟨_, h2, h3⟩
        exact ⟨by omega, h3⟩
  · unfold spawnable
    split
    · exact List.Pairwise.nil
    · exact List.Pairwise.sublist (List.filter_sublist _) (List.pairwise_lt_range _)
  · unfold successors
    cases spawnable g top with
    | nil => rfl
    | cons j js =>
      simp only [List.map_cons, (freshNodes_spec g top js g.allocated).1]
      rfl
  · unfold successors
    cases spawnable g top with
    | nil => rfl
    | cons j js =>
      simp only [List.map_cons, (freshNodes_spec g top js g.allocated).2.1]
      rfl
  · intro x hx
    unfold successors at hx
    cases hs : spawnable g top with
    | nil => rw [hs] at hx; simp at hx
    | cons j js =>
      rw [hs] at hx
      simp only [List.mem_cons] at hx
      rcases hx with rfl | hx
      · rfl
      · exact (freshNodes_spec g top js g.allocated).2.2 x hx

end IsoOrderedGenerator

namespace IsoOrderedGenerator

theorem ordered_successors_up_to_first_nonzero_witness :
    spawnable (construct sampleIso) (construct sampleIso).topConf = [0, 1] ∧
    (advanceToNextConfiguration pqPopMax id (construct sampleIso)).2.pq =
      [⟨1, -18, [0, 1]⟩, ⟨0, -19, [1, 0]⟩] ∧
    spawnable (advanceToNextConfiguration pqPopMax id (construct sampleIso)).2
      ⟨1, -18, [0, 1]⟩ = [0] ∧
    (advanceToNextConfiguration pqPopMax id
      (advanceToNextConfiguration pqPopMax id (construct sampleIso)).2).2.pq =
      [⟨1, -33, [1, 1]⟩, ⟨0, -19, [1, 0]⟩] :=
  ⟨by decide,
    (ordered_successors_up_to_first_nonzero pqPopMax id (construct sampleIso)
      (construct sampleIso).topConf [] (by decide)).2.1.trans (by decide),
    by decide,
    (ordered_successors_up_to_first_nonzero pqPopMax id
      (advanceToNextConfiguration pqPopMax id (construct sampleIso)).2
      ⟨1, -18, [0, 1]⟩ [⟨0, -19, [1, 0]⟩] (by decide)).2.1.trans (by decide)⟩

end IsoOrderedGenerator

/-! ## Exchanges of rows -/

theorem swapL_map {β γ : Type} (f : β → γ) (l : List β) (i j : Nat) :
    swapL (l.map f) i j = (swapL l i j).map f := by
  unfold swapL
  rw [List.getElem?_map, List.getElem?_map]
  cases hi : l[i]? with
  | none => rfl
  | some a =>
    cases hj : l[j]? with
    | none => rfl
    | some b => simp [List.map_set]

theorem swapL_self {β : Type} (l : List β) (i : Nat) : swapL l i i = l := by
  unfold swapL
  cases hi : l[i]? with
  | none => rfl
  | some a =>
    simp only
    rw [List.set_set]
    apply List.ext_getElem?
    intro k
    by_cases hk : i = k
    · subst hk
      have hlt : i < l.length := by
        by_contra hn
        rw [List.getElem?_eq_none (by omega)] at hi
        exact absurd hi (by simp)
      rw [List.getElem?_set_self hlt, hi]
    · rw [List.getElem?_set_ne hk]

theorem swapL_getElem?_ne {β : Type} (l : List β) (i j k : Nat) (hi : k ≠ i) (hj : k ≠ j) :
    (swapL l i j)[k]? = l[k]? := by
  unfold swapL
  split
  · rw [List.getElem?_set_ne (fun h => hj h.symm), List.getElem?_set_ne (fun h => hi h.symm)]
  · rfl

theorem swapL_getElem?_left {β : Type} (l : List β) (i j : Nat) (hi : i < l.length)
    (hj : j < l.length) : (swapL l i j)[i]? = l[j]? ∧ (swapL l i j)[j]? = l[i]? := by
  unfold swapL
  rw [List.getElem?_eq_getElem hi, List.getElem?_eq_getElem hj]
  simp only
  by_cases hij : i = j
  · subst hij
    simp [List.getElem?_set, hi]
  · constructor
    · rw [List.getElem?_set_ne (fun h => hij h.symm)]
      simp [List.getElem?_set, hi]
    · simp [List.getElem?_set, hj]

theorem perm_of_index_perm {β : Type} (d : β) (p p1 : List β) (hl : p1.length = p.length)
    (σ : Equiv.Perm Nat) (hσ : ∀ k, p.length ≤ k → σ k = k)
    (e1 : ∀ k, p1.getD k d = p.getD (σ k) d) : p1.Perm p := by
  have hmem : ∀ k, σ k < p.length ↔ k < p.length := by
    intro k
    constructor
    · intro hk
      by_contra hn
      rw [hσ k (by omega)] at hk
      exact hn hk
    · intro hk
      by_contra hn
      have := σ.injective (hσ (σ k) (by omega))
      omega
  have hp : p = (List.range p.length).map (fun k => p.getD k d) := by
    apply List.ext_getElem (by simp)
    intro i h1 h2
    simp [List.getElem?_eq_getElem h1]
  have hp1 : p1 = ((List.range p.length).map σ).map (fun k => p.getD k d) := by
    apply List.ext_getElem (by simp [hl])
    intro i h1 h2
    have := e1 i
    rw [List.getD_eq_getElem _ _ h1] at this
    simp [this]
  have hperm : ((List.range p.length).map σ).Perm (List.range p.length) := by
    rw [List.perm_ext_iff_of_nodup ((List.nodup_range _).map σ.injective) (List.nodup_range _)]
    intro a
    simp only [List.mem_map, List.mem_range]
    constructor
    · rintro ⟨k, hk, rfl⟩
      exact (hmem k).mpr hk
    · intro ha
      exact ⟨σ.symm a, (hmem _).mp (by simpa using ha), by simp⟩
  rw [hp1]
  nth_rewrite 3 [hp]
  exact hperm.map _

theorem swapL_perm {β : Type} (l : List β) (i j : Nat) : (swapL l i j).Perm l := by
  by_cases hi : i < l.length
  · by_cases hj : j < l.length
    · apply perm_of_index_perm l[i] l (swapL l i j) (swapL_length l i j) (Equiv.swap i j)
      · intro k hk
        exact Equiv.swap_apply_of_ne_of_ne (by omega) (by omega)
      · intro k
        exact swapL_getD l i j k _ hi hj
    · unfold swapL
      rw [List.getElem?_eq_none (by omega : l.length ≤ j)]
      cases l[i]? <;> exact List.Perm.refl _
  · unfold swapL
    rw [List.getElem?_eq_none (by omega : l.length ≤ i)]

theorem Rearranged.unmoved {β : Type} (lo : Nat) (rows : List β) : Rearranged lo rows rows :=
  ⟨List.Perm.refl _, fun _ _ => rfl⟩

theorem Rearranged.next {β : Type} {lo : Nat} {a b c : List β} (h1 : Rearranged lo a b)
    (h2 : Rearranged lo b c) : Rearranged lo a c :=
  ⟨h2.1.trans h1.1, fun k hk => (h2.2 k hk).trans (h1.2 k hk)⟩

theorem Rearranged.exchange {β : Type} (lo : Nat) (rows : List β) (i j : Nat) (hi : lo ≤ i)
    (hj : lo ≤ j) : Rearranged lo rows (swapL rows i j) :=
  ⟨swapL_perm rows i j, fun k hk => swapL_getElem?_ne rows i j k (by omega) (by omega)⟩

namespace LayeredTabulator

variable {α : Type} [LinearOrderedCommRing α]

theorem HoldsRows.appended {gm gl gp gc : Bool} {t : LayeredTabulator α} {rows : List (Row α)}
    (h : HoldsRows gm gl gp gc t rows) (r : Row α) :
    HoldsRows gm gl gp gc (addConf t r) (rows ++ [r]) := by
  obtain ⟨h1, h2, h3, h4⟩ := h
  refine ⟨?_, ?_, ?_, ?_⟩
  · show t._masses.map _ = _
    rw [h1]; cases gm <;> simp
  · show t._lprobs.map _ = _
    rw [h2]; cases gl <;> simp
  · show t._probs.map _ = _
    rw [h3]; cases gp <;> simp
  · show t._confs.map _ = _
    rw [h4]; cases gc <;> simp

theorem HoldsRows.exchanged {gm gl gp gc : Bool} {t : LayeredTabulator α} {rows : List (Row α)}
    (h : HoldsRows gm gl gp gc t rows) (i j : Nat) :
    HoldsRows gm gl gp gc (swap t i j) (swapL rows i j) := by
  obtain ⟨h1, h2, h3, h4⟩ := h
  refine ⟨?_, ?_, ?_, ?_⟩
  · show t._masses.map _ = _
    rw [h1]; cases gm <;> simp [swapL_map]
  · show t._lprobs.map _ = _
    rw [h2]; cases gl <;> simp [swapL_map]
  · show t._probs.map _ = _
    rw [h3]; cases gp <;> simp [swapL_map]
  · show t._confs.map _ = _
    rw [h4]; cases gc <;> simp [swapL_map]

/-- The partition loop exchanges rows at indices from `lo` on only, and `loweridx` moves
up by at most one per index visited and never beyond the index visited. -/
theorem partitionLoop_rows (gm gl gp gc : Bool) (pprob : α) (lo : Nat) :
    ∀ (left ii : Nat) (s : PartState α), lo ≤ s.loweridx → s.loweridx ≤ ii →
      (∀ rows : List (Row α), HoldsRows gm gl gp gc s.tab rows →
        ∃ rows1, HoldsRows gm gl gp gc (partitionLoop pprob left ii s).tab rows1 ∧
          Rearranged lo rows rows1) ∧
      s.loweridx ≤ (partitionLoop pprob left ii s).loweridx ∧
      (partitionLoop pprob left ii s).loweridx ≤ ii + left ∧
      (partitionLoop pprob left ii s).loweridx ≤ s.loweridx + left ∧
      ∀ x ∈ partitionTouched pprob left ii s, s.loweridx ≤ x ∧ x < ii + left := by
  intro left
  induction left with
  | zero =>
    intro ii s hlo hle
    exact ⟨fun rows h => ⟨rows, h, Rearranged.unmoved _ _⟩, le_rfl,
      by show s.loweridx ≤ ii + 0; omega,
      by show s.loweridx ≤ s.loweridx + 0; omega, by simp [partitionTouched]⟩
  | succ left ih =>
    intro ii s hlo hle
    unfold partitionLoop partitionTouched
    by_cases hc : pprob < probAt s.tab ii
    · rw [if_pos hc, if_pos hc]
      obtain ⟨g1, g3, g4, g5, g6⟩ := ih (ii + 1)
        ⟨LayeredTabulator.swap s.tab ii s.loweridx,
          s.new_csum + probAt (LayeredTabulator.swap s.tab ii s.loweridx) s.loweridx,
          s.loweridx + 1⟩
        (by show lo ≤ s.loweridx + 1; omega) (by show s.loweridx + 1 ≤ ii + 1; omega)
      have g3' : s.loweridx + 1 ≤ _ := g3
      have g5' : _ ≤ s.loweridx + 1 + left := g5
      refine ⟨?_, by omega, by omega, by omega, ?_⟩
      · intro rows h
        obtain ⟨rows1, k1, k2⟩ := g1 (swapL rows ii s.loweridx) (h.exchanged ii s.loweridx)
        exact ⟨rows1, k1,
          (Rearranged.exchange lo rows ii s.loweridx (by omega) hlo).next k2⟩
      · intro x hx
        simp only [List.mem_cons] at hx
        rcases hx with rfl | rfl | rfl | rfl | hx
        · omega
        · omega
        · omega
        · omega
        · have := g6 x hx
          have h1 : s.loweridx + 1 ≤ x := this.1
          omega
    · rw [if_neg hc, if_neg hc]
      obtain ⟨g1, g3, g4, g5, g6⟩ := ih (ii + 1) s hlo (by omega)
      refine ⟨g1, g3, by omega, by omega, ?_⟩
      intro x hx
      simp only [List.mem_cons] at hx
      rcases hx with rfl | hx
      · omega
      · have := g6 x hx
        omega

end LayeredTabulator

namespace LayeredTabulator

variable {α : Type} [LinearOrderedCommRing α]

/-! ### The trimming loop: rows, bounds and termination -/

/-- One iteration of the trimming loop on a range that is not empty: rows are exchanged
inside the range only, the range stays inside the one it was and gets shorter, and every
index read or written lies in the range. -/
theorem trimStep_rows (gm gl gp gc : Bool) (buildingR : Bool) (rand : Nat → Nat) (k : Nat)
    (s : TrimState α) (hlt : s.start < s.end_) :
    (∀ rows : List (Row α), HoldsRows gm gl gp gc s.tab rows →
      ∃ rows1, HoldsRows gm gl gp gc (trimStep buildingR rand k s).tab rows1 ∧
        Rearranged s.start rows rows1) ∧
    s.start ≤ (trimStep buildingR rand k s).start ∧
    (trimStep buildingR rand k s).start ≤ (trimStep buildingR rand k s).end_ ∧
    (trimStep buildingR rand k s).end_ ≤ s.end_ ∧
    (trimStep buildingR rand k s).end_ - (trimStep buildingR rand k s).start <
      s.end_ - s.start ∧
    ∀ x ∈ trimStepTouched buildingR rand k s, s.start ≤ x ∧ x < s.end_ := by
  obtain ⟨hp1, hp2⟩ := pivotIndex_mem buildingR rand k s.start s.end_ hlt
  obtain ⟨g1, g3, g4, g5, g6⟩ := partitionLoop_rows gm gl gp gc
    (probAt s.tab (pivotIndex buildingR rand k s.start s.end_)) s.start
    (s.end_ - 1 - s.start) s.start
    ⟨swap s.tab (pivotIndex buildingR rand k s.start s.end_) (s.end_ - 1), s.sum_to_start,
      s.start⟩ le_rfl le_rfl
  have g3' : s.start ≤ (partitionLoop (probAt s.tab (pivotIndex buildingR rand k s.start s.end_))
      (s.end_ - 1 - s.start) s.start
      ⟨swap s.tab (pivotIndex buildingR rand k s.start s.end_) (s.end_ - 1), s.sum_to_start,
        s.start⟩).loweridx := g3
  have g4' : (partitionLoop (probAt s.tab (pivotIndex buildingR rand k s.start s.end_))
      (s.end_ - 1 - s.start) s.start
      ⟨swap s.tab (pivotIndex buildingR rand k s.start s.end_) (s.end_ - 1), s.sum_to_start,
        s.start⟩).loweridx ≤ s.end_ - 1 := by
    have := g4
    omega
  have hrows : ∀ rows : List (Row α), HoldsRows gm gl gp gc s.tab rows →
      ∃ rows1, HoldsRows gm gl gp gc (swap (partitionLoop
        (probAt s.tab (pivotIndex buildingR rand k s.start s.end_))
        (s.end_ - 1 - s.start) s.start
        ⟨swap s.tab (pivotIndex buildingR rand k s.start s.end_) (s.end_ - 1), s.sum_to_start,
          s.start⟩).tab (s.end_ - 1) (partitionLoop
        (probAt s.tab (pivotIndex buildingR rand k s.start s.end_))
        (s.end_ - 1 - s.start) s.start
        ⟨swap s.tab (pivotIndex buildingR rand k s.start s.end_) (s.end_ - 1), s.sum_to_start,
          s.start⟩).loweridx) rows1 ∧ Rearranged s.start rows rows1 := by
    intro rows h
    obtain ⟨rows2, k1, k2⟩ := g1 _
      (h.exchanged (pivotIndex buildingR rand k s.start s.end_) (s.end_ - 1))
    exact ⟨_, k1.exchanged _ _,
      ((Rearranged.exchange s.start rows _ _ hp1 (by omega)).next k2).next
        (Rearranged.exchange s.start rows2 _ _ (by omega) g3')⟩
  have htouch : ∀ x ∈ trimStepTouched buildingR rand k s, s.start ≤ x ∧ x < s.end_ := by
    intro x hx
    simp only [trimStepTouched, List.mem_append, List.mem_cons, List.mem_singleton,
      List.not_mem_nil, or_false] at hx
    rcases hx with ((rfl | rfl | rfl) | hx) | (rfl | rfl | rfl)
    · exact ⟨hp1, hp2⟩
    · exact ⟨hp1, hp2⟩
    · omega
    · have := g6 x hx
      have h2 : s.start ≤ x := this.1
      omega
    · omega
    · omega
    · omega
  generalize hps : partitionLoop (probAt s.tab (pivotIndex buildingR rand k s.start s.end_))
      (s.end_ - 1 - s.start) s.start
      ⟨swap s.tab (pivotIndex buildingR rand k s.start s.end_) (s.end_ - 1), s.sum_to_start,
        s.start⟩ = ps at g3' g4' hrows
  have hstep : trimStep buildingR rand k s =
      if ((ps.new_csum : α) : WithTop α) < (swap ps.tab (s.end_ - 1) ps.loweridx).target_total_prob
      then
        { tab := swap ps.tab (s.end_ - 1) ps.loweridx, start := ps.loweridx + 1, end_ := s.end_,
          sum_to_start := ps.new_csum + probAt (swap ps.tab (s.end_ - 1) ps.loweridx) ps.loweridx }
      else
        { tab := swap ps.tab (s.end_ - 1) ps.loweridx, start := s.start, end_ := ps.loweridx,
          sum_to_start := s.sum_to_start } := by
    rw [← hps]
    rfl
  rw [hstep]
  split
  · exact ⟨hrows, by show s.start ≤ ps.loweridx + 1; omega,
      by show ps.loweridx + 1 ≤ s.end_; omega, le_rfl,
      by show s.end_ - (ps.loweridx + 1) < s.end_ - s.start; omega, htouch⟩
  · exact ⟨hrows, le_rfl, g3', by show ps.loweridx ≤ s.end_; omega,
      by show ps.loweridx - s.start < s.end_ - s.start; omega, htouch⟩

end LayeredTabulator

namespace LayeredTabulator

variable {α : Type} [LinearOrderedCommRing α]

/-! ### The rows stored by the layer loop -/

theorem addConf_confs_no (t : LayeredTabulator α) (r : Row α) :
    (addConf t r)._confs_no = t._confs_no + 1 := rfl

/-- The inner loop stores the rows of the layer behind the rows stored, in the order they
are emitted, up to the row at which it returns. -/
theorem addRows_rows (gm gl gp gc : Bool) : ∀ (layer : List (Row α)) (t : LayeredTabulator α)
    (p : α) (rows : List (Row α)), HoldsRows gm gl gp gc t rows → t._confs_no = rows.length →
    ∃ pre post, layer = pre ++ post ∧
      HoldsRows gm gl gp gc (addRows t p layer).1 (rows ++ pre) ∧
      (addRows t p layer).1._confs_no = (rows ++ pre).length ∧
      ((addRows t p layer).2.2 = false → post = []) := by
  intro layer
  induction layer with
  | nil =>
    intro t p rows h hn
    exact ⟨[], [], rfl, by simpa [addRows] using h, by simpa [addRows] using hn, fun _ => rfl⟩
  | cons r rs ih =>
    intro t p rows h hn
    unfold addRows
    split
    · refine ⟨[r], rs, rfl, h.appended r, ?_, fun hf => ?_⟩
      · show t._confs_no + 1 = _
        rw [hn, List.length_append]; rfl
      · exact absurd hf (by simp)
    · obtain ⟨pre, post, e, g1, g2, g3⟩ := ih (addConf t r) (p + r.prob) (rows ++ [r])
        (h.appended r) (by rw [addConf_confs_no, hn, List.length_append]; rfl)
      refine ⟨r :: pre, post, by rw [e]; rfl, ?_, ?_, g3⟩
      · rw [List.append_assoc] at g1; exact g1
      · rw [List.append_assoc] at g2; exact g2

/-- The layer loop stores a prefix of the rows the generator emits, in the order they are
emitted, and `last_switch` is at most the number of rows stored. -/
theorem collectLayers_rows (gm gl gp gc : Bool) : ∀ (layers : List (List (Row α)))
    (t : LayeredTabulator α) (ls : Nat) (pls p : α) (rows : List (Row α)),
    HoldsRows gm gl gp gc t rows → t._confs_no = rows.length → ls ≤ rows.length →
    ∃ pre post, layers.flatten = pre ++ post ∧
      HoldsRows gm gl gp gc (collectLayers t ls pls p layers).tab (rows ++ pre) ∧
      (collectLayers t ls pls p layers).tab._confs_no = (rows ++ pre).length ∧
      (collectLayers t ls pls p layers).last_switch ≤ (rows ++ pre).length := by
  intro layers
  induction layers with
  | nil =>
    intro t ls pls p rows h hn hls
    exact ⟨[], [], rfl, by simpa [collectLayers] using h, by simpa [collectLayers] using hn,
      by simpa [collectLayers] using hls⟩
  | cons layer rest ih =>
    intro t ls pls p rows h hn hls
    obtain ⟨pre, post, e, g1, g2, g3⟩ := addRows_rows gm gl gp gc layer t p rows h hn
    unfold collectLayers
    rcases hr : addRows t p layer with ⟨t1, p1, b⟩
    rw [hr] at g1 g2 g3
    cases b with
    | true =>
      refine ⟨pre, post ++ rest.flatten, ?_, g1, g2, ?_⟩
      · rw [List.flatten_cons, e, List.append_assoc]
      · show ls ≤ _
        rw [List.length_append]; omega
    | false =>
      have hpost : post = [] := g3 rfl
      subst hpost
      rw [List.append_nil] at e
      subst e
      simp only
      split
      · refine ⟨layer, rest.flatten, rfl, g1, g2, ?_⟩
        show ls ≤ _
        rw [List.length_append]; omega
      · obtain ⟨pre2, post2, e2, k1, k2, k3⟩ := ih t1 t1._confs_no p1 p1 (rows ++ layer) g1 g2
          (le_of_eq g2)
        refine ⟨layer ++ pre2, post2, ?_, ?_, ?_, ?_⟩
        · rw [List.flatten_cons, e2, List.append_assoc]
        · rw [← List.append_assoc]; exact k1
        · rw [← List.append_assoc]; exact k2
        · rw [← List.append_assoc]; exact k3

/-- The rows the layer loop of the constructor stores. -/
theorem collect_rows (layers : List (List (Row α))) (allDim : Nat) (gm gp gl gc : Bool)
    (tg : α) (opt : Bool) :
    ∃ pre post, layers.flatten = pre ++ post ∧
      HoldsRows gm gl (opt || gp) gc (collect layers allDim gm gp gl gc tg opt).tab pre ∧
      (collect layers allDim gm gp gl gc tg opt).tab._confs_no = pre.length ∧
      (collect layers allDim gm gp gl gc tg opt).last_switch ≤ pre.length := by
  obtain ⟨pre, post, e, g1, g2, g3⟩ := collectLayers_rows gm gl (opt || gp) gc layers
    ({ _masses := if gm then some [] else none
       _lprobs := if gl then some [] else none
       _probs := if opt || gp then some [] else none
       _confs := if gc then some [] else none
       _confs_no := 0
       allDim := allDim
       target_total_prob := if 1 ≤ tg then ⊤ else ((tg : α) : WithTop α)
       current_size := ISOSPEC_INIT_TABLE_SIZE
       optimize := opt } : LayeredTabulator α) 0 0 0 []
    ⟨by simp, by simp, by simp, by simp⟩ rfl (le_refl _)
  rw [List.nil_append] at g1 g2 g3
  exact ⟨pre, post, e, g1, g2, g3⟩

end LayeredTabulator

theorem Rearranged.weaken {β : Type} {lo hi : Nat} {a b : List β} (h : Rearranged hi a b)
    (hle : lo ≤ hi) : Rearranged lo a b :=
  ⟨h.1, fun k hk => h.2 k (by omega)⟩

namespace LayeredTabulator

variable {α : Type} [LinearOrderedCommRing α]

/-! ### The iterations of the trimming loop -/

/-- While the loop condition has held in every iteration so far, the range lies inside
the first one and has lost at least one index per iteration. -/
theorem trimIter_bounds (buildingR : Bool) (rand : Nat → Nat) (s : TrimState α)
    (hle : s.start ≤ s.end_) : ∀ i : Nat,
      (∀ j, j < i → (trimIter buildingR rand j s).start < (trimIter buildingR rand j s).end_) →
      s.start ≤ (trimIter buildingR rand i s).start ∧
      (trimIter buildingR rand i s).start ≤ (trimIter buildingR rand i s).end_ ∧
      (trimIter buildingR rand i s).end_ ≤ s.end_ ∧
      (trimIter buildingR rand i s).end_ - (trimIter buildingR rand i s).start + i ≤
        s.end_ - s.start := by
  intro i
  induction i with
  | zero =>
    intro _
    exact ⟨le_rfl, hle, le_rfl, le_rfl⟩
  | succ i ih =>
    intro hA
    obtain ⟨h1, h2, h3, h4⟩ := ih (fun j hj => hA j (by omega))
    obtain ⟨_, g2, g3, g4, g5, _⟩ := trimStep_rows false false false false buildingR rand i
      (trimIter buildingR rand i s) (hA i (by omega))
    have e : trimIter buildingR rand (i + 1) s =
        trimStep buildingR rand i (trimIter buildingR rand i s) := rfl
    rw [e]
    exact ⟨by omega, g3, by omega, by omega⟩

/-- The loop started with `k = 0` is, after `m` iterations whose condition held, in the
state `trimIter m`. -/
theorem quicktrim_iter (buildingR : Bool) (rand : Nat → Nat) (s : TrimState α) :
    ∀ (m fuel : Nat),
      (∀ j, j < m → (trimIter buildingR rand j s).start < (trimIter buildingR rand j s).end_) →
      quicktrim buildingR rand (fuel + m) 0 s =
        quicktrim buildingR rand fuel m (trimIter buildingR rand m s) := by
  intro m
  induction m with
  | zero =>
    intro fuel _
    rfl
  | succ m ih =>
    intro fuel hA
    have h1 := ih (fuel + 1) (fun j hj => hA j (by omega))
    have e : fuel + (m + 1) = fuel + 1 + m := by omega
    rw [e, h1]
    simp only [quicktrim, if_pos (hA m (by omega))]
    rfl

/-- The loop condition fails after at most `end - start` iterations. -/
theorem trimIter_stops (buildingR : Bool) (rand : Nat → Nat) (s : TrimState α)
    (hle : s.start ≤ s.end_) :
    ∃ m, m ≤ s.end_ - s.start ∧
      (∀ j, j < m → (trimIter buildingR rand j s).start < (trimIter buildingR rand j s).end_) ∧
      ¬ (trimIter buildingR rand m s).start < (trimIter buildingR rand m s).end_ := by
  have hstep : ∀ n : Nat,
      (∃ m, m ≤ n ∧
        (∀ j, j < m →
          (trimIter buildingR rand j s).start < (trimIter buildingR rand j s).end_) ∧
        ¬ (trimIter buildingR rand m s).start < (trimIter buildingR rand m s).end_) ∨
      (∀ j, j < n + 1 →
        (trimIter buildingR rand j s).start < (trimIter buildingR rand j s).end_) := by
    intro n
    induction n with
    | zero =>
      by_cases h : (trimIter buildingR rand 0 s).start < (trimIter buildingR rand 0 s).end_
      · right
        intro j hj
        have : j = 0 := by omega
        subst this
        exact h
      · left
        exact ⟨0, le_rfl, fun j hj => absurd hj (by omega), h⟩
    | succ n ih =>
      rcases ih with ⟨m, hm, h1, h2⟩ | hA
      · left
        exact ⟨m, by omega, h1, h2⟩
      · by_cases h : (trimIter buildingR rand (n + 1) s).start <
            (trimIter buildingR rand (n + 1) s).end_
        · right
          intro j hj
          by_cases hjn : j < n + 1
          · exact hA j hjn
          · have : j = n + 1 := by omega
            subst this
            exact h
        · left
          exact ⟨n + 1, le_rfl, hA, h⟩
  rcases hstep (s.end_ - s.start) with h | hA
  · exact h
  · have := (trimIter_bounds buildingR rand s hle (s.end_ - s.start + 1) hA).2.2.2
    omega

/-- The run of the trimming loop: it ends by its condition after `m` iterations,
`m` at most `end - start`, with `start = end`; every iteration keeps `start ≤ end`,
makes `end - start` smaller and reads and writes inside the first range only. -/
theorem quicktrim_run (buildingR : Bool) (rand : Nat → Nat) (s : TrimState α)
    (hle : s.start ≤ s.end_) :
    ∃ m, m ≤ s.end_ - s.start ∧
      (∀ i, i < m →
        (trimIter buildingR rand i s).start < (trimIter buildingR rand i s).end_ ∧
        (trimIter buildingR rand (i + 1) s).start ≤ (trimIter buildingR rand (i + 1) s).end_ ∧
        (trimIter buildingR rand (i + 1) s).end_ - (trimIter buildingR rand (i + 1) s).start <
          (trimIter buildingR rand i s).end_ - (trimIter buildingR rand i s).start ∧
        ∀ x ∈ trimStepTouched buildingR rand i (trimIter buildingR rand i s),
          s.start ≤ x ∧ x < s.end_) ∧
      (trimIter buildingR rand m s).start = (trimIter buildingR rand m s).end_ ∧
      ∀ fuel, m ≤ fuel → quicktrim buildingR rand fuel 0 s = trimIter buildingR rand m s := by
  obtain ⟨m, hm, hA, hstop⟩ := trimIter_stops buildingR rand s hle
  refine ⟨m, hm, ?_, ?_, ?_⟩
  · intro i hi
    obtain ⟨h1, h2, h3, _⟩ := trimIter_bounds buildingR rand s hle i
      (fun j hj => hA j (by omega))
    obtain ⟨_, g2, g3, g4, g5, g6⟩ := trimStep_rows false false false false buildingR rand i
      (trimIter buildingR rand i s) (hA i hi)
    refine ⟨hA i hi, g3, g5, ?_⟩
    intro x hx
    have := g6 x hx
    omega
  · have := (trimIter_bounds buildingR rand s hle m hA).2.1
    omega
  · intro fuel hf
    obtain ⟨f, rfl⟩ : ∃ f, fuel = f + m := ⟨fuel - m, by omega⟩
    rw [quicktrim_iter buildingR rand s m f hA]
    cases f with
    | zero => rfl
    | succ f => simp only [quicktrim, if_neg hstop]

end LayeredTabulator

namespace LayeredTabulator

variable {α : Type} [LinearOrderedCommRing α]

/-- C24: the trimming loop of LayeredTabulator ends for every choice of the pivots
(`buildingR` for the midpoint, `rand` for the values drawn). Entered with
`start = last_switch` and `end = _confs_no`, it runs `m` iterations, `m` at most
`_confs_no - last_switch`: in each of them the loop condition `start < end` holds, the
iteration leaves `start ≤ end`, it makes `end - start` smaller, and every array index it
reads or writes lies in `[last_switch, _confs_no)`; after them `start = end`, and this is
the state the loop of the constructor ends in. -/
theorem quicktrim_terminates_within_last_layer (buildingR : Bool) (rand : Nat → Nat)
    (layers : List (List (Row α))) (allDim : Nat) (gm gp gl gc : Bool) (tg : α) (opt : Bool) :
    (collect layers allDim gm gp gl gc tg opt).last_switch ≤
      (collect layers allDim gm gp gl gc tg opt).tab._confs_no ∧
    ∃ m, m ≤ (collect layers allDim gm gp gl gc tg opt).tab._confs_no -
        (collect layers allDim gm gp gl gc tg opt).last_switch ∧
      (∀ i, i < m →
        (trimIter buildingR rand i (trimInit (collect layers allDim gm gp gl gc tg opt))).start <
          (trimIter buildingR rand i (trimInit (collect layers allDim gm gp gl gc tg opt))).end_ ∧
        (trimIter buildingR rand (i + 1)
            (trimInit (collect layers allDim gm gp gl gc tg opt))).start ≤
          (trimIter buildingR rand (i + 1)
            (trimInit (collect layers allDim gm gp gl gc tg opt))).end_ ∧
        (trimIter buildingR rand (i + 1)
            (trimInit (collect layers allDim gm gp gl gc tg opt))).end_ -
          (trimIter buildingR rand (i + 1)
            (trimInit (collect layers allDim gm gp gl gc tg opt))).start <
          (trimIter buildingR rand i (trimInit (collect layers allDim gm gp gl gc tg opt))).end_ -
            (trimIter buildingR rand i
              (trimInit (collect layers allDim gm gp gl gc tg opt))).start ∧
        ∀ x ∈ trimStepTouched buildingR rand i
            (trimIter buildingR rand i (trimInit (collect layers allDim gm gp gl gc tg opt))),
          (collect layers allDim gm gp gl gc tg opt).last_switch ≤ x ∧
            x < (collect layers allDim gm gp gl gc tg opt).tab._confs_no) ∧
      (trimIter buildingR rand m (trimInit (collect layers allDim gm gp gl gc tg opt))).start =
        (trimIter buildingR rand m (trimInit (collect layers allDim gm gp gl gc tg opt))).end_ ∧
      trimmed buildingR rand (collect layers allDim gm gp gl gc tg opt) =
        trimIter buildingR rand m (trimInit (collect layers allDim gm gp gl gc tg opt)) ∧
      ∀ fuel, m ≤ fuel →
        quicktrim buildingR rand fuel 0 (trimInit (collect layers allDim gm gp gl gc tg opt)) =
          trimIter buildingR rand m (trimInit (collect layers allDim gm gp gl gc tg opt)) := by
  obtain ⟨pre, post, _, _, hno, hls⟩ := collect_rows layers allDim gm gp gl gc tg opt
  have hle : (collect layers allDim gm gp gl gc tg opt).last_switch ≤
      (collect layers allDim gm gp gl gc tg opt).tab._confs_no := by rw [hno]; exact hls
  refine ⟨hle, ?_⟩
  obtain ⟨m, hm, h1, h2, h3⟩ := quicktrim_run buildingR rand
    (trimInit (collect layers allDim gm gp gl gc tg opt)) hle
  exact ⟨m, hm, h1, h2, h3 _ hm, h3⟩

end LayeredTabulator

namespace LayeredTabulator

variable {α : Type} [LinearOrderedCommRing α]

/-! ### The rows after the trimming loop -/

/-- The end of the constructor keeps the rows before `end` in the arrays that were asked
for, and frees the probabilities that were not. -/
theorem finish_rows (gm gl gp gc opt : Bool) (s : TrimState α) (rows : List (Row α))
    (h : HoldsRows gm gl (opt || gp) gc s.tab rows) :
    ∃ rest, HoldsRows gm gl gp gc (finish gp s) (rows.take s.end_ ++ rest) := by
  obtain ⟨h1, h2, h3, h4⟩ := h
  by_cases hs : s.end_ ≤ s.tab.current_size / 2
  · refine ⟨[], ?_⟩
    rw [List.append_nil]
    simp only [finish, if_pos hs]
    refine ⟨?_, ?_, ?_, ?_⟩
    · show s.tab._masses.map _ = _
      rw [h1]; cases gm <;> simp [List.map_take]
    · show s.tab._lprobs.map _ = _
      rw [h2]; cases gl <;> simp [List.map_take]
    · show (if gp = true then s.tab._probs else none).map _ = _
      rw [h3]; cases gp <;> simp [List.map_take]
    · show s.tab._confs.map _ = _
      rw [h4]; cases gc <;> simp [List.map_take]
  · refine ⟨rows.drop s.end_, ?_⟩
    rw [List.take_append_drop]
    simp only [finish, if_neg hs]
    refine ⟨h1, h2, ?_, h4⟩
    show (if gp = true then s.tab._probs else none) = _
    rw [h3]; cases gp <;> simp

end LayeredTabulator

namespace FixedEnvelope

theorem swapAt_some {β : Type} (cells : List (Option β)) (i j : Nat) (hi : i < cells.length)
    (hj : j < cells.length) : swapAt (some cells) i j = some (swapL cells i j) := by
  simp only [swapAt, hi, hj, and_self, if_true]

end FixedEnvelope

namespace LayeredTabulator

variable {α : Type} [LinearOrderedCommRing α]

end LayeredTabulator

namespace LayeredTabulator

variable {α : Type} [LinearOrderedCommRing α]

/-! ### Which arrays the constructor leaves null -/

end LayeredTabulator

namespace LayeredTabulator

theorem quicktrim_terminates_within_last_layer_witness :
    ∃ m, m ≤ (collect sampleLayers 1 true false true true (3 / 5 : ℚ) true).tab._confs_no -
        (collect sampleLayers 1 true false true true (3 / 5 : ℚ) true).last_switch ∧
      (trimmed false (fun _ => 0)
        (collect sampleLayers 1 true false true true (3 / 5 : ℚ) true)).start =
      (trimmed false (fun _ => 0)
        (collect sampleLayers 1 true false true true (3 / 5 : ℚ) true)).end_ := by
  obtain ⟨m, h1, _, h3, h4, _⟩ := (quicktrim_terminates_within_last_layer false (fun _ => 0)
    sampleLayers 1 true false true true (3 / 5 : ℚ) true).2
  exact ⟨m, h1, by rw [h4]; exact h3⟩

end LayeredTabulator

/-! ### Appending a row to the buffers -/

namespace FixedEnvelope

variable {α : Type}

end FixedEnvelope

namespace TotalProbFixedEnvelope

variable {α : Type}

end TotalProbFixedEnvelope

namespace LayeredTabulatorBuffers

variable {α : Type}

end LayeredTabulatorBuffers

namespace LayeredTabulator

namespace Machine

variable {α : Type} [LinearOrderedCommRing α]

/-! ### The rows stored by the layer loop, for every addition -/

theorem accumulated_append (fadd : α → α → α) (rows : List (Row α)) (r : Row α) :
    accumulated fadd (rows ++ [r]) = fadd (accumulated fadd rows) r.prob := by
  unfold accumulated
  rw [List.foldl_append]
  rfl

theorem foldl_add_prob (rows : List (Row α)) : ∀ a : α,
    rows.foldl (fun p r => p + r.prob) a = a + (rows.map Row.prob).sum := by
  induction rows with
  | nil => intro a; simp
  | cons r rs ih =>
    intro a
    rw [List.foldl_cons, ih, List.map_cons, List.sum_cons, add_assoc]

/-- With the exact addition the accumulated probability is the sum of the probabilities
stored. -/
theorem accumulated_exact (rows : List (Row α)) :
    accumulated (fun a b => a + b) rows = (rows.map Row.prob).sum := by
  unfold accumulated
  rw [foldl_add_prob, zero_add]

/-- The inner loop stores the rows of the layer behind the rows stored, in the order they
are emitted, up to the row at which it returns. -/
theorem machine_addRows_rows (fadd : α → α → α) (gm gl gp gc : Bool) :
    ∀ (layer : List (Row α)) (t : LayeredTabulator α)
    (p : α) (rows : List (Row α)), HoldsRows gm gl gp gc t rows → t._confs_no = rows.length →
    ∃ pre post, layer = pre ++ post ∧
      HoldsRows gm gl gp gc (addRows fadd t p layer).1 (rows ++ pre) ∧
      (addRows fadd t p layer).1._confs_no = (rows ++ pre).length ∧
      (addRows fadd t p layer).1.optimize = t.optimize ∧
      (addRows fadd t p layer).1.target_total_prob = t.target_total_prob ∧
      ((addRows fadd t p layer).2.2 = false → post = []) ∧
      ((addRows fadd t p layer).2.2 = true → t.optimize = false) := by
  intro layer
  induction layer with
  | nil =>
    intro t p rows h hn
    exact ⟨[], [], rfl, by simpa [addRows] using h, by simpa [addRows] using hn, rfl, rfl,
      fun _ => rfl, fun hf => absurd hf (by simp [addRows])⟩
  | cons r rs ih =>
    intro t p rows h hn
    unfold addRows
    split
    · rename_i hc
      refine ⟨[r], rs, rfl, h.appended r, ?_, rfl, rfl, fun hf => ?_, fun _ => ?_⟩
      · show t._confs_no + 1 = _
        rw [hn, List.length_append]; rfl
      · exact absurd hf (by simp)
      · simp only [Bool.and_eq_true, Bool.not_eq_true', decide_eq_true_eq] at hc
        exact hc.1
    · obtain ⟨pre, post, e, g1, g2, g3, g4, g5, g6⟩ := ih (addConf t r) (fadd p r.prob)
        (rows ++ [r]) (h.appended r)
        (by rw [addConf_confs_no, hn, List.length_append]; rfl)
      refine ⟨r :: pre, post, by rw [e]; rfl, ?_, ?_, g3, g4, g5, g6⟩
      · rw [List.append_assoc] at g1; exact g1
      · rw [List.append_assoc] at g2; exact g2

/-- The layer loop stores a prefix of the rows the generator emits, in the order they are
emitted, and `last_switch` is at most the number of rows stored. -/
theorem machine_collectLayers_rows (fadd : α → α → α) (gm gl gp gc : Bool) :
    ∀ (layers : List (List (Row α)))
    (t : LayeredTabulator α) (ls : Nat) (pls p : α) (rows : List (Row α)),
    HoldsRows gm gl gp gc t rows → t._confs_no = rows.length → ls ≤ rows.length →
    ∃ pre post, layers.flatten = pre ++ post ∧
      HoldsRows gm gl gp gc (collectLayers fadd t ls pls p layers).tab (rows ++ pre) ∧
      (collectLayers fadd t ls pls p layers).tab._confs_no = (rows ++ pre).length ∧
      (collectLayers fadd t ls pls p layers).last_switch ≤ (rows ++ pre).length ∧
      (collectLayers fadd t ls pls p layers).tab.optimize = t.optimize ∧
      (collectLayers fadd t ls pls p layers).tab.target_total_prob = t.target_total_prob ∧
      ((collectLayers fadd t ls pls p layers).returned = true → t.optimize = false) := by
  intro layers
  induction layers with
  | nil =>
    intro t ls pls p rows h hn hls
    exact ⟨[], [], rfl, by simpa [collectLayers] using h, by simpa [collectLayers] using hn,
      by simpa [collectLayers] using hls, rfl, rfl, fun hf => absurd hf (by simp [collectLayers])⟩
  | cons layer rest ih =>
    intro t ls pls p rows h hn hls
    obtain ⟨pre, post, e, g1, g2, g3, g4, g5, g6⟩ :=
      machine_addRows_rows fadd gm gl gp gc layer t p rows h hn
    unfold collectLayers
    rcases hr : addRows fadd t p layer with ⟨t1, p1, b⟩
    rw [hr] at g1 g2 g3 g4 g5 g6
    cases b with
    | true =>
      refine ⟨pre, post ++ rest.flatten, ?_, g1, g2, ?_, g3, g4, fun _ => g6 rfl⟩
      · rw [List.flatten_cons, e, List.append_assoc]
      · show ls ≤ _
        rw [List.length_append]; omega
    | false =>
      have hpost : post = [] := g5 rfl
      subst hpost
      rw [List.append_nil] at e
      subst e
      simp only
      split
      · refine ⟨layer, rest.flatten, rfl, g1, g2, ?_, g3, g4, fun hf => absurd hf (by simp)⟩
        show ls ≤ _
        rw [List.length_append]; omega
      · obtain ⟨pre2, post2, e2, k1, k2, k3, k4, k5, k6⟩ :=
          ih t1 t1._confs_no p1 p1 (rows ++ layer) g1 g2 (le_of_eq g2)
        have g3' : t1.optimize = t.optimize := g3
        have g4' : t1.target_total_prob = t.target_total_prob := g4
        refine ⟨layer ++ pre2, post2, ?_, ?_, ?_, ?_, k4.trans g3', k5.trans g4',
          fun hf => (k6 hf).symm ▸ g3'.symm ▸ rfl⟩
        · rw [List.flatten_cons, e2, List.append_assoc]
        · rw [← List.append_assoc]; exact k1
        · rw [← List.append_assoc]; exact k2
        · rw [← List.append_assoc]; exact k3

/-- The rows the layer loop of the constructor stores. -/
theorem machine_collect_rows (fadd : α → α → α) (layers : List (List (Row α))) (allDim : Nat)
    (gm gp gl gc : Bool) (tg : α) (opt : Bool) :
    ∃ pre post, layers.flatten = pre ++ post ∧
      HoldsRows gm gl (opt || gp) gc (collect fadd layers allDim gm gp gl gc tg opt).tab pre ∧
      (collect fadd layers allDim gm gp gl gc tg opt).tab._confs_no = pre.length ∧
      (collect fadd layers allDim gm gp gl gc tg opt).last_switch ≤ pre.length ∧
      (collect fadd layers allDim gm gp gl gc tg opt).tab.optimize = opt ∧
      (collect fadd layers allDim gm gp gl gc tg opt).tab.target_total_prob =
        (if 1 ≤ tg then ⊤ else ((tg : α) : WithTop α)) ∧
      ((collect fadd layers allDim gm gp gl gc tg opt).returned = true → opt = false) := by
  obtain ⟨pre, post, e, g1, g2, g3, g4, g5, g6⟩ :=
    machine_collectLayers_rows fadd gm gl (opt || gp) gc layers
    ({ _masses := if gm then some [] else none
       _lprobs := if gl then some [] else none
       _probs := if opt || gp then some [] else none
       _confs := if gc then some [] else none
       _confs_no := 0
       allDim := allDim
       target_total_prob := if 1 ≤ tg then ⊤ else ((tg : α) : WithTop α)
       current_size := ISOSPEC_INIT_TABLE_SIZE
       optimize := opt } : LayeredTabulator α) 0 0 0 []
    ⟨by simp, by simp, by simp, by simp⟩ rfl (le_refl _)
  rw [List.nil_append] at g1 g2 g3
  exact ⟨pre, post, e, g1, g2, g3, g4, g5, g6⟩

end Machine

end LayeredTabulator

namespace LayeredTabulator

namespace Machine

variable {α : Type} [LinearOrderedCommRing α]

/-! ### The layer loop without optimize -/

/-- The inner loop without optimize, entered below the target: it stores the rows of the
layer up to the first at which the accumulated probability reaches the target. -/
theorem machine_addRows_stop (fadd : α → α → α) (gm gl gp gc : Bool) (tg : α) :
    ∀ (layer : List (Row α)) (t : LayeredTabulator α) (p : α) (rows : List (Row α)),
    t.optimize = false → t.target_total_prob = ((tg : α) : WithTop α) →
    HoldsRows gm gl gp gc t rows → t._confs_no = rows.length →
    p = accumulated fadd rows →
    (∀ k, k ≤ rows.length → accumulated fadd (rows.take k) < tg) →
    ∃ pre post, layer = pre ++ post ∧
      HoldsRows gm gl gp gc (addRows fadd t p layer).1 (rows ++ pre) ∧
      (addRows fadd t p layer).1._confs_no = (rows ++ pre).length ∧
      (addRows fadd t p layer).1.optimize = false ∧
      (addRows fadd t p layer).1.target_total_prob = ((tg : α) : WithTop α) ∧
      (addRows fadd t p layer).2.1 = accumulated fadd (rows ++ pre) ∧
      (∀ k, k < (rows ++ pre).length → accumulated fadd ((rows ++ pre).take k) < tg) ∧
      ((addRows fadd t p layer).2.2 = true → tg ≤ accumulated fadd (rows ++ pre)) ∧
      ((addRows fadd t p layer).2.2 = false →
        post = [] ∧ accumulated fadd (rows ++ pre) < tg) := by
  intro layer
  induction layer with
  | nil =>
    intro t p rows hopt htg h hn hp hinv
    refine ⟨[], [], rfl, ?_, ?_, ?_, ?_, ?_, ?_, ?_, ?_⟩
    · simpa [addRows] using h
    · simpa [addRows] using hn
    · simpa [addRows] using hopt
    · simpa [addRows] using htg
    · simpa [addRows] using hp
    · intro k hk
      rw [List.append_nil] at hk ⊢
      exact hinv k (by omega)
    · intro hf
      exact absurd hf (by simp [addRows])
    · intro _
      refine ⟨rfl, ?_⟩
      have := hinv rows.length le_rfl
      rw [List.take_length] at this
      rw [List.append_nil]
      exact this
  | cons r rs ih =>
    intro t p rows hopt htg h hn hp hinv
    have hsum : accumulated fadd (rows ++ [r]) = fadd p r.prob := by
      rw [accumulated_append, hp]
    have hlow : ∀ k, k < (rows ++ [r]).length →
        accumulated fadd ((rows ++ [r]).take k) < tg := by
      intro k hk
      rw [List.length_append, List.length_singleton] at hk
      rw [List.take_append_of_le_length (by omega)]
      exact hinv k (by omega)
    have hh : (t.target_total_prob ≤ ((fadd p r.prob : α) : WithTop α)) ↔
        tg ≤ fadd p r.prob := by
      rw [htg]
      exact WithTop.coe_le_coe
    unfold addRows
    by_cases hc : tg ≤ fadd p r.prob
    · have hcond : (!t.optimize &&
          decide (t.target_total_prob ≤ ((fadd p r.prob : α) : WithTop α))) = true := by
        simp only [hopt, Bool.not_false, Bool.true_and, decide_eq_true_eq]
        exact hh.mpr hc
      rw [if_pos hcond]
      refine ⟨[r], rs, rfl, h.appended r, ?_, hopt, htg, hsum.symm, hlow, ?_, ?_⟩
      · show t._confs_no + 1 = _
        rw [hn, List.length_append]; rfl
      · intro _
        rw [hsum]; exact hc
      · intro hf
        exact absurd hf (by simp)
    · have hcond : ¬ ((!t.optimize &&
          decide (t.target_total_prob ≤ ((fadd p r.prob : α) : WithTop α))) = true) := by
        simp only [hopt, Bool.not_false, Bool.true_and, decide_eq_true_eq]
        exact fun h2 => hc (hh.mp h2)
      rw [if_neg hcond]
      have hinv2 : ∀ k, k ≤ (rows ++ [r]).length →
          accumulated fadd ((rows ++ [r]).take k) < tg := by
        intro k hk
        by_cases hk2 : k < (rows ++ [r]).length
        · exact hlow k hk2
        · have : k = (rows ++ [r]).length := by omega
          rw [this, List.take_length, hsum]
          exact not_le.mp hc
      obtain ⟨pre, post, e, g1, g2, g3, g4, g5, g6, g7, g8⟩ := ih (addConf t r) (fadd p r.prob)
        (rows ++ [r]) hopt htg (h.appended r)
        (by rw [addConf_confs_no, hn, List.length_append]; rfl) hsum.symm hinv2
      rw [List.append_assoc] at g1 g2 g5 g6 g7 g8
      exact ⟨r :: pre, post, by rw [e]; rfl, g1, g2, g3, g4, g5, g6, g7, g8⟩

/-- The layer loop without optimize, entered below the target: it stores the rows the
generator emits up to the first at which the accumulated probability reaches the target,
or all of them. -/
theorem machine_collectLayers_stop (fadd : α → α → α) (gm gl gp gc : Bool) (tg : α) :
    ∀ (layers : List (List (Row α)))
    (t : LayeredTabulator α) (ls : Nat) (pls p : α) (rows : List (Row α)),
    t.optimize = false → t.target_total_prob = ((tg : α) : WithTop α) →
    HoldsRows gm gl gp gc t rows → t._confs_no = rows.length →
    p = accumulated fadd rows →
    (∀ k, k ≤ rows.length → accumulated fadd (rows.take k) < tg) →
    ∃ pre post, layers.flatten = pre ++ post ∧
      HoldsRows gm gl gp gc (collectLayers fadd t ls pls p layers).tab (rows ++ pre) ∧
      (collectLayers fadd t ls pls p layers).tab._confs_no = (rows ++ pre).length ∧
      (collectLayers fadd t ls pls p layers).prob_so_far = accumulated fadd (rows ++ pre) ∧
      (∀ k, k < (rows ++ pre).length → accumulated fadd ((rows ++ pre).take k) < tg) ∧
      (tg ≤ accumulated fadd (rows ++ pre) ∨ post = []) := by
  intro layers
  induction layers with
  | nil =>
    intro t ls pls p rows hopt htg h hn hp hinv
    refine ⟨[], [], rfl, by simpa [collectLayers] using h, by simpa [collectLayers] using hn,
      by simpa [collectLayers] using hp, ?_, Or.inr rfl⟩
    intro k hk
    rw [List.append_nil] at hk ⊢
    exact hinv k (by omega)
  | cons layer rest ih =>
    intro t ls pls p rows hopt htg h hn hp hinv
    obtain ⟨pre, post, e, g1, g2, g3, g4, g5, g6, g7, g8⟩ :=
      machine_addRows_stop fadd gm gl gp gc tg layer t p rows hopt htg h hn hp hinv
    unfold collectLayers
    rcases hr : addRows fadd t p layer with ⟨t1, p1, b⟩
    rw [hr] at g1 g2 g3 g4 g5 g7 g8
    cases b with
    | true =>
      exact ⟨pre, post ++ rest.flatten, by rw [List.flatten_cons, e, List.append_assoc], g1, g2,
        g5, g6, Or.inl (g7 rfl)⟩
    | false =>
      obtain ⟨hpost, hlt⟩ := g8 rfl
      subst hpost
      rw [List.append_nil] at e
      subst e
      simp only
      have hg4 : t1.target_total_prob = ((tg : α) : WithTop α) := g4
      have hg5 : p1 = accumulated fadd (rows ++ layer) := g5
      have hno : ¬ t1.target_total_prob ≤ ((p1 : α) : WithTop α) := by
        rw [hg4, WithTop.coe_le_coe, hg5]
        exact not_le.mpr hlt
      rw [if_neg hno]
      have hinv2 : ∀ k, k ≤ (rows ++ layer).length →
          accumulated fadd ((rows ++ layer).take k) < tg := by
        intro k hk
        by_cases hk2 : k < (rows ++ layer).length
        · exact g6 k hk2
        · have : k = (rows ++ layer).length := by omega
          rw [this, List.take_length]
          exact hlt
      obtain ⟨pre2, post2, e2, k1, k2, k3, k4, k5⟩ := ih t1 t1._confs_no p1 p1 (rows ++ layer)
        g3 hg4 g1 g2 hg5 hinv2
      rw [List.append_assoc] at k1 k2 k3 k4 k5
      exact ⟨layer ++ pre2, post2, by rw [List.flatten_cons, e2, List.append_assoc], k1, k2, k3,
        k4, k5⟩

/-- C22: for LayeredTabulator with optimize=false and a target in (0,1), construction
stops at the first configuration at which the accumulated probability, the sum
`prob_so_far` as the machine computes it with its addition `fadd` of doubles, reaches the
target. The constructor does not fail; the rows stored are the first rows the generator
emits, in the order they are emitted, in every array that was asked for; before each of
them the accumulated probability is below the target; and on return either the
accumulated probability of the rows stored is at least the target while without the last
row stored it is less, or every row the generator emits in its layers is stored. No
trimming is done: the constructor returns the arrays as the layer loop leaves them. With
the exact addition the accumulated probability is the sum of the probabilities stored. -/
theorem layered_fast_path_stops_at_target (fadd : α → α → α) (buildingR : Bool)
    (rand : Nat → Nat) (layers : List (List (Row α))) (allDim : Nat) (gm gp gl gc : Bool)
    (tg : α) (h0 : 0 < tg) (h1 : tg < 1) :
    (∃ stored post, layers.flatten = stored ++ post ∧
      construct fadd buildingR rand layers allDim gm gp gl gc tg false =
        some (collect fadd layers allDim gm gp gl gc tg false).tab ∧
      HoldsRows gm gl gp gc (collect fadd layers allDim gm gp gl gc tg false).tab stored ∧
      (collect fadd layers allDim gm gp gl gc tg false).tab._confs_no = stored.length ∧
      (collect fadd layers allDim gm gp gl gc tg false).prob_so_far =
        accumulated fadd stored ∧
      (∀ k, k < stored.length → accumulated fadd (stored.take k) < tg) ∧
      ((tg ≤ accumulated fadd stored ∧ stored ≠ [] ∧
          accumulated fadd stored.dropLast < tg) ∨
        stored = layers.flatten)) ∧
    (∀ rows : List (Row α),
      accumulated (fun a b => a + b) rows = (rows.map Row.prob).sum) := by
  refine ⟨?_, accumulated_exact⟩
  have hcon : construct fadd buildingR rand layers allDim gm gp gl gc tg false =
      some (collect fadd layers allDim gm gp gl gc tg false).tab := by
    unfold construct
    rw [if_neg (not_le.mpr h0)]
    simp
  obtain ⟨pre, post, e, g1, g2, g3, g4, g5⟩ := machine_collectLayers_stop fadd gm gl gp gc tg
    layers
    ({ _masses := if gm then some [] else none
       _lprobs := if gl then some [] else none
       _probs := if false || gp then some [] else none
       _confs := if gc then some [] else none
       _confs_no := 0
       allDim := allDim
       target_total_prob := if 1 ≤ tg then ⊤ else ((tg : α) : WithTop α)
       current_size := ISOSPEC_INIT_TABLE_SIZE
       optimize := false } : LayeredTabulator α) 0 0 0 [] rfl
    (by simp [not_le.mpr h1]) ⟨by simp, by simp, by simp, by simp⟩ rfl rfl
    (by
      intro k _
      simpa [accumulated] using h0)
  rw [List.nil_append] at g1 g2 g3 g4 g5
  refine ⟨pre, post, e, hcon, g1, g2, g3, g4, ?_⟩
  rcases g5 with h | h
  · left
    have hne : pre ≠ [] := by
      intro hnil
      rw [hnil] at h
      exact absurd h0 (not_lt.mpr h)
    refine ⟨h, hne, ?_⟩
    rw [List.dropLast_eq_take]
    exact g4 _ (by
      have := List.length_pos.mpr hne
      omega)
  · right
    rw [e, h, List.append_nil]

end Machine

end LayeredTabulator

/-! ### The addition of doubles between 1/2 and 1 -/

theorem roundHalfEven_down (x : ℚ) (n : ℤ) (h1 : (n : ℚ) ≤ x) (h2 : x - n < 1 / 2) :
    roundHalfEven x = n := by
  have hf : ⌊x⌋ = n := by
    rw [Int.floor_eq_iff]
    constructor
    · exact h1
    · linarith
  unfold roundHalfEven
  rw [hf, if_pos h2]

theorem roundHalfEven_up (x : ℚ) (n : ℤ) (h1 : 1 / 2 < x - n) (h2 : x < n + 1) :
    roundHalfEven x = n + 1 := by
  have hf : ⌊x⌋ = n := by
    rw [Int.floor_eq_iff]
    constructor
    · linarith
    · exact h2
  unfold roundHalfEven
  rw [hf, if_neg (by linarith), if_pos h1]

theorem log_two_of_half (q : ℚ) (h1 : 1 / 2 ≤ q) (h2 : q < 1) : Int.log 2 q = -1 := by
  have hq : 0 < q := by linarith
  have a : (-1 : ℤ) ≤ Int.log 2 q := by
    rw [← Int.zpow_le_iff_le_log (by norm_num) hq]
    norm_num
    linarith
  have b : Int.log 2 q < 0 := by
    rw [← Int.lt_zpow_iff_log_lt (by norm_num) hq]
    norm_num
    exact h2
  omega

/-- The double nearest to a rational between 1/2 and 1 is the nearest multiple of
`2^-53`. -/
theorem toDouble_of_half (q : ℚ) (h1 : 1 / 2 ≤ q) (h2 : q < 1) :
    toDouble q = (roundHalfEven (q * 2 ^ 53) : ℚ) / 2 ^ 53 := by
  have hq : 0 < q := by linarith
  unfold toDouble
  rw [if_neg (ne_of_gt hq), if_pos hq, log_two_of_half q h1 h2]
  have e : ((2 : ℚ) ^ ((-1 : ℤ) - 52)) = 1 / 2 ^ 53 := by
    norm_num [zpow_neg]
  rw [e]
  field_simp

theorem doubleAdd_zero_half : doubleAdd 0 (1 / 2) = 1 / 2 := by
  unfold doubleAdd
  rw [zero_add, toDouble_of_half _ (le_refl _) (by norm_num),
    roundHalfEven_down _ (2 ^ 52) (by norm_num) (by norm_num)]
  norm_num

/-- In doubles, 0.5 + 0x1.8p-54 is 0x1.0000000000001p-1: the sum lies three quarters of
the way to the next double. -/
theorem doubleAdd_half_up : doubleAdd (1 / 2) (3 / 2 ^ 55) = 1 / 2 + 1 / 2 ^ 53 := by
  unfold doubleAdd
  rw [toDouble_of_half _ (by norm_num) (by norm_num),
    roundHalfEven_up _ (2 ^ 52) (by norm_num) (by norm_num)]
  norm_num

/-- In doubles, adding 2^-55 to 0x1.0000000000001p-1 leaves it as it is. -/
theorem doubleAdd_target_quarter :
    doubleAdd (1 / 2 + 1 / 2 ^ 53) (1 / 2 ^ 55) = 1 / 2 + 1 / 2 ^ 53 := by
  unfold doubleAdd
  rw [toDouble_of_half _ (by norm_num) (by norm_num),
    roundHalfEven_down _ (2 ^ 52 + 1) (by norm_num) (by norm_num)]
  norm_num

/-- In doubles, adding 2^-56 to 0x1.0000000000001p-1 leaves it as it is. -/
theorem doubleAdd_target_eighth :
    doubleAdd (1 / 2 + 1 / 2 ^ 53) (1 / 2 ^ 56) = 1 / 2 + 1 / 2 ^ 53 := by
  unfold doubleAdd
  rw [toDouble_of_half _ (by norm_num) (by norm_num),
    roundHalfEven_down _ (2 ^ 52 + 1) (by norm_num) (by norm_num)]
  norm_num

namespace LayeredTabulator

namespace Machine

/-- C22: with the addition of doubles the constructor stops below the target. For the
target 0x1.0000000000001p-1 and a layer of the probabilities 0.5, 0x1.8p-54 and 0.25,
optimize=false stores two rows and returns: the double nearest to 0.5 + 0x1.8p-54 is the
target, while the sum of the two probabilities stored is less than the target and the
third row is not stored. -/
theorem layered_fast_path_rounded_sum_below_target :
    (construct doubleAdd false (fun _ => 0)
      [[⟨1, -1, 1 / 2, [0]⟩, ⟨2, -38, 3 / 2 ^ 55, [1]⟩, ⟨3, -2, 1 / 4, [2]⟩]] 1
      true true true true (1 / 2 + 1 / 2 ^ 53) false).map (fun t => (t._confs_no, t._probs)) =
      some (2, some [1 / 2, 3 / 2 ^ 55]) ∧
    (([1 / 2, 3 / 2 ^ 55] : List ℚ).sum < 1 / 2 + 1 / 2 ^ 53) := by
  have e0 : ¬ ((1 / 2 + 1 / 2 ^ 53 : ℚ) ≤ 0) := by norm_num
  have e1 : ¬ (1 : ℚ) ≤ 1 / 2 + 1 / 2 ^ 53 := by norm_num
  have e2 : ¬ (((1 / 2 + 1 / 2 ^ 53 : ℚ) : WithTop ℚ) ≤ ((1 / 2 : ℚ) : WithTop ℚ)) := by
    rw [WithTop.coe_le_coe]; norm_num
  have e3 : ((1 / 2 + 1 / 2 ^ 53 : ℚ) : WithTop ℚ) ≤ ((1 / 2 + 1 / 2 ^ 53 : ℚ) : WithTop ℚ) :=
    le_refl _
  constructor
  · unfold construct
    rw [if_neg e0]
    simp only [collect, collectLayers, addRows, addConf, ISOSPEC_INIT_TABLE_SIZE, if_neg e1,
      doubleAdd_zero_half, doubleAdd_half_up, e2, e3, decide_True, decide_False,
      Bool.not_false, Bool.true_and, Bool.false_eq_true, if_false, if_true,
      Bool.false_or, Option.map_some', List.nil_append, List.cons_append]
  · norm_num

/-- C6: with the addition of doubles the constructor keeps a row too many. For the target
0x1.0000000000001p-1, a first layer of the probability 0.5 and a second layer of the
probabilities 0x1.8p-54, 2^-55 and 2^-56, optimize=true accumulates exactly the target
(each of the last two additions is rounded away), so the constructor returns at the test
`prob_so_far <= target_total_prob` without trimming and keeps all four rows, while the
first three of them sum to the target. -/
theorem layered_optimize_rounded_keeps_extra_row :
    (construct doubleAdd false (fun _ => 0)
      [[⟨1, -1, 1 / 2, [0]⟩],
        [⟨2, -38, 3 / 2 ^ 55, [1]⟩, ⟨3, -39, 1 / 2 ^ 55, [2]⟩, ⟨4, -40, 1 / 2 ^ 56, [3]⟩]] 1
      true true true true (1 / 2 + 1 / 2 ^ 53) true).map (fun t => (t._confs_no, t._probs)) =
      some (4, some [1 / 2, 3 / 2 ^ 55, 1 / 2 ^ 55, 1 / 2 ^ 56]) ∧
    ((1 / 2 + 1 / 2 ^ 53 : ℚ) ≤ ([1 / 2, 3 / 2 ^ 55, 1 / 2 ^ 55] : List ℚ).sum) := by
  have e0 : ¬ ((1 / 2 + 1 / 2 ^ 53 : ℚ) ≤ 0) := by norm_num
  have e1 : ¬ (1 : ℚ) ≤ 1 / 2 + 1 / 2 ^ 53 := by norm_num
  have e2 : ¬ (((1 / 2 + 1 / 2 ^ 53 : ℚ) : WithTop ℚ) ≤ ((1 / 2 : ℚ) : WithTop ℚ)) := by
    rw [WithTop.coe_le_coe]; norm_num
  have e3 : ((1 / 2 + 1 / 2 ^ 53 : ℚ) : WithTop ℚ) ≤ ((1 / 2 + 1 / 2 ^ 53 : ℚ) : WithTop ℚ) :=
    le_refl _
  constructor
  · unfold construct
    rw [if_neg e0]
    simp only [collect, collectLayers, addRows, addConf, ISOSPEC_INIT_TABLE_SIZE, if_neg e1,
      doubleAdd_zero_half, doubleAdd_half_up, doubleAdd_target_quarter,
      doubleAdd_target_eighth, e2, e3, decide_True, decide_False,
      Bool.not_true, Bool.false_and, Bool.true_or, Bool.or_true, Bool.false_eq_true, if_false,
      if_true, Option.map_some', List.nil_append, List.cons_append]
  · norm_num

end Machine

end LayeredTabulator

namespace LayeredTabulator

namespace Machine

variable {α : Type} [LinearOrderedCommRing α]

/-! ### The accesses of the trimming loop -/

theorem swapEntries_some {β : Type} (l : List β) (i j : Nat) (hi : i < l.length)
    (hj : j < l.length) : swapEntries (some l) i j = some (swapL l i j) := by
  simp only [swapEntries, hi, hj, and_self, if_true]

theorem swapNonNull_flag {β : Type} (g : Bool) (l : List β) (i j : Nat) (hi : i < l.length)
    (hj : j < l.length) :
    swapNonNull (if g then some l else none) i j =
      some (if g then some (swapL l i j) else none) := by
  cases g
  · rfl
  · simp only [swapNonNull, hi, hj, and_self, if_true]

/-- The read of `_probs[i]` of a row stored, the probabilities being allocated. -/
theorem readProb_of_rows {gm gl gc : Bool} {t : LayeredTabulator α} {rows : List (Row α)}
    (h : HoldsRows gm gl true gc t rows) (i : Nat) (hi : i < rows.length) :
    ∃ x, readProb t i = some x := by
  obtain ⟨_, _, h3, _⟩ := h
  unfold readProb
  rw [h3]
  simp only [if_true]
  exact ⟨_, List.getElem?_eq_getElem (by rw [List.length_map]; exact hi)⟩

/-- The exchange of two rows stored, the probabilities being allocated: no access fails
and every array that is not null has the two rows exchanged. -/
theorem swap_of_rows {gm gl gc : Bool} {t : LayeredTabulator α} {rows : List (Row α)}
    (h : HoldsRows gm gl true gc t rows) (i j : Nat) (hi : i < rows.length)
    (hj : j < rows.length) :
    ∃ t1, swap t i j = some t1 ∧ HoldsRows gm gl true gc t1 (swapL rows i j) ∧
      t1.target_total_prob = t.target_total_prob ∧ t1.current_size = t.current_size ∧
      t1._confs_no = t._confs_no ∧ t1.optimize = t.optimize ∧ t1.allDim = t.allDim := by
  obtain ⟨h1, h2, h3, h4⟩ := h
  unfold swap
  rw [h1, h2, h3, h4]
  simp only [if_true]
  rw [swapEntries_some _ i j (by rw [List.length_map]; exact hi)
      (by rw [List.length_map]; exact hj),
    swapNonNull_flag gl _ i j (by rw [List.length_map]; exact hi)
      (by rw [List.length_map]; exact hj),
    swapNonNull_flag gm _ i j (by rw [List.length_map]; exact hi)
      (by rw [List.length_map]; exact hj),
    swapNonNull_flag gc _ i j (by rw [List.length_map]; exact hi)
      (by rw [List.length_map]; exact hj)]
  refine ⟨_, rfl, ⟨?_, ?_, ?_, ?_⟩, rfl, rfl, rfl, rfl, rfl⟩
  · show (if gm = true then some (swapL (rows.map Row.mass) i j) else none) = _
    rw [swapL_map]
  · show (if gl = true then some (swapL (rows.map Row.lprob) i j) else none) = _
    rw [swapL_map]
  · show some (swapL (rows.map Row.prob) i j) = _
    rw [swapL_map]
    rfl
  · show (if gc = true then some (swapL (rows.map Row.conf) i j) else none) = _
    rw [swapL_map]

/-- The exchange of a row stored with itself changes nothing. -/
theorem swap_same {gm gl gc : Bool} {t : LayeredTabulator α} {rows : List (Row α)}
    (h : HoldsRows gm gl true gc t rows) (i : Nat) (hi : i < rows.length) :
    swap t i i = some t := by
  obtain ⟨t1, e, ⟨k1, k2, k3, k4⟩, g1, g2, g3, g4, g5⟩ := swap_of_rows h i i hi hi
  obtain ⟨h1, h2, h3, h4⟩ := h
  rw [e]
  rw [swapL_self] at k1 k2 k3 k4
  cases t
  cases t1
  simp only at h1 h2 h3 h4 k1 k2 k3 k4 g1 g2 g3 g4 g5
  subst h1 h2 h3 h4 k1 k2 k3 k4 g1 g2 g3 g4 g5
  rfl

/-- The exchange fails when the probabilities are not allocated. -/
theorem swap_null_probs (t : LayeredTabulator α) (i j : Nat) (h : t._probs = none) :
    swap t i j = none := by
  unfold swap
  rw [h]
  rfl

end Machine

end LayeredTabulator

namespace LayeredTabulator

namespace Machine

variable {α : Type} [LinearOrderedCommRing α]

/-! ### The trimming loop on the machine: no access fails -/

/-- The partition loop over rows stored, the probabilities being allocated: no access
fails, rows are exchanged at indices from `lo` on only, and `loweridx` moves up by at
most one per index visited and never beyond the index visited. -/
theorem machine_partitionLoop_rows (fadd : α → α → α) (gm gl gc : Bool) (pprob : α)
    (lo : Nat) :
    ∀ (left ii : Nat) (s : PartState α) (rows : List (Row α)),
      HoldsRows gm gl true gc s.tab rows → lo ≤ s.loweridx → s.loweridx ≤ ii →
      ii + left ≤ rows.length →
      ∃ s1, partitionLoop fadd pprob left ii s = some s1 ∧
        (∃ rows1, HoldsRows gm gl true gc s1.tab rows1 ∧ Rearranged lo rows rows1) ∧
        s1.tab.target_total_prob = s.tab.target_total_prob ∧
        s1.tab.current_size = s.tab.current_size ∧
        s.loweridx ≤ s1.loweridx ∧ s1.loweridx ≤ ii + left := by
  intro left
  induction left with
  | zero =>
    intro ii s rows h hlo hle hlen
    exact ⟨s, rfl, ⟨rows, h, Rearranged.unmoved _ _⟩, rfl, rfl, le_rfl, by omega⟩
  | succ left ih =>
    intro ii s rows h hlo hle hlen
    obtain ⟨x, hx⟩ := readProb_of_rows h ii (by omega)
    unfold partitionLoop
    rw [hx]
    simp only
    by_cases hc : pprob < x
    · rw [if_pos hc]
      obtain ⟨t1, e1, k1, k2, k3, _⟩ := swap_of_rows h ii s.loweridx (by omega) (by omega)
      rw [e1]
      simp only
      obtain ⟨y, hy⟩ := readProb_of_rows k1 s.loweridx (by rw [swapL_length]; omega)
      rw [hy]
      simp only
      obtain ⟨s1, g0, ⟨rows1, g1, g2⟩, g3, g4, g5, g6⟩ := ih (ii + 1)
        ⟨t1, fadd s.new_csum y, s.loweridx + 1⟩ (swapL rows ii s.loweridx) k1
        (by show lo ≤ s.loweridx + 1; omega) (by show s.loweridx + 1 ≤ ii + 1; omega)
        (by rw [swapL_length]; omega)
      have g5' : s.loweridx + 1 ≤ s1.loweridx := g5
      exact ⟨s1, g0, ⟨rows1, g1,
        (Rearranged.exchange lo rows ii s.loweridx (by omega) hlo).next g2⟩,
        g3.trans k2, g4.trans k3, by omega, by omega⟩
    · rw [if_neg hc]
      obtain ⟨s1, g0, g1, g3, g4, g5, g6⟩ := ih (ii + 1) s rows h hlo (by omega) (by omega)
      exact ⟨s1, g0, g1, g3, g4, g5, by omega⟩

/-- One iteration of the trimming loop on a range of rows stored that is not empty, the
probabilities being allocated: no access fails, rows are exchanged inside the range only,
and the range stays inside the one it was and gets shorter. -/
theorem machine_trimStep_rows (fadd : α → α → α) (gm gl gc : Bool) (buildingR : Bool)
    (rand : Nat → Nat) (k : Nat) (s : TrimState α) (rows : List (Row α))
    (h : HoldsRows gm gl true gc s.tab rows) (hlt : s.start < s.end_)
    (hlen : s.end_ ≤ rows.length) :
    ∃ s1, trimStep fadd buildingR rand k s = some s1 ∧
      (∃ rows1, HoldsRows gm gl true gc s1.tab rows1 ∧ Rearranged s.start rows rows1) ∧
      s1.tab.target_total_prob = s.tab.target_total_prob ∧
      s1.tab.current_size = s.tab.current_size ∧
      s.start ≤ s1.start ∧ s1.start ≤ s1.end_ ∧ s1.end_ ≤ s.end_ ∧
      s1.end_ - s1.start < s.end_ - s.start := by
  obtain ⟨hp1, hp2⟩ := pivotIndex_mem buildingR rand k s.start s.end_ hlt
  obtain ⟨pprob, hpp⟩ := readProb_of_rows h (pivotIndex buildingR rand k s.start s.end_)
    (by omega)
  obtain ⟨t1, e1, k1, k2, k3, _⟩ := swap_of_rows h
    (pivotIndex buildingR rand k s.start s.end_) (s.end_ - 1) (by omega) (by omega)
  obtain ⟨ps, e2, ⟨rows2, g1, g2⟩, g3, g4, g5, g6⟩ := machine_partitionLoop_rows fadd gm gl gc
    pprob s.start (s.end_ - 1 - s.start) s.start ⟨t1, s.sum_to_start, s.start⟩
    (swapL rows (pivotIndex buildingR rand k s.start s.end_) (s.end_ - 1)) k1 le_rfl le_rfl
    (by rw [swapL_length]; omega)
  have g5' : s.start ≤ ps.loweridx := g5
  have g6' : ps.loweridx ≤ s.end_ - 1 := by
    have := g6
    omega
  have hl2 : rows2.length = rows.length := by
    rw [g2.1.length_eq, swapL_length]
  obtain ⟨t3, e3, m1, m2, m3, _⟩ := swap_of_rows g1 (s.end_ - 1) ps.loweridx
    (by omega) (by omega)
  obtain ⟨y, hy⟩ := readProb_of_rows m1 ps.loweridx (by rw [swapL_length]; omega)
  have hre : Rearranged s.start rows (swapL rows2 (s.end_ - 1) ps.loweridx) :=
    ((Rearranged.exchange s.start rows _ _ hp1 (by omega)).next g2).next
      (Rearranged.exchange s.start rows2 _ _ (by omega) g5')
  have ht : t3.target_total_prob = s.tab.target_total_prob := by
    rw [m2, g3]; exact k2
  have hs : t3.current_size = s.tab.current_size := by
    rw [m3, g4]; exact k3
  unfold trimStep
  rw [hpp]
  simp only
  rw [e1]
  simp only
  rw [e2]
  simp only
  rw [e3]
  simp only
  split
  · rw [hy]
    exact ⟨_, rfl, ⟨_, m1, hre⟩, ht, hs, by show s.start ≤ ps.loweridx + 1; omega,
      by show ps.loweridx + 1 ≤ s.end_; omega, le_rfl,
      by show s.end_ - (ps.loweridx + 1) < s.end_ - s.start; omega⟩
  · exact ⟨_, rfl, ⟨_, m1, hre⟩, ht, hs, le_rfl, g5', by show ps.loweridx ≤ s.end_; omega,
      by show ps.loweridx - s.start < s.end_ - s.start; omega⟩

/-- The trimming loop on a range of rows stored, the probabilities being allocated: no
access fails, the loop ends with `start = end` inside the range it starts with, within
`end - start` iterations, and rows are exchanged from `start` on only. -/
theorem machine_quicktrim_rows (fadd : α → α → α) (gm gl gc : Bool) (buildingR : Bool)
    (rand : Nat → Nat) :
    ∀ (fuel k : Nat) (s : TrimState α) (rows : List (Row α)),
      HoldsRows gm gl true gc s.tab rows → s.start ≤ s.end_ → s.end_ ≤ rows.length →
      s.end_ - s.start ≤ fuel →
      ∃ s1, quicktrim fadd buildingR rand fuel k s = some s1 ∧
        (∃ rows1, HoldsRows gm gl true gc s1.tab rows1 ∧ Rearranged s.start rows rows1) ∧
        s1.tab.target_total_prob = s.tab.target_total_prob ∧
        s1.tab.current_size = s.tab.current_size ∧
        s1.start = s1.end_ ∧ s.start ≤ s1.start ∧ s1.end_ ≤ s.end_ := by
  intro fuel
  induction fuel with
  | zero =>
    intro k s rows h hle hlen hf
    exact ⟨s, rfl, ⟨rows, h, Rearranged.unmoved _ _⟩, rfl, rfl, by omega, le_rfl, le_rfl⟩
  | succ fuel ih =>
    intro k s rows h hle hlen hf
    unfold quicktrim
    by_cases hlt : s.start < s.end_
    · rw [if_pos hlt]
      obtain ⟨s1, e1, ⟨rows1, k1, k2⟩, k3, k4, k5, k6, k7, k8⟩ :=
        machine_trimStep_rows fadd gm gl gc buildingR rand k s rows h hlt hlen
      rw [e1]
      simp only
      have hl1 : rows1.length = rows.length := k2.1.length_eq
      obtain ⟨s2, e2, ⟨rows2, m1, m2⟩, m3, m4, m5, m6, m7⟩ := ih (k + 1) s1 rows1 k1 k6
        (by omega) (by omega)
      exact ⟨s2, e2, ⟨rows2, m1, k2.next (m2.weaken k5)⟩, m3.trans k3, m4.trans k4, m5,
        by omega, by omega⟩
    · rw [if_neg hlt]
      exact ⟨s, rfl, ⟨rows, h, Rearranged.unmoved _ _⟩, rfl, rfl, by omega, le_rfl, le_rfl⟩

end Machine

end LayeredTabulator

namespace LayeredTabulator

namespace Machine

variable {α : Type} [LinearOrderedCommRing α]

/-! ### The rows the constructor keeps -/

/-- The trimming loop of the constructor, entered with the probabilities allocated: no
access fails, the arrays hold the rows stored in another order, the rows before
`last_switch` in their places, and the end of the constructor keeps the first `end` of
them. -/
theorem machine_trimmed_rows (fadd : α → α → α) (buildingR : Bool) (rand : Nat → Nat)
    (layers : List (List (Row α))) (allDim : Nat) (gm gp gl gc : Bool) (tg : α) :
    ∃ stored post s1 rows1 rest,
      layers.flatten = stored ++ post ∧
      HoldsRows gm gl true gc (collect fadd layers allDim gm gp gl gc tg true).tab stored ∧
      trimmed fadd buildingR rand (collect fadd layers allDim gm gp gl gc tg true) = some s1 ∧
      HoldsRows gm gl true gc s1.tab rows1 ∧
      Rearranged (collect fadd layers allDim gm gp gl gc tg true).last_switch stored rows1 ∧
      (collect fadd layers allDim gm gp gl gc tg true).last_switch ≤ s1.end_ ∧
      s1.end_ ≤ stored.length ∧
      HoldsRows gm gl gp gc (finish gp s1) (rows1.take s1.end_ ++ rest) := by
  obtain ⟨stored, post, e, h1, h2, h3, _, _, _⟩ :=
    machine_collect_rows fadd layers allDim gm gp gl gc tg true
  have h1' : HoldsRows gm gl true gc (collect fadd layers allDim gm gp gl gc tg true).tab
      stored := h1
  obtain ⟨s1, e1, ⟨rows1, g1, g2⟩, g3, g4, g5, g6, g7⟩ := machine_quicktrim_rows fadd gm gl gc
    buildingR rand
    ((collect fadd layers allDim gm gp gl gc tg true).tab._confs_no -
      (collect fadd layers allDim gm gp gl gc tg true).last_switch) 0
    (trimInit (collect fadd layers allDim gm gp gl gc tg true)) stored h1'
    (by show _ ≤ (collect fadd layers allDim gm gp gl gc tg true).tab._confs_no
        rw [h2]; exact h3)
    (by show (collect fadd layers allDim gm gp gl gc tg true).tab._confs_no ≤ _
        rw [h2])
    (le_refl _)
  obtain ⟨rest, k⟩ := finish_rows gm gl gp gc true s1 rows1 g1
  have g6' : (collect fadd layers allDim gm gp gl gc tg true).last_switch ≤ s1.start := g6
  have g7' : s1.end_ ≤ (collect fadd layers allDim gm gp gl gc tg true).tab._confs_no := g7
  rw [h2] at g7'
  exact ⟨stored, post, s1, rows1, rest, e, h1', e1, g1, g2, by omega, g7', k⟩

/-- The constructor fails at no access. -/
theorem machine_construct_total (fadd : α → α → α) (buildingR : Bool) (rand : Nat → Nat)
    (layers : List (List (Row α))) (allDim : Nat) (gm gp gl gc : Bool) (tg : α) (opt : Bool) :
    ∃ t, construct fadd buildingR rand layers allDim gm gp gl gc tg opt = some t := by
  unfold construct
  split
  · exact ⟨_, rfl⟩
  · simp only
    split
    · exact ⟨_, rfl⟩
    · split
      · exact ⟨_, rfl⟩
      · rename_i h2
        have hopt : opt = true := by
          cases opt
          · simp at h2
          · rfl
        subst hopt
        obtain ⟨_, _, s1, _, _, _, _, e1, _⟩ :=
          machine_trimmed_rows fadd buildingR rand layers allDim gm gp gl gc tg
        rw [e1]
        exact ⟨_, rfl⟩

/-- C23: the trimming keeps the parallel arrays aligned. For rows `i` and `j` among the
rows stored and with the probabilities allocated, `swap(i, j)` of LayeredTabulator fails
at no access, exchanges the rows `i` and `j` in the probabilities and in every other
array that is not null, and leaves every other row where it is, and `swap(i, i)` changes
nothing; so does `swap` of FixedEnvelope on the probabilities, the masses and, with
`tgetConfs`, the configurations, these arrays allocated and the rows inside them. The
constructor fails at no access, for every addition `fadd` of the machine and every
choice of the pivots. When it optimizes, the trimming loop leaves in the arrays the rows
the layer loop stored, which the generator emitted, in another order, the rows before
`last_switch` in their places; the rows the constructor keeps, the first `_confs_no` of
them, are a sub-multiset of the rows emitted, each of them is a row emitted, and they
stand in every array that was asked for, row by row. -/
theorem trimming_keeps_rows_aligned (fadd : α → α → α) (buildingR : Bool) (rand : Nat → Nat)
    (layers : List (List (Row α))) (allDim : Nat) (gm gp gl gc : Bool) (tg : α) (opt : Bool) :
    (∀ (t : LayeredTabulator α) (rows : List (Row α)) (i j : Nat),
      HoldsRows gm gl true gc t rows → i < rows.length → j < rows.length →
      (∃ t1, swap t i j = some t1 ∧ HoldsRows gm gl true gc t1 (swapL rows i j)) ∧
      (swapL rows i j)[i]? = rows[j]? ∧ (swapL rows i j)[j]? = rows[i]? ∧
      (∀ k, k ≠ i → k ≠ j → (swapL rows i j)[k]? = rows[k]?) ∧
      swap t i i = some t) ∧
    (∀ (tgetConfs : Bool) (e : FixedEnvelope α) (p m : List (Option α)) (i j : Nat),
      e._probs = some p → e._masses = some m →
      i < p.length → j < p.length → i < m.length → j < m.length →
      (tgetConfs = true → ∃ cf, e._confs = some cf ∧ i < cf.length ∧ j < cf.length) →
      FixedEnvelope.swap tgetConfs e i j =
        some { e with
          _probs := some (swapL p i j), _masses := some (swapL m i j)
          _confs := if tgetConfs then e._confs.map (fun cf => swapL cf i j) else e._confs } ∧
      FixedEnvelope.swap tgetConfs e i i = some e ∧
      (swapL p i j)[i]? = p[j]? ∧ (swapL p i j)[j]? = p[i]? ∧
      (swapL m i j)[i]? = m[j]? ∧ (swapL m i j)[j]? = m[i]? ∧
      (∀ cf : List (Option (List Int)), i < cf.length → j < cf.length →
        (swapL cf i j)[i]? = cf[j]? ∧ (swapL cf i j)[j]? = cf[i]?) ∧
      ∀ k, k ≠ i → k ≠ j → (swapL p i j)[k]? = p[k]? ∧ (swapL m i j)[k]? = m[k]? ∧
        ∀ cf : List (Option (List Int)), (swapL cf i j)[k]? = cf[k]?) ∧
    (∃ t, construct fadd buildingR rand layers allDim gm gp gl gc tg opt = some t) ∧
    (opt = true → ∃ stored post s1 rows1 rest,
      layers.flatten = stored ++ post ∧
      HoldsRows gm gl true gc (collect fadd layers allDim gm gp gl gc tg opt).tab stored ∧
      trimmed fadd buildingR rand (collect fadd layers allDim gm gp gl gc tg opt) = some s1 ∧
      HoldsRows gm gl true gc s1.tab rows1 ∧
      rows1.Perm stored ∧
      (∀ k, k < (collect fadd layers allDim gm gp gl gc tg opt).last_switch →
        rows1[k]? = stored[k]?) ∧
      (finish gp s1)._confs_no = (rows1.take s1.end_).length ∧
      HoldsRows gm gl gp gc (finish gp s1) (rows1.take s1.end_ ++ rest) ∧
      (rows1.take s1.end_).Subperm layers.flatten ∧
      (∀ r ∈ rows1.take s1.end_, r ∈ layers.flatten) ∧
      (∀ k, k < (collect fadd layers allDim gm gp gl gc tg opt).last_switch →
        (rows1.take s1.end_)[k]? = layers.flatten[k]?) ∧
      (0 < tg →
        ¬ (((collect fadd layers allDim gm gp gl gc tg opt).prob_so_far : α) : WithTop α) ≤
          (collect fadd layers allDim gm gp gl gc tg opt).tab.target_total_prob →
        construct fadd buildingR rand layers allDim gm gp gl gc tg opt =
          some (finish gp s1))) := by
  refine ⟨?_, ?_, machine_construct_total fadd buildingR rand layers allDim gm gp gl gc tg opt,
    ?_⟩
  · intro t rows i j h hi hj
    obtain ⟨t1, e1, k1, _⟩ := swap_of_rows h i j hi hj
    exact ⟨⟨t1, e1, k1⟩, (swapL_getElem?_left rows i j hi hj).1,
      (swapL_getElem?_left rows i j hi hj).2, fun k h1 h2 => swapL_getElem?_ne rows i j k h1 h2,
      swap_same h i hi⟩
  · intro tgetConfs e p m i j hp hm hi hj hi2 hj2 hc
    refine ⟨?_, ?_, (swapL_getElem?_left p i j hi hj).1, (swapL_getElem?_left p i j hi hj).2,
      (swapL_getElem?_left m i j hi2 hj2).1, (swapL_getElem?_left m i j hi2 hj2).2,
      fun cf h1 h2 => swapL_getElem?_left cf i j h1 h2,
      fun k h1 h2 => ⟨swapL_getElem?_ne p i j k h1 h2, swapL_getElem?_ne m i j k h1 h2,
        fun cf => swapL_getElem?_ne cf i j k h1 h2⟩⟩
    · unfold FixedEnvelope.swap
      rw [hp, hm, FixedEnvelope.swapAt_some p i j hi hj,
        FixedEnvelope.swapAt_some m i j hi2 hj2]
      cases tgetConfs
      · simp only [Bool.false_eq_true, if_false]
      · obtain ⟨cf, hcf, h1, h2⟩ := hc rfl
        rw [hcf, FixedEnvelope.swapAt_some cf i j h1 h2]
        simp only [if_true, Option.map_some']
    · unfold FixedEnvelope.swap
      rw [hp, hm, FixedEnvelope.swapAt_some p i i hi hi,
        FixedEnvelope.swapAt_some m i i hi2 hi2, swapL_self, swapL_self]
      cases tgetConfs
      · simp only [Bool.false_eq_true, if_false]
        cases e
        simp only at hp hm
        subst hp hm
        rfl
      · obtain ⟨cf, hcf, h1, h2⟩ := hc rfl
        rw [hcf, FixedEnvelope.swapAt_some cf i i h1 h1, swapL_self]
        simp only [if_true]
        cases e
        simp only at hp hm hcf
        subst hp hm hcf
        rfl
  · intro hopt
    subst hopt
    obtain ⟨stored, post, s1, rows1, rest, e, h1, e1, h2, h3, h4, h5, h6⟩ :=
      machine_trimmed_rows fadd buildingR rand layers allDim gm gp gl gc tg
    have hlen : rows1.length = stored.length := h3.1.length_eq
    have hsub : (rows1.take s1.end_).Subperm layers.flatten := by
      rw [e]
      exact (List.take_sublist _ _).subperm.trans
        (h3.1.subperm.trans (List.sublist_append_left stored post).subperm)
    refine ⟨stored, post, s1, rows1, rest, e, h1, e1, h2, h3.1, h3.2, ?_, h6, hsub,
      fun r hr => hsub.subset hr, ?_, ?_⟩
    · rw [finish_confs_no, List.length_take, hlen]
      omega
    · intro k hk
      rw [List.getElem?_take_of_lt (by omega), h3.2 k hk, e,
        List.getElem?_append_left (by omega)]
    · intro h0 hps
      obtain ⟨_, _, _, _, _, _, _, _, hret⟩ :=
        machine_collect_rows fadd layers allDim gm gp gl gc tg true
      have hret2 : (collect fadd layers allDim gm gp gl gc tg true).returned = false := by
        cases hr : (collect fadd layers allDim gm gp gl gc tg true).returned
        · rfl
        · exact absurd (hret hr) (by simp)
      unfold construct
      rw [if_neg (not_le.mpr h0)]
      simp only [hret2, Bool.false_eq_true, if_false, Bool.not_true, Bool.false_or,
        decide_eq_true_eq, hps, e1, Option.map_some']

/-- C23: `swap` of LayeredTabulator on a tabulator whose probabilities are not allocated,
as after a construction with get_masses and without get_probs and optimize: the masses
are not null, but the exchange of `_probs[0]` and `_probs[1]`, done without a null test,
fails before any array is exchanged. -/
theorem swap_fails_on_null_probs :
    swap (⟨some [12, 13], none, none, none, 2, 1, ⊤, 1024, false⟩ : LayeredTabulator Int) 0 1 =
      none := by
  rfl

end Machine

end LayeredTabulator

namespace LayeredTabulator

namespace Machine

variable {α : Type} [LinearOrderedCommRing α]

/-! ### The exact constructor is the constructor of the machine with the exact addition -/

theorem addRows_exact : ∀ (layer : List (Row α)) (t : LayeredTabulator α) (p : α),
    addRows (fun a b => a + b) t p layer = LayeredTabulator.addRows t p layer := by
  intro layer
  induction layer with
  | nil => intro t p; rfl
  | cons r rs ih =>
    intro t p
    unfold addRows LayeredTabulator.addRows
    simp only [ih]

theorem collectLayers_exact : ∀ (layers : List (List (Row α))) (t : LayeredTabulator α)
    (ls : Nat) (pls p : α),
    collectLayers (fun a b => a + b) t ls pls p layers =
      LayeredTabulator.collectLayers t ls pls p layers := by
  intro layers
  induction layers with
  | nil => intro t ls pls p; rfl
  | cons layer rest ih =>
    intro t ls pls p
    unfold collectLayers LayeredTabulator.collectLayers
    simp only [addRows_exact, ih]

theorem collect_exact (layers : List (List (Row α))) (allDim : Nat) (gm gp gl gc : Bool)
    (tg : α) (opt : Bool) :
    collect (fun a b => a + b) layers allDim gm gp gl gc tg opt =
      LayeredTabulator.collect layers allDim gm gp gl gc tg opt := by
  unfold collect LayeredTabulator.collect
  exact collectLayers_exact _ _ _ _ _

theorem readProb_eq_probAt {gm gl gc : Bool} {t : LayeredTabulator α} {rows : List (Row α)}
    (h : HoldsRows gm gl true gc t rows) (i : Nat) (hi : i < rows.length) :
    readProb t i = some (probAt t i) := by
  obtain ⟨_, _, h3, _⟩ := h
  unfold readProb probAt
  rw [h3]
  simp only [if_true, Option.getD_some]
  rw [List.getElem?_eq_getElem (by rw [List.length_map]; exact hi),
    List.getD_eq_getElem _ _ (by rw [List.length_map]; exact hi)]

theorem swap_eq_exchange {gm gl gc : Bool} {t : LayeredTabulator α} {rows : List (Row α)}
    (h : HoldsRows gm gl true gc t rows) (i j : Nat) (hi : i < rows.length)
    (hj : j < rows.length) : swap t i j = some (LayeredTabulator.swap t i j) := by
  obtain ⟨t1, e, ⟨k1, k2, k3, k4⟩, g1, g2, g3, g4, g5⟩ := swap_of_rows h i j hi hj
  obtain ⟨m1, m2, m3, m4⟩ := h.exchanged i j
  rw [e]
  cases t1
  simp only at k1 k2 k3 k4 g1 g2 g3 g4 g5
  subst k1 k2 k3 k4 g1 g2 g3 g4 g5
  congr 1
  unfold LayeredTabulator.swap at m1 m2 m3 m4 ⊢
  simp only at m1 m2 m3 m4
  rw [m1, m2, m3, m4]

/-- The partition loop of the machine with the exact addition, over rows stored and with
the probabilities allocated, is the partition loop of the exact model. -/
theorem partitionLoop_exact (gm gl gc : Bool) (pprob : α) :
    ∀ (left ii : Nat) (s : PartState α) (rows : List (Row α)),
      HoldsRows gm gl true gc s.tab rows → s.loweridx ≤ ii → ii + left ≤ rows.length →
      partitionLoop (fun a b => a + b) pprob left ii s =
        some (LayeredTabulator.partitionLoop pprob left ii s) := by
  intro left
  induction left with
  | zero => intro ii s rows h hle hlen; rfl
  | succ left ih =>
    intro ii s rows h hle hlen
    unfold partitionLoop LayeredTabulator.partitionLoop
    rw [readProb_eq_probAt h ii (by omega)]
    simp only
    by_cases hc : pprob < probAt s.tab ii
    · rw [if_pos hc, if_pos hc, swap_eq_exchange h ii s.loweridx (by omega) (by omega)]
      simp only
      rw [readProb_eq_probAt (h.exchanged ii s.loweridx) s.loweridx
        (by rw [swapL_length]; omega)]
      simp only
      exact ih (ii + 1) _ (swapL rows ii s.loweridx) (h.exchanged ii s.loweridx)
        (by show s.loweridx + 1 ≤ ii + 1; omega) (by rw [swapL_length]; omega)
    · rw [if_neg hc, if_neg hc]
      exact ih (ii + 1) s rows h (by omega) (by omega)

/-- One iteration of the trimming loop of the machine with the exact addition is the
iteration of the exact model. -/
theorem trimStep_exact (gm gl gc : Bool) (buildingR : Bool) (rand : Nat → Nat) (k : Nat)
    (s : TrimState α) (rows : List (Row α)) (h : HoldsRows gm gl true gc s.tab rows)
    (hlt : s.start < s.end_) (hlen : s.end_ ≤ rows.length) :
    trimStep (fun a b => a + b) buildingR rand k s =
      some (LayeredTabulator.trimStep buildingR rand k s) := by
  obtain ⟨hp1, hp2⟩ := pivotIndex_mem buildingR rand k s.start s.end_ hlt
  have h1 := h.exchanged (pivotIndex buildingR rand k s.start s.end_) (s.end_ - 1)
  obtain ⟨ps, e2, ⟨rows2, g1, g2⟩, _, _, g5, g6⟩ := machine_partitionLoop_rows
    (fun a b => a + b) gm gl gc
    (probAt s.tab (pivotIndex buildingR rand k s.start s.end_)) s.start
    (s.end_ - 1 - s.start) s.start
    ⟨LayeredTabulator.swap s.tab (pivotIndex buildingR rand k s.start s.end_) (s.end_ - 1),
      s.sum_to_start, s.start⟩
    (swapL rows (pivotIndex buildingR rand k s.start s.end_) (s.end_ - 1)) h1 le_rfl le_rfl
    (by rw [swapL_length]; omega)
  have e3 := partitionLoop_exact gm gl gc
    (probAt s.tab (pivotIndex buildingR rand k s.start s.end_))
    (s.end_ - 1 - s.start) s.start
    ⟨LayeredTabulator.swap s.tab (pivotIndex buildingR rand k s.start s.end_) (s.end_ - 1),
      s.sum_to_start, s.start⟩
    (swapL rows (pivotIndex buildingR rand k s.start s.end_) (s.end_ - 1)) h1 le_rfl
    (by rw [swapL_length]; omega)
  rw [e2] at e3
  have e4 : ps = LayeredTabulator.partitionLoop
      (probAt s.tab (pivotIndex buildingR rand k s.start s.end_))
      (s.end_ - 1 - s.start) s.start
      ⟨LayeredTabulator.swap s.tab (pivotIndex buildingR rand k s.start s.end_) (s.end_ - 1),
        s.sum_to_start, s.start⟩ := Option.some.inj e3
  have g5' : s.start ≤ ps.loweridx := g5
  have g6' : ps.loweridx ≤ s.end_ - 1 := by
    have := g6
    omega
  have hl2 : rows2.length = rows.length := by
    rw [g2.1.length_eq, swapL_length]
  unfold trimStep LayeredTabulator.trimStep
  rw [readProb_eq_probAt h _ (by omega)]
  simp only
  rw [swap_eq_exchange h _ _ (by omega) (by omega)]
  simp only
  rw [e2]
  simp only
  rw [swap_eq_exchange g1 (s.end_ - 1) ps.loweridx (by omega) (by omega)]
  simp only
  rw [← e4]
  split
  · rw [readProb_eq_probAt (g1.exchanged (s.end_ - 1) ps.loweridx) ps.loweridx
      (by rw [swapL_length]; omega)]
  · rfl

/-- The trimming loop of the machine with the exact addition is the loop of the exact
model. -/
theorem quicktrim_exact (gm gl gc : Bool) (buildingR : Bool) (rand : Nat → Nat) :
    ∀ (fuel k : Nat) (s : TrimState α) (rows : List (Row α)),
      HoldsRows gm gl true gc s.tab rows → s.start ≤ s.end_ → s.end_ ≤ rows.length →
      quicktrim (fun a b => a + b) buildingR rand fuel k s =
        some (LayeredTabulator.quicktrim buildingR rand fuel k s) := by
  intro fuel
  induction fuel with
  | zero => intro k s rows h hle hlen; rfl
  | succ fuel ih =>
    intro k s rows h hle hlen
    unfold quicktrim LayeredTabulator.quicktrim
    by_cases hlt : s.start < s.end_
    · rw [if_pos hlt, if_pos hlt, trimStep_exact gm gl gc buildingR rand k s rows h hlt hlen]
      simp only
      obtain ⟨s1, e1, ⟨rows1, k1, k2⟩, _, _, k5, k6, k7, _⟩ :=
        machine_trimStep_rows (fun a b => a + b) gm gl gc buildingR rand k s rows h hlt hlen
      rw [trimStep_exact gm gl gc buildingR rand k s rows h hlt hlen] at e1
      have e2 : LayeredTabulator.trimStep buildingR rand k s = s1 := Option.some.inj e1
      rw [e2]
      have hl1 : rows1.length = rows.length := k2.1.length_eq
      exact ih (k + 1) s1 rows1 k1 k6 (by omega)
    · rw [if_neg hlt, if_neg hlt]

/-- The constructor of the exact model is the constructor of the machine with the exact
addition, which fails at no access. -/
theorem machine_construct_exact (buildingR : Bool) (rand : Nat → Nat)
    (layers : List (List (Row α))) (allDim : Nat) (gm gp gl gc : Bool) (tg : α) (opt : Bool) :
    construct (fun a b => a + b) buildingR rand layers allDim gm gp gl gc tg opt =
      some (LayeredTabulator.construct buildingR rand layers allDim gm gp gl gc tg opt) := by
  unfold construct LayeredTabulator.construct
  rw [collect_exact]
  split
  · rfl
  · simp only
    split
    · rfl
    · split
      · rfl
      · rename_i h2
        have hopt : opt = true := by
          cases opt
          · simp at h2
          · rfl
        subst hopt
        obtain ⟨stored, post, e, h1, hn, hls⟩ :=
          collect_rows layers allDim gm gp gl gc tg true
        have h1' : HoldsRows gm gl true gc
            (LayeredTabulator.collect layers allDim gm gp gl gc tg true).tab stored := h1
        have hq := quicktrim_exact gm gl gc buildingR rand
          ((LayeredTabulator.collect layers allDim gm gp gl gc tg true).tab._confs_no -
            (LayeredTabulator.collect layers allDim gm gp gl gc tg true).last_switch) 0
          (trimInit (LayeredTabulator.collect layers allDim gm gp gl gc tg true)) stored h1'
          (by show _ ≤ (LayeredTabulator.collect layers allDim gm gp gl gc tg true).tab._confs_no
              rw [hn]; exact hls)
          (by show (LayeredTabulator.collect layers allDim gm gp gl gc tg true).tab._confs_no ≤ _
              rw [hn])
        unfold trimmed LayeredTabulator.trimmed
        rw [hq]
        rfl

end Machine

end LayeredTabulator

namespace LayeredTabulator

namespace Machine

theorem layered_fast_path_stops_at_target_witness :
    ∃ stored post, sampleLayers.flatten = stored ++ post ∧
      construct doubleAdd false (fun _ => 0) sampleLayers 1 true true true true (3 / 5 : ℚ)
        false =
        some (collect doubleAdd sampleLayers 1 true true true true (3 / 5 : ℚ) false).tab ∧
      HoldsRows true true true true
        (collect doubleAdd sampleLayers 1 true true true true (3 / 5 : ℚ) false).tab stored ∧
      (collect doubleAdd sampleLayers 1 true true true true (3 / 5 : ℚ) false).tab._confs_no =
        stored.length ∧
      (collect doubleAdd sampleLayers 1 true true true true (3 / 5 : ℚ) false).prob_so_far =
        accumulated doubleAdd stored ∧
      (∀ k, k < stored.length → accumulated doubleAdd (stored.take k) < 3 / 5) ∧
      (((3 / 5 : ℚ) ≤ accumulated doubleAdd stored ∧ stored ≠ [] ∧
          accumulated doubleAdd stored.dropLast < 3 / 5) ∨
        stored = sampleLayers.flatten) :=
  (layered_fast_path_stops_at_target doubleAdd false (fun _ => 0) sampleLayers 1 true true true
    true (3 / 5 : ℚ) (by norm_num) (by norm_num)).1

theorem trimming_keeps_rows_aligned_witness :
    (∃ t1, swap (⟨some [1, 2, 3], some [-1, -3, -2], some [1 / 2, 1 / 8, 1 / 4],
        some [[0], [1], [2]], 3, 1, ((3 / 5 : ℚ) : WithTop ℚ), 1024, true⟩ : LayeredTabulator ℚ)
        0 2 = some t1 ∧
      HoldsRows true true true true t1
        (swapL [⟨1, -1, 1 / 2, [0]⟩, ⟨2, -3, 1 / 8, [1]⟩, ⟨3, -2, 1 / 4, [2]⟩] 0 2)) ∧
    (swapL [(⟨1, -1, 1 / 2, [0]⟩ : Row ℚ), ⟨2, -3, 1 / 8, [1]⟩, ⟨3, -2, 1 / 4, [2]⟩] 0 2)[0]? =
      [(⟨1, -1, 1 / 2, [0]⟩ : Row ℚ), ⟨2, -3, 1 / 8, [1]⟩, ⟨3, -2, 1 / 4, [2]⟩][2]? ∧
    (swapL [(⟨1, -1, 1 / 2, [0]⟩ : Row ℚ), ⟨2, -3, 1 / 8, [1]⟩, ⟨3, -2, 1 / 4, [2]⟩] 0 2)[2]? =
      [(⟨1, -1, 1 / 2, [0]⟩ : Row ℚ), ⟨2, -3, 1 / 8, [1]⟩, ⟨3, -2, 1 / 4, [2]⟩][0]? ∧
    (∀ k, k ≠ 0 → k ≠ 2 →
      (swapL [(⟨1, -1, 1 / 2, [0]⟩ : Row ℚ), ⟨2, -3, 1 / 8, [1]⟩, ⟨3, -2, 1 / 4, [2]⟩] 0 2)[k]? =
        [(⟨1, -1, 1 / 2, [0]⟩ : Row ℚ), ⟨2, -3, 1 / 8, [1]⟩, ⟨3, -2, 1 / 4, [2]⟩][k]?) ∧
    swap (⟨some [1, 2, 3], some [-1, -3, -2], some [1 / 2, 1 / 8, 1 / 4],
        some [[0], [1], [2]], 3, 1, ((3 / 5 : ℚ) : WithTop ℚ), 1024, true⟩ : LayeredTabulator ℚ)
        0 0 =
      some ⟨some [1, 2, 3], some [-1, -3, -2], some [1 / 2, 1 / 8, 1 / 4],
        some [[0], [1], [2]], 3, 1, ((3 / 5 : ℚ) : WithTop ℚ), 1024, true⟩ :=
  (trimming_keeps_rows_aligned doubleAdd false (fun _ => 0) sampleLayers 1 true true true true
    (3 / 5 : ℚ) true).1 _ _ 0 2 ⟨rfl, rfl, rfl, rfl⟩ (by decide) (by decide)

end Machine

end LayeredTabulator

end IsoSpec
